import Mathlib

/-!
# Verification of the BlockNote block-mutation engine

A shallow embedding of `src/packages/core/src/extensions/Blocks/nodes/BlockContainer.ts`:
the five block mutation commands (`BNCreateBlock`, `BNDeleteBlock`, `BNUpdateBlock`,
`BNMergeBlocks`, `BNSplitBlock`) and the keymap handlers built on them.

The document model follows ProseMirror, which the source uses through
remirror/tiptap:

* a document is a tree of nodes; a node is either a text run (carrying a string
  and a set of mark names) or an interior node carrying a type name, an
  attribute map, and a list of children;
* every node has a size: a text run's size is its string length, an interior
  node's size is 2 (its opening and closing tokens) plus the sizes of its
  children; absolute positions are offsets into this token stream;
* the BlockNote schema: `doc` contains one `blockGroup`; a `blockGroup`
  contains one or more `blockContainer`s; a `blockContainer` contains one
  content node (a textblock: `paragraph`, `heading`, `bulletListItem` or
  `numberedListItem`) optionally followed by a `blockGroup`; textblocks
  contain text runs.

Commands run through remirror's `convertCommand` with a chainable editor
state: `state.tr` is a single accumulating transaction and `state.doc`
reflects the steps applied so far.  Each command is therefore embedded as a
function from the current document (and, where used, the selection) to
`Option` of (returned boolean, resulting document): `none` embeds a thrown
exception (ProseMirror transform and resolve errors), `some (b, d)` a normal
return of `b` with final document `d`.
-/

namespace BlockNote

/-- Attribute maps (`Record<string, string>` in the source). -/
abbrev AttrMap := List (String × String)

/-- JavaScript object spread `{...a, ...b}`: entries of `b` win on key
conflicts.  Keys of `a` shadowed by `b` are dropped, then `b` is appended. -/
def mergeAttrs (a b : AttrMap) : AttrMap :=
  a.filter (fun p => !(b.any (fun q => q.1 == p.1))) ++ b

/-- A ProseMirror node: a text run (string with mark names) or an interior
node (type name, attributes, children). -/
inductive PMNode where
  | text (s : String) (marks : List String)
  | node (tp : String) (attrs : AttrMap) (children : List PMNode)
  deriving Repr

namespace PMNode

mutual

/-- Boolean equality of nodes. -/
def beqN : PMNode → PMNode → Bool
  | .text s m, .text s' m' => s == s' && m == m'
  | .node t a cs, .node t' a' cs' => t == t' && a == a' && beqL cs cs'
  | _, _ => false

/-- Boolean equality of fragments. -/
def beqL : List PMNode → List PMNode → Bool
  | [], [] => true
  | c :: cs, c' :: cs' => beqN c c' && beqL cs cs'
  | _, _ => false

end

mutual

theorem beqN_iff : ∀ a b : PMNode, beqN a b = true ↔ a = b
  | .text _ _, .text _ _ => by simp [beqN]
  | .node _ _ cs, .node _ _ cs' => by
    simp [beqN, beqL_iff cs cs', and_assoc]
  | .text _ _, .node _ _ _ => by simp [beqN]
  | .node _ _ _, .text _ _ => by simp [beqN]

theorem beqL_iff : ∀ a b : List PMNode, beqL a b = true ↔ a = b
  | [], [] => by simp [beqL]
  | c :: cs, c' :: cs' => by simp [beqL, beqN_iff c c', beqL_iff cs cs']
  | [], _ :: _ => by simp [beqL]
  | _ :: _, [] => by simp [beqL]

end

instance : DecidableEq PMNode := fun a b => decidable_of_iff _ (beqN_iff a b)

mutual

/-- Size of a node in the flat token stream: text nodes take their length,
interior nodes take 2 border tokens plus their content size. -/
def nsize : PMNode → Int
  | .text s _ => (s.length : Int)
  | .node _ _ cs => 2 + fsize cs

/-- Content size of a fragment (list of sibling nodes). -/
def fsize : List PMNode → Int
  | [] => 0
  | c :: cs => nsize c + fsize cs

end

/-- Content size of an interior node (0 for text runs). -/
def csize : PMNode → Int
  | .text _ _ => 0
  | .node _ _ cs => fsize cs

/-- The type name of a node (text runs have type "text"). -/
def typeName : PMNode → String
  | .text _ _ => "text"
  | .node t _ _ => t

/-- The attributes of a node. -/
def attrsOf : PMNode → AttrMap
  | .text _ _ => []
  | .node _ a _ => a

/-- The children of a node. -/
def childrenOf : PMNode → List PMNode
  | .text _ _ => []
  | .node _ _ cs => cs

/-- `node.childCount`. -/
def childCount (n : PMNode) : Nat := n.childrenOf.length

mutual

/-- `node.textContent`: concatenation of all text runs in the subtree. -/
def textContent : PMNode → String
  | .text s _ => s
  | .node _ _ cs => textContentL cs

/-- Concatenated text of a fragment. -/
def textContentL : List PMNode → String
  | [] => ""
  | c :: cs => textContent c ++ textContentL cs

end

end PMNode

open PMNode

/-- The BlockNote schema's shallow content rules: which child sequence a
node type directly admits.  This is the check ProseMirror applies at the
boundary of an edit; the interior of nodes inserted whole is not re-checked. -/
def isTextblockType (t : String) : Bool :=
  t == "paragraph" || t == "heading" || t == "bulletListItem" || t == "numberedListItem"

/-- Shallow schema check of a child list against a parent type. -/
def contentAllowed (parent : String) (cs : List PMNode) : Bool :=
  if parent == "doc" then
    match cs with
    | [g] => g.typeName == "blockGroup"
    | _ => false
  else if parent == "blockGroup" then
    !cs.isEmpty && cs.all (fun c => c.typeName == "blockContainer")
  else if parent == "blockContainer" then
    match cs with
    | [c] => isTextblockType c.typeName
    | [c, g] => isTextblockType c.typeName && g.typeName == "blockGroup"
    | _ => false
  else if isTextblockType parent then
    cs.all (fun c => match c with | .text _ _ => true | _ => false)
  else
    false

/-! ## Position resolution

`resolve(pos)` in ProseMirror yields the chain of interior ancestor nodes
enclosing `pos`.  `frames d pos` returns that chain (outermost first,
excluding the root `d` itself), pairing each ancestor with the absolute
position at which its content starts.  A position falling on a boundary
between siblings ends the chain at their parent; a position inside a text
run ends the chain at the run's parent (text runs are not ancestors). -/

/-- One resolved ancestor: the node and the absolute start of its content. -/
structure Frame where
  node : PMNode
  start : Int
  deriving Repr, DecidableEq

mutual

/-- Ancestor chain of a position within a fragment; `base` is the absolute
position at which the fragment starts. -/
def framesF : List PMNode → Int → Int → List Frame
  | [], _, _ => []
  | c :: cs, pos, base =>
    if pos ≤ 0 then []
    else if pos < c.nsize then framesN c pos base
    else framesF cs (pos - c.nsize) (base + c.nsize)

/-- Ancestor chain through one node strictly containing the position
(text runs contribute no frame). -/
def framesN : PMNode → Int → Int → List Frame
  | .text _ _, _, _ => []
  | .node t a ccs, pos, base =>
    ⟨.node t a ccs, base + 1⟩ :: framesF ccs (pos - 1) (base + 1)

end

/-- Ancestor chain of an absolute position in a document. -/
def frames (d : PMNode) (pos : Int) : List Frame :=
  framesF d.childrenOf pos 0

/-- Whether a position is inside the document (`resolve` throws otherwise). -/
def posInRange (d : PMNode) (pos : Int) : Bool :=
  decide (0 ≤ pos) && decide (pos ≤ csize d)

/-- `$pos.node()` / `$pos.parent` together with the start of its content:
the innermost resolved ancestor, or the root when the chain is empty. -/
def resolveParent (d : PMNode) (pos : Int) : Option (PMNode × Int) :=
  if posInRange d pos then
    some ((frames d pos).getLast?.map (fun f => (f.node, f.start)) |>.getD (d, 0))
  else none

/-- The type name of `doc.resolve(pos).node()`; `none` embeds the
`RangeError` thrown by `resolve` on an out-of-range position. -/
def resolveParentType (d : PMNode) (pos : Int) : Option String :=
  (resolveParent d pos).map (fun p => p.1.typeName)

/-! ## The position resolver `getBlockInfoFromPos` -/

/-- The record returned by the position resolver. -/
structure BlockInfo where
  node : PMNode
  contentNode : PMNode
  contentType : String
  startPos : Int
  endPos : Int
  depth : Nat
  numChildBlocks : Nat
  deriving Repr, DecidableEq

/-- Innermost `blockContainer` frame of an ancestor chain, with its depth
(1-based: a frame's depth is its index from the root). -/
def lastContainerFrame : List Frame → Option (Frame × Nat)
  | [] => none
  | f :: rest =>
    match lastContainerFrame rest with
    | some (g, k) => some (g, k + 1)
    | none =>
      if f.node.typeName == "blockContainer" then some (f, 1) else none

/-- Modelled from the spec: the position resolver `getBlockInfoFromPos`
(`src/packages/core/src/extensions/Blocks/helpers/getBlockInfoFromPos.ts`
is not among the provided sources).  Per §4.1 of the spec it returns, for
the nearest enclosing Block ancestor of `pos`: the Block node, its Content
node, the Content node's type, the Block's start/end boundary positions,
its depth, and its number of child Blocks (0 if leaf); it fails
(`NotFound`, here `none`) when `pos` lies outside any Block, e.g. at the
document root boundary.  Boundary positions are the start and end of the
Block's content (the source computes `$pos.start(depth)`/`$pos.end(depth)`:
`BNSplitBlock` slices content from `startPos + 1` and `BNDeleteBlock`
deletes `[startPos, endPos]`); the depth is the Block node's resolution
depth (the keymap compares it with 2 for an outermost Block).  A Block
without a Content node cannot arise in a schema-conforming document; the
model reports `none` for it. -/
def getBlockInfoFromPos (d : PMNode) (pos : Int) : Option BlockInfo :=
  if posInRange d pos then
    match lastContainerFrame (frames d pos) with
    | none => none
    | some (f, k) =>
      match f.node.childrenOf.head? with
      | none => none
      | some contentNode =>
        some
          { node := f.node
            contentNode := contentNode
            contentType := contentNode.typeName
            startPos := f.start
            endPos := f.start + csize f.node
            depth := k
            numChildBlocks :=
              if f.node.childCount == 2 then
                (f.node.childrenOf.getLast?.map PMNode.childCount).getD 0
              else 0 }
  else none

/-! ## Transform primitives

Embeddings of the ProseMirror transform operations the source invokes on
the shared transaction.  An out-of-range position makes `resolve` throw,
modelled as `none`.  For an in-range edit whose content does not fit,
`replaceStep` returns `null` and `Transform.replace` skips it silently
(`if (step) this.step(step)`): the insert and open-slice replace wrappers
model that as returning the document unchanged.  Schema checking follows
ProseMirror's: an edit re-checks the child list of the node whose content
it touches (`contentAllowed`), while nodes inserted whole are not checked
inside — `NodeType.create` builds nodes without validating their content. -/

/-- Drop leading children totalling exactly `b` tokens. -/
def spliceDrop : List PMNode → Int → Option (List PMNode)
  | [], b => if b = 0 then some [] else none
  | c :: rest, b =>
    if b = 0 then some (c :: rest)
    else if b < c.nsize then none
    else spliceDrop rest (b - c.nsize)

/-- Splice `new` into a fragment over the range `[a, b]`; `a` and `b` must
be child boundaries of this fragment, and children fully inside the range
are removed. -/
def rangeSplice : List PMNode → Int → Int → List PMNode → Option (List PMNode)
  | [], a, b, new =>
    if a = 0 then (spliceDrop [] b).map (fun suf => new ++ suf) else none
  | c :: rest, a, b, new =>
    if a = 0 then (spliceDrop (c :: rest) b).map (fun suf => new ++ suf)
    else if a < c.nsize then none
    else (rangeSplice rest (a - c.nsize) (b - c.nsize) new).map (fun r => c :: r)

mutual

/-- Descent part of the fit attempt of `tr.insert(pos, n)`: walk to the
child strictly containing `pos` (sibling boundaries are handled by the
owner via `rangeSplice`).  `none` means the node cannot be placed there;
the document-level wrapper (`insertNode`) turns that into a skipped null
step. -/
def insertD : List PMNode → Int → PMNode → Option (List PMNode)
  | [], _, _ => none
  | c :: rest, pos, n =>
    if pos ≥ c.nsize then (insertD rest (pos - c.nsize) n).map (fun r => c :: r)
    else if 1 ≤ pos ∧ pos ≤ c.nsize - 1 then
      (insertN c (pos - 1) n).map (fun x => x :: rest)
    else none

/-- Fit attempt of `tr.insert` within one node, `pos` relative to its
content: insert at a sibling boundary of its children when `pos` is one
(the node's new child list is checked against the schema), else descend;
`none` means no fit (see `insertNode`). -/
def insertN : PMNode → Int → PMNode → Option PMNode
  | .text _ _, _, _ => none
  | .node t a ccs, pos, n =>
    match rangeSplice ccs pos pos [n] with
    | some cs' => if contentAllowed t cs' then some (.node t a cs') else none
    | none => (insertD ccs pos n).map (fun x => .node t a x)

end

/-- `tr.insert(pos, n)` on a document: `resolve` throws out of range; in
range the insert is applied when the result fits the schema, while a fit
failure yields a null `replaceStep`, which `Transform.replace` skips
silently (`if (step) this.step(step)`), leaving the document unchanged. -/
def insertNode : PMNode → Int → PMNode → Option PMNode
  | .text _ _, _, _ => none
  | .node t a cs, pos, n =>
    if posInRange (.node t a cs) pos then
      some ((insertN (.node t a cs) pos n).getD (.node t a cs))
    else none

/-- Whether a deletion range descends into the child (as opposed to being
handled as a sibling-boundary splice): strictly within a node's borders,
or inside a text run but not covering it whole. -/
def delDescendable (c : PMNode) (a b : Int) : Bool :=
  match c with
  | .text _ _ => decide (0 ≤ a) && decide (b ≤ c.nsize) && !(a == 0 && b == c.nsize)
  | .node _ _ _ => decide (1 ≤ a) && decide (b ≤ c.nsize - 1)

mutual

/-- Child walk of `tr.deleteRange`: returns the new fragment and whether a
direct child of this fragment was removed (so the owner must be
re-checked). -/
def delWalk : List PMNode → Int → Int → Option (List PMNode × Bool)
  | [], a, b => if a = 0 ∧ b = 0 then some ([], false) else none
  | c :: rest, a, b =>
    if a ≥ c.nsize then
      (delWalk rest (a - c.nsize) (b - c.nsize)).map (fun r => (c :: r.1, r.2))
    else if delDescendable c a b then
      (delDesc c a b).map (fun oc =>
        match oc with
        | some c' => (c' :: rest, false)
        | none => (rest, true))
    else
      (rangeSplice (c :: rest) a b []).map (fun cs' => (cs', a ≠ b))

/-- `tr.deleteRange` within one child (`a`, `b` relative to its position):
a range covering the whole content deletes the content for a textblock and
expands to delete the node itself otherwise (`some none`); a partial text
deletion substrings the run, dropping it when emptied; a child removal
that leaves the node's content invalid expands likewise (only possible
when it empties the content). -/
def delDesc : PMNode → Int → Int → Option (Option PMNode)
  | .text s m, a, b =>
    let s' := (s.take a.toNat) ++ (s.drop b.toNat)
    if s'.isEmpty then some none else some (some (.text s' m))
  | .node tp at2 ccs, a, b =>
    if a = 1 ∧ b = 1 + fsize ccs then
      if isTextblockType tp then some (some (.node tp at2 [])) else some none
    else
      (delWalk ccs (a - 1) (b - 1)).bind (fun pr =>
        if pr.2 then
          if contentAllowed tp pr.1 then some (some (.node tp at2 pr.1))
          else if pr.1.isEmpty then some none
          else none
        else some (some (.node tp at2 pr.1)))

end

/-- `tr.deleteRange(a, b)` on a document. -/
def deleteRange : PMNode → Int → Int → Option PMNode
  | .text _ _, _, _ => none
  | .node t at' cs, a, b =>
    if 0 ≤ a ∧ a ≤ b ∧ b ≤ fsize cs then
      if a = 0 ∧ b = fsize cs then none
      else
        (delWalk cs a b).bind (fun pr =>
          if pr.2 then
            if contentAllowed t pr.1 then some (.node t at' pr.1) else none
          else some (.node t at' pr.1))
    else none

mutual

/-- Walk of `tr.replace` with a closed slice: descend while the range sits
strictly inside one child.  The one ProseMirror join the source relies on
is kept: replacing `[a, a+1]` by nothing where `a` is the content end of a
last-child textblock consumes only the textblock's closing token and
re-closes it, a net no-op. -/
def replW : List PMNode → Int → Int → List PMNode → Option (List PMNode)
  | [], _, _, _ => none
  | c :: rest, a, b, new =>
    if a ≥ c.nsize then
      (replW rest (a - c.nsize) (b - c.nsize) new).map (fun r => c :: r)
    else if 1 ≤ a ∧ b ≤ c.nsize - 1 then
      (replDesc c a b new).map (fun x => x :: rest)
    else if new.isEmpty ∧ a = c.nsize - 1 ∧ b = c.nsize ∧ rest = [] ∧
        isTextblockType c.typeName then
      some [c]
    else none

/-- Closed-slice replace within one child (`a`, `b` relative to its
position): splice at sibling boundaries of its children re-checking the
child's content, else descend further. -/
def replDesc : PMNode → Int → Int → List PMNode → Option PMNode
  | .text _ _, _, _, _ => none
  | .node t2 a2 ccs, a, b, new =>
    match rangeSplice ccs (a - 1) (b - 1) new with
    | some cs' => if contentAllowed t2 cs' then some (.node t2 a2 cs') else none
    | none => (replW ccs (a - 1) (b - 1) new).map (fun x => .node t2 a2 x)

end

mutual

/-- Walk of the open-slice part of `tr.replace` (see `replODesc`). -/
def replOW : List PMNode → Int → Int → List PMNode → Option (List PMNode)
  | [], _, _, _ => none
  | c :: rest, a, b, runs =>
    if a ≥ c.nsize then
      (replOW rest (a - c.nsize) (b - c.nsize) runs).map (fun r => c :: r)
    else
      (replODesc c a b runs).bind (fun pr =>
        if pr.2 then if rest = [] then some [pr.1] else none
        else some (pr.1 :: rest))

/-- Open-slice part of `tr.replace` as the source uses it in
`BNSplitBlock`: a slice `Slice(Fragment.from(doc.cut(..)), k, k)` whose
`k`-fold open chains expose one run of inline content.  The fitter places
that run as the content of the textblock at `a` when `a` is the
textblock's content start and `b` is its content end — or one past its
closing token when the textblock closes its parent (the `true` flag, which
the walk accepts only for a last child), in which case the closing tokens
are re-closed around the run.  A `none` here means the slice does not fit
this way; the document-level wrapper (`trReplace`) models the resulting
null step as skipped, leaving the document unchanged. -/
def replODesc : PMNode → Int → Int → List PMNode → Option (PMNode × Bool)
  | .text _ _, _, _, _ => none
  | .node t2 a2 ccs, a, b, runs =>
    if isTextblockType t2 ∧ a = 1 then
      if ¬ contentAllowed t2 runs then none
      else if b = 1 + fsize ccs then some (.node t2 a2 runs, false)
      else if b = 2 + fsize ccs then some (.node t2 a2 runs, true)
      else none
    else if 1 ≤ a ∧ b ≤ (.node t2 a2 ccs : PMNode).nsize - 1 then
      (replOW ccs (a - 1) (b - 1) runs).map (fun x => (.node t2 a2 x, false))
    else none

end

/-- Peel `k` levels of single-node wrappers off a slice's content,
exposing what its open chains make available at the insertion point. -/
def peelOpen : Nat → List PMNode → Option (List PMNode)
  | 0, cs => some cs
  | k + 1, [.node _ _ ccs] => peelOpen k ccs
  | _ + 1, _ => none

/-- A slice argument to `tr.replace`: absent (`undefined` in the source),
closed, or open by `k` levels on both sides. -/
inductive ReplSlice where
  | empty
  | closed (cs : List PMNode)
  | opened (cs : List PMNode) (k : Nat)
  deriving Repr, DecidableEq

/-- Closed-slice replace at the level of a node's own children: splice at
sibling boundaries (re-checking the owner), else walk. -/
def replTop (t : String) (cs : List PMNode) (a b : Int) (new : List PMNode) :
    Option (List PMNode) :=
  match rangeSplice cs a b new with
  | some cs' => if contentAllowed t cs' then some cs' else none
  | none => replW cs a b new

/-- `tr.replace(a, b, slice)` on a document.  An open slice that does not
peel to inline content, or whose run the open-slice walk cannot place,
gives a null or unfitting `replaceStep`; `Transform.replace` skips it
(`if (step) this.step(step)`), so the document is returned unchanged
rather than an exception thrown. -/
def trReplace : PMNode → Int → Int → ReplSlice → Option PMNode
  | .text _ _, _, _, _ => none
  | .node t at' cs, a, b, slice =>
    if 0 ≤ a ∧ a ≤ b ∧ b ≤ fsize cs then
      match slice with
      | .empty => (replTop t cs a b []).map (fun cs' => .node t at' cs')
      | .closed new => (replTop t cs a b new).map (fun cs' => .node t at' cs')
      | .opened new k =>
        some (.node t at'
          (match peelOpen k new with
           | some runs => (replOW cs a b runs).getD cs
           | none => cs))
    else none

/-- `ResolvedPos.marks()` over inline content at a local offset: inside a
text run, the run's marks; at a child boundary, the preceding child's
marks; at the content start (no preceding child), the following child's.
A non-text child carries no marks in this model, and empty content yields
none. -/
def marksAt : List PMNode → Int → List String
  | [], _ => []
  | c :: rest, pos =>
    if pos ≤ c.nsize then
      match c with
      | .text _ m => m
      | .node _ _ _ => []
    else marksAt rest (pos - c.nsize)

/-- Coalesce adjacent text runs carrying identical marks, as the fragment
rebuild of `doc.replace` does when it reassembles the edited parent's
content (`addNode` in prosemirror-model's `replace.ts` concatenates a text
node into the previous one when both have the same markup). -/
def mergeRuns : List PMNode → List PMNode
  | [] => []
  | [c] => [c]
  | .text s1 m1 :: .text s2 m2 :: rest =>
    if m1 = m2 then mergeRuns (.text (s1 ++ s2) m1 :: rest)
    else .text s1 m1 :: mergeRuns (.text s2 m2 :: rest)
  | .text s1 m1 :: .node t a cs :: rest =>
    .text s1 m1 :: mergeRuns (.node t a cs :: rest)
  | .node t a cs :: rest => .node t a cs :: mergeRuns rest
termination_by l => l.length

/-- Inline content in ProseMirror's canonical form: no two adjacent text
runs carry identical marks.  Every fragment a ProseMirror edit rebuilds is
in this form (`mergeRuns` is the normalisation), so documents reaching the
commands satisfy it. -/
def canonicalRuns : List PMNode → Bool
  | .text _ m1 :: .text s2 m2 :: rest =>
    !(m1 == m2) && canonicalRuns (.text s2 m2 :: rest)
  | _ :: rest => canonicalRuns rest
  | [] => true

/-- The splice part of `tr.insertText`: place a prepared run at a local
offset of inline content, splitting an existing run when the offset falls
inside it. -/
def inlinePlace (runs : List PMNode) (pos : Int) (r : PMNode) : Option (List PMNode) :=
  if pos = 0 then some (r :: runs)
  else
    match runs with
    | [] => none
    | c :: rest =>
      match c with
      | .text t m =>
        if pos < c.nsize then
          some (.text (t.take pos.toNat) m :: r :: .text (t.drop pos.toNat) m :: rest)
        else (inlinePlace rest (pos - c.nsize) r).map (fun l => c :: l)
      | .node _ _ _ =>
        if pos < c.nsize then none
        else (inlinePlace rest (pos - c.nsize) r).map (fun l => c :: l)

/-- Insert a text run into inline content at a local offset: the inserted
run carries the marks `ResolvedPos.marks()` yields at the position (the
command transactions carry no stored marks), and the reassembled content
coalesces adjacent runs with identical marks, as `doc.replace` rebuilds
the edited parent's fragment. -/
def inlineInsert (runs : List PMNode) (pos : Int) (s : String) : Option (List PMNode) :=
  (inlinePlace runs pos (.text s (marksAt runs pos))).map mergeRuns

/-- The normal form of inserting text at the end of inline content: the
run merges into a trailing text run (inheriting its marks), and is
appended unmarked otherwise. -/
def appendInline : List PMNode → String → List PMNode
  | [], s => [.text s []]
  | [.text t m], s => [.text (t ++ s) m]
  | c :: rest, s => c :: appendInline rest s

mutual

/-- `tr.insertText(s, pos)` descent: the position must sit strictly inside
a textblock, whose inline content receives the run. -/
def insertTextF : List PMNode → Int → String → Option (List PMNode)
  | [], _, _ => none
  | c :: rest, pos, s =>
    if pos ≥ c.nsize then (insertTextF rest (pos - c.nsize) s).map (fun r => c :: r)
    else if 1 ≤ pos ∧ pos ≤ c.nsize - 1 then
      (insertTextN c (pos - 1) s).map (fun x => x :: rest)
    else none

/-- Text insertion within one node, `pos` relative to its content. -/
def insertTextN : PMNode → Int → String → Option PMNode
  | .text _ _, _, _ => none
  | .node t2 a2 ccs, pos, s =>
    if isTextblockType t2 then
      (inlineInsert ccs pos s).map (fun x => .node t2 a2 x)
    else
      (insertTextF ccs pos s).map (fun x => .node t2 a2 x)

end

/-- `tr.insertText(s, pos)` on a document; the empty string inserts
nothing. -/
def trInsertText : PMNode → Int → String → Option PMNode
  | .text s0 m, _, s => if s.isEmpty then some (.text s0 m) else none
  | .node t at' cs, pos, s =>
    if s.isEmpty then some (.node t at' cs)
    else (insertTextF cs pos s).map (fun cs' => .node t at' cs')

/-- `tr.setNodeMarkup(pos, type?, attrs)`: retype/re-attribute the node
starting exactly at `pos` (`doc.nodeAt(pos)`).  A `type` name absent from
the schema leaves the type unchanged, as `schema.nodes[...]` yields
`undefined` in the source.  The node's existing content must satisfy the
new type. -/
def setMarkupHere (c : PMNode) (newTp : Option String) (newAttrs : AttrMap) :
    Option PMNode :=
  match c with
  | .text _ _ => none
  | .node t2 _ ccs =>
    let t' := newTp.getD t2
    if contentAllowed t' ccs then some (.node t' newAttrs ccs) else none

mutual

/-- Child walk of `setNodeMarkupF` (see `trSetNodeMarkup`). -/
def setNodeMarkupF : List PMNode → Int → Option String → AttrMap →
    Option (List PMNode)
  | [], _, _, _ => none
  | c :: rest, pos, newTp, newAttrs =>
    if pos = 0 then (setMarkupHere c newTp newAttrs).map (fun c' => c' :: rest)
    else if pos < c.nsize then
      (setNodeMarkupN c (pos - 1) newTp newAttrs).map (fun x => x :: rest)
    else
      (setNodeMarkupF rest (pos - c.nsize) newTp newAttrs).map (fun r => c :: r)

/-- Markup descent within one node, `pos` relative to its content. -/
def setNodeMarkupN : PMNode → Int → Option String → AttrMap → Option PMNode
  | .text _ _, _, _, _ => none
  | .node t2 a2 ccs, pos, newTp, newAttrs =>
    (setNodeMarkupF ccs pos newTp newAttrs).map (fun x => .node t2 a2 x)

end

/-- `tr.setNodeMarkup` on a document. -/
def trSetNodeMarkup : PMNode → Int → Option String → AttrMap → Option PMNode
  | .text _ _, _, _, _ => none
  | .node t at' cs, pos, newTp, newAttrs =>
    if 0 ≤ pos ∧ pos < fsize cs then
      (setNodeMarkupF cs pos newTp newAttrs).map (fun cs' => .node t at' cs')
    else none

mutual

/-- Child walk of `trSetBlockType`: find the textblock whose content
contains `pos` (the source passes a collapsed range inside the target
textblock). -/
def setBlockTypeF : List PMNode → Int → String → AttrMap → Option (List PMNode)
  | [], _, _, _ => none
  | c :: rest, pos, tp', attrs' =>
    if pos ≥ c.nsize then
      (setBlockTypeF rest (pos - c.nsize) tp' attrs').map (fun r => c :: r)
    else if 1 ≤ pos ∧ pos ≤ c.nsize - 1 then
      (setBlockTypeN c (pos - 1) tp' attrs').map (fun x => x :: rest)
    else none

/-- Block-type descent within one node, `pos` relative to its content:
retype the node when it is a textblock, else descend. -/
def setBlockTypeN : PMNode → Int → String → AttrMap → Option PMNode
  | .text _ _, _, _, _ => none
  | .node t2 a2 ccs, pos, tp', attrs' =>
    if isTextblockType t2 then
      if contentAllowed tp' ccs then some (.node tp' attrs' ccs) else none
    else
      (setBlockTypeF ccs pos tp' attrs').map (fun x => .node t2 a2 x)

end

/-- `tr.setBlockType` on a document. -/
def trSetBlockType : PMNode → Int → String → AttrMap → Option PMNode
  | .text _ _, _, _, _ => none
  | .node t at' cs, pos, tp', attrs' =>
    (setBlockTypeF cs pos tp' attrs').map (fun cs' => .node t at' cs')

/-- `tr.lift(range, target)` as `BNMergeBlocks` invokes it: the range is
the full content of a child group `P` that closes its parent block `X`,
and `target` is the depth of `X`'s parent `A`.  The step splits `X` around
the gap: `X` keeps its children before `P`, and `P`'s children move into
`A` right after `X` (the trailing part of `X` is empty and is dropped).
`liftWalk` descends `target` levels to `A`. -/
def liftHere (tp : String) (c : PMNode) (rest : List PMNode) (a b : Int) :
    Option (List PMNode) :=
  -- `c` is the block `X`; its last child must be the group `[a, b]` spans.
  match c with
  | .text _ _ => none
  | .node t2 a2 ccs =>
    match ccs.getLast? with
    | some (.node _ _ pcs) =>
      let init := ccs.dropLast
      if a = 2 + fsize init ∧ b = a + fsize pcs ∧
          contentAllowed t2 init ∧
          contentAllowed tp ((.node t2 a2 init :: pcs) ++ rest) then
        some ((.node t2 a2 init :: pcs) ++ rest)
      else none
    | _ => none

mutual

/-- Walk of `tr.lift` (see `trLift`): descend `t` levels to the lift
target, then split the block around the gap via `liftHere`. -/
def liftWalk : String → List PMNode → Int → Int → Nat → Option (List PMNode)
  | _, [], _, _, _ => none
  | tp, c :: rest, a, b, t =>
    if a ≥ c.nsize then
      (liftWalk tp rest (a - c.nsize) (b - c.nsize) t).map (fun r => c :: r)
    else
      match t with
      | tn + 1 =>
        if 1 ≤ a ∧ b ≤ c.nsize - 1 then
          (liftN c (a - 1) (b - 1) tn).map (fun x => x :: rest)
        else none
      | 0 => liftHere tp c rest a b

/-- Lift descent within one node, `a`, `b` relative to its content. -/
def liftN : PMNode → Int → Int → Nat → Option PMNode
  | .text _ _, _, _, _ => none
  | .node t2 a2 ccs, a, b, tn =>
    (liftWalk t2 ccs a b tn).map (fun x => .node t2 a2 x)

end

/-- `tr.lift` on a document (only the configuration the source builds is
modelled; other ranges fail).  The walk's countdown starts at `target`:
the node at resolution depth `target` is reached after descending
`target` levels from the root. -/
def trLift : PMNode → Int → Int → Nat → Option PMNode
  | .text _ _, _, _, _ => none
  | .node t at' cs, a, b, target =>
    if 0 ≤ a ∧ a ≤ b ∧ b ≤ fsize cs then
      (liftWalk t cs a b target).map (fun cs' => .node t at' cs')
    else none

mutual

/-- `Fragment.cut(a, b)` walk: an empty range cuts to nothing (checked by
the callers); otherwise the children overlapping the range, with partial
children cut recursively (interior nodes stay open, text runs are
substringed). -/
def cutWalk : List PMNode → Int → Int → List PMNode
  | [], _, _ => []
  | c :: rest, a, b =>
    if b ≤ 0 then []
    else if a ≥ c.nsize then cutWalk rest (a - c.nsize) (b - c.nsize)
    else
      (if a ≤ 0 ∧ b ≥ c.nsize then c else cutN c a b) ::
        cutWalk rest (a - c.nsize) (b - c.nsize)

/-- Cut of one partially covered node, `a`, `b` relative to its position
(clamped to its content like `Node.cut`). -/
def cutN : PMNode → Int → Int → PMNode
  | .text s m, a, b => .text ((s.take b.toNat).drop (max a 0).toNat) m
  | .node t2 a2 ccs, a, b =>
    .node t2 a2
      (if min (b - 1) (fsize ccs) ≤ max (a - 1) 0 then []
       else cutWalk ccs (max (a - 1) 0) (min (b - 1) (fsize ccs)))

end

/-- `doc.cut(a, b)`: a document-rooted node containing the cut content. -/
def docCut : PMNode → Int → Int → Option PMNode
  | .text _ _, _, _ => none
  | .node t at' cs, a, b =>
    if 0 ≤ a ∧ a ≤ b ∧ b ≤ fsize cs then
      some (.node t at' (if b ≤ a then [] else cutWalk cs a b))
    else none

/-- Position mapping through a replace step `[a, b] ↦ newLen` (ProseMirror
maps a stored selection through each later step). -/
def mapThroughReplace (a b newLen p : Int) : Int :=
  if p ≤ a then p else if p ≥ b then p + newLen - (b - a) else a + newLen

/-! ## Patches and node construction -/

/-- The node type names of the schema (`state.schema.nodes`). -/
def schemaHasNode (t : String) : Bool :=
  t == "doc" || t == "blockGroup" || t == "blockContainer" || t == "text" ||
    isTextblockType t

/-- `schema.text(s)`: ProseMirror refuses empty text nodes. -/
def mkText (s : String) : Option PMNode :=
  if s.isEmpty then none else some (.text s [])

/-- An inline-content patch value: plain text or styled spans
(text with style names). -/
inductive InlineContent where
  | plain (s : String)
  | styled (spans : List (String × List String))
  deriving Repr, DecidableEq

/-- Modelled from the spec: `inlineContentToNodes`
(`src/packages/core/src/api/nodeConversions/nodeConversions.ts` is not
among the provided sources).  Per §4.2, a structured sequence of styled
runs is replaced "with the corresponding sequence of styled text nodes":
each span becomes a text node carrying its styles as marks. -/
def inlineContentToNodes (spans : List (String × List String)) :
    Option (List PMNode) :=
  spans.mapM (fun sp => if sp.1.isEmpty then none else some (.text sp.1 sp.2))

/-- What `BNUpdateBlock` turns a content patch into. -/
def contentToRuns : InlineContent → Option (List PMNode)
  | .plain s => (mkText s).map (fun t => [t])
  | .styled spans => inlineContentToNodes spans

/-- Inline content of a `BlockSpec` (empty by default). -/
def blockSpecRuns : Option InlineContent → Option (List PMNode)
  | none => some []
  | some c => contentToRuns c

/-- A recursive block description (`BlockSpec` of §6 of the spec). -/
inductive BlockSpec where
  | mk (tp : String) (props : AttrMap) (content : Option InlineContent)
      (children : Option (List BlockSpec))
  deriving Repr

mutual

/-- Modelled from the spec: `blockToNode`
(`src/packages/core/src/api/nodeConversions/nodeConversions.ts` is not
among the provided sources).  Per §4.2/§6, children patches are "newly
built Blocks (recursively constructed via the same logic)": a `BlockSpec`
becomes a `blockContainer` holding a Content node of the given type (with
the given inline content, or empty by default) followed by a `blockGroup`
of recursively built children when children are given; props are
duplicated onto the Content node and the Block (§4.2: "attributes are
duplicated onto both levels"). -/
def blockToNode : BlockSpec → Option PMNode
  | .mk tp props content none =>
    (blockSpecRuns content).map (fun inner =>
      .node "blockContainer" props [.node tp props inner])
  | .mk tp props content (some specs) =>
    (blockSpecRuns content).bind (fun inner =>
      (blockToNodeL specs).map (fun cblocks =>
        .node "blockContainer" props
          [.node tp props inner, .node "blockGroup" [] cblocks]))

/-- Build a list of child blocks. -/
def blockToNodeL : List BlockSpec → Option (List PMNode)
  | [] => some []
  | sp :: rest =>
    (blockToNode sp).bind (fun n => (blockToNodeL rest).map (fun ns => n :: ns))

end

/-- A `PartialBlock` patch for `BNUpdateBlock`: every field optional; an
absent `props` spreads nothing, so it is the empty map. -/
structure UpdatePatch where
  type : Option String
  props : AttrMap
  content : Option InlineContent
  children : Option (List BlockSpec)

/-! ## The mutation commands -/

/-- `state.schema.nodes["blockContainer"].createAndFill()`: a fresh Block
auto-filled with the minimal content the schema requires — one empty
paragraph. -/
def createAndFillBlockContainer : PMNode :=
  .node "blockContainer" [] [.node "paragraph" [] []]

/-- Outcome of a dispatched command: the returned boolean, the document
after the dispatched transaction, and the selection position the
transaction set (if any), as mapped through its later steps. -/
structure CmdOut where
  ret : Bool
  doc : PMNode
  sel : Option Int
  deriving Repr, DecidableEq

/-- `BNCreateBlock(pos)`: inserts a fresh auto-filled Block at `pos` and
returns `true`; the transform throws on a position where the block cannot
be placed. -/
def BNCreateBlock (d : PMNode) (pos : Int) : Option CmdOut :=
  (insertNode d pos createAndFillBlockContainer).map (fun d' => ⟨true, d', none⟩)

/-- `BNDeleteBlock(posInBlock)`: resolves the Block at the position and
deletes its full range; returns `false` when resolution fails. -/
def BNDeleteBlock (d : PMNode) (pos : Int) : Option CmdOut :=
  match getBlockInfoFromPos d pos with
  | none => some ⟨false, d, none⟩
  | some bi => (deleteRange d bi.startPos bi.endPos).map (fun d' => ⟨true, d', none⟩)

/-- The children step of `BNUpdateBlock`: with a children patch, replace
the existing child group's contents, or insert a new group. -/
def updChildrenStep (d : PMNode) (bi : BlockInfo) :
    Option (List BlockSpec) → Option PMNode
  | none => some d
  | some specs =>
    (blockToNodeL specs).bind (fun childNodes =>
      if bi.node.childCount == 2 then
        trReplace d (bi.startPos + bi.contentNode.nsize + 1) (bi.endPos - 1)
          (.closed childNodes)
      else
        insertNode d (bi.startPos + bi.contentNode.nsize)
          (.node "blockGroup" [] childNodes))

/-- The content step of `BNUpdateBlock`: replace the Content node's inner
range with the patch's runs. -/
def updContentStep (d1 : PMNode) (bi : BlockInfo) :
    Option InlineContent → Option PMNode
  | none => some d1
  | some c =>
    (contentToRuns c).bind (fun runs =>
      trReplace d1 (bi.startPos + 1) (bi.startPos + bi.contentNode.nsize - 1)
        (.closed runs))

/-- `BNUpdateBlock(posInBlock, block)`: replaces children and/or content,
then retypes/re-attributes the Content node and the Block, all against the
positions resolved before the first step.  An unknown `type` leaves the
node type unchanged (`schema.nodes[...]` is `undefined`). -/
def BNUpdateBlock (d : PMNode) (pos : Int) (patch : UpdatePatch) : Option CmdOut :=
  match getBlockInfoFromPos d pos with
  | none => some ⟨false, d, none⟩
  | some bi =>
    (updChildrenStep d bi patch.children).bind (fun d1 =>
      (updContentStep d1 bi patch.content).bind (fun d2 =>
        (trSetNodeMarkup d2 bi.startPos
            (patch.type.bind (fun t => if schemaHasNode t then some t else none))
            (mergeAttrs bi.contentNode.attrsOf patch.props)).bind (fun d3 =>
          (trSetNodeMarkup d3 (bi.startPos - 1) none
              (mergeAttrs bi.node.attrsOf patch.props)).map (fun d4 =>
            ⟨true, d4, none⟩))))

/-- The backward search of `BNMergeBlocks`: starting at `pos`, step back
one position at a time while the resolved Block has children.  Returns
`none` when the very first resolution fails (the source dereferences it
with a non-null assertion — an exception), `some none` when a later
resolution fails (the abort-with-`false` branch, which still dispatches
the transaction built so far), and `some (some p)` for the found position.
`fuel` bounds the loop; the caller passes enough for the walk to reach
position 0, where resolution always fails. -/
def mergeWalk (d : PMNode) : Nat → Int → Bool → Option (Option Int)
  | 0, _, _ => some none
  | fuel + 1, pos, first =>
    match getBlockInfoFromPos d pos with
    | none => if first then none else some none
    | some bi =>
      if bi.numChildBlocks > 0 then mergeWalk d fuel (pos - 1) false
      else some (some pos)

/-- `BNMergeBlocks(posBetweenBlocks)`: checks that Blocks end at `pos - 1`
and start at `pos + 1`; lifts the next Block's child group one level if it
has one; walks back to the nearest childless Block; then deletes the next
Block's Content range and appends its text there. -/
def BNMergeBlocks (d : PMNode) (pos : Int) : Option CmdOut :=
  (resolveParentType d (pos + 1)).bind (fun nt =>
    (resolveParentType d (pos - 1)).bind (fun pt =>
      if ¬(nt = "blockContainer" ∧ pt = "blockContainer") then
        some ⟨false, d, none⟩
      else
        (getBlockInfoFromPos d (pos + 1)).bind (fun bi =>
          ((if bi.node.childCount == 2 then
              trLift d (bi.startPos + bi.contentNode.nsize + 1) (bi.endPos - 1)
                (bi.depth - 1)
            else some d)).bind (fun d1 =>
            match mergeWalk d1 ((pos - 1).toNat + 2) (pos - 1) true with
            | none => none
            | some none => some ⟨false, d1, none⟩
            | some (some p) =>
              (deleteRange d1 bi.startPos
                  (bi.startPos + bi.contentNode.nsize)).bind (fun d2 =>
                (trInsertText d2 (p - 1) bi.contentNode.textContent).bind (fun d3 =>
                  if posInRange d3 (p - 1) then some ⟨true, d3, some (p - 1)⟩
                  else none))))))

/-- `BNSplitBlock(posInBlock, keepType)`: cuts the Block's content at the
position, inserts a fresh Block after it, fills it with the "after" slice
(opened `depth + 2` levels), optionally re-types it, records the caret at
the new Content's start, then truncates the original Block to the
"before" slice.  The selection set before the final step is mapped
through it, as ProseMirror maps a stored selection. -/
def BNSplitBlock (d : PMNode) (pos : Int) (keepType : Bool) : Option CmdOut :=
  match getBlockInfoFromPos d pos with
  | none => some ⟨false, d, none⟩
  | some bi =>
    (docCut d (bi.startPos + 1) pos).bind (fun origContent =>
      (docCut d pos (bi.endPos - 1)).bind (fun newContent =>
        (insertNode d (bi.endPos + 1) createAndFillBlockContainer).bind (fun d1 =>
          (trReplace d1 (bi.endPos + 3) (bi.endPos + 4)
              (if csize newContent > 0 then .opened [newContent] (bi.depth + 2)
               else .empty)).bind (fun d2 =>
            ((if keepType then
                if contentAllowed bi.contentType [] then
                  trSetBlockType d2 (bi.endPos + 3) bi.contentType
                    bi.contentNode.attrsOf
                else none
              else some d2)).bind (fun d3 =>
              if posInRange d3 (bi.endPos + 3) then
                (trReplace d3 (bi.startPos + 1) (bi.endPos - 1)
                    (if csize origContent > 0 then
                      .opened [origContent] (bi.depth + 2)
                    else .empty)).map (fun d4 =>
                  ⟨true, d4,
                    some (mapThroughReplace (bi.startPos + 1) (bi.endPos - 1)
                      ((bi.endPos - 1) - (bi.startPos + 1) + csize d4 - csize d3)
                      (bi.endPos + 3))⟩)
              else none)))))

/-! ## The keymap

Handlers receive the editor state; the chains built with
`chainKeyBindingCommands` run each handler until one returns `true`. -/

/-- An editor state as the keymap sees it: the document and the selection
anchor/head positions. -/
structure EditorState where
  doc : PMNode
  anchor : Int
  head : Int
  deriving Repr, DecidableEq

/-- `state.selection.from` (collapsed or forward selections: the lesser
end). -/
def EditorState.selFrom (st : EditorState) : Int := min st.anchor st.head

/-- `state.selection.$anchor.parentOffset`. -/
def EditorState.anchorParentOffset (st : EditorState) : Option Int :=
  (resolveParent st.doc st.anchor).map (fun pr => st.anchor - pr.2)

/-- Whether the selection anchor sits at offset 0 of its parent. -/
def selectionAtBlockStart (st : EditorState) : Bool :=
  st.anchorParentOffset == some 0

/-- Model of `sinkListItem(blockContainer)` from prosemirror-schema-list,
as documented: sinks the list item around the selection into the item
before it, so it applies exactly when the enclosing `blockContainer` has a
previous sibling; it returns `false` (without dispatching) otherwise.  The
resulting boolean is all the keymap claims consume; the sink transform
itself is outside the claims and is not modelled. -/
def sinkListItemApplicable (d : PMNode) (pos : Int) : Bool :=
  match frames d pos with
  | [] => false
  | fs =>
    match lastContainerFrame fs with
    | none => false
    | some (f, _) =>
      -- the container has a previous sibling iff its start is not its
      -- parent group's content start (+1 for the container's own border)
      match framesSecondLast fs d with
      | some parent => decide (f.start ≠ parent.2 + 1)
      | none => false
where
  /-- The parent of the innermost container frame: the frame above the
  last container frame, or the root. -/
  framesSecondLast (fs : List Frame) (root : PMNode) : Option (PMNode × Int) :=
    match lastContainerFrame fs with
    | none => none
    | some (_, k) =>
      if k ≤ 1 then some (root, 0)
      else (fs.get? (k - 2)).map (fun fr => (fr.node, fr.start))

/-- Model of `liftListItem(blockContainer)` from prosemirror-schema-list,
as documented: lifts the list item around the selection out of its parent
list, applying exactly when the item is nested (its resolution depth
exceeds 2); it returns `false` otherwise.  Only the boolean is modelled. -/
def liftListItemApplicable (d : PMNode) (pos : Int) : Bool :=
  match lastContainerFrame (frames d pos) with
  | none => false
  | some (_, k) => decide (k > 2)

/-- The `Tab` key binding: `sinkListItem(this.type)(state, dispatch, view)`. -/
def tabHandler (st : EditorState) : Bool :=
  sinkListItemApplicable st.doc st.selFrom

/-- The `Shift-Tab` key binding: `liftListItem(this.type)(...)`. -/
def shiftTabHandler (st : EditorState) : Bool :=
  liftListItemApplicable st.doc st.selFrom

/-- First Backspace handler: at block start with a non-paragraph Content
node, retype it to a paragraph with empty props.  The source dereferences
`getBlockInfoFromPos(...)!`: an unresolvable caret is an exception
(`none`), not a `false` return. -/
def backspace1 (st : EditorState) : Option (Bool × PMNode) :=
  match getBlockInfoFromPos st.doc st.selFrom with
  | none => none
  | some bi =>
    if selectionAtBlockStart st ∧ bi.contentType ≠ "paragraph" then
      (BNUpdateBlock st.doc st.selFrom ⟨some "paragraph", [], none, none⟩).map
        (fun r => (r.ret, r.doc))
    else some (false, st.doc)

/-- Second Backspace handler: at block start, try to remove one nesting
level. -/
def backspace2 (st : EditorState) : Option (Bool × PMNode) :=
  if selectionAtBlockStart st then
    some (liftListItemApplicable st.doc st.selFrom, st.doc)
  else some (false, st.doc)

/-- Third Backspace handler: merge with the previous block when the
selection is collapsed at the start of a non-first outermost block. -/
def backspace3 (st : EditorState) : Option (Bool × PMNode) :=
  match getBlockInfoFromPos st.doc st.selFrom with
  | none => none
  | some bi =>
    if bi.startPos ≠ 2 ∧ selectionAtBlockStart st ∧ st.anchor = st.head ∧
        bi.depth = 2 then
      (BNMergeBlocks st.doc (bi.startPos - 1)).map (fun r => (r.ret, r.doc))
    else some (false, st.doc)

/-- The Backspace chain. -/
def handleBackspace (st : EditorState) : Option (Bool × PMNode) := do
  let r1 ← backspace1 st
  if r1.1 then some r1
  else do
    let r2 ← backspace2 st
    if r2.1 then some r2 else backspace3 st

/-- First Enter handler: outdent an empty nested block at a collapsed
selection at block start. -/
def enter1 (st : EditorState) : Option (Bool × PMNode) :=
  match getBlockInfoFromPos st.doc st.selFrom with
  | none => none
  | some bi =>
    if selectionAtBlockStart st ∧ st.anchor = st.head ∧
        bi.node.textContent.isEmpty ∧ bi.depth > 2 then
      some (liftListItemApplicable st.doc st.selFrom, st.doc)
    else some (false, st.doc)

/-- Second Enter handler: create a new block below an empty one and move
the selection into it. -/
def enter2 (st : EditorState) : Option (Bool × PMNode) :=
  match getBlockInfoFromPos st.doc st.selFrom with
  | none => none
  | some bi =>
    if selectionAtBlockStart st ∧ st.anchor = st.head ∧
        bi.node.textContent.isEmpty then
      (BNCreateBlock st.doc (bi.endPos + 1)).map (fun r => (true, r.doc))
    else some (false, st.doc)

/-- Third Enter handler: split a non-empty block at the caret (deleting a
non-collapsed selection first). -/
def enter3 (st : EditorState) : Option (Bool × PMNode) :=
  match getBlockInfoFromPos st.doc st.selFrom with
  | none => none
  | some bi =>
    if ¬ bi.node.textContent.isEmpty then do
      let d1 ←
        if st.anchor = st.head then some st.doc
        else deleteRange st.doc (min st.anchor st.head) (max st.anchor st.head)
      (BNSplitBlock d1 st.selFrom false).map (fun r => (true, r.doc))
    else some (false, st.doc)

/-- The Enter chain. -/
def handleEnter (st : EditorState) : Option (Bool × PMNode) := do
  let r1 ← enter1 st
  if r1.1 then some r1
  else do
    let r2 ← enter2 st
    if r2.1 then some r2 else enter3 st

/-! ## The structural invariant -/

/-- Well-formed inline content: nonempty text runs. -/
def wfInlineL : List PMNode → Bool
  | [] => true
  | .text s _ :: rest => !s.isEmpty && wfInlineL rest
  | .node _ _ _ :: _ => false

/-- A well-formed Content node: a textblock of nonempty text runs. -/
def wfContentNode : PMNode → Bool
  | .node t _ cs => isTextblockType t && wfInlineL cs
  | .text _ _ => false

mutual

/-- A well-formed Block: one Content node optionally followed by a
non-empty child group of well-formed Blocks. -/
def wfBlock : PMNode → Bool
  | .node t _ [c] => t == "blockContainer" && wfContentNode c
  | .node t _ [c, g] => t == "blockContainer" && wfContentNode c && wfGroup g
  | _ => false

/-- A well-formed child group: `blockContainer+`. -/
def wfGroup : PMNode → Bool
  | .node t _ (c :: cs) => t == "blockGroup" && wfBlock c && wfBlockL cs
  | _ => false

/-- All Blocks of a fragment well-formed. -/
def wfBlockL : List PMNode → Bool
  | [] => true
  | c :: rest => wfBlock c && wfBlockL rest

end

/-- A well-formed document: a `doc` node holding exactly one non-empty
`blockGroup` of well-formed Blocks. -/
def wfDoc : PMNode → Bool
  | .node t _ [g] => t == "doc" && wfGroup g
  | _ => false

/-- A command invocation, for statements ranging over the whole command
surface. -/
inductive MutCmd where
  | create (pos : Int)
  | delete (pos : Int)
  | update (pos : Int) (patch : UpdatePatch)
  | merge (pos : Int)
  | split (pos : Int) (keepType : Bool)

/-- Dispatch a command invocation against a document. -/
def runCmd (d : PMNode) : MutCmd → Option CmdOut
  | .create pos => BNCreateBlock d pos
  | .delete pos => BNDeleteBlock d pos
  | .update pos patch => BNUpdateBlock d pos patch
  | .merge pos => BNMergeBlocks d pos
  | .split pos kt => BNSplitBlock d pos kt

/-! ## Example documents -/

/-- A paragraph with the given text (empty text: an empty paragraph). -/
def para (s : String) : PMNode :=
  .node "paragraph" [] (if s.isEmpty then [] else [.text s []])

/-- A Block with the given text and child Blocks. -/
def blk (s : String) (kids : List PMNode) : PMNode :=
  .node "blockContainer" []
    (if kids.isEmpty then [para s] else [para s, .node "blockGroup" [] kids])

/-- A document from a list of top-level Blocks. -/
def mkDoc (bs : List PMNode) : PMNode :=
  .node "doc" [] [.node "blockGroup" [] bs]

/-- One Block containing `a`. -/
def exDocA : PMNode := mkDoc [blk "a" []]

/-- Two Blocks: `abcdef`, then `gh`. -/
def exDocB : PMNode := mkDoc [blk "abcdef" [], blk "gh" []]

/-- One Block `a` with a child `z`, which has a child `w`.  Position 6 of
this document sits between the outer Block's Content node and its Child
Group, and resolves as Block-flanked on both sides. -/
def exDocC1 : PMNode := mkDoc [blk "a" [blk "z" [blk "w" []]]]

/-- `exDocC1` after `BNMergeBlocks 6` aborts: the inner Block `w` has been
lifted out of `z` by the already-dispatched step-1 lift. -/
def exDocC1Lifted : PMNode := mkDoc [blk "a" [blk "z" [], blk "w" []]]

/-! ## Size and splice lemmas -/


mutual

theorem nsize_nonneg : ∀ n : PMNode, 0 ≤ n.nsize
  | .text s _ => by simp [PMNode.nsize]
  | .node _ _ cs => by
    have := fsize_nonneg cs
    simp only [PMNode.nsize]; omega

theorem fsize_nonneg : ∀ cs : List PMNode, 0 ≤ fsize cs
  | [] => by simp [PMNode.fsize]
  | c :: cs => by
    have h1 := nsize_nonneg c
    have h2 := fsize_nonneg cs
    simp only [PMNode.fsize]; omega

end

theorem node_nsize_ge_two (t : String) (a : AttrMap) (cs : List PMNode) :
    2 ≤ (PMNode.node t a cs).nsize := by
  have := fsize_nonneg cs
  simp only [PMNode.nsize]; omega

theorem fsize_append : ∀ (a b : List PMNode), fsize (a ++ b) = fsize a + fsize b
  | [], b => by simp [PMNode.fsize]
  | c :: cs, b => by
    have := fsize_append cs b
    simp only [List.cons_append, PMNode.fsize, List.append_eq]
    omega

theorem textContentL_append : ∀ (a b : List PMNode),
    textContentL (a ++ b) = textContentL a ++ textContentL b
  | [], b => by simp [PMNode.textContentL]
  | c :: cs, b => by
    have := textContentL_append cs b
    simp only [List.cons_append, PMNode.textContentL, List.append_eq]
    rw [this, String.append_assoc]

theorem spliceDrop_eq_some : ∀ (cs : List PMNode) (b : Int) (suf : List PMNode),
    spliceDrop cs b = some suf → ∃ mid, cs = mid ++ suf ∧ fsize mid = b
  | [], b, suf => by
    intro h
    unfold spliceDrop at h
    split at h
    · injection h with h; subst h
      exact ⟨[], by simp, by simp only [PMNode.fsize]; omega⟩
    · exact absurd h (by simp)
  | c :: rest, b, suf => by
    intro h
    unfold spliceDrop at h
    split at h
    · injection h with h; subst h
      exact ⟨[], by simp, by simp only [PMNode.fsize]; omega⟩
    · split at h
      · exact absurd h (by simp)
      · obtain ⟨mid, hm, hf⟩ := spliceDrop_eq_some rest _ _ h
        refine ⟨c :: mid, by simp [hm], ?_⟩
        simp only [PMNode.fsize, hf]; omega

theorem rangeSplice_eq_some : ∀ (cs : List PMNode) (a b : Int) (new cs' : List PMNode),
    rangeSplice cs a b new = some cs' →
    ∃ pre mid suf, cs = pre ++ mid ++ suf ∧ cs' = pre ++ new ++ suf ∧
      fsize pre = a ∧ fsize mid = b - a
  | [], a, b, new, cs' => by
    intro h
    unfold rangeSplice at h
    split at h
    · simp only [Option.map_eq_some'] at h
      obtain ⟨suf, hd, rfl⟩ := h
      obtain ⟨mid, hm, hf⟩ := spliceDrop_eq_some [] b suf hd
      exact ⟨[], mid, suf, by simp [hm], by simp, by simp only [PMNode.fsize]; omega,
        by omega⟩
    · exact absurd h (by simp)
  | c :: rest, a, b, new, cs' => by
    intro h
    unfold rangeSplice at h
    split at h
    · simp only [Option.map_eq_some'] at h
      obtain ⟨suf, hd, rfl⟩ := h
      obtain ⟨mid, hm, hf⟩ := spliceDrop_eq_some (c :: rest) b suf hd
      exact ⟨[], mid, suf, by simp [hm], by simp, by simp only [PMNode.fsize]; omega,
        by omega⟩
    · split at h
      · exact absurd h (by simp)
      · simp only [Option.map_eq_some'] at h
        obtain ⟨r, hr, rfl⟩ := h
        obtain ⟨pre, mid, suf, hm, rfl, hp, hmm⟩ := rangeSplice_eq_some rest _ _ _ _ hr
        exact ⟨c :: pre, mid, suf, by simp [hm], by simp,
          by simp only [PMNode.fsize]; omega, by omega⟩


/-! ## Insertion effect lemmas -/


mutual

/-- Number of Blocks (`blockContainer` nodes) in a subtree. -/
def countContainersN : PMNode → Nat
  | .text _ _ => 0
  | .node t _ cs => (if t == "blockContainer" then 1 else 0) + countContainersL cs

/-- Number of Blocks in a fragment. -/
def countContainersL : List PMNode → Nat
  | [] => 0
  | c :: cs => countContainersN c + countContainersL cs

end

theorem countContainersL_append : ∀ (a b : List PMNode),
    countContainersL (a ++ b) = countContainersL a + countContainersL b
  | [], b => by simp [countContainersL]
  | c :: cs, b => by
    have := countContainersL_append cs b
    simp only [List.cons_append, countContainersL, List.append_eq]
    omega

theorem fsize_zero_props : ∀ cs : List PMNode, fsize cs = 0 →
    countContainersL cs = 0 ∧ textContentL cs = ""
  | [] => by intro _; exact ⟨rfl, rfl⟩
  | c :: rest => by
    intro h
    have hc := nsize_nonneg c
    have hr := fsize_nonneg rest
    simp only [fsize] at h
    have h1 : c.nsize = 0 := by omega
    have h2 : fsize rest = 0 := by omega
    obtain ⟨hcount, htext⟩ := fsize_zero_props rest h2
    cases c with
    | text s m =>
      have : s.length = 0 := by
        simpa [PMNode.nsize] using h1
      have hs : s = "" := by
        cases s with
        | mk l => cases l with
          | nil => rfl
          | cons a as => simp [String.length] at this
      subst hs
      simp [countContainersL, countContainersN, textContentL, textContent, hcount, htext]
    | node t a cs =>
      have := fsize_nonneg cs
      simp only [PMNode.nsize] at h1
      omega

mutual

theorem insertD_props : ∀ (cs : List PMNode) (pos : Int) (n : PMNode)
    (cs' : List PMNode), insertD cs pos n = some cs' →
    countContainersL cs' = countContainersL cs + countContainersN n ∧
    (textContent n = "" → textContentL cs' = textContentL cs)
  | [], pos, n, cs' => by intro h; exact absurd h (by simp [insertD])
  | c :: rest, pos, n, cs' => by
    intro h
    simp only [insertD] at h
    split at h
    · simp only [Option.map_eq_some'] at h
      obtain ⟨r, hr, rfl⟩ := h
      obtain ⟨h1, h2⟩ := insertD_props rest _ _ _ hr
      constructor
      · simp only [countContainersL, h1]; omega
      · intro he
        simp only [textContentL, h2 he]
    · split at h
      · simp only [Option.map_eq_some'] at h
        obtain ⟨x, hx, rfl⟩ := h
        obtain ⟨h1, h2⟩ := insertN_props c _ _ _ hx
        constructor
        · simp only [countContainersL, h1]; omega
        · intro he
          simp only [textContentL, h2 he]
      · exact absurd h (by simp)

theorem insertN_props : ∀ (c : PMNode) (pos : Int) (n : PMNode) (c' : PMNode),
    insertN c pos n = some c' →
    countContainersN c' = countContainersN c + countContainersN n ∧
    (textContent n = "" → textContent c' = textContent c)
  | .text _ _, pos, n, c' => by intro h; exact absurd h (by simp [insertN])
  | .node t a ccs, pos, n, c' => by
    intro h
    simp only [insertN] at h
    split at h
    · rename_i cs2 heq
      split at h
      · injection h with h; subst h
        obtain ⟨pre, mid, suf, hcs, hcs2, hp, hm⟩ := rangeSplice_eq_some ccs _ _ _ _ heq
        obtain ⟨hmc, hmt⟩ := fsize_zero_props mid (by omega)
        subst hcs hcs2
        constructor
        · simp only [countContainersN, countContainersL_append, countContainersL, hmc]
          omega
        · intro he
          simp only [textContent, textContentL_append, textContentL, hmt, he]
          simp
      · exact absurd h (by simp)
    · simp only [Option.map_eq_some'] at h
      obtain ⟨x, hx, rfl⟩ := h
      obtain ⟨h1, h2⟩ := insertD_props ccs _ _ _ hx
      constructor
      · simp only [countContainersN, h1]; omega
      · intro he
        simp only [textContent, h2 he]

end

/-- `countContainers` of a whole document. -/
def countContainers (d : PMNode) : Nat := countContainersN d

/-- A returned `tr.insert` either placed exactly the given node (one more
Block for a `blockContainer`, no text change for an empty one) or was a
skipped null step leaving the document unchanged. -/
theorem insertNode_props (d : PMNode) (pos : Int) (n : PMNode) (d' : PMNode)
    (h : insertNode d pos n = some d') :
    d' = d ∨
      (countContainers d' = countContainers d + countContainersN n ∧
        (textContent n = "" → textContent d' = textContent d)) := by
  cases d with
  | text _ _ => exact absurd h (by simp [insertNode])
  | node t a cs =>
    simp only [insertNode] at h
    split at h
    · injection h with h
      cases hin : insertN (.node t a cs) pos n with
      | none =>
        rw [hin] at h
        exact Or.inl h.symm
      | some x =>
        rw [hin] at h
        simp only [Option.getD_some] at h
        subst h
        obtain ⟨h1, h2⟩ := insertN_props _ _ _ _ hin
        exact Or.inr ⟨by simpa [countContainers] using h1,
          fun he => by simpa [countContainers] using h2 he⟩
    · exact absurd h (by simp)



/-! ## Claims -/

/-- Concrete outcome of the aborted merge on `exDocC1`. -/
def exMergeFalseOut : CmdOut := ⟨false, exDocC1Lifted, none⟩

/-- Claim C1, counterexample: on the well-formed document `exDocC1`,
`BNMergeBlocks 6` (position 6 sits between the outer Block's Content node
and its Child Group, and both neighbour checks pass) returns `false`, yet
the document after the call differs from the document before: the step-1
lift of the next Block's children was dispatched before the backward
search failed. -/
theorem C1_counterexample :
    wfDoc exDocC1 = true ∧
    BNMergeBlocks exDocC1 6 = some ⟨false, exDocC1Lifted, none⟩ ∧
    exDocC1Lifted ≠ exDocC1 := by decide

/-- Claim C1, amended: a mutation command that returns `false` leaves the
document unchanged, except that `BNMergeBlocks` whose backward search for
a leaf Block fails returns `false` with the step-1 lift of the next
Block's children already committed (when that Block had children). -/
theorem C1_amended (d : PMNode) (c : MutCmd) (out : CmdOut)
    (h : runCmd d c = some out) (hf : out.ret = false) :
    out.doc = d ∨
      ∃ pos bi, c = .merge pos ∧
        getBlockInfoFromPos d (pos + 1) = some bi ∧
        bi.node.childCount = 2 ∧
        trLift d (bi.startPos + bi.contentNode.nsize + 1) (bi.endPos - 1)
          (bi.depth - 1) = some out.doc := by
  cases c with
  | create pos =>
    simp only [runCmd, BNCreateBlock, Option.map_eq_some'] at h
    obtain ⟨d', -, rfl⟩ := h
    simp at hf
  | delete pos =>
    simp only [runCmd, BNDeleteBlock] at h
    cases heq : getBlockInfoFromPos d pos with
    | none => rw [heq] at h; injection h with h; subst h; left; rfl
    | some bi =>
      rw [heq] at h
      simp only [Option.map_eq_some'] at h
      obtain ⟨d', -, rfl⟩ := h
      simp at hf
  | update pos patch =>
    simp only [runCmd, BNUpdateBlock] at h
    cases heq : getBlockInfoFromPos d pos with
    | none => rw [heq] at h; injection h with h; subst h; left; rfl
    | some bi =>
      rw [heq] at h
      simp only [Option.bind_eq_some, Option.map_eq_some'] at h
      obtain ⟨d1, -, d2, -, d3, -, d4, -, rfl⟩ := h
      simp at hf
  | merge pos =>
    simp only [runCmd, BNMergeBlocks, Option.bind_eq_some] at h
    obtain ⟨nt, hnt, pt, hpt, h⟩ := h
    by_cases hc : nt = "blockContainer" ∧ pt = "blockContainer"
    · rw [if_neg (by simp [hc.1, hc.2])] at h
      simp only [Option.bind_eq_some] at h
      obtain ⟨bi, hbi, d1, hd1, h⟩ := h
      cases hw : mergeWalk d1 ((pos - 1).toNat + 2) (pos - 1) true with
      | none => rw [hw] at h; exact absurd h (by simp)
      | some o =>
        cases o with
        | none =>
          rw [hw] at h
          injection h with h; subst h
          by_cases h2 : bi.node.childCount == 2
          · rw [if_pos h2] at hd1
            right
            exact ⟨pos, bi, rfl, hbi, by simpa using h2, hd1⟩
          · rw [if_neg h2] at hd1
            injection hd1 with hd1; subst hd1
            left; rfl
        | some p =>
          rw [hw] at h
          simp only [Option.bind_eq_some] at h
          obtain ⟨d2, -, d3, -, h⟩ := h
          split at h
          · injection h with h; subst h; simp at hf
          · exact absurd h (by simp)
    · rw [if_pos hc] at h
      injection h with h; subst h
      left; rfl
  | split pos kt =>
    simp only [runCmd, BNSplitBlock] at h
    cases heq : getBlockInfoFromPos d pos with
    | none => rw [heq] at h; injection h with h; subst h; left; rfl
    | some bi =>
      rw [heq] at h
      simp only [Option.bind_eq_some] at h
      obtain ⟨oc, -, nc, -, d1, -, d2, -, d3, -, h⟩ := h
      split at h
      · simp only [Option.map_eq_some'] at h
        obtain ⟨d4, -, rfl⟩ := h
        simp at hf
      · exact absurd h (by simp)

/-- Witness for `C1_amended` at the concrete aborted merge. -/
theorem C1_amended_witness :
    (runCmd exDocC1 (.merge 6) = some exMergeFalseOut ∧ exMergeFalseOut.ret = false) ∧
    (exMergeFalseOut.doc = exDocC1 ∨
      ∃ pos bi, (MutCmd.merge 6) = MutCmd.merge pos ∧
        getBlockInfoFromPos exDocC1 (pos + 1) = some bi ∧
        bi.node.childCount = 2 ∧
        trLift exDocC1 (bi.startPos + bi.contentNode.nsize + 1) (bi.endPos - 1)
          (bi.depth - 1) = some exMergeFalseOut.doc) :=
  ⟨⟨by decide, by decide⟩,
    C1_amended exDocC1 (.merge 6) exMergeFalseOut (by decide) (by decide)⟩

/-- `exDocA` after the invariant-violating update: the Block has acquired
an empty Child Group. -/
def exDocABad : PMNode :=
  mkDoc [.node "blockContainer" [] [para "a", .node "blockGroup" [] []]]

/-- The update patch of the C7 counterexample. -/
def exPatch7 : UpdatePatch := ⟨none, [], some (.plain "z"), none⟩

/-- `exDocB` after one application of `exPatch7` at position 9. -/
def exDocB1 : PMNode := mkDoc [blk "z" [], blk "gh" []]

/-- `exDocB` after two applications of `exPatch7` at position 9. -/
def exDocB2 : PMNode := mkDoc [blk "z" [], blk "z" []]

/-- Claim C8: the Tab and Shift-Tab bindings return the result of
`sinkListItem`/`liftListItem`, which is `false` when the indent/outdent is
not applicable — here on the single (first) Block of `exDocA`, whose caret
position resolves to a Block — although the comment in the source
(`// Always returning true for tab key presses ensures they're not
captured by the browser.`) and the spec require `true` unconditionally. -/
theorem C8_eval :
    tabHandler ⟨exDocA, 3, 3⟩ = false ∧
    shiftTabHandler ⟨exDocA, 3, 3⟩ = false ∧
    getBlockInfoFromPos exDocA 3 ≠ none := by decide

/-- Claim C9, counterexample: with the caret at position 0, which resolves
to no Block, the Backspace and Enter handlers do not return `false` — the
non-null assertion on `getBlockInfoFromPos` throws (modelled `none`). -/
theorem C9_counterexample :
    getBlockInfoFromPos exDocA 0 = none ∧
    handleBackspace ⟨exDocA, 0, 0⟩ = none ∧
    handleEnter ⟨exDocA, 0, 0⟩ = none := by decide

/-- Claim C9, amended: the mutation commands whose position fails to
resolve return boolean `false` with the document unchanged, but the
Backspace and Enter handlers dereference the failed resolution and throw
(modelled `none`) rather than returning `false`. -/
theorem C9_amended (st : EditorState) (patch : UpdatePatch) (kt : Bool)
    (h : getBlockInfoFromPos st.doc st.selFrom = none) :
    handleBackspace st = none ∧ handleEnter st = none ∧
    BNDeleteBlock st.doc st.selFrom = some ⟨false, st.doc, none⟩ ∧
    BNUpdateBlock st.doc st.selFrom patch = some ⟨false, st.doc, none⟩ ∧
    BNSplitBlock st.doc st.selFrom kt = some ⟨false, st.doc, none⟩ := by
  refine ⟨?_, ?_, ?_, ?_, ?_⟩
  · simp [handleBackspace, backspace1, h]
  · simp [handleEnter, enter1, h]
  · simp [BNDeleteBlock, h]
  · simp [BNUpdateBlock, h]
  · simp [BNSplitBlock, h]

/-- Witness for `C9_amended` at a caret that resolves to no Block. -/
theorem C9_amended_witness :
    getBlockInfoFromPos (EditorState.mk exDocA 0 0).doc
        (EditorState.mk exDocA 0 0).selFrom = none ∧
    (handleBackspace ⟨exDocA, 0, 0⟩ = none ∧ handleEnter ⟨exDocA, 0, 0⟩ = none ∧
      BNDeleteBlock (EditorState.mk exDocA 0 0).doc
          (EditorState.mk exDocA 0 0).selFrom =
        some ⟨false, (EditorState.mk exDocA 0 0).doc, none⟩ ∧
      BNUpdateBlock (EditorState.mk exDocA 0 0).doc
          (EditorState.mk exDocA 0 0).selFrom ⟨none, [], none, none⟩ =
        some ⟨false, (EditorState.mk exDocA 0 0).doc, none⟩ ∧
      BNSplitBlock (EditorState.mk exDocA 0 0).doc
          (EditorState.mk exDocA 0 0).selFrom false =
        some ⟨false, (EditorState.mk exDocA 0 0).doc, none⟩) :=
  ⟨by decide, C9_amended ⟨exDocA, 0, 0⟩ ⟨none, [], none, none⟩ false (by decide)⟩



/-! ## One-hole contexts

A `Ctx` addresses a subtree: each level records the enclosing node's type
and attributes and the siblings to the left and right of the descent.
`plug ctx x` rebuilds the document around a focus `x`; `ctxBase ctx` is the
absolute position of the focus node's opening token, so its content starts
at `ctxBase ctx + 1`.  These relate the positional commands to structural
surgery at the focus. -/

/-- One level of a one-hole context. -/
structure CtxFrame where
  tp : String
  attrs : AttrMap
  ls : List PMNode
  rs : List PMNode

/-- A one-hole context, outermost level first. -/
abbrev Ctx := List CtxFrame

/-- Rebuild the tree around a focus. -/
def plug : Ctx → PMNode → PMNode
  | [], x => x
  | f :: ctx, x => .node f.tp f.attrs (f.ls ++ [plug ctx x] ++ f.rs)

/-- Absolute position of the focus node's opening token (the root, which
has no own token, counts as `-1` so that its content starts at 0). -/
def ctxBase : Ctx → Int
  | [] => -1
  | f :: ctx => fsize f.ls + 1 + ctxBase ctx

/-- The resolution frames a context contributes around its focus: one per
level below the root, the focus's own frame last; `cbase` is the content
start of the current root. -/
def ctxFrames : Ctx → PMNode → Int → List Frame
  | [], _, _ => []
  | f :: ctx, x, cbase =>
    ⟨plug ctx x, cbase + fsize f.ls + 1⟩ ::
      ctxFrames ctx x (cbase + fsize f.ls + 1)

/-- Shift the start positions of a frame list. -/
def shiftFrames (d : Int) (fs : List Frame) : List Frame :=
  fs.map (fun fr => ⟨fr.node, fr.start + d⟩)

theorem shiftFrames_append (d : Int) (a b : List Frame) :
    shiftFrames d (a ++ b) = shiftFrames d a ++ shiftFrames d b := by
  simp [shiftFrames]

theorem ctxBase_ge : ∀ (ctx : Ctx), -1 ≤ ctxBase ctx
  | [] => by simp [ctxBase]
  | f :: ctx => by
    have h1 := ctxBase_ge ctx
    have h2 := fsize_nonneg f.ls
    simp only [ctxBase]
    omega

/-- A non-trivially plugged tree is an interior node. -/
theorem plug_cons_ne_text (f : CtxFrame) (ctx : Ctx) (x : PMNode) (s : String)
    (m : List String) : plug (f :: ctx) x ≠ .text s m := by
  simp [plug]

/-- The focus node fits inside the plugged tree's content. -/
theorem ctxBase_bound : ∀ (ctx : Ctx) (x : PMNode), ctx ≠ [] →
    ctxBase ctx + x.nsize ≤ csize (plug ctx x)
  | [], _, h => absurd rfl h
  | f :: ctx, x, _ => by
    have hls := fsize_nonneg f.ls
    have hrs := fsize_nonneg f.rs
    cases ctx with
    | nil =>
      simp only [ctxBase, plug, csize, fsize_append, PMNode.fsize]
      omega
    | cons g ctx' =>
      have ih := ctxBase_bound (g :: ctx') x (by simp)
      have h2 : csize (plug (g :: ctx') x) + 2 = (plug (g :: ctx') x).nsize := by
        cases hp : plug (g :: ctx') x with
        | text s m => exact absurd hp (plug_cons_ne_text g ctx' x s m)
        | node t2 a2 cs2 => simp only [csize, PMNode.nsize]; omega
      simp only [ctxBase, plug, csize, fsize_append, PMNode.fsize] at *
      omega

/-- A node focus sits strictly inside the plugged tree's token stream. -/
theorem plug_node_room : ∀ (ctx : Ctx) (t : String) (a : AttrMap)
    (cs : List PMNode),
    ctxBase ctx + fsize cs + 3 ≤ (plug ctx (.node t a cs)).nsize
  | [], t, a, cs => by simp only [plug, ctxBase, PMNode.nsize]; omega
  | f :: ctx, t, a, cs => by
    have hb := ctxBase_bound (f :: ctx) (.node t a cs) (by simp)
    have h2 : csize (plug (f :: ctx) (.node t a cs)) + 2 =
        (plug (f :: ctx) (.node t a cs)).nsize := by
      cases hp : plug (f :: ctx) (.node t a cs) with
      | text s m => exact absurd hp (plug_cons_ne_text f ctx _ s m)
      | node t2 a2 cs2 => simp only [csize, PMNode.nsize]; omega
    have h3 : (PMNode.node t a cs).nsize = 2 + fsize cs := by
      simp [PMNode.nsize]
    omega

mutual

theorem framesF_shift : ∀ (cs : List PMNode) (p d b : Int),
    framesF cs p (d + b) = shiftFrames d (framesF cs p b)
  | [], p, d, b => by simp [framesF, shiftFrames]
  | c :: cs, p, d, b => by
    simp only [framesF]
    split
    · simp [shiftFrames]
    · split
      · exact framesN_shift c p d b
      · have e : d + b + c.nsize = d + (b + c.nsize) := by omega
        rw [e, framesF_shift cs (p - c.nsize) d (b + c.nsize)]

theorem framesN_shift : ∀ (c : PMNode) (p d b : Int),
    framesN c p (d + b) = shiftFrames d (framesN c p b)
  | .text _ _, p, d, b => by simp [framesN, shiftFrames]
  | .node t a ccs, p, d, b => by
    simp only [framesN, shiftFrames, List.map_cons]
    have e0 : d + b + 1 = d + (b + 1) := by omega
    have e1 : d + (b + 1) = b + 1 + d := by omega
    rw [e0, framesF_shift ccs (p - 1) d (b + 1), e1]
    rfl

end

theorem ctxFrames_shift : ∀ (ctx : Ctx) (x : PMNode) (d b : Int),
    ctxFrames ctx x (d + b) = shiftFrames d (ctxFrames ctx x b)
  | [], _, d, b => by simp [ctxFrames, shiftFrames]
  | f :: ctx, x, d, b => by
    simp only [ctxFrames, shiftFrames, List.map_cons]
    have e0 : d + b + fsize f.ls + 1 = d + (b + fsize f.ls + 1) := by omega
    have e1 : d + (b + fsize f.ls + 1) = b + fsize f.ls + 1 + d := by omega
    rw [e0, ctxFrames_shift ctx x d (b + fsize f.ls + 1), e1]
    rfl

/-- Skipping a leading sibling run in the frame walk. -/
theorem framesF_skip : ∀ (ls rest : List PMNode) (p base : Int), 0 < p →
    framesF (ls ++ rest) (fsize ls + p) base =
      framesF rest p (base + fsize ls)
  | [], rest, p, base, _ => by simp [PMNode.fsize]
  | c :: ls, rest, p, base, hp => by
    have hc := nsize_nonneg c
    have hl := fsize_nonneg ls
    have ih := framesF_skip ls rest p (base + c.nsize) hp
    simp only [List.cons_append, framesF, PMNode.fsize, List.append_eq]
    rw [if_neg (by omega), if_neg (by omega)]
    have e1 : c.nsize + fsize ls + p - c.nsize = fsize ls + p := by omega
    rw [e1, ih]
    congr 1
    omega

/-- The frame chain of a position inside a plugged focus: the context's
frames followed by the frames within the focus. -/
theorem frames_plug : ∀ (ctx : Ctx) (t : String) (a : AttrMap) (cs : List PMNode)
    (q : Int), 0 ≤ q → q ≤ fsize cs →
    frames (plug ctx (.node t a cs)) (ctxBase ctx + 1 + q) =
      ctxFrames ctx (.node t a cs) 0 ++ framesF cs q (ctxBase ctx + 1)
  | [], t, a, cs, q, h0, h1 => by
    simp only [plug, ctxBase, frames, childrenOf, ctxFrames, List.nil_append]
    congr 1
    omega
  | f :: ctx, t, a, cs, q, h0, h1 => by
    have hls := fsize_nonneg f.ls
    have ih := frames_plug ctx t a cs q h0 h1
    have hcb := ctxBase_ge ctx
    have hroom := plug_node_room ctx t a cs
    simp only [plug, ctxBase, frames, childrenOf, ctxFrames]
    rw [List.append_assoc]
    have harr : fsize f.ls + 1 + ctxBase ctx + 1 + q =
        fsize f.ls + (1 + ctxBase ctx + 1 + q) := by omega
    rw [harr, framesF_skip f.ls _ _ _ (by omega)]
    rw [List.singleton_append]
    simp only [framesF]
    rw [if_neg (by omega), if_pos (by omega)]
    cases hp : plug ctx (.node t a cs) with
    | text s m =>
      cases ctx with
      | nil => simp [plug] at hp
      | cons g ctx' => exact absurd hp (plug_cons_ne_text g ctx' _ s m)
    | node t2 a2 cs2 =>
      simp only [framesN]
      rw [hp] at ih
      simp only [frames, childrenOf] at ih
      have e2 : 1 + ctxBase ctx + 1 + q - 1 = ctxBase ctx + 1 + q := by omega
      have e3 : (0 : Int) + fsize f.ls + 1 = fsize f.ls + 1 := by omega
      rw [e2, e3]
      congr 1
      have hL : framesF cs2 (ctxBase ctx + 1 + q) (fsize f.ls + 1) =
          shiftFrames (fsize f.ls + 1) (framesF cs2 (ctxBase ctx + 1 + q) 0) := by
        have h := framesF_shift cs2 (ctxBase ctx + 1 + q) (fsize f.ls + 1) 0
        simpa using h
      have hC : ctxFrames ctx (.node t a cs) (fsize f.ls + 1) =
          shiftFrames (fsize f.ls + 1) (ctxFrames ctx (.node t a cs) 0) := by
        have h := ctxFrames_shift ctx (.node t a cs) (fsize f.ls + 1) 0
        simpa using h
      have hR : framesF cs q (fsize f.ls + 1 + ctxBase ctx + 1) =
          shiftFrames (fsize f.ls + 1) (framesF cs q (ctxBase ctx + 1)) := by
        have h := framesF_shift cs q (fsize f.ls + 1) (ctxBase ctx + 1)
        have e6 : fsize f.ls + 1 + (ctxBase ctx + 1) =
            fsize f.ls + 1 + ctxBase ctx + 1 := by omega
        rw [e6] at h
        exact h
      simp only [List.append_eq]
      rw [hL, ih, shiftFrames_append, hC, hR]


/-! ## Plumbing lemmas for the context toolkit -/

/-- All members of a fragment are text runs (inline content). -/
def allText (cs : List PMNode) : Bool :=
  cs.all (fun c => match c with | .text _ _ => true | _ => false)

theorem mergeAttrs_nil (a : AttrMap) : mergeAttrs a [] = a := by
  simp [mergeAttrs]

theorem mergeAttrs_idem (a b : AttrMap) :
    mergeAttrs (mergeAttrs a b) b = mergeAttrs a b := by
  simp only [mergeAttrs, List.filter_append, List.append_left_inj]
  rw [List.filter_filter]
  have h1 : List.filter (fun p => !b.any fun q => q.1 == p.1) b = [] := by
    rw [List.filter_eq_nil_iff]
    intro p hp
    simp only [Bool.not_eq_true', Bool.not_eq_false]
    exact List.any_eq_true.mpr ⟨p, hp, by simp⟩
  rw [h1, List.append_nil]
  congr 1
  funext p
  rw [Bool.and_self]

theorem framesF_allText : ∀ (cs : List PMNode) (p b : Int),
    allText cs = true → framesF cs p b = []
  | [], _, _, _ => rfl
  | c :: cs, p, b, h => by
    simp only [allText, List.all_cons, Bool.and_eq_true] at h
    obtain ⟨h1, h2⟩ := h
    simp only [framesF]
    split
    · rfl
    · split
      · cases c with
        | text s m => simp [framesN]
        | node t a ccs => simp at h1
      · exact framesF_allText cs _ _ (by simpa [allText] using h2)

theorem isTextblockType_cases (t : String) (h : isTextblockType t = true) :
    t = "paragraph" ∨ t = "heading" ∨ t = "bulletListItem" ∨
      t = "numberedListItem" := by
  simp only [isTextblockType, Bool.or_eq_true, beq_iff_eq] at h
  tauto

theorem contentAllowed_textblock (t : String) (cs : List PMNode)
    (h : isTextblockType t = true) : contentAllowed t cs = allText cs := by
  rcases isTextblockType_cases t h with h' | h' | h' | h' <;>
    (subst h'; simp [contentAllowed, allText, isTextblockType])

theorem textblock_ne_container (t : String) (h : isTextblockType t = true) :
    (t == "blockContainer") = false := by
  rcases isTextblockType_cases t h with h' | h' | h' | h' <;> (subst h'; rfl)

theorem lastContainerFrame_append : ∀ (A B : List Frame),
    lastContainerFrame (A ++ B) =
      match lastContainerFrame B with
      | some (g, k) => some (g, k + A.length)
      | none => lastContainerFrame A
  | [], B => by
    simp only [List.nil_append, List.length_nil]
    cases lastContainerFrame B with
    | none => rfl
    | some p => rfl
  | f :: A, B => by
    have ih := lastContainerFrame_append A B
    simp only [List.cons_append, List.append_eq, lastContainerFrame, ih,
      List.length_cons]
    cases lastContainerFrame B with
    | none => rfl
    | some p =>
      rfl

theorem ctxBase_append : ∀ (ctx : Ctx) (f : CtxFrame),
    ctxBase (ctx ++ [f]) = ctxBase ctx + fsize f.ls + 1
  | [], f => by simp only [List.nil_append, ctxBase]; omega
  | g :: ctx, f => by
    have ih := ctxBase_append ctx f
    simp only [List.cons_append, List.append_eq, ctxBase] at ih ⊢
    omega

theorem plug_append : ∀ (ctx ctx' : Ctx) (x : PMNode),
    plug (ctx ++ ctx') x = plug ctx (plug ctx' x)
  | [], ctx', x => rfl
  | f :: ctx, ctx', x => by
    simp only [List.cons_append, List.append_eq, plug, plug_append ctx ctx' x]

/-- One unfolding step of `lastContainerFrame`. -/
theorem lastContainerFrame_cons (f : Frame) (rest : List Frame) :
    lastContainerFrame (f :: rest) =
      match lastContainerFrame rest with
      | some (g, k) => some (g, k + 1)
      | none =>
        if f.node.typeName == "blockContainer" then some (f, 1) else none := rfl

/-- The innermost frame of a non-trivial context chain is the focus. -/
theorem ctxFrames_lastContainer : ∀ (ctx : Ctx) (x : PMNode) (cbase : Int),
    ctx ≠ [] → (x.typeName == "blockContainer") = true →
    lastContainerFrame (ctxFrames ctx x cbase) =
      some (⟨x, cbase + ctxBase ctx + 1⟩, ctx.length)
  | [], _, _, h, _ => absurd rfl h
  | f :: ctx, x, cbase, _, hx => by
    cases ctx with
    | nil =>
      simp only [ctxFrames, lastContainerFrame_cons, lastContainerFrame, plug, hx,
        eq_self_iff_true, if_true]
      have e : cbase + ctxBase [f] + 1 = cbase + fsize f.ls + 1 := by
        simp only [ctxBase]; omega
      rw [e]
      rfl
    | cons g ctx' =>
      have ih := ctxFrames_lastContainer (g :: ctx') x (cbase + fsize f.ls + 1)
        (by simp) hx
      rw [show ctxFrames (f :: g :: ctx') x cbase =
          ⟨plug (g :: ctx') x, cbase + fsize f.ls + 1⟩ ::
            ctxFrames (g :: ctx') x (cbase + fsize f.ls + 1) from rfl]
      rw [lastContainerFrame_cons, ih]
      have e : cbase + ctxBase (f :: g :: ctx') + 1 =
          cbase + fsize f.ls + 1 + ctxBase (g :: ctx') + 1 := by
        simp only [ctxBase]; omega
      rw [e]
      rfl

theorem rangeSplice_none_inside : ∀ (ls : List PMNode) (x : PMNode)
    (rs : List PMNode) (p b : Int) (new : List PMNode),
    fsize ls < p → p < fsize ls + x.nsize →
    rangeSplice (ls ++ x :: rs) p b new = none
  | [], x, rs, p, b, new, h1, h2 => by
    simp only [PMNode.fsize] at h1 h2
    simp only [List.nil_append, rangeSplice]
    rw [if_neg (by omega), if_pos (by omega)]
  | c :: ls, x, rs, p, b, new, h1, h2 => by
    have hc := nsize_nonneg c
    have hl := fsize_nonneg ls
    simp only [PMNode.fsize, List.append_eq] at h1 h2
    have ih := rangeSplice_none_inside ls x rs (p - c.nsize) (b - c.nsize) new
      (by omega) (by omega)
    simp only [List.cons_append, List.append_eq, rangeSplice]
    rw [if_neg (by omega), if_neg (by omega), ih]
    rfl

/-- Positions spanned by the focus's content are in range. -/
theorem plug_posInRange (ctx : Ctx) (t : String) (a : AttrMap)
    (cs : List PMNode) (q : Int) (h0 : 0 ≤ q) (h1 : q ≤ fsize cs) :
    posInRange (plug ctx (.node t a cs)) (ctxBase ctx + 1 + q) = true := by
  cases ctx with
  | nil =>
    simp only [plug, ctxBase, posInRange, csize, Bool.and_eq_true, decide_eq_true_eq]
    omega
  | cons f ctx' =>
    have hb := ctxBase_bound (f :: ctx') (.node t a cs) (by simp)
    have hge := ctxBase_ge (f :: ctx')
    have hn : (PMNode.node t a cs).nsize = 2 + fsize cs := by simp [PMNode.nsize]
    have hcs : csize (plug (f :: ctx') (.node t a cs)) + 2 =
        (plug (f :: ctx') (.node t a cs)).nsize := by
      cases hp : plug (f :: ctx') (.node t a cs) with
      | text s m => exact absurd hp (plug_cons_ne_text f ctx' _ s m)
      | node t2 a2 cs2 => simp only [csize, PMNode.nsize]; omega
    simp only [posInRange, Bool.and_eq_true, decide_eq_true_eq]
    omega

/-- `getBlockInfoFromPos` at a position inside the Content node of a
plugged Block: the info record is determined by the decomposition. -/
theorem getBlockInfoFromPos_plug (ctx : Ctx) (battrs : AttrMap)
    (ct : String) (cattrs : AttrMap) (runs tail : List PMNode) (k : Int)
    (hctx : ctx ≠ [])
    (hct : isTextblockType ct = true)
    (hruns : allText runs = true)
    (hk0 : 0 ≤ k) (hk1 : k ≤ fsize runs) :
    getBlockInfoFromPos
        (plug ctx (.node "blockContainer" battrs
          (.node ct cattrs runs :: tail)))
        (ctxBase ctx + 2 + k) =
      some
        { node := .node "blockContainer" battrs (.node ct cattrs runs :: tail)
          contentNode := .node ct cattrs runs
          contentType := ct
          startPos := ctxBase ctx + 1
          endPos := ctxBase ctx + 1 + (2 + fsize runs + fsize tail)
          depth := ctx.length
          numChildBlocks :=
            if (.node ct cattrs runs :: tail).length == 2 then
              (((.node ct cattrs runs :: tail).getLast?).map
                PMNode.childCount).getD 0
            else 0 } := by
  have htail := fsize_nonneg tail
  have hcsz : fsize (PMNode.node ct cattrs runs :: tail) =
      2 + fsize runs + fsize tail := by
    simp only [PMNode.fsize, PMNode.nsize]
  have hq1 : (1 : Int) + k ≤ fsize (PMNode.node ct cattrs runs :: tail) := by
    rw [hcsz]; omega
  have hpos : ctxBase ctx + 2 + k = ctxBase ctx + 1 + (1 + k) := by omega
  have hfr := frames_plug ctx "blockContainer" battrs
    (.node ct cattrs runs :: tail) (1 + k) (by omega) hq1
  have hinner : framesF (PMNode.node ct cattrs runs :: tail) (1 + k)
      (ctxBase ctx + 1) = [⟨.node ct cattrs runs, ctxBase ctx + 2⟩] := by
    simp only [framesF]
    rw [if_neg (by omega), if_pos (by simp only [PMNode.nsize]; omega)]
    simp only [framesN]
    rw [framesF_allText runs _ _ hruns]
    congr 2
    omega
  have hlast : lastContainerFrame [(⟨.node ct cattrs runs, ctxBase ctx + 2⟩ : Frame)] =
      none := by
    simp only [lastContainerFrame, typeName, textblock_ne_container ct hct]
    rfl
  simp only [getBlockInfoFromPos, hpos,
    plug_posInRange ctx _ _ _ (1 + k) (by omega) hq1, eq_self_iff_true, if_true]
  rw [hfr, hinner, lastContainerFrame_append, hlast,
    ctxFrames_lastContainer ctx _ 0 hctx (by simp [typeName])]
  have e : (0 : Int) + ctxBase ctx + 1 = ctxBase ctx + 1 := by omega
  rw [e]
  simp only [childrenOf, List.head?, csize, hcsz, childCount]
  rfl


/-! ## Locality of the transform primitives

Each primitive's walk skips the siblings left of a context level and
descends into the level holding the edit; these lemmas reduce a primitive
applied to `plug ctx X` at a focus-relative position to the primitive's
action on the focus `X` itself. -/

/-- Context levels admissible for the walks: no level is a textblock (the
walks treat textblock levels specially). -/
def ctxWalkable (ctx : Ctx) : Bool :=
  ctx.all (fun f => !(isTextblockType f.tp))

theorem map_plug_nil (o : Option PMNode) : o.map (plug []) = o := by
  cases o with
  | none => rfl
  | some v => rfl

theorem plug_children_flat (f : CtxFrame) (x : PMNode) :
    f.ls ++ [x] ++ f.rs = f.ls ++ x :: f.rs := by simp

theorem insertD_skip : ∀ (ls rest : List PMNode) (p : Int) (n : PMNode),
    0 < p →
    insertD (ls ++ rest) (fsize ls + p) n =
      (insertD rest p n).map (fun r => ls ++ r)
  | [], rest, p, n, _ => by
    simp only [List.nil_append, PMNode.fsize]
    rw [show (0 : Int) + p = p from by omega]
    cases insertD rest p n with
    | none => rfl
    | some r => rfl
  | c :: ls, rest, p, n, hp => by
    have hc := nsize_nonneg c
    have hl := fsize_nonneg ls
    have ih := insertD_skip ls rest p n hp
    simp only [List.cons_append, List.append_eq, PMNode.fsize, insertD]
    rw [if_pos (by omega)]
    rw [show c.nsize + fsize ls + p - c.nsize = fsize ls + p from by omega, ih,
      Option.map_map]
    rfl

/-- Bound used at every context level: a focus-relative content position
sits strictly inside the plugged focus node. -/
theorem plug_room (ctx : Ctx) (t : String) (a : AttrMap) (cs : List PMNode)
    (q : Int) (h1 : q ≤ fsize cs) :
    ctxBase ctx + q + 3 ≤ (plug ctx (.node t a cs)).nsize := by
  have := plug_node_room ctx t a cs
  omega

theorem insertN_plug : ∀ (ctx : Ctx) (t : String) (a : AttrMap)
    (cs : List PMNode) (q : Int) (n : PMNode),
    0 ≤ q → q ≤ fsize cs →
    insertN (plug ctx (.node t a cs)) (ctxBase ctx + 1 + q) n =
      (insertN (.node t a cs) q n).map (plug ctx)
  | [], t, a, cs, q, n, h0, h1 => by
    rw [show ctxBase [] + 1 + q = q from by simp only [ctxBase]; omega,
      map_plug_nil]
    rfl
  | f :: ctx, t, a, cs, q, n, h0, h1 => by
    have hcb := ctxBase_ge ctx
    have hroom := plug_room ctx t a cs q h1
    have hls := fsize_nonneg f.ls
    have ih := insertN_plug ctx t a cs q n h0 h1
    generalize ho : insertN (.node t a cs) q n = o
    rw [ho] at ih
    simp only [plug, insertN, plug_children_flat]
    rw [rangeSplice_none_inside f.ls _ f.rs _ _ _
      (by simp only [ctxBase]; omega)
      (by simp only [ctxBase]; omega)]
    rw [show ctxBase (f :: ctx) + 1 + q =
      fsize f.ls + (ctxBase ctx + 2 + q) from by simp only [ctxBase]; omega]
    rw [show (f.ls ++ (plug ctx (.node t a cs)) :: f.rs : List PMNode) =
      f.ls ++ ((plug ctx (.node t a cs)) :: f.rs) from rfl]
    rw [insertD_skip f.ls _ _ n (by omega)]
    simp only [insertD]
    rw [if_neg (by omega), if_pos (by omega)]
    rw [show ctxBase ctx + 2 + q - 1 = ctxBase ctx + 1 + q from by omega, ih]
    cases o with
    | none => rfl
    | some r => rfl

theorem insertNode_in_range (t : String) (a : AttrMap) (cs : List PMNode)
    (p : Int) (n : PMNode) (h : posInRange (.node t a cs) p = true) :
    insertNode (.node t a cs) p n =
      some ((insertN (.node t a cs) p n).getD (.node t a cs)) := by
  simp only [insertNode, h, eq_self_iff_true, if_true]

/-- `tr.insert` at a focus-relative position: the fitting insert mapped
through the context, and the unchanged document for a skipped null step. -/
theorem insertNode_plug (ctx : Ctx) (t : String) (a : AttrMap)
    (cs : List PMNode) (q : Int) (n : PMNode) (h0 : 0 ≤ q) (h1 : q ≤ fsize cs) :
    insertNode (plug ctx (.node t a cs)) (ctxBase ctx + 1 + q) n =
      some (((insertN (.node t a cs) q n).map (plug ctx)).getD
        (plug ctx (.node t a cs))) := by
  have hpr := plug_posInRange ctx t a cs q h0 h1
  have h := insertN_plug ctx t a cs q n h0 h1
  cases ctx with
  | nil =>
    rw [show ctxBase [] + 1 + q = q from by simp only [ctxBase]; omega] at hpr ⊢
    rw [map_plug_nil]
    simp only [plug] at hpr ⊢
    rw [insertNode_in_range t a cs q n hpr]
  | cons f ctx' =>
    cases hp : plug (f :: ctx') (.node t a cs) with
    | text s m => exact absurd hp (plug_cons_ne_text f ctx' _ s m)
    | node t2 a2 cs2 =>
      rw [hp] at h hpr
      rw [insertNode_in_range t2 a2 cs2 _ n hpr, h]


theorem replW_skip : ∀ (ls rest : List PMNode) (a b : Int) (new : List PMNode),
    0 < a →
    replW (ls ++ rest) (fsize ls + a) (fsize ls + b) new =
      (replW rest a b new).map (fun r => ls ++ r)
  | [], rest, a, b, new, _ => by
    simp only [List.nil_append, PMNode.fsize]
    rw [show (0 : Int) + a = a from by omega, show (0 : Int) + b = b from by omega]
    cases replW rest a b new with
    | none => rfl
    | some r => rfl
  | c :: ls, rest, a, b, new, ha => by
    have hc := nsize_nonneg c
    have hl := fsize_nonneg ls
    have ih := replW_skip ls rest a b new ha
    simp only [List.cons_append, List.append_eq, PMNode.fsize, replW]
    rw [if_pos (by omega)]
    rw [show c.nsize + fsize ls + a - c.nsize = fsize ls + a from by omega,
      show c.nsize + fsize ls + b - c.nsize = fsize ls + b from by omega, ih,
      Option.map_map]
    rfl

theorem replDesc_plug : ∀ (ctx : Ctx) (t : String) (a : AttrMap)
    (cs : List PMNode) (qa qb : Int) (new : List PMNode),
    0 ≤ qa → qa ≤ qb → qb ≤ fsize cs →
    replDesc (plug ctx (.node t a cs)) (ctxBase ctx + 2 + qa)
        (ctxBase ctx + 2 + qb) new =
      (replTop t cs qa qb new).map (fun cs' => plug ctx (.node t a cs'))
  | [], t, a, cs, qa, qb, new, h0, h01, h1 => by
    rw [show ctxBase [] + 2 + qa = 1 + qa from by simp only [ctxBase]; omega,
      show ctxBase [] + 2 + qb = 1 + qb from by simp only [ctxBase]; omega]
    simp only [plug, replDesc, replTop]
    rw [show (1 : Int) + qa - 1 = qa from by omega,
      show (1 : Int) + qb - 1 = qb from by omega]
    cases rangeSplice cs qa qb new with
    | some r =>
      by_cases hca : contentAllowed t r = true
      · simp [hca]
      · simp [hca]
    | none =>
      simp only []
  | f :: ctx, t, a, cs, qa, qb, new, h0, h01, h1 => by
    have hcb := ctxBase_ge ctx
    have hrooma := plug_room ctx t a cs qa (by omega)
    have hroomb := plug_room ctx t a cs qb h1
    have hls := fsize_nonneg f.ls
    have ih := replDesc_plug ctx t a cs qa qb new h0 h01 h1
    generalize ho : replTop t cs qa qb new = o
    rw [ho] at ih
    simp only [plug, replDesc, plug_children_flat]
    rw [rangeSplice_none_inside f.ls _ f.rs _ _ _
      (by simp only [ctxBase]; omega) (by simp only [ctxBase]; omega)]
    rw [show ctxBase (f :: ctx) + 2 + qa - 1 =
        fsize f.ls + (ctxBase ctx + 2 + qa) from by simp only [ctxBase]; omega,
      show ctxBase (f :: ctx) + 2 + qb - 1 =
        fsize f.ls + (ctxBase ctx + 2 + qb) from by simp only [ctxBase]; omega]
    rw [replW_skip f.ls _ _ _ new (by omega)]
    simp only [replW]
    rw [if_neg (by omega), if_pos (by constructor; omega; omega)]
    rw [ih]
    cases o with
    | none => rfl
    | some r => rfl

/-- `tr.replace` with a closed slice at focus-relative positions. -/
theorem trReplace_closed_plug : ∀ (ctx : Ctx) (t : String) (a : AttrMap)
    (cs : List PMNode) (qa qb : Int) (new : List PMNode),
    0 ≤ qa → qa ≤ qb → qb ≤ fsize cs →
    trReplace (plug ctx (.node t a cs)) (ctxBase ctx + 1 + qa)
        (ctxBase ctx + 1 + qb) (.closed new) =
      (replTop t cs qa qb new).map (fun cs' => plug ctx (.node t a cs'))
  | [], t, a, cs, qa, qb, new, h0, h01, h1 => by
    rw [show ctxBase [] + 1 + qa = qa from by simp only [ctxBase]; omega,
      show ctxBase [] + 1 + qb = qb from by simp only [ctxBase]; omega]
    simp only [plug, trReplace]
    rw [if_pos (by exact ⟨h0, h01, h1⟩)]
  | f :: ctx, t, a, cs, qa, qb, new, h0, h01, h1 => by
    have hcb := ctxBase_ge ctx
    have hrooma := plug_room ctx t a cs qa (by omega)
    have hroomb := plug_room ctx t a cs qb h1
    have hls := fsize_nonneg f.ls
    have hrs := fsize_nonneg f.rs
    have hnn := nsize_nonneg (plug ctx (.node t a cs))
    have ih := replDesc_plug ctx t a cs qa qb new h0 h01 h1
    generalize ho : replTop t cs qa qb new = o
    rw [ho] at ih
    simp only [plug, trReplace, plug_children_flat, replTop]
    rw [if_pos (by
      refine ⟨by simp only [ctxBase]; omega, by omega, ?_⟩
      rw [show (fsize (f.ls ++ plug ctx (.node t a cs) :: f.rs)) =
        fsize f.ls + (plug ctx (.node t a cs)).nsize + fsize f.rs from by
          rw [show (f.ls ++ plug ctx (.node t a cs) :: f.rs : List PMNode) =
            f.ls ++ [plug ctx (.node t a cs)] ++ f.rs from by simp]
          rw [fsize_append, fsize_append]
          simp only [PMNode.fsize]
          omega]
      simp only [ctxBase]
      omega)]
    rw [rangeSplice_none_inside f.ls _ f.rs _ _ _
      (by simp only [ctxBase]; omega) (by simp only [ctxBase]; omega)]
    rw [show ctxBase (f :: ctx) + 1 + qa =
        fsize f.ls + (ctxBase ctx + 2 + qa) from by simp only [ctxBase]; omega,
      show ctxBase (f :: ctx) + 1 + qb =
        fsize f.ls + (ctxBase ctx + 2 + qb) from by simp only [ctxBase]; omega]
    rw [replW_skip f.ls _ _ _ new (by omega)]
    simp only [replW]
    rw [if_neg (by omega), if_pos (by constructor; omega; omega)]
    rw [ih]
    cases o with
    | none => rfl
    | some r => rfl


theorem ctxWalkable_cons (f : CtxFrame) (ctx : Ctx)
    (h : ctxWalkable (f :: ctx) = true) :
    isTextblockType f.tp = false ∧ ctxWalkable ctx = true := by
  simp only [ctxWalkable, List.all_cons, Bool.and_eq_true, Bool.not_eq_true'] at h
  exact ⟨h.1, by simpa [ctxWalkable] using h.2⟩

theorem setNodeMarkupF_skip : ∀ (ls rest : List PMNode) (p : Int)
    (ntp : Option String) (nat : AttrMap), 0 < p →
    setNodeMarkupF (ls ++ rest) (fsize ls + p) ntp nat =
      (setNodeMarkupF rest p ntp nat).map (fun r => ls ++ r)
  | [], rest, p, ntp, nat, _ => by
    simp only [List.nil_append, PMNode.fsize]
    rw [show (0 : Int) + p = p from by omega]
    cases setNodeMarkupF rest p ntp nat with
    | none => rfl
    | some r => rfl
  | c :: ls, rest, p, ntp, nat, hp => by
    have hc := nsize_nonneg c
    have hl := fsize_nonneg ls
    have ih := setNodeMarkupF_skip ls rest p ntp nat hp
    simp only [List.cons_append, List.append_eq, PMNode.fsize, setNodeMarkupF]
    rw [if_neg (by omega), if_neg (by omega)]
    rw [show c.nsize + fsize ls + p - c.nsize = fsize ls + p from by omega, ih,
      Option.map_map]
    rfl

theorem setNodeMarkupN_plug : ∀ (ctx : Ctx) (t : String) (a : AttrMap)
    (cs : List PMNode) (q : Int) (ntp : Option String) (nat : AttrMap),
    0 ≤ q → q ≤ fsize cs →
    setNodeMarkupN (plug ctx (.node t a cs)) (ctxBase ctx + 1 + q) ntp nat =
      (setNodeMarkupF cs q ntp nat).map (fun cs' => plug ctx (.node t a cs'))
  | [], t, a, cs, q, ntp, nat, h0, h1 => by
    rw [show ctxBase [] + 1 + q = q from by simp only [ctxBase]; omega]
    simp only [plug, setNodeMarkupN]
  | f :: ctx, t, a, cs, q, ntp, nat, h0, h1 => by
    have hcb := ctxBase_ge ctx
    have hroom := plug_room ctx t a cs q h1
    have hls := fsize_nonneg f.ls
    have ih := setNodeMarkupN_plug ctx t a cs q ntp nat h0 h1
    generalize ho : setNodeMarkupF cs q ntp nat = o
    rw [ho] at ih
    simp only [plug, setNodeMarkupN, plug_children_flat]
    rw [show ctxBase (f :: ctx) + 1 + q =
      fsize f.ls + (ctxBase ctx + 2 + q) from by simp only [ctxBase]; omega]
    rw [show (f.ls ++ plug ctx (.node t a cs) :: f.rs : List PMNode) =
      f.ls ++ (plug ctx (.node t a cs) :: f.rs) from rfl]
    rw [setNodeMarkupF_skip f.ls _ _ ntp nat (by omega)]
    simp only [setNodeMarkupF]
    rw [if_neg (by omega), if_pos (by omega)]
    rw [show ctxBase ctx + 2 + q - 1 = ctxBase ctx + 1 + q from by omega, ih]
    cases o with
    | none => rfl
    | some r => rfl

/-- `tr.setNodeMarkup` at a focus-relative position. -/
theorem trSetNodeMarkup_plug (ctx : Ctx) (t : String) (a : AttrMap)
    (cs : List PMNode) (q : Int) (ntp : Option String) (nat : AttrMap)
    (h0 : 0 ≤ q) (h1 : q < fsize cs) :
    trSetNodeMarkup (plug ctx (.node t a cs)) (ctxBase ctx + 1 + q) ntp nat =
      (setNodeMarkupF cs q ntp nat).map (fun cs' => plug ctx (.node t a cs')) := by
  cases ctx with
  | nil =>
    rw [show ctxBase [] + 1 + q = q from by simp only [ctxBase]; omega]
    simp only [plug, trSetNodeMarkup]
    rw [if_pos (by exact ⟨h0, h1⟩)]
  | cons f ctx' =>
    have hcb := ctxBase_ge ctx'
    have hroom := plug_room ctx' t a cs q (by omega)
    have hls := fsize_nonneg f.ls
    have hrs := fsize_nonneg f.rs
    have ih := setNodeMarkupN_plug ctx' t a cs q ntp nat h0 (by omega)
    generalize ho : setNodeMarkupF cs q ntp nat = o
    rw [ho] at ih
    simp only [plug, trSetNodeMarkup, plug_children_flat]
    rw [if_pos (by
      refine ⟨by simp only [ctxBase]; omega, ?_⟩
      rw [show (fsize (f.ls ++ plug ctx' (.node t a cs) :: f.rs)) =
        fsize f.ls + (plug ctx' (.node t a cs)).nsize + fsize f.rs from by
          rw [show (f.ls ++ plug ctx' (.node t a cs) :: f.rs : List PMNode) =
            f.ls ++ [plug ctx' (.node t a cs)] ++ f.rs from by simp]
          rw [fsize_append, fsize_append]
          simp only [PMNode.fsize]
          omega]
      simp only [ctxBase]
      omega)]
    rw [show ctxBase (f :: ctx') + 1 + q =
      fsize f.ls + (ctxBase ctx' + 2 + q) from by simp only [ctxBase]; omega]
    rw [show (f.ls ++ plug ctx' (.node t a cs) :: f.rs : List PMNode) =
      f.ls ++ (plug ctx' (.node t a cs) :: f.rs) from rfl]
    rw [setNodeMarkupF_skip f.ls _ _ ntp nat (by omega)]
    simp only [setNodeMarkupF]
    rw [if_neg (by omega), if_pos (by omega)]
    rw [show ctxBase ctx' + 2 + q - 1 = ctxBase ctx' + 1 + q from by omega, ih]
    cases o with
    | none => rfl
    | some r => rfl

theorem setBlockTypeF_skip : ∀ (ls rest : List PMNode) (p : Int)
    (tp' : String) (at' : AttrMap), 0 < p →
    setBlockTypeF (ls ++ rest) (fsize ls + p) tp' at' =
      (setBlockTypeF rest p tp' at').map (fun r => ls ++ r)
  | [], rest, p, tp', at', _ => by
    simp only [List.nil_append, PMNode.fsize]
    rw [show (0 : Int) + p = p from by omega]
    cases setBlockTypeF rest p tp' at' with
    | none => rfl
    | some r => rfl
  | c :: ls, rest, p, tp', at', hp => by
    have hc := nsize_nonneg c
    have hl := fsize_nonneg ls
    have ih := setBlockTypeF_skip ls rest p tp' at' hp
    simp only [List.cons_append, List.append_eq, PMNode.fsize, setBlockTypeF]
    rw [if_pos (by omega)]
    rw [show c.nsize + fsize ls + p - c.nsize = fsize ls + p from by omega, ih,
      Option.map_map]
    rfl

theorem setBlockTypeN_plug : ∀ (ctx : Ctx) (t : String) (a : AttrMap)
    (cs : List PMNode) (q : Int) (tp' : String) (at' : AttrMap),
    isTextblockType t = false → ctxWalkable ctx = true →
    0 ≤ q → q ≤ fsize cs →
    setBlockTypeN (plug ctx (.node t a cs)) (ctxBase ctx + 1 + q) tp' at' =
      (setBlockTypeF cs q tp' at').map (fun cs' => plug ctx (.node t a cs'))
  | [], t, a, cs, q, tp', at', htb, _, h0, h1 => by
    rw [show ctxBase [] + 1 + q = q from by simp only [ctxBase]; omega]
    simp only [plug, setBlockTypeN, htb, Bool.false_eq_true, if_false]
  | f :: ctx, t, a, cs, q, tp', at', htb, hw, h0, h1 => by
    obtain ⟨hftb, hw'⟩ := ctxWalkable_cons f ctx hw
    have hcb := ctxBase_ge ctx
    have hroom := plug_room ctx t a cs q h1
    have hls := fsize_nonneg f.ls
    have ih := setBlockTypeN_plug ctx t a cs q tp' at' htb hw' h0 h1
    generalize ho : setBlockTypeF cs q tp' at' = o
    rw [ho] at ih
    simp only [plug, setBlockTypeN, plug_children_flat, hftb, Bool.false_eq_true, if_false]
    rw [show ctxBase (f :: ctx) + 1 + q =
      fsize f.ls + (ctxBase ctx + 2 + q) from by simp only [ctxBase]; omega]
    rw [show (f.ls ++ plug ctx (.node t a cs) :: f.rs : List PMNode) =
      f.ls ++ (plug ctx (.node t a cs) :: f.rs) from rfl]
    rw [setBlockTypeF_skip f.ls _ _ tp' at' (by omega)]
    simp only [setBlockTypeF]
    rw [if_neg (by omega), if_pos (by omega)]
    rw [show ctxBase ctx + 2 + q - 1 = ctxBase ctx + 1 + q from by omega, ih]
    cases o with
    | none => rfl
    | some r => rfl

/-- `tr.setBlockType` at a focus-relative position. -/
theorem trSetBlockType_plug (ctx : Ctx) (t : String) (a : AttrMap)
    (cs : List PMNode) (q : Int) (tp' : String) (at' : AttrMap)
    (htb : isTextblockType t = false) (hw : ctxWalkable ctx = true)
    (h0 : 0 ≤ q) (h1 : q ≤ fsize cs) :
    trSetBlockType (plug ctx (.node t a cs)) (ctxBase ctx + 1 + q) tp' at' =
      (setBlockTypeF cs q tp' at').map (fun cs' => plug ctx (.node t a cs')) := by
  cases ctx with
  | nil =>
    rw [show ctxBase [] + 1 + q = q from by simp only [ctxBase]; omega]
    simp only [plug, trSetBlockType]
  | cons f ctx' =>
    obtain ⟨hftb, hw'⟩ := ctxWalkable_cons f ctx' hw
    have hcb := ctxBase_ge ctx'
    have hroom := plug_room ctx' t a cs q h1
    have hls := fsize_nonneg f.ls
    have ih := setBlockTypeN_plug ctx' t a cs q tp' at' htb hw' h0 h1
    generalize ho : setBlockTypeF cs q tp' at' = o
    rw [ho] at ih
    simp only [plug, trSetBlockType, plug_children_flat]
    rw [show ctxBase (f :: ctx') + 1 + q =
      fsize f.ls + (ctxBase ctx' + 2 + q) from by simp only [ctxBase]; omega]
    rw [show (f.ls ++ plug ctx' (.node t a cs) :: f.rs : List PMNode) =
      f.ls ++ (plug ctx' (.node t a cs) :: f.rs) from rfl]
    rw [setBlockTypeF_skip f.ls _ _ tp' at' (by omega)]
    simp only [setBlockTypeF]
    rw [if_neg (by omega), if_pos (by omega)]
    rw [show ctxBase ctx' + 2 + q - 1 = ctxBase ctx' + 1 + q from by omega, ih]
    cases o with
    | none => rfl
    | some r => rfl

theorem insertTextF_skip : ∀ (ls rest : List PMNode) (p : Int) (s : String),
    0 < p →
    insertTextF (ls ++ rest) (fsize ls + p) s =
      (insertTextF rest p s).map (fun r => ls ++ r)
  | [], rest, p, s, _ => by
    simp only [List.nil_append, PMNode.fsize]
    rw [show (0 : Int) + p = p from by omega]
    cases insertTextF rest p s with
    | none => rfl
    | some r => rfl
  | c :: ls, rest, p, s, hp => by
    have hc := nsize_nonneg c
    have hl := fsize_nonneg ls
    have ih := insertTextF_skip ls rest p s hp
    simp only [List.cons_append, List.append_eq, PMNode.fsize, insertTextF]
    rw [if_pos (by omega)]
    rw [show c.nsize + fsize ls + p - c.nsize = fsize ls + p from by omega, ih,
      Option.map_map]
    rfl

theorem insertTextN_plug : ∀ (ctx : Ctx) (t : String) (a : AttrMap)
    (cs : List PMNode) (q : Int) (s : String),
    isTextblockType t = false → ctxWalkable ctx = true →
    0 ≤ q → q ≤ fsize cs →
    insertTextN (plug ctx (.node t a cs)) (ctxBase ctx + 1 + q) s =
      (insertTextF cs q s).map (fun cs' => plug ctx (.node t a cs'))
  | [], t, a, cs, q, s, htb, _, h0, h1 => by
    rw [show ctxBase [] + 1 + q = q from by simp only [ctxBase]; omega]
    simp only [plug, insertTextN, htb, Bool.false_eq_true, if_false]
  | f :: ctx, t, a, cs, q, s, htb, hw, h0, h1 => by
    obtain ⟨hftb, hw'⟩ := ctxWalkable_cons f ctx hw
    have hcb := ctxBase_ge ctx
    have hroom := plug_room ctx t a cs q h1
    have hls := fsize_nonneg f.ls
    have ih := insertTextN_plug ctx t a cs q s htb hw' h0 h1
    generalize ho : insertTextF cs q s = o
    rw [ho] at ih
    simp only [plug, insertTextN, plug_children_flat, hftb, Bool.false_eq_true, if_false]
    rw [show ctxBase (f :: ctx) + 1 + q =
      fsize f.ls + (ctxBase ctx + 2 + q) from by simp only [ctxBase]; omega]
    rw [show (f.ls ++ plug ctx (.node t a cs) :: f.rs : List PMNode) =
      f.ls ++ (plug ctx (.node t a cs) :: f.rs) from rfl]
    rw [insertTextF_skip f.ls _ _ s (by omega)]
    simp only [insertTextF]
    rw [if_neg (by omega), if_pos (by omega)]
    rw [show ctxBase ctx + 2 + q - 1 = ctxBase ctx + 1 + q from by omega, ih]
    cases o with
    | none => rfl
    | some r => rfl

/-- `tr.insertText` at a focus-relative position. -/
theorem trInsertText_plug (ctx : Ctx) (t : String) (a : AttrMap)
    (cs : List PMNode) (q : Int) (s : String)
    (htb : isTextblockType t = false) (hw : ctxWalkable ctx = true)
    (hs : s.isEmpty = false) (h0 : 0 ≤ q) (h1 : q ≤ fsize cs) :
    trInsertText (plug ctx (.node t a cs)) (ctxBase ctx + 1 + q) s =
      (insertTextF cs q s).map (fun cs' => plug ctx (.node t a cs')) := by
  cases ctx with
  | nil =>
    rw [show ctxBase [] + 1 + q = q from by simp only [ctxBase]; omega]
    simp only [plug, trInsertText, hs, Bool.false_eq_true, if_false]
  | cons f ctx' =>
    obtain ⟨hftb, hw'⟩ := ctxWalkable_cons f ctx' hw
    have hcb := ctxBase_ge ctx'
    have hroom := plug_room ctx' t a cs q h1
    have hls := fsize_nonneg f.ls
    have ih := insertTextN_plug ctx' t a cs q s htb hw' h0 h1
    generalize ho : insertTextF cs q s = o
    rw [ho] at ih
    simp only [plug, trInsertText, plug_children_flat, hs, Bool.false_eq_true, if_false]
    rw [show ctxBase (f :: ctx') + 1 + q =
      fsize f.ls + (ctxBase ctx' + 2 + q) from by simp only [ctxBase]; omega]
    rw [show (f.ls ++ plug ctx' (.node t a cs) :: f.rs : List PMNode) =
      f.ls ++ (plug ctx' (.node t a cs) :: f.rs) from rfl]
    rw [insertTextF_skip f.ls _ _ s (by omega)]
    simp only [insertTextF]
    rw [if_neg (by omega), if_pos (by omega)]
    rw [show ctxBase ctx' + 2 + q - 1 = ctxBase ctx' + 1 + q from by omega, ih]
    cases o with
    | none => rfl
    | some r => rfl


theorem replOW_skip : ∀ (ls rest : List PMNode) (a b : Int) (runs : List PMNode),
    0 < a →
    replOW (ls ++ rest) (fsize ls + a) (fsize ls + b) runs =
      (replOW rest a b runs).map (fun r => ls ++ r)
  | [], rest, a, b, runs, _ => by
    simp only [List.nil_append, PMNode.fsize]
    rw [show (0 : Int) + a = a from by omega, show (0 : Int) + b = b from by omega]
    cases replOW rest a b runs with
    | none => rfl
    | some r => rfl
  | c :: ls, rest, a, b, runs, ha => by
    have hc := nsize_nonneg c
    have hl := fsize_nonneg ls
    have ih := replOW_skip ls rest a b runs ha
    simp only [List.cons_append, List.append_eq, PMNode.fsize, replOW]
    rw [if_pos (by omega)]
    rw [show c.nsize + fsize ls + a - c.nsize = fsize ls + a from by omega,
      show c.nsize + fsize ls + b - c.nsize = fsize ls + b from by omega, ih,
      Option.map_map]
    rfl

theorem replODesc_plug : ∀ (ctx : Ctx) (t : String) (a : AttrMap)
    (cs : List PMNode) (qa qb : Int) (runs : List PMNode),
    isTextblockType t = false → ctxWalkable ctx = true →
    0 ≤ qa → qa ≤ qb → qb ≤ fsize cs →
    replODesc (plug ctx (.node t a cs)) (ctxBase ctx + 2 + qa)
        (ctxBase ctx + 2 + qb) runs =
      (replOW cs qa qb runs).map (fun cs' => (plug ctx (.node t a cs'), false))
  | [], t, a, cs, qa, qb, runs, htb, _, h0, h01, h1 => by
    rw [show ctxBase [] + 2 + qa = 1 + qa from by simp only [ctxBase]; omega,
      show ctxBase [] + 2 + qb = 1 + qb from by simp only [ctxBase]; omega]
    simp only [plug, replODesc, htb, Bool.false_eq_true, false_and, if_false,
      PMNode.nsize]
    rw [if_pos (by constructor; omega; omega)]
    rw [show (1 : Int) + qa - 1 = qa from by omega,
      show (1 : Int) + qb - 1 = qb from by omega]
  | f :: ctx, t, a, cs, qa, qb, runs, htb, hw, h0, h01, h1 => by
    obtain ⟨hftb, hw'⟩ := ctxWalkable_cons f ctx hw
    have hcb := ctxBase_ge ctx
    have hrooma := plug_room ctx t a cs qa (by omega)
    have hroomb := plug_room ctx t a cs qb h1
    have hls := fsize_nonneg f.ls
    have hrs := fsize_nonneg f.rs
    have hnn := nsize_nonneg (plug ctx (.node t a cs))
    have ih := replODesc_plug ctx t a cs qa qb runs htb hw' h0 h01 h1
    generalize ho : replOW cs qa qb runs = o
    rw [ho] at ih
    have hfs : fsize (f.ls ++ plug ctx (.node t a cs) :: f.rs) =
        fsize f.ls + (plug ctx (.node t a cs)).nsize + fsize f.rs := by
      rw [show (f.ls ++ plug ctx (.node t a cs) :: f.rs : List PMNode) =
        f.ls ++ [plug ctx (.node t a cs)] ++ f.rs from by simp]
      rw [fsize_append, fsize_append]
      simp only [PMNode.fsize]
      omega
    simp only [plug, replODesc, plug_children_flat, hftb, Bool.false_eq_true,
      false_and, if_false, PMNode.nsize]
    rw [if_pos (by
      refine ⟨by simp only [ctxBase]; omega, ?_⟩
      rw [hfs]
      simp only [ctxBase]
      omega)]
    rw [show ctxBase (f :: ctx) + 2 + qa - 1 =
        fsize f.ls + (ctxBase ctx + 2 + qa) from by simp only [ctxBase]; omega,
      show ctxBase (f :: ctx) + 2 + qb - 1 =
        fsize f.ls + (ctxBase ctx + 2 + qb) from by simp only [ctxBase]; omega]
    rw [show (f.ls ++ plug ctx (.node t a cs) :: f.rs : List PMNode) =
      f.ls ++ (plug ctx (.node t a cs) :: f.rs) from rfl]
    rw [replOW_skip f.ls _ _ _ runs (by omega)]
    simp only [replOW]
    rw [if_neg (by omega), ih]
    cases o with
    | none => rfl
    | some r => rfl

/-- `tr.replace` with an open slice at focus-relative positions: a placed
run rewrites the focus, an unpeelable or unplaceable slice leaves the
document unchanged (skipped null step). -/
theorem trReplace_opened_plug (ctx : Ctx) (t : String) (a : AttrMap)
    (cs : List PMNode) (qa qb : Int) (new : List PMNode) (k : Nat)
    (htb : isTextblockType t = false) (hw : ctxWalkable ctx = true)
    (h0 : 0 ≤ qa) (h01 : qa ≤ qb) (h1 : qb ≤ fsize cs) :
    trReplace (plug ctx (.node t a cs)) (ctxBase ctx + 1 + qa)
        (ctxBase ctx + 1 + qb) (.opened new k) =
      some (plug ctx (.node t a
        (match peelOpen k new with
         | some runs => (replOW cs qa qb runs).getD cs
         | none => cs))) := by
  cases ctx with
  | nil =>
    rw [show ctxBase [] + 1 + qa = qa from by simp only [ctxBase]; omega,
      show ctxBase [] + 1 + qb = qb from by simp only [ctxBase]; omega]
    simp only [plug, trReplace]
    rw [if_pos (by exact ⟨h0, h01, h1⟩)]
  | cons f ctx' =>
    obtain ⟨hftb, hw'⟩ := ctxWalkable_cons f ctx' hw
    have hcb := ctxBase_ge ctx'
    have hrooma := plug_room ctx' t a cs qa (by omega)
    have hroomb := plug_room ctx' t a cs qb h1
    have hls := fsize_nonneg f.ls
    have hrs := fsize_nonneg f.rs
    have hnn := nsize_nonneg (plug ctx' (.node t a cs))
    have hfs : fsize (f.ls ++ plug ctx' (.node t a cs) :: f.rs) =
        fsize f.ls + (plug ctx' (.node t a cs)).nsize + fsize f.rs := by
      rw [show (f.ls ++ plug ctx' (.node t a cs) :: f.rs : List PMNode) =
        f.ls ++ [plug ctx' (.node t a cs)] ++ f.rs from by simp]
      rw [fsize_append, fsize_append]
      simp only [PMNode.fsize]
      omega
    cases hpk : peelOpen k new with
    | none =>
      simp only [plug, trReplace, plug_children_flat, hpk]
      rw [if_pos (by
        refine ⟨by simp only [ctxBase]; omega, by omega, ?_⟩
        rw [hfs]
        simp only [ctxBase]
        omega)]
    | some runs =>
      have ih := replODesc_plug ctx' t a cs qa qb runs htb hw' h0 h01 h1
      simp only [plug, trReplace, plug_children_flat, hpk]
      rw [if_pos (by
        refine ⟨by simp only [ctxBase]; omega, by omega, ?_⟩
        rw [hfs]
        simp only [ctxBase]
        omega)]
      generalize ho : replOW cs qa qb runs = o
      rw [ho] at ih
      rw [show ctxBase (f :: ctx') + 1 + qa =
          fsize f.ls + (ctxBase ctx' + 2 + qa) from by simp only [ctxBase]; omega,
        show ctxBase (f :: ctx') + 1 + qb =
          fsize f.ls + (ctxBase ctx' + 2 + qb) from by simp only [ctxBase]; omega]
      rw [show (f.ls ++ plug ctx' (.node t a cs) :: f.rs : List PMNode) =
        f.ls ++ (plug ctx' (.node t a cs) :: f.rs) from rfl]
      rw [replOW_skip f.ls _ _ _ runs (by omega)]
      simp only [replOW]
      rw [if_neg (by omega), ih]
      cases o with
      | none => rfl
      | some r => rfl


theorem plug_node_ne_text (ctx : Ctx) (t : String) (a : AttrMap)
    (cs : List PMNode) (s : String) (m : List String) :
    plug ctx (.node t a cs) ≠ .text s m := by
  cases ctx with
  | nil => simp [plug]
  | cons f ctx' => exact plug_cons_ne_text f ctx' _ s m

theorem delWalk_skip : ∀ (ls rest : List PMNode) (a b : Int),
    0 < a →
    delWalk (ls ++ rest) (fsize ls + a) (fsize ls + b) =
      (delWalk rest a b).map (fun r => (ls ++ r.1, r.2))
  | [], rest, a, b, _ => by
    simp only [List.nil_append, PMNode.fsize]
    rw [show (0 : Int) + a = a from by omega, show (0 : Int) + b = b from by omega]
    cases delWalk rest a b with
    | none => rfl
    | some r => rfl
  | c :: ls, rest, a, b, ha => by
    have hc := nsize_nonneg c
    have hl := fsize_nonneg ls
    have ih := delWalk_skip ls rest a b ha
    simp only [List.cons_append, List.append_eq, PMNode.fsize, delWalk]
    rw [if_pos (by omega)]
    rw [show c.nsize + fsize ls + a - c.nsize = fsize ls + a from by omega,
      show c.nsize + fsize ls + b - c.nsize = fsize ls + b from by omega, ih,
      Option.map_map]
    rfl

theorem delDesc_plug : ∀ (ctx : Ctx) (t : String) (a : AttrMap)
    (cs : List PMNode) (qa qb : Int),
    (∀ pr, delWalk cs qa qb = some pr → pr.2 = true →
      contentAllowed t pr.1 = true) →
    ¬(qa = 0 ∧ qb = fsize cs) →
    0 ≤ qa → qa ≤ qb → qb ≤ fsize cs →
    delDesc (plug ctx (.node t a cs)) (ctxBase ctx + 2 + qa)
        (ctxBase ctx + 2 + qb) =
      (delWalk cs qa qb).map (fun pr => some (plug ctx (.node t a pr.1)))
  | [], t, a, cs, qa, qb, hOK, hne, h0, h01, h1 => by
    rw [show ctxBase [] + 2 + qa = 1 + qa from by simp only [ctxBase]; omega,
      show ctxBase [] + 2 + qb = 1 + qb from by simp only [ctxBase]; omega]
    simp only [plug, delDesc]
    rw [if_neg (by rintro ⟨e1, e2⟩; exact hne ⟨by omega, by omega⟩)]
    rw [show (1 : Int) + qa - 1 = qa from by omega,
      show (1 : Int) + qb - 1 = qb from by omega]
    cases hdw : delWalk cs qa qb with
    | none => rfl
    | some pr =>
      simp only [Option.some_bind]
      cases hpr2 : pr.2 with
      | true =>
        rw [if_pos rfl, if_pos (hOK pr hdw hpr2)]
        rfl
      | false =>
        rw [if_neg (by simp)]
        rfl
  | f :: ctx, t, a, cs, qa, qb, hOK, hne, h0, h01, h1 => by
    have hcb := ctxBase_ge ctx
    have hrooma := plug_room ctx t a cs qa (by omega)
    have hroomb := plug_room ctx t a cs qb h1
    have hls := fsize_nonneg f.ls
    have ih := delDesc_plug ctx t a cs qa qb hOK hne h0 h01 h1
    generalize ho : delWalk cs qa qb = o
    rw [ho] at ih
    simp only [plug, delDesc, plug_children_flat]
    rw [if_neg (by
      rintro ⟨e1, e2⟩
      simp only [ctxBase] at e1
      omega)]
    rw [show ctxBase (f :: ctx) + 2 + qa - 1 =
        fsize f.ls + (ctxBase ctx + 2 + qa) from by simp only [ctxBase]; omega,
      show ctxBase (f :: ctx) + 2 + qb - 1 =
        fsize f.ls + (ctxBase ctx + 2 + qb) from by simp only [ctxBase]; omega]
    rw [show (f.ls ++ plug ctx (.node t a cs) :: f.rs : List PMNode) =
      f.ls ++ (plug ctx (.node t a cs) :: f.rs) from rfl]
    rw [delWalk_skip f.ls _ _ _ (by omega)]
    simp only [delWalk]
    rw [if_neg (by omega)]
    rw [if_pos (by
      cases hp : plug ctx (.node t a cs) with
      | text s m => exact absurd hp (plug_node_ne_text ctx t a cs s m)
      | node t2 a2 cs2 =>
        rw [hp] at hrooma hroomb
        simp only [delDescendable, Bool.and_eq_true, decide_eq_true_eq]
        constructor
        · omega
        · omega)]
    rw [ih]
    cases o with
    | none => rfl
    | some pr => rfl

/-- `tr.deleteRange` at focus-relative positions, when deletions flagged at
the focus keep its content valid. -/
theorem deleteRange_plug (ctx : Ctx) (t : String) (a : AttrMap)
    (cs : List PMNode) (qa qb : Int)
    (hOK : ∀ pr, delWalk cs qa qb = some pr → pr.2 = true →
      contentAllowed t pr.1 = true)
    (hne : ¬(qa = 0 ∧ qb = fsize cs))
    (h0 : 0 ≤ qa) (h01 : qa ≤ qb) (h1 : qb ≤ fsize cs) :
    deleteRange (plug ctx (.node t a cs)) (ctxBase ctx + 1 + qa)
        (ctxBase ctx + 1 + qb) =
      (delWalk cs qa qb).map (fun pr => plug ctx (.node t a pr.1)) := by
  cases ctx with
  | nil =>
    rw [show ctxBase [] + 1 + qa = qa from by simp only [ctxBase]; omega,
      show ctxBase [] + 1 + qb = qb from by simp only [ctxBase]; omega]
    simp only [plug, deleteRange]
    rw [if_pos (by exact ⟨h0, h01, h1⟩), if_neg hne]
    cases hdw : delWalk cs qa qb with
    | none => rfl
    | some pr =>
      simp only [Option.some_bind]
      cases hpr2 : pr.2 with
      | true =>
        rw [if_pos rfl, if_pos (hOK pr hdw hpr2)]
        rfl
      | false =>
        rw [if_neg (by simp)]
        rfl
  | cons f ctx' =>
    have hcb := ctxBase_ge ctx'
    have hrooma := plug_room ctx' t a cs qa (by omega)
    have hroomb := plug_room ctx' t a cs qb h1
    have hls := fsize_nonneg f.ls
    have hrs := fsize_nonneg f.rs
    have hnn := nsize_nonneg (plug ctx' (.node t a cs))
    have hfs : fsize (f.ls ++ plug ctx' (.node t a cs) :: f.rs) =
        fsize f.ls + (plug ctx' (.node t a cs)).nsize + fsize f.rs := by
      rw [show (f.ls ++ plug ctx' (.node t a cs) :: f.rs : List PMNode) =
        f.ls ++ [plug ctx' (.node t a cs)] ++ f.rs from by simp]
      rw [fsize_append, fsize_append]
      simp only [PMNode.fsize]
      omega
    have ih := delDesc_plug ctx' t a cs qa qb hOK hne h0 h01 h1
    generalize ho : delWalk cs qa qb = o
    rw [ho] at ih
    simp only [plug, deleteRange, plug_children_flat]
    rw [if_pos (by
      refine ⟨by simp only [ctxBase]; omega, by omega, ?_⟩
      rw [hfs]
      simp only [ctxBase]
      omega)]
    rw [if_neg (by
      rintro ⟨e1, e2⟩
      simp only [ctxBase] at e1
      omega)]
    rw [show ctxBase (f :: ctx') + 1 + qa =
        fsize f.ls + (ctxBase ctx' + 2 + qa) from by simp only [ctxBase]; omega,
      show ctxBase (f :: ctx') + 1 + qb =
        fsize f.ls + (ctxBase ctx' + 2 + qb) from by simp only [ctxBase]; omega]
    rw [show (f.ls ++ plug ctx' (.node t a cs) :: f.rs : List PMNode) =
      f.ls ++ (plug ctx' (.node t a cs) :: f.rs) from rfl]
    rw [delWalk_skip f.ls _ _ _ (by omega)]
    simp only [delWalk]
    rw [if_neg (by omega)]
    rw [if_pos (by
      cases hp : plug ctx' (.node t a cs) with
      | text s m => exact absurd hp (plug_node_ne_text ctx' t a cs s m)
      | node t2 a2 cs2 =>
        rw [hp] at hrooma hroomb
        simp only [delDescendable, Bool.and_eq_true, decide_eq_true_eq]
        constructor
        · omega
        · omega)]
    rw [ih]
    cases o with
    | none => rfl
    | some pr => rfl


/-- Rebuild the single-child chain `doc.cut` leaves around a cut range
strictly inside the focus. -/
def wrapCut : Ctx → PMNode → PMNode
  | [], y => y
  | f :: ctx, y => .node f.tp f.attrs [wrapCut ctx y]

theorem peelOpen_wrapCut : ∀ (ctx : Ctx) (k : Nat) (y : PMNode),
    peelOpen (ctx.length + k) [wrapCut ctx y] = peelOpen k [y]
  | [], k, y => by simp only [List.length_nil, Nat.zero_add, wrapCut]
  | f :: ctx, k, y => by
    have ih := peelOpen_wrapCut ctx k y
    simp only [List.length_cons, wrapCut]
    rw [show ctx.length + 1 + k = (ctx.length + k) + 1 from by omega]
    simp only [peelOpen]
    exact ih

theorem wrapCut_nsize_pos (ctx : Ctx) (t : String) (a : AttrMap)
    (cs : List PMNode) : 0 < csize (wrapCut ctx (.node t a cs)) + 1 := by
  have h : 0 ≤ csize (wrapCut ctx (.node t a cs)) := by
    cases ctx with
    | nil => simp only [wrapCut, csize]; exact fsize_nonneg cs
    | cons f ctx' =>
      simp only [wrapCut, csize, PMNode.fsize]
      have := nsize_nonneg (wrapCut ctx' (.node t a cs))
      omega
  omega

theorem wrapCut_csize_cons (f : CtxFrame) (ctx : Ctx) (y : PMNode) :
    csize (wrapCut (f :: ctx) y) = (wrapCut ctx y).nsize := by
  simp only [wrapCut, csize, PMNode.fsize]
  omega

theorem cutWalk_nil_of_nonpos : ∀ (cs : List PMNode) (a b : Int), b ≤ 0 →
    cutWalk cs a b = []
  | [], _, _, _ => rfl
  | c :: cs, a, b, hb => by
    simp only [cutWalk]
    rw [if_pos hb]

theorem cutWalk_skip : ∀ (ls rest : List PMNode) (a b : Int),
    0 ≤ a → 0 < b →
    cutWalk (ls ++ rest) (fsize ls + a) (fsize ls + b) = cutWalk rest a b
  | [], rest, a, b, _, _ => by
    simp only [List.nil_append, PMNode.fsize]
    rw [show (0 : Int) + a = a from by omega, show (0 : Int) + b = b from by omega]
  | c :: ls, rest, a, b, ha, hb => by
    have hc := nsize_nonneg c
    have hl := fsize_nonneg ls
    have ih := cutWalk_skip ls rest a b ha hb
    simp only [List.cons_append, List.append_eq, PMNode.fsize, cutWalk]
    rw [if_neg (by omega), if_pos (by omega)]
    rw [show c.nsize + fsize ls + a - c.nsize = fsize ls + a from by omega,
      show c.nsize + fsize ls + b - c.nsize = fsize ls + b from by omega, ih]

theorem cutN_plug : ∀ (ctx : Ctx) (t : String) (a : AttrMap)
    (cs : List PMNode) (u v : Int),
    0 ≤ u → u < v → v ≤ fsize cs →
    cutN (plug ctx (.node t a cs)) (ctxBase ctx + 2 + u) (ctxBase ctx + 2 + v) =
      wrapCut ctx (.node t a (cutWalk cs u v))
  | [], t, a, cs, u, v, h0, h01, h1 => by
    rw [show ctxBase [] + 2 + u = 1 + u from by simp only [ctxBase]; omega,
      show ctxBase [] + 2 + v = 1 + v from by simp only [ctxBase]; omega]
    simp only [plug, cutN, wrapCut]
    rw [show (1 : Int) + u - 1 = u from by omega,
      show (1 : Int) + v - 1 = v from by omega]
    rw [max_eq_left h0, min_eq_left h1, if_neg (by omega)]
  | f :: ctx, t, a, cs, u, v, h0, h01, h1 => by
    have hcb := ctxBase_ge ctx
    have hroomu := plug_room ctx t a cs u (by omega)
    have hroomv := plug_room ctx t a cs v h1
    have hls := fsize_nonneg f.ls
    have hrs := fsize_nonneg f.rs
    have hnn := nsize_nonneg (plug ctx (.node t a cs))
    have ih := cutN_plug ctx t a cs u v h0 h01 h1
    have hfs : fsize (f.ls ++ plug ctx (.node t a cs) :: f.rs) =
        fsize f.ls + (plug ctx (.node t a cs)).nsize + fsize f.rs := by
      rw [show (f.ls ++ plug ctx (.node t a cs) :: f.rs : List PMNode) =
        f.ls ++ [plug ctx (.node t a cs)] ++ f.rs from by simp]
      rw [fsize_append, fsize_append]
      simp only [PMNode.fsize]
      omega
    simp only [plug, cutN, wrapCut, plug_children_flat]
    have hA : max (ctxBase (f :: ctx) + 2 + u - 1) 0 =
        fsize f.ls + (ctxBase ctx + 2 + u) := by
      rw [max_eq_left (by simp only [ctxBase]; omega)]
      simp only [ctxBase]
      omega
    have hB : min (ctxBase (f :: ctx) + 2 + v - 1)
        (fsize (f.ls ++ plug ctx (.node t a cs) :: f.rs)) =
        fsize f.ls + (ctxBase ctx + 2 + v) := by
      rw [min_eq_left (by rw [hfs]; simp only [ctxBase]; omega)]
      simp only [ctxBase]
      omega
    rw [hA, hB, if_neg (by omega)]
    rw [show (f.ls ++ plug ctx (.node t a cs) :: f.rs : List PMNode) =
      f.ls ++ (plug ctx (.node t a cs) :: f.rs) from rfl]
    rw [cutWalk_skip f.ls _ _ _ (by omega) (by omega)]
    simp only [cutWalk]
    rw [if_neg (by omega), if_neg (by omega),
      if_neg (by rintro ⟨e1, e2⟩; omega)]
    rw [cutWalk_nil_of_nonpos f.rs _ _ (by omega), ih]

/-- `doc.cut` of a range strictly inside the focus: a single-child chain
down to the cut focus content. -/
theorem docCut_plug (ctx : Ctx) (t : String) (a : AttrMap) (cs : List PMNode)
    (u v : Int) (h0 : 0 ≤ u) (h01 : u < v) (h1 : v ≤ fsize cs) :
    docCut (plug ctx (.node t a cs)) (ctxBase ctx + 1 + u) (ctxBase ctx + 1 + v) =
      some (wrapCut ctx (.node t a (cutWalk cs u v))) := by
  cases ctx with
  | nil =>
    rw [show ctxBase [] + 1 + u = u from by simp only [ctxBase]; omega,
      show ctxBase [] + 1 + v = v from by simp only [ctxBase]; omega]
    simp only [plug, docCut, wrapCut]
    rw [if_pos (by exact ⟨h0, by omega, h1⟩), if_neg (by omega)]
  | cons f ctx' =>
    have hcb := ctxBase_ge ctx'
    have hroomu := plug_room ctx' t a cs u (by omega)
    have hroomv := plug_room ctx' t a cs v h1
    have hls := fsize_nonneg f.ls
    have hrs := fsize_nonneg f.rs
    have hnn := nsize_nonneg (plug ctx' (.node t a cs))
    have ih := cutN_plug ctx' t a cs u v h0 h01 h1
    have hfs : fsize (f.ls ++ plug ctx' (.node t a cs) :: f.rs) =
        fsize f.ls + (plug ctx' (.node t a cs)).nsize + fsize f.rs := by
      rw [show (f.ls ++ plug ctx' (.node t a cs) :: f.rs : List PMNode) =
        f.ls ++ [plug ctx' (.node t a cs)] ++ f.rs from by simp]
      rw [fsize_append, fsize_append]
      simp only [PMNode.fsize]
      omega
    simp only [plug, docCut, wrapCut, plug_children_flat]
    rw [if_pos (by
      refine ⟨by simp only [ctxBase]; omega, by omega, ?_⟩
      rw [hfs]
      simp only [ctxBase]
      omega)]
    rw [if_neg (by omega)]
    rw [show ctxBase (f :: ctx') + 1 + u =
        fsize f.ls + (ctxBase ctx' + 2 + u) from by simp only [ctxBase]; omega,
      show ctxBase (f :: ctx') + 1 + v =
        fsize f.ls + (ctxBase ctx' + 2 + v) from by simp only [ctxBase]; omega]
    rw [show (f.ls ++ plug ctx' (.node t a cs) :: f.rs : List PMNode) =
      f.ls ++ (plug ctx' (.node t a cs) :: f.rs) from rfl]
    rw [cutWalk_skip f.ls _ _ _ (by omega) (by omega)]
    simp only [cutWalk]
    rw [if_neg (by omega), if_neg (by omega),
      if_neg (by rintro ⟨e1, e2⟩; omega)]
    rw [cutWalk_nil_of_nonpos f.rs _ _ (by omega), ih]

theorem liftWalk_skip : ∀ (tp : String) (ls rest : List PMNode) (a b : Int)
    (tgt : Nat), 0 < a →
    liftWalk tp (ls ++ rest) (fsize ls + a) (fsize ls + b) tgt =
      (liftWalk tp rest a b tgt).map (fun r => ls ++ r)
  | _, [], rest, a, b, tgt, _ => by
    simp only [List.nil_append, PMNode.fsize]
    rw [show (0 : Int) + a = a from by omega, show (0 : Int) + b = b from by omega]
    cases liftWalk _ rest a b tgt with
    | none => rfl
    | some r => rfl
  | tp, c :: ls, rest, a, b, tgt, ha => by
    have hc := nsize_nonneg c
    have hl := fsize_nonneg ls
    have ih := liftWalk_skip tp ls rest a b tgt ha
    simp only [List.cons_append, List.append_eq, PMNode.fsize, liftWalk]
    rw [if_pos (by omega)]
    rw [show c.nsize + fsize ls + a - c.nsize = fsize ls + a from by omega,
      show c.nsize + fsize ls + b - c.nsize = fsize ls + b from by omega, ih,
      Option.map_map]
    rfl

theorem liftWalk_cons_succ (tp : String) (c : PMNode) (rest : List PMNode)
    (a b : Int) (tn : Nat) (hlt : ¬(a ≥ c.nsize))
    (hcond : 1 ≤ a ∧ b ≤ c.nsize - 1) :
    liftWalk tp (c :: rest) a b (tn + 1) =
      (liftN c (a - 1) (b - 1) tn).map (fun x => x :: rest) := by
  simp only [liftWalk]
  rw [if_neg hlt]
  show (if 1 ≤ a ∧ b ≤ c.nsize - 1 then
      (liftN c (a - 1) (b - 1) tn).map (fun x => x :: rest) else none) = _
  rw [if_pos hcond]

theorem liftN_plug : ∀ (ctx : Ctx) (t : String) (a : AttrMap)
    (cs : List PMNode) (qa qb : Int) (t0 : Nat),
    0 ≤ qa → qa ≤ qb → qb ≤ fsize cs →
    liftN (plug ctx (.node t a cs)) (ctxBase ctx + 1 + qa)
        (ctxBase ctx + 1 + qb) (t0 + ctx.length) =
      (liftWalk t cs qa qb t0).map (fun cs' => plug ctx (.node t a cs'))
  | [], t, a, cs, qa, qb, t0, h0, h01, h1 => by
    rw [show ctxBase [] + 1 + qa = qa from by simp only [ctxBase]; omega,
      show ctxBase [] + 1 + qb = qb from by simp only [ctxBase]; omega]
    simp only [plug, liftN, List.length_nil]
    rw [show t0 + 0 = t0 from rfl]
  | f :: ctx, t, a, cs, qa, qb, t0, h0, h01, h1 => by
    have hcb := ctxBase_ge ctx
    have hrooma := plug_room ctx t a cs qa (by omega)
    have hroomb := plug_room ctx t a cs qb h1
    have hls := fsize_nonneg f.ls
    have ih := liftN_plug ctx t a cs qa qb t0 h0 h01 h1
    generalize ho : liftWalk t cs qa qb t0 = o
    rw [ho] at ih
    simp only [plug, liftN, plug_children_flat, List.length_cons]
    rw [show ctxBase (f :: ctx) + 1 + qa =
        fsize f.ls + (ctxBase ctx + 2 + qa) from by simp only [ctxBase]; omega,
      show ctxBase (f :: ctx) + 1 + qb =
        fsize f.ls + (ctxBase ctx + 2 + qb) from by simp only [ctxBase]; omega]
    rw [show (f.ls ++ plug ctx (.node t a cs) :: f.rs : List PMNode) =
      f.ls ++ (plug ctx (.node t a cs) :: f.rs) from rfl]
    rw [show t0 + (ctx.length + 1) = (t0 + ctx.length) + 1 from by omega]
    rw [liftWalk_skip f.tp f.ls _ _ _ _ (by omega)]
    rw [liftWalk_cons_succ f.tp _ f.rs _ _ _ (by omega)
      (by constructor; omega; omega)]
    rw [show ctxBase ctx + 2 + qa - 1 = ctxBase ctx + 1 + qa from by omega,
      show ctxBase ctx + 2 + qb - 1 = ctxBase ctx + 1 + qb from by omega, ih]
    cases o with
    | none => rfl
    | some r => rfl

/-- `tr.lift` at focus-relative positions: descending `ctx.length` levels
leaves a countdown of `t0` for the walk below the focus. -/
theorem trLift_plug (ctx : Ctx) (t : String) (a : AttrMap) (cs : List PMNode)
    (qa qb : Int) (t0 : Nat) (h0 : 0 ≤ qa) (h01 : qa ≤ qb) (h1 : qb ≤ fsize cs) :
    trLift (plug ctx (.node t a cs)) (ctxBase ctx + 1 + qa)
        (ctxBase ctx + 1 + qb) (t0 + ctx.length) =
      (liftWalk t cs qa qb t0).map (fun cs' => plug ctx (.node t a cs')) := by
  cases ctx with
  | nil =>
    rw [show ctxBase [] + 1 + qa = qa from by simp only [ctxBase]; omega,
      show ctxBase [] + 1 + qb = qb from by simp only [ctxBase]; omega]
    simp only [plug, trLift, List.length_nil]
    rw [if_pos (by exact ⟨h0, h01, h1⟩), show t0 + 0 = t0 from rfl]
  | cons f ctx' =>
    have hcb := ctxBase_ge ctx'
    have hrooma := plug_room ctx' t a cs qa (by omega)
    have hroomb := plug_room ctx' t a cs qb h1
    have hls := fsize_nonneg f.ls
    have hrs := fsize_nonneg f.rs
    have hnn := nsize_nonneg (plug ctx' (.node t a cs))
    have hfs : fsize (f.ls ++ plug ctx' (.node t a cs) :: f.rs) =
        fsize f.ls + (plug ctx' (.node t a cs)).nsize + fsize f.rs := by
      rw [show (f.ls ++ plug ctx' (.node t a cs) :: f.rs : List PMNode) =
        f.ls ++ [plug ctx' (.node t a cs)] ++ f.rs from by simp]
      rw [fsize_append, fsize_append]
      simp only [PMNode.fsize]
      omega
    have ih := liftN_plug ctx' t a cs qa qb t0 h0 h01 h1
    generalize ho : liftWalk t cs qa qb t0 = o
    rw [ho] at ih
    simp only [plug, trLift, plug_children_flat, List.length_cons]
    rw [if_pos (by
      refine ⟨by simp only [ctxBase]; omega, by omega, ?_⟩
      rw [hfs]
      simp only [ctxBase]
      omega)]
    rw [show ctxBase (f :: ctx') + 1 + qa =
        fsize f.ls + (ctxBase ctx' + 2 + qa) from by simp only [ctxBase]; omega,
      show ctxBase (f :: ctx') + 1 + qb =
        fsize f.ls + (ctxBase ctx' + 2 + qb) from by simp only [ctxBase]; omega]
    rw [show (f.ls ++ plug ctx' (.node t a cs) :: f.rs : List PMNode) =
      f.ls ++ (plug ctx' (.node t a cs) :: f.rs) from rfl]
    rw [show t0 + (ctx'.length + 1) = (t0 + ctx'.length) + 1 from by omega]
    rw [liftWalk_skip f.tp f.ls _ _ _ _ (by omega)]
    rw [liftWalk_cons_succ f.tp _ f.rs _ _ _ (by omega)
      (by constructor; omega; omega)]
    rw [show ctxBase ctx' + 2 + qa - 1 = ctxBase ctx' + 1 + qa from by omega,
      show ctxBase ctx' + 2 + qb - 1 = ctxBase ctx' + 1 + qb from by omega, ih]
    cases o with
    | none => rfl
    | some r => rfl


/-! ## The update characterization -/

theorem length_pos_of_not_isEmpty (s : String) (h : ¬ s.isEmpty = true) :
    0 < s.length := by
  rw [String.isEmpty_iff] at h
  have : s.length ≠ 0 := fun h0 =>
    h (String.ext (List.eq_nil_of_length_eq_zero h0))
  omega

theorem spliceDrop_full : ∀ (cs : List PMNode), (∀ c ∈ cs, 0 < c.nsize) →
    spliceDrop cs (fsize cs) = some []
  | [], _ => by simp [spliceDrop, PMNode.fsize]
  | c :: rest, h => by
    have hc := h c (by simp)
    have hr : ∀ x ∈ rest, 0 < x.nsize := fun x hx => h x (by simp [hx])
    have hrs := fsize_nonneg rest
    simp only [spliceDrop, PMNode.fsize]
    rw [if_neg (by omega), if_neg (by omega)]
    rw [show c.nsize + fsize rest - c.nsize = fsize rest from by omega]
    exact spliceDrop_full rest hr

/-- Replacing the full range of a fragment. -/
theorem rangeSplice_full (cs new : List PMNode) (h : ∀ c ∈ cs, 0 < c.nsize) :
    rangeSplice cs 0 (fsize cs) new = some new := by
  cases cs with
  | nil =>
    simp [rangeSplice, spliceDrop, PMNode.fsize]
  | cons c rest =>
    simp only [rangeSplice, eq_self_iff_true, if_true]
    rw [spliceDrop_full (c :: rest) h]
    simp

theorem inlineContentToNodes_allText : ∀ (spans : List (String × List String))
    (rs : List PMNode), inlineContentToNodes spans = some rs →
    allText rs = true ∧ (∀ r ∈ rs, 0 < r.nsize)
  | [], rs, h => by
    simp only [inlineContentToNodes, List.mapM_nil, Option.pure_def,
      Option.some.injEq] at h
    subst h
    exact ⟨rfl, by simp⟩
  | sp :: rest, rs, h => by
    simp only [inlineContentToNodes, List.mapM_cons, Option.pure_def,
      Option.bind_eq_bind, Option.bind_eq_some, Option.some.injEq] at h
    obtain ⟨n, hn, rs', hrs', rfl⟩ := h
    split at hn
    · exact absurd hn (by simp)
    · rename_i hne
      injection hn with hn
      subst hn
      obtain ⟨h1, h2⟩ := inlineContentToNodes_allText rest rs'
        (by simpa [inlineContentToNodes] using hrs')
      refine ⟨by simpa [allText] using h1, ?_⟩
      intro r hr
      rcases List.mem_cons.mp hr with hr | hr
      · subst hr
        simp only [PMNode.nsize]
        have hpos := length_pos_of_not_isEmpty sp.1 hne
        omega
      · exact h2 r hr
  
theorem contentToRuns_allText (c : InlineContent) (rs : List PMNode)
    (h : contentToRuns c = some rs) :
    allText rs = true ∧ (∀ r ∈ rs, 0 < r.nsize) := by
  cases c with
  | plain s =>
    simp only [contentToRuns, mkText] at h
    split at h
    · exact absurd h (by simp)
    · rename_i hne
      simp only [Option.map_some', Option.some.injEq] at h
      subst h
      constructor
      · rfl
      · intro r hr
        simp only [List.mem_singleton] at hr
        subst hr
        simp only [PMNode.nsize]
        have hpos := length_pos_of_not_isEmpty s hne
        omega
  | styled spans =>
    exact inlineContentToNodes_allText spans rs h

/-- Retyping/re-attributing the node sitting exactly at a sibling
boundary. -/
theorem setNodeMarkupF_boundary : ∀ (ls : List PMNode) (x : PMNode)
    (rs : List PMNode) (ntp : Option String) (nat : AttrMap),
    (∀ c ∈ ls, 0 < c.nsize) →
    setNodeMarkupF (ls ++ x :: rs) (fsize ls) ntp nat =
      (setMarkupHere x ntp nat).map (fun x' => ls ++ x' :: rs)
  | [], x, rs, ntp, nat, _ => by
    simp only [List.nil_append, PMNode.fsize, setNodeMarkupF, if_true]
  | c :: ls, x, rs, ntp, nat, h => by
    have hc := h c (by simp)
    have hls : ∀ y ∈ ls, 0 < y.nsize := fun y hy => h y (by simp [hy])
    have hl := fsize_nonneg ls
    have ih := setNodeMarkupF_boundary ls x rs ntp nat hls
    simp only [List.cons_append, List.append_eq, PMNode.fsize, setNodeMarkupF]
    rw [if_neg (by omega), if_neg (by omega)]
    rw [show c.nsize + fsize ls - c.nsize = fsize ls from by omega, ih,
      Option.map_map]
    cases setMarkupHere x ntp nat with
    | none => rfl
    | some r => rfl

/-- The node type `BNUpdateBlock`'s markup step settles on. -/
def effType (ntp : Option String) (ct : String) : String :=
  ((ntp.bind (fun t => if schemaHasNode t then some t else none)).getD ct)

theorem effType_idem (ntp : Option String) (ct : String) :
    effType ntp (effType ntp ct) = effType ntp ct := by
  cases ntp with
  | none => rfl
  | some t =>
    by_cases h : schemaHasNode t = true
    · simp [effType, h]
    · simp [effType, Bool.not_eq_true] at h ⊢
      simp [h]


/-- What one `BNUpdateBlock` call with a content patch (and no children
patch) does to a decomposed document: replaces the Content node's inline
runs, retypes it to the effective patch type, and spreads the props over
the Content node's and the Block's attributes. -/
theorem BNUpdateBlock_char (ctxP : Ctx) (g : CtxFrame) (battrs : AttrMap)
    (ct : String) (cattrs : AttrMap) (runs tail : List PMNode) (k : Int)
    (ntp : Option String) (props : AttrMap) (c : InlineContent)
    (newruns : List PMNode)
    (hct : isTextblockType ct = true)
    (hruns : allText runs = true)
    (hrsz : ∀ r ∈ runs, 0 < r.nsize)
    (hk0 : 0 ≤ k) (hk1 : k ≤ fsize runs)
    (hcr : contentToRuns c = some newruns)
    (heff : isTextblockType (effType ntp ct) = true)
    (hls : ∀ x ∈ g.ls, 0 < x.nsize)
    (htail : tail = [] ∨ ∃ ga2 kids, tail = [.node "blockGroup" ga2 kids]) :
    BNUpdateBlock
        (plug ctxP (.node g.tp g.attrs (g.ls ++
          [.node "blockContainer" battrs (.node ct cattrs runs :: tail)] ++ g.rs)))
        (ctxBase (ctxP ++ [g]) + 2 + k)
        ⟨ntp, props, some c, none⟩ =
      some ⟨true,
        plug ctxP (.node g.tp g.attrs (g.ls ++
          [.node "blockContainer" (mergeAttrs battrs props)
            (.node (effType ntp ct) (mergeAttrs cattrs props) newruns :: tail)] ++ g.rs)),
        none⟩ := by
  obtain ⟨hnew, hnsz⟩ := contentToRuns_allText c newruns hcr
  have hrnn := fsize_nonneg runs
  have htnn := fsize_nonneg tail
  have hnrn := fsize_nonneg newruns
  have hCA1 : contentAllowed ct newruns = true := by
    rw [contentAllowed_textblock _ _ hct]
    exact hnew
  have hCA2 : contentAllowed (effType ntp ct) newruns = true := by
    rw [contentAllowed_textblock _ _ heff]
    exact hnew
  have hCAb : contentAllowed "blockContainer"
      (.node (effType ntp ct) (mergeAttrs cattrs props) newruns :: tail) = true := by
    rcases htail with h | ⟨ga2, kids, h⟩ <;> subst h <;>
      simp [contentAllowed, typeName, heff]
  have hd : plug (ctxP ++ [g])
      (.node "blockContainer" battrs (.node ct cattrs runs :: tail)) =
      plug ctxP (.node g.tp g.attrs (g.ls ++
        [.node "blockContainer" battrs (.node ct cattrs runs :: tail)] ++ g.rs)) := by
    rw [plug_append]
    rfl
  have hbi := getBlockInfoFromPos_plug (ctxP ++ [g]) battrs ct cattrs runs tail k
    (by simp) hct hruns hk0 hk1
  rw [hd] at hbi
  simp only [BNUpdateBlock, hbi, updChildrenStep, Option.some_bind,
    updContentStep, hcr]
  -- the content replace
  have hcb2 := ctxBase_append (ctxP ++ [g])
    ⟨"blockContainer", battrs, [], tail⟩
  simp only [PMNode.fsize] at hcb2
  have hd2 : plug ((ctxP ++ [g]) ++ [⟨"blockContainer", battrs, [], tail⟩])
      (.node ct cattrs runs) =
      plug ctxP (.node g.tp g.attrs (g.ls ++
        [.node "blockContainer" battrs (.node ct cattrs runs :: tail)] ++ g.rs)) := by
    rw [plug_append ((ctxP ++ [g])) [⟨"blockContainer", battrs, [], tail⟩],
      plug_append ctxP [g]]
    rfl
  have hrepl := trReplace_closed_plug
    ((ctxP ++ [g]) ++ [⟨"blockContainer", battrs, [], tail⟩]) ct cattrs runs
    0 (fsize runs) newruns (by omega) (by omega) (by omega)
  rw [hd2] at hrepl
  rw [show ctxBase (ctxP ++ [g]) + 1 + 1 =
      ctxBase ((ctxP ++ [g]) ++ [⟨"blockContainer", battrs, [], tail⟩]) + 1 + 0
    from by omega]
  rw [show ctxBase (ctxP ++ [g]) + 1 + (PMNode.node ct cattrs runs).nsize - 1 =
      ctxBase ((ctxP ++ [g]) ++ [⟨"blockContainer", battrs, [], tail⟩]) + 1 +
        fsize runs
    from by simp only [PMNode.nsize]; omega]
  rw [hrepl]
  simp only [replTop, rangeSplice_full runs newruns hrsz, hCA1, attrsOf,
    eq_self_iff_true, if_true, Option.map_some', Option.some_bind]
  -- the content-node markup
  have hd3 : plug ((ctxP ++ [g]) ++ [⟨"blockContainer", battrs, [], tail⟩])
      (.node ct cattrs newruns) =
      plug (ctxP ++ [g]) (.node "blockContainer" battrs
        (.node ct cattrs newruns :: tail)) := by
    rw [plug_append ((ctxP ++ [g])) [⟨"blockContainer", battrs, [], tail⟩]]
    rfl
  rw [hd3]
  have hmk1 := trSetNodeMarkup_plug (ctxP ++ [g]) "blockContainer" battrs
    (.node ct cattrs newruns :: tail) 0
    (ntp.bind (fun t => if schemaHasNode t then some t else none))
    (mergeAttrs cattrs props) (by omega)
    (by simp only [PMNode.fsize, PMNode.nsize]; omega)
  rw [show ctxBase (ctxP ++ [g]) + 1 =
    ctxBase (ctxP ++ [g]) + 1 + 0 from by omega]
  rw [hmk1]
  simp only [setNodeMarkupF, eq_self_iff_true, if_true, setMarkupHere]
  have hCA2d : contentAllowed
      ((ntp.bind (fun t => if schemaHasNode t then some t else none)).getD ct)
      newruns = true := hCA2
  simp only [hCA2d, eq_self_iff_true, if_true, Option.map_some',
    Option.some_bind]
  -- the block markup
  have hfold : ((ntp.bind fun t =>
      if schemaHasNode t = true then some t else none).getD ct) =
      effType ntp ct := rfl
  rw [hfold]
  have hd4 : plug (ctxP ++ [g]) (.node "blockContainer" battrs
      (.node (effType ntp ct) (mergeAttrs cattrs props) newruns :: tail)) =
      plug ctxP (.node g.tp g.attrs (g.ls ++
        [.node "blockContainer" battrs
          (.node (effType ntp ct) (mergeAttrs cattrs props) newruns :: tail)] ++ g.rs)) := by
    rw [plug_append ctxP [g]]
    rfl
  rw [hd4]
  have hcbg := ctxBase_append ctxP g
  have hfls := fsize_nonneg g.ls
  have hmk2 := trSetNodeMarkup_plug ctxP g.tp g.attrs
    (g.ls ++ (.node "blockContainer" battrs
      (.node (effType ntp ct) (mergeAttrs cattrs props) newruns :: tail)) :: g.rs)
    (fsize g.ls) none (mergeAttrs battrs props) (by omega)
    (by
      rw [show (g.ls ++ (.node "blockContainer" battrs
        (.node (effType ntp ct) (mergeAttrs cattrs props) newruns :: tail)) :: g.rs
          : List PMNode) =
        g.ls ++ [.node "blockContainer" battrs
          (.node (effType ntp ct) (mergeAttrs cattrs props) newruns :: tail)] ++ g.rs
        from by simp]
      rw [fsize_append, fsize_append]
      have := fsize_nonneg g.rs
      simp only [PMNode.fsize, PMNode.nsize]
      have := fsize_nonneg newruns
      omega)
  rw [show ctxBase (ctxP ++ [g]) + 1 + 0 - 1 =
    ctxBase ctxP + 1 + fsize g.ls from by omega]
  rw [show (g.ls ++
      [PMNode.node "blockContainer" battrs
        (.node (effType ntp ct) (mergeAttrs cattrs props) newruns :: tail)] ++ g.rs
      : List PMNode) =
    g.ls ++ (PMNode.node "blockContainer" battrs
      (.node (effType ntp ct) (mergeAttrs cattrs props) newruns :: tail)) :: g.rs
    from by simp]
  rw [hmk2]
  rw [setNodeMarkupF_boundary g.ls _ g.rs none (mergeAttrs battrs props) hls]
  simp only [setMarkupHere, Option.getD_none, hCAb, eq_self_iff_true, if_true,
    Option.map_some']
  rw [List.append_assoc, List.singleton_append]


/-- Claim C10: a successful `BNUpdateBlock` whose patch specifies only
content (no type, no props, no children) changes only the inline content
inside the Content node: the surrounding document (`ctxP`, `g`), the
Block's attributes, the Content node's type and attributes, and the
Block's Child Group all reappear unchanged, with only `runs` replaced by
the patch's runs. -/
theorem C10_content_frame (ctxP : Ctx) (g : CtxFrame) (battrs : AttrMap)
    (ct : String) (cattrs : AttrMap) (runs tail : List PMNode) (k : Int)
    (c : InlineContent) (newruns : List PMNode)
    (hct : isTextblockType ct = true)
    (hruns : allText runs = true)
    (hrsz : ∀ r ∈ runs, 0 < r.nsize)
    (hk0 : 0 ≤ k) (hk1 : k ≤ fsize runs)
    (hcr : contentToRuns c = some newruns)
    (hls : ∀ x ∈ g.ls, 0 < x.nsize)
    (htail : tail = [] ∨ ∃ ga2 kids, tail = [.node "blockGroup" ga2 kids]) :
    BNUpdateBlock
        (plug ctxP (.node g.tp g.attrs (g.ls ++
          [.node "blockContainer" battrs (.node ct cattrs runs :: tail)] ++ g.rs)))
        (ctxBase (ctxP ++ [g]) + 2 + k)
        ⟨none, [], some c, none⟩ =
      some ⟨true,
        plug ctxP (.node g.tp g.attrs (g.ls ++
          [.node "blockContainer" battrs
            (.node ct cattrs newruns :: tail)] ++ g.rs)),
        none⟩ := by
  have h := BNUpdateBlock_char ctxP g battrs ct cattrs runs tail k none [] c
    newruns hct hruns hrsz hk0 hk1 hcr (by simpa [effType] using hct) hls htail
  simpa [effType, mergeAttrs_nil] using h

/-- Witness for `C10_content_frame`: replacing the content of the single
Block `"a"` by `"z"` leaves the Block, its Content node's type, and all
attributes in place. -/
theorem C10_content_frame_witness :
    BNUpdateBlock
        (plug [CtxFrame.mk "doc" [] [] []]
          (.node "blockGroup" [] ([] ++
            [.node "blockContainer" [] (.node "paragraph" [] [.text "a" []] :: [])] ++ [])))
        (ctxBase ([CtxFrame.mk "doc" [] [] []] ++ [CtxFrame.mk "blockGroup" [] [] []]) + 2 + 0)
        ⟨none, [], some (.plain "z"), none⟩ =
      some ⟨true,
        plug [CtxFrame.mk "doc" [] [] []]
          (.node "blockGroup" [] ([] ++
            [.node "blockContainer" []
              (.node "paragraph" [] [.text "z" []] :: [])] ++ [])),
        none⟩ := by
  have h := C10_content_frame [CtxFrame.mk "doc" [] [] []]
    (CtxFrame.mk "blockGroup" [] [] []) [] "paragraph" [] [.text "a" []] [] 0
    (.plain "z") [.text "z" []] (by decide) (by decide)
    (by intro r hr; simp only [List.mem_singleton] at hr; subst hr; decide)
    (by decide) (by decide) (by decide)
    (by intro x hx; simp at hx) (Or.inl rfl)
  exact h

/-! ## Helpers for the split characterization -/

theorem typeName_container_pos (x : PMNode)
    (h : x.typeName = "blockContainer") : 0 < x.nsize := by
  cases x with
  | text s m => simp [typeName] at h
  | node t a cs =>
    have := fsize_nonneg cs
    simp only [PMNode.nsize]
    omega

theorem rangeSplice_at_boundary : ∀ (pre rest new : List PMNode),
    (∀ c ∈ pre, 0 < c.nsize) →
    rangeSplice (pre ++ rest) (fsize pre) (fsize pre) new =
      some (pre ++ new ++ rest)
  | [], rest, new, _ => by
    cases rest with
    | nil => simp [rangeSplice, spliceDrop, PMNode.fsize]
    | cons c r =>
      simp only [List.nil_append, PMNode.fsize, rangeSplice, eq_self_iff_true,
        if_true, spliceDrop]
      simp
  | c :: pre, rest, new, h => by
    have hc := h c (by simp)
    have hp : ∀ x ∈ pre, 0 < x.nsize := fun x hx => h x (by simp [hx])
    have hpn := fsize_nonneg pre
    have ih := rangeSplice_at_boundary pre rest new hp
    simp only [List.cons_append, List.append_eq, PMNode.fsize, rangeSplice]
    rw [if_neg (by omega), if_neg (by omega)]
    rw [show c.nsize + fsize pre - c.nsize = fsize pre from by omega, ih]
    rfl

theorem contentAllowed_group (cs : List PMNode) (hne : cs ≠ [])
    (hall : ∀ x ∈ cs, x.typeName = "blockContainer") :
    contentAllowed "blockGroup" cs = true := by
  simp only [contentAllowed,
    show (("blockGroup" : String) == "doc") = false from rfl,
    show (("blockGroup" : String) == "blockGroup") = true from rfl,
    Bool.false_eq_true, if_false, eq_self_iff_true, if_true, Bool.and_eq_true]
  constructor
  · cases cs with
    | nil => exact absurd rfl hne
    | cons c r => rfl
  · rw [List.all_eq_true]
    intro x hx
    simp [hall x hx]

theorem allText_cutWalk : ∀ (cs : List PMNode) (a b : Int),
    allText cs = true → allText (cutWalk cs a b) = true
  | [], _, _, _ => rfl
  | c :: cs, a, b, h => by
    simp only [allText, List.all_cons, Bool.and_eq_true] at h
    obtain ⟨h1, h2⟩ := h
    have ih := allText_cutWalk cs (a - c.nsize) (b - c.nsize)
      (by simpa [allText] using h2)
    cases c with
    | node t a' cs' => simp at h1
    | text s m =>
      simp only [cutWalk]
      split
      · rfl
      · split
        · exact ih
        · simp only [allText, List.all_cons, Bool.and_eq_true]
          constructor
          · by_cases hcov : a ≤ 0 ∧ b ≥ (PMNode.text s m).nsize
            · rw [if_pos hcov]
            · rw [if_neg hcov]
              simp [cutN]
          · simpa [allText] using ih

theorem ctxWalkable_append (ctx : Ctx) (f : CtxFrame) :
    ctxWalkable (ctx ++ [f]) =
      (ctxWalkable ctx && !(isTextblockType f.tp)) := by
  simp [ctxWalkable, List.all_append]

mutual

theorem nsize_plug_sub : ∀ (ctx : Ctx) (t t' : String) (a a' : AttrMap)
    (cs cs' : List PMNode),
    (plug ctx (.node t a cs)).nsize - (plug ctx (.node t' a' cs')).nsize =
      fsize cs - fsize cs'
  | [], t, t', a, a', cs, cs' => by
    simp only [plug, PMNode.nsize]
    omega
  | f :: ctx, t, t', a, a', cs, cs' => by
    have ih := nsize_plug_sub ctx t t' a a' cs cs'
    simp only [plug, PMNode.nsize, plug_children_flat]
    rw [show (f.ls ++ plug ctx (.node t a cs) :: f.rs : List PMNode) =
      f.ls ++ [plug ctx (.node t a cs)] ++ f.rs from by simp]
    rw [show (f.ls ++ plug ctx (.node t' a' cs') :: f.rs : List PMNode) =
      f.ls ++ [plug ctx (.node t' a' cs')] ++ f.rs from by simp]
    rw [fsize_append, fsize_append, fsize_append, fsize_append]
    simp only [PMNode.fsize]
    omega

end

theorem csize_plug_sub (ctx : Ctx) (t t' : String) (a a' : AttrMap)
    (cs cs' : List PMNode) :
    csize (plug ctx (.node t a cs)) - csize (plug ctx (.node t' a' cs')) =
      fsize cs - fsize cs' := by
  have h := nsize_plug_sub ctx t t' a a' cs cs'
  have h1 : csize (plug ctx (.node t a cs)) + 2 =
      (plug ctx (.node t a cs)).nsize := by
    cases hp : plug ctx (.node t a cs) with
    | text s m => exact absurd hp (plug_node_ne_text ctx t a cs s m)
    | node t2 a2 cs2 => simp only [csize, PMNode.nsize]; omega
  have h2 : csize (plug ctx (.node t' a' cs')) + 2 =
      (plug ctx (.node t' a' cs')).nsize := by
    cases hp : plug ctx (.node t' a' cs') with
    | text s m => exact absurd hp (plug_node_ne_text ctx t' a' cs' s m)
    | node t2 a2 cs2 => simp only [csize, PMNode.nsize]; omega
  omega

/-! ## Invariant preservation for content-only updates -/

theorem wfBlockL_append (a b : List PMNode) :
    wfBlockL (a ++ b) = (wfBlockL a && wfBlockL b) := by
  induction a with
  | nil => simp [wfBlockL]
  | cons c cs ih => simp [wfBlockL, ih, Bool.and_assoc]

theorem wfBlockL_mem (l : List PMNode) (h : wfBlockL l = true) :
    ∀ x ∈ l, wfBlock x = true := by
  induction l with
  | nil => intro x hx; exact absurd hx (List.not_mem_nil x)
  | cons c cs ih =>
    simp only [wfBlockL, Bool.and_eq_true] at h
    intro x hx
    rcases List.mem_cons.mp hx with hx | hx
    · subst hx; exact h.1
    · exact ih h.2 x hx

theorem wfBlock_nsize_pos (x : PMNode) (h : wfBlock x = true) :
    0 < x.nsize := by
  cases x with
  | text s m =>
    exact absurd ((show wfBlock (.text s m) = false from rfl).symm.trans h)
      (by decide)
  | node t a cs =>
    have := fsize_nonneg cs
    simp only [PMNode.nsize]
    omega

theorem wfInlineL_elim (rs : List PMNode) (h : wfInlineL rs = true) :
    allText rs = true ∧ ∀ r ∈ rs, 0 < r.nsize := by
  induction rs with
  | nil => exact ⟨rfl, fun r hr => absurd hr (List.not_mem_nil r)⟩
  | cons c cs ih =>
    cases c with
    | node t a cs2 =>
      exact absurd ((show wfInlineL (.node t a cs2 :: cs) = false from
        rfl).symm.trans h) (by decide)
    | text s m =>
      simp only [wfInlineL, Bool.and_eq_true, Bool.not_eq_true'] at h
      obtain ⟨h1, h2⟩ := h
      obtain ⟨ha, hs⟩ := ih h2
      refine ⟨by simpa [allText] using ha, ?_⟩
      intro r hr
      rcases List.mem_cons.mp hr with hr | hr
      · subst hr
        simp only [PMNode.nsize]
        have := length_pos_of_not_isEmpty s (by simp [h1])
        omega
      · exact hs r hr

theorem wfInlineL_intro (rs : List PMNode) (ha : allText rs = true)
    (hs : ∀ r ∈ rs, 0 < r.nsize) : wfInlineL rs = true := by
  induction rs with
  | nil => rfl
  | cons c cs ih =>
    cases c with
    | node t a cs2 =>
      exact absurd ha (by simp [allText])
    | text s m =>
      have hpos : 0 < s.length := by
        have := hs (.text s m) (by simp)
        simp only [PMNode.nsize] at this
        exact_mod_cast this
      have hne : s.isEmpty = false := by
        by_cases he : s.isEmpty = true
        · rw [String.isEmpty_iff] at he
          subst he
          simp at hpos
        · exact Bool.eq_false_iff.mpr he
      simp only [wfInlineL, hne, Bool.not_false, Bool.true_and]
      exact ih (by simpa [allText] using ha) (fun r hr => hs r (by simp [hr]))

theorem wfGroup_node (t : String) (a : AttrMap) (cs : List PMNode) :
    wfGroup (.node t a cs) = true ↔
      (t = "blockGroup" ∧ wfBlockL cs = true ∧ cs ≠ []) := by
  cases cs with
  | nil => simp [wfGroup]
  | cons c cs' =>
    simp [wfGroup, wfBlockL, Bool.and_assoc, and_assoc]

theorem wfBlock_cons (t : String) (a : AttrMap) (cn : PMNode)
    (tail : List PMNode) :
    wfBlock (.node t a (cn :: tail)) = true ↔
      (t = "blockContainer" ∧ wfContentNode cn = true ∧
        (tail = [] ∨ ∃ g, tail = [g] ∧ wfGroup g = true)) := by
  cases tail with
  | nil => simp [wfBlock, and_assoc]
  | cons g tl =>
    cases tl with
    | nil => simp [wfBlock, and_assoc]
    | cons g2 tl2 => simp [wfBlock]

theorem wrapCut_node_nsize_ge_two : ∀ (ctx : Ctx) (t : String) (a : AttrMap)
    (cs : List PMNode), 2 ≤ (wrapCut ctx (.node t a cs)).nsize
  | [], t, a, cs => node_nsize_ge_two t a cs
  | f :: ctx, t, a, cs => by
    have ih := wrapCut_node_nsize_ge_two ctx t a cs
    simp only [wrapCut, PMNode.nsize, PMNode.fsize]
    omega

theorem wrapCut_csize_pos (ctx : Ctx) (t : String) (a : AttrMap)
    (cs : List PMNode) (h : ctx ≠ []) :
    0 < csize (wrapCut ctx (.node t a cs)) := by
  cases ctx with
  | nil => exact absurd rfl h
  | cons f ctx' =>
    rw [wrapCut_csize_cons]
    have := wrapCut_node_nsize_ge_two ctx' t a cs
    omega

theorem replOW_para (after : List PMNode)
    (hCA : contentAllowed "paragraph" after = true) :
    replOW [PMNode.node "paragraph" [] []] 1 2 after =
      some [PMNode.node "paragraph" [] after] := by
  simp only [replOW, replODesc, PMNode.nsize, PMNode.fsize]
  rw [if_neg (show ¬((1 : Int) ≥ 2 + 0) from by omega),
    if_pos (show isTextblockType "paragraph" = true ∧ True from ⟨rfl, trivial⟩),
    if_neg (not_not_intro hCA),
    if_neg (show ¬((2 : Int) = 1 + 0) from by omega),
    if_pos (show (2 : Int) = 2 + 0 from by omega)]
  simp

theorem replOW_atContent (tcn : String) (ca : AttrMap)
    (runs before : List PMNode)
    (hct : isTextblockType tcn = true)
    (hCA : contentAllowed tcn before = true) :
    replOW [PMNode.node tcn ca runs] 1 (1 + fsize runs) before =
      some [PMNode.node tcn ca before] := by
  have hFR := fsize_nonneg runs
  simp only [replOW, replODesc, PMNode.nsize, PMNode.fsize]
  rw [if_neg (show ¬((1 : Int) ≥ 2 + fsize runs) from by omega),
    if_pos (show isTextblockType tcn = true ∧ True from ⟨hct, trivial⟩),
    if_neg (not_not_intro hCA)]
  simp

/-- What one successful `BNSplitBlock` call does to a decomposed document
with a leaf focus Block: the Block is truncated to the text before the
split point, a fresh Block holding the text after it is inserted right
after (typed and attributed like the original Content when `keepType`,
a plain paragraph otherwise), and the reported caret is the first text
position of the new Block's Content. -/
theorem BNSplitBlock_char (ctxP : Ctx) (g : CtxFrame) (battrs : AttrMap)
    (ct : String) (cattrs : AttrMap) (runs : List PMNode) (k : Int)
    (keepType : Bool)
    (hgrp : g.tp = "blockGroup")
    (hwP : ctxWalkable ctxP = true)
    (hsib : ∀ x ∈ g.ls ++ g.rs, x.typeName = "blockContainer")
    (hct : isTextblockType ct = true)
    (hruns : allText runs = true)
    (hk0 : 0 < k) (hk1 : k < fsize runs) :
    BNSplitBlock
        (plug ctxP (.node g.tp g.attrs (g.ls ++
          [.node "blockContainer" battrs [.node ct cattrs runs]] ++ g.rs)))
        (ctxBase (ctxP ++ [g]) + 2 + k) keepType =
      some ⟨true,
        plug ctxP (.node g.tp g.attrs (g.ls ++
          (.node "blockContainer" battrs [.node ct cattrs (cutWalk runs 0 k)]) ::
          (.node "blockContainer" []
            [.node (if keepType then ct else "paragraph")
              (if keepType then cattrs else [])
              (cutWalk runs k (fsize runs))]) :: g.rs)),
        some (ctxBase (ctxP ++ [g]) + 6 + fsize (cutWalk runs 0 k))⟩ := by
  have hgtb : isTextblockType g.tp = false := by rw [hgrp]; rfl
  have hls : ∀ x ∈ g.ls, 0 < x.nsize := fun x hx =>
    typeName_container_pos x (hsib x (List.mem_append_left _ hx))
  have hFR := fsize_nonneg runs
  have hB := ctxBase_append ctxP g
  have hbef : allText (cutWalk runs 0 k) = true := allText_cutWalk runs 0 k hruns
  have haft : allText (cutWalk runs k (fsize runs)) = true :=
    allText_cutWalk runs k (fsize runs) hruns
  have hCAb : contentAllowed ct (cutWalk runs 0 k) = true := by
    rw [contentAllowed_textblock _ _ hct]; exact hbef
  have hCAa : contentAllowed ct (cutWalk runs k (fsize runs)) = true := by
    rw [contentAllowed_textblock _ _ hct]; exact haft
  have hCAp : contentAllowed "paragraph" (cutWalk runs k (fsize runs)) = true := by
    rw [contentAllowed_textblock _ _ (by rfl)]; exact haft
  have hCAe : contentAllowed ct ([] : List PMNode) = true := by
    rw [contentAllowed_textblock _ _ hct]
    rfl
  -- the resolved block info
  have hd : plug (ctxP ++ [g])
      (.node "blockContainer" battrs [.node ct cattrs runs]) =
      plug ctxP (.node g.tp g.attrs (g.ls ++
        [.node "blockContainer" battrs [.node ct cattrs runs]] ++ g.rs)) := by
    rw [plug_append]
    rfl
  have hbi := getBlockInfoFromPos_plug (ctxP ++ [g]) battrs ct cattrs runs [] k
    (by simp) hct hruns (by omega) (by omega)
  rw [hd] at hbi
  simp only [PMNode.fsize, add_zero] at hbi
  simp only [BNSplitBlock, hbi]
  -- the two cuts
  have hcut1 := docCut_plug (ctxP ++ [g]) "blockContainer" battrs
    [.node ct cattrs runs] 1 (1 + k) (by omega) (by omega)
    (by simp only [PMNode.fsize, PMNode.nsize]; omega)
  rw [hd] at hcut1
  have hcw1 : cutWalk [PMNode.node ct cattrs runs] 1 (1 + k) =
      [PMNode.node ct cattrs (cutWalk runs 0 k)] := by
    simp only [cutWalk, cutN, PMNode.nsize]
    rw [if_neg (by omega), if_neg (by omega),
      if_neg (by rintro ⟨e1, e2⟩; omega)]
    rw [show (1 : Int) + k - 1 = k from by omega,
      show (1 : Int) - 1 = (0 : Int) from by omega]
    rw [max_self, min_eq_left (by omega), if_neg (by omega)]
  rw [show ctxBase (ctxP ++ [g]) + 1 + 1 =
    ctxBase (ctxP ++ [g]) + 1 + 1 from rfl]
  rw [show ctxBase (ctxP ++ [g]) + 2 + k =
    ctxBase (ctxP ++ [g]) + 1 + (1 + k) from by omega]
  rw [hcut1, hcw1]
  simp only [Option.some_bind]
  have hcut2 := docCut_plug (ctxP ++ [g]) "blockContainer" battrs
    [.node ct cattrs runs] (1 + k) (1 + fsize runs) (by omega) (by omega)
    (by simp only [PMNode.fsize, PMNode.nsize]; omega)
  rw [hd] at hcut2
  have hcw2 : cutWalk [PMNode.node ct cattrs runs] (1 + k) (1 + fsize runs) =
      [PMNode.node ct cattrs (cutWalk runs k (fsize runs))] := by
    simp only [cutWalk, cutN, PMNode.nsize]
    rw [if_neg (by omega), if_neg (by omega),
      if_neg (by rintro ⟨e1, e2⟩; omega)]
    rw [show (1 : Int) + k - 1 = k from by omega,
      show (1 : Int) + fsize runs - 1 = fsize runs from by omega]
    rw [max_eq_left (by omega), min_self, if_neg (by omega)]
  rw [show ctxBase (ctxP ++ [g]) + 1 + (2 + fsize runs) - 1 =
    ctxBase (ctxP ++ [g]) + 1 + (1 + fsize runs) from by omega]
  rw [hcut2, hcw2]
  simp only [Option.some_bind]
  -- the fresh block insertion
  have hFL := fsize_nonneg g.ls
  have hFRS := fsize_nonneg g.rs
  have hFb := fsize_nonneg (cutWalk runs 0 k)
  have hFa := fsize_nonneg (cutWalk runs k (fsize runs))
  have hcs2 : (wrapCut (ctxP ++ [g]) (.node "blockContainer" battrs
      [.node ct cattrs (cutWalk runs k (fsize runs))])).csize > 0 :=
    wrapCut_csize_pos _ _ _ _ (by simp)
  have hcs1 : (wrapCut (ctxP ++ [g]) (.node "blockContainer" battrs
      [.node ct cattrs (cutWalk runs 0 k)])).csize > 0 :=
    wrapCut_csize_pos _ _ _ _ (by simp)
  rw [if_pos hcs2, if_pos hcs1]
  rw [show (g.ls ++ [PMNode.node "blockContainer" battrs
      [PMNode.node ct cattrs runs]] ++ g.rs : List PMNode) =
    g.ls ++ (PMNode.node "blockContainer" battrs
      [PMNode.node ct cattrs runs]) :: g.rs from by simp]
  have hflat : fsize (g.ls ++ (PMNode.node "blockContainer" battrs
      [PMNode.node ct cattrs runs]) :: g.rs) =
      fsize g.ls + (4 + fsize runs) + fsize g.rs := by
    rw [show (g.ls ++ (PMNode.node "blockContainer" battrs
        [PMNode.node ct cattrs runs]) :: g.rs : List PMNode) =
      g.ls ++ [PMNode.node "blockContainer" battrs
        [PMNode.node ct cattrs runs]] ++ g.rs from by simp]
    rw [fsize_append, fsize_append]
    simp only [PMNode.fsize, PMNode.nsize]
    omega
  have hins := insertNode_plug ctxP g.tp g.attrs
    (g.ls ++ (PMNode.node "blockContainer" battrs
      [PMNode.node ct cattrs runs]) :: g.rs)
    (fsize g.ls + (4 + fsize runs)) createAndFillBlockContainer
    (by omega) (by rw [hflat]; omega)
  rw [show ctxBase (ctxP ++ [g]) + 1 + (2 + fsize runs) + 1 =
    ctxBase ctxP + 1 + (fsize g.ls + (4 + fsize runs)) from by omega]
  rw [hins]
  have hinsN : insertN (.node g.tp g.attrs
      (g.ls ++ (PMNode.node "blockContainer" battrs
        [PMNode.node ct cattrs runs]) :: g.rs))
      (fsize g.ls + (4 + fsize runs)) createAndFillBlockContainer =
      some (.node g.tp g.attrs
        (g.ls ++ (PMNode.node "blockContainer" battrs
          [PMNode.node ct cattrs runs]) ::
          createAndFillBlockContainer :: g.rs)) := by
    simp only [insertN]
    have hpre : ∀ c ∈ g.ls ++ [PMNode.node "blockContainer" battrs
        [PMNode.node ct cattrs runs]], 0 < c.nsize := by
      intro c hc
      rcases List.mem_append.mp hc with hc | hc
      · exact hls c hc
      · simp only [List.mem_singleton] at hc
        subst hc
        simp only [PMNode.nsize, PMNode.fsize]
        omega
    rw [show (g.ls ++ (PMNode.node "blockContainer" battrs
        [PMNode.node ct cattrs runs]) :: g.rs : List PMNode) =
      (g.ls ++ [PMNode.node "blockContainer" battrs
        [PMNode.node ct cattrs runs]]) ++ g.rs from by simp]
    rw [show fsize g.ls + (4 + fsize runs) =
      fsize (g.ls ++ [PMNode.node "blockContainer" battrs
        [PMNode.node ct cattrs runs]]) from by
        rw [fsize_append]; simp only [PMNode.fsize, PMNode.nsize]; omega]
    rw [rangeSplice_at_boundary _ g.rs [createAndFillBlockContainer] hpre]
    have hCAg : contentAllowed g.tp
        ((g.ls ++ [PMNode.node "blockContainer" battrs
          [PMNode.node ct cattrs runs]]) ++ [createAndFillBlockContainer] ++ g.rs) =
        true := by
      rw [hgrp]
      refine contentAllowed_group _ (by simp) ?_
      intro x hx
      rcases List.mem_append.mp hx with hx | hx
      · rcases List.mem_append.mp hx with hx | hx
        · rcases List.mem_append.mp hx with hx | hx
          · exact hsib x (List.mem_append_left _ hx)
          · simp only [List.mem_singleton] at hx; subst hx; rfl
        · simp only [List.mem_singleton] at hx; subst hx; rfl
      · exact hsib x (List.mem_append_right _ hx)
    simp only [hCAg, eq_self_iff_true, if_true]
    simp
  rw [hinsN]
  simp only [Option.map_some', Option.getD_some, Option.some_bind]
  -- filling the fresh block with the after-slice
  have hwC : ctxWalkable (ctxP ++ [CtxFrame.mk g.tp g.attrs
      (g.ls ++ [PMNode.node "blockContainer" battrs
        [PMNode.node ct cattrs runs]]) g.rs]) = true := by
    rw [ctxWalkable_append, hwP, hgtb]
    rfl
  have hBC : ctxBase (ctxP ++ [CtxFrame.mk g.tp g.attrs
      (g.ls ++ [PMNode.node "blockContainer" battrs
        [PMNode.node ct cattrs runs]]) g.rs]) =
      ctxBase (ctxP ++ [g]) + 4 + fsize runs := by
    rw [ctxBase_append]
    simp only [fsize_append, PMNode.fsize, PMNode.nsize]
    omega
  have hd1 : plug (ctxP ++ [CtxFrame.mk g.tp g.attrs
      (g.ls ++ [PMNode.node "blockContainer" battrs
        [PMNode.node ct cattrs runs]]) g.rs]) createAndFillBlockContainer =
      plug ctxP (.node g.tp g.attrs
        (g.ls ++ (PMNode.node "blockContainer" battrs
          [PMNode.node ct cattrs runs]) ::
          createAndFillBlockContainer :: g.rs)) := by
    rw [plug_append]
    simp [plug]
  have hrep1 := trReplace_opened_plug
    (ctxP ++ [CtxFrame.mk g.tp g.attrs
      (g.ls ++ [PMNode.node "blockContainer" battrs
        [PMNode.node ct cattrs runs]]) g.rs])
    "blockContainer" [] [PMNode.node "paragraph" [] []] 1 2
    [wrapCut (ctxP ++ [g]) (.node "blockContainer" battrs
      [.node ct cattrs (cutWalk runs k (fsize runs))])]
    (List.length (ctxP ++ [g]) + 2) rfl hwC (by omega) (by omega)
    (by simp only [PMNode.fsize, PMNode.nsize]; omega)
  rw [show createAndFillBlockContainer =
    PMNode.node "blockContainer" [] [PMNode.node "paragraph" [] []] from rfl]
    at hd1 ⊢
  rw [hd1] at hrep1
  rw [show ctxBase (ctxP ++ [g]) + 1 + (2 + fsize runs) + 3 =
      ctxBase (ctxP ++ [CtxFrame.mk g.tp g.attrs
        (g.ls ++ [PMNode.node "blockContainer" battrs
          [PMNode.node ct cattrs runs]]) g.rs]) + 1 + 1 from by
        rw [hBC]; omega,
    show ctxBase (ctxP ++ [g]) + 1 + (2 + fsize runs) + 4 =
      ctxBase (ctxP ++ [CtxFrame.mk g.tp g.attrs
        (g.ls ++ [PMNode.node "blockContainer" battrs
          [PMNode.node ct cattrs runs]]) g.rs]) + 1 + 2 from by
        rw [hBC]; omega]
  rw [hrep1]
  rw [peelOpen_wrapCut (ctxP ++ [g]) 2]
  rw [show peelOpen 2 [PMNode.node "blockContainer" battrs
      [PMNode.node ct cattrs (cutWalk runs k (fsize runs))]] =
    some (cutWalk runs k (fsize runs)) from rfl]
  simp only []
  rw [replOW_para (cutWalk runs k (fsize runs)) hCAp]
  simp only [Option.map_some', Option.getD_some, Option.some_bind]
  cases keepType with
  | true =>
    simp only [eq_self_iff_true, if_true]
    rw [if_pos hCAe]
    rw [show attrsOf (PMNode.node ct cattrs runs) = cattrs from rfl]
    have hst := trSetBlockType_plug (ctxP ++ [CtxFrame.mk g.tp g.attrs
        (g.ls ++ [PMNode.node "blockContainer" battrs
          [PMNode.node ct cattrs runs]]) g.rs]) "blockContainer" []
      [PMNode.node "paragraph" [] (cutWalk runs k (fsize runs))] 1 ct cattrs
      rfl hwC (by omega) (by simp only [PMNode.fsize, PMNode.nsize]; omega)
    rw [hst]
    have hstF : setBlockTypeF [PMNode.node "paragraph" []
        (cutWalk runs k (fsize runs))] 1 ct cattrs =
        some [PMNode.node ct cattrs (cutWalk runs k (fsize runs))] := by
      simp only [setBlockTypeF, setBlockTypeN, PMNode.nsize, PMNode.fsize]
      rw [if_neg (by omega)]
      rw [if_pos (show (1 : Int) ≤ 1 ∧ (1 : Int) ≤
        2 + fsize (cutWalk runs k (fsize runs)) - 1 from ⟨by omega, by omega⟩)]
      rw [if_pos (show isTextblockType "paragraph" = true from rfl),
        if_pos hCAa]
      simp
    rw [hstF]
    simp only [Option.map_some', Option.some_bind]
    rw [plug_posInRange (ctxP ++ [CtxFrame.mk g.tp g.attrs
        (g.ls ++ [PMNode.node "blockContainer" battrs
          [PMNode.node ct cattrs runs]]) g.rs]) "blockContainer" []
      [PMNode.node ct cattrs (cutWalk runs k (fsize runs))] 1 (by omega)
      (by simp only [PMNode.fsize, PMNode.nsize]; omega)]
    simp only [eq_self_iff_true, if_true]
    have hswap : plug (ctxP ++ [CtxFrame.mk g.tp g.attrs
        (g.ls ++ [PMNode.node "blockContainer" battrs
          [PMNode.node ct cattrs runs]]) g.rs])
        (PMNode.node "blockContainer" []
          [PMNode.node ct cattrs (cutWalk runs k (fsize runs))]) =
        plug (ctxP ++ [CtxFrame.mk g.tp g.attrs g.ls
        ((PMNode.node "blockContainer" [] [PMNode.node ct cattrs (cutWalk runs k (fsize runs))]) :: g.rs)])
        (PMNode.node "blockContainer" battrs [PMNode.node ct cattrs runs]) := by
      rw [plug_append, plug_append]
      simp [plug]
    rw [hswap]
    have hBO : ctxBase (ctxP ++ [CtxFrame.mk g.tp g.attrs g.ls
        ((PMNode.node "blockContainer" [] [PMNode.node ct cattrs (cutWalk runs k (fsize runs))]) :: g.rs)]) = ctxBase (ctxP ++ [g]) := by
      rw [ctxBase_append, ctxBase_append]
    have hwO : ctxWalkable (ctxP ++ [CtxFrame.mk g.tp g.attrs g.ls
        ((PMNode.node "blockContainer" [] [PMNode.node ct cattrs (cutWalk runs k (fsize runs))]) :: g.rs)]) = true := by
      rw [ctxWalkable_append, hwP, hgtb]
      rfl
    rw [show ctxBase (ctxP ++ [g]) + 1 + 1 =
        ctxBase (ctxP ++ [CtxFrame.mk g.tp g.attrs g.ls
        ((PMNode.node "blockContainer" [] [PMNode.node ct cattrs (cutWalk runs k (fsize runs))]) :: g.rs)]) + 1 + 1 from by rw [hBO],
      show ctxBase (ctxP ++ [g]) + 1 + (1 + fsize runs) =
        ctxBase (ctxP ++ [CtxFrame.mk g.tp g.attrs g.ls
        ((PMNode.node "blockContainer" [] [PMNode.node ct cattrs (cutWalk runs k (fsize runs))]) :: g.rs)]) + 1 + (1 + fsize runs) from by rw [hBO]]
    have hrep2 := trReplace_opened_plug (ctxP ++ [CtxFrame.mk g.tp g.attrs g.ls
        ((PMNode.node "blockContainer" [] [PMNode.node ct cattrs (cutWalk runs k (fsize runs))]) :: g.rs)])
      "blockContainer" battrs [PMNode.node ct cattrs runs] 1 (1 + fsize runs)
      [wrapCut (ctxP ++ [g]) (.node "blockContainer" battrs
        [.node ct cattrs (cutWalk runs 0 k)])]
      (List.length (ctxP ++ [g]) + 2) rfl hwO (by omega) (by omega)
      (by simp only [PMNode.fsize, PMNode.nsize]; omega)
    rw [hrep2]
    rw [peelOpen_wrapCut (ctxP ++ [g]) 2]
    rw [show peelOpen 2 [PMNode.node "blockContainer" battrs
        [PMNode.node ct cattrs (cutWalk runs 0 k)]] =
      some (cutWalk runs 0 k) from rfl]
    simp only []
    rw [replOW_atContent ct cattrs runs (cutWalk runs 0 k) hct hCAb]
    simp only [Option.map_some', Option.getD_some]
    have hsub : csize (plug (ctxP ++ [CtxFrame.mk g.tp g.attrs g.ls
        ((PMNode.node "blockContainer" [] [PMNode.node ct cattrs (cutWalk runs k (fsize runs))]) :: g.rs)])
          (PMNode.node "blockContainer" battrs
            [PMNode.node ct cattrs (cutWalk runs 0 k)])) -
        csize (plug (ctxP ++ [CtxFrame.mk g.tp g.attrs g.ls
        ((PMNode.node "blockContainer" [] [PMNode.node ct cattrs (cutWalk runs k (fsize runs))]) :: g.rs)])
          (PMNode.node "blockContainer" battrs
            [PMNode.node ct cattrs runs])) =
        fsize (cutWalk runs 0 k) - fsize runs := by
      rw [csize_plug_sub]
      simp only [PMNode.fsize, PMNode.nsize]
      omega
    have hd4 : plug (ctxP ++ [CtxFrame.mk g.tp g.attrs g.ls
        ((PMNode.node "blockContainer" [] [PMNode.node ct cattrs (cutWalk runs k (fsize runs))]) :: g.rs)])
          (PMNode.node "blockContainer" battrs
            [PMNode.node ct cattrs (cutWalk runs 0 k)]) =
        plug ctxP (.node g.tp g.attrs (g.ls ++
          (PMNode.node "blockContainer" battrs
            [PMNode.node ct cattrs (cutWalk runs 0 k)]) ::
          (PMNode.node "blockContainer" [] [PMNode.node ct cattrs (cutWalk runs k (fsize runs))]) :: g.rs)) := by
      rw [plug_append]
      simp [plug]
    simp only [Option.some.injEq, CmdOut.mk.injEq]
    refine ⟨by trivial, hd4, ?_⟩
    simp only [mapThroughReplace]
    rw [if_neg (by omega), if_pos (by omega)]
    omega
  | false =>
    simp only [Bool.false_eq_true, if_false, Option.some_bind]
    rw [plug_posInRange (ctxP ++ [CtxFrame.mk g.tp g.attrs
        (g.ls ++ [PMNode.node "blockContainer" battrs
          [PMNode.node ct cattrs runs]]) g.rs]) "blockContainer" []
      [PMNode.node "paragraph" ([] : AttrMap) (cutWalk runs k (fsize runs))] 1 (by omega)
      (by simp only [PMNode.fsize, PMNode.nsize]; omega)]
    simp only [eq_self_iff_true, if_true]
    have hswap : plug (ctxP ++ [CtxFrame.mk g.tp g.attrs
        (g.ls ++ [PMNode.node "blockContainer" battrs
          [PMNode.node ct cattrs runs]]) g.rs])
        (PMNode.node "blockContainer" []
          [PMNode.node "paragraph" ([] : AttrMap) (cutWalk runs k (fsize runs))]) =
        plug (ctxP ++ [CtxFrame.mk g.tp g.attrs g.ls
        ((PMNode.node "blockContainer" [] [PMNode.node "paragraph" ([] : AttrMap) (cutWalk runs k (fsize runs))]) :: g.rs)])
        (PMNode.node "blockContainer" battrs [PMNode.node ct cattrs runs]) := by
      rw [plug_append, plug_append]
      simp [plug]
    rw [hswap]
    have hBO : ctxBase (ctxP ++ [CtxFrame.mk g.tp g.attrs g.ls
        ((PMNode.node "blockContainer" [] [PMNode.node "paragraph" ([] : AttrMap) (cutWalk runs k (fsize runs))]) :: g.rs)]) = ctxBase (ctxP ++ [g]) := by
      rw [ctxBase_append, ctxBase_append]
    have hwO : ctxWalkable (ctxP ++ [CtxFrame.mk g.tp g.attrs g.ls
        ((PMNode.node "blockContainer" [] [PMNode.node "paragraph" ([] : AttrMap) (cutWalk runs k (fsize runs))]) :: g.rs)]) = true := by
      rw [ctxWalkable_append, hwP, hgtb]
      rfl
    rw [show ctxBase (ctxP ++ [g]) + 1 + 1 =
        ctxBase (ctxP ++ [CtxFrame.mk g.tp g.attrs g.ls
        ((PMNode.node "blockContainer" [] [PMNode.node "paragraph" ([] : AttrMap) (cutWalk runs k (fsize runs))]) :: g.rs)]) + 1 + 1 from by rw [hBO],
      show ctxBase (ctxP ++ [g]) + 1 + (1 + fsize runs) =
        ctxBase (ctxP ++ [CtxFrame.mk g.tp g.attrs g.ls
        ((PMNode.node "blockContainer" [] [PMNode.node "paragraph" ([] : AttrMap) (cutWalk runs k (fsize runs))]) :: g.rs)]) + 1 + (1 + fsize runs) from by rw [hBO]]
    have hrep2 := trReplace_opened_plug (ctxP ++ [CtxFrame.mk g.tp g.attrs g.ls
        ((PMNode.node "blockContainer" [] [PMNode.node "paragraph" ([] : AttrMap) (cutWalk runs k (fsize runs))]) :: g.rs)])
      "blockContainer" battrs [PMNode.node ct cattrs runs] 1 (1 + fsize runs)
      [wrapCut (ctxP ++ [g]) (.node "blockContainer" battrs
        [.node ct cattrs (cutWalk runs 0 k)])]
      (List.length (ctxP ++ [g]) + 2) rfl hwO (by omega) (by omega)
      (by simp only [PMNode.fsize, PMNode.nsize]; omega)
    rw [hrep2]
    rw [peelOpen_wrapCut (ctxP ++ [g]) 2]
    rw [show peelOpen 2 [PMNode.node "blockContainer" battrs
        [PMNode.node ct cattrs (cutWalk runs 0 k)]] =
      some (cutWalk runs 0 k) from rfl]
    simp only []
    rw [replOW_atContent ct cattrs runs (cutWalk runs 0 k) hct hCAb]
    simp only [Option.map_some', Option.getD_some]
    have hsub : csize (plug (ctxP ++ [CtxFrame.mk g.tp g.attrs g.ls
        ((PMNode.node "blockContainer" [] [PMNode.node "paragraph" ([] : AttrMap) (cutWalk runs k (fsize runs))]) :: g.rs)])
          (PMNode.node "blockContainer" battrs
            [PMNode.node ct cattrs (cutWalk runs 0 k)])) -
        csize (plug (ctxP ++ [CtxFrame.mk g.tp g.attrs g.ls
        ((PMNode.node "blockContainer" [] [PMNode.node "paragraph" ([] : AttrMap) (cutWalk runs k (fsize runs))]) :: g.rs)])
          (PMNode.node "blockContainer" battrs
            [PMNode.node ct cattrs runs])) =
        fsize (cutWalk runs 0 k) - fsize runs := by
      rw [csize_plug_sub]
      simp only [PMNode.fsize, PMNode.nsize]
      omega
    have hd4 : plug (ctxP ++ [CtxFrame.mk g.tp g.attrs g.ls
        ((PMNode.node "blockContainer" [] [PMNode.node "paragraph" ([] : AttrMap) (cutWalk runs k (fsize runs))]) :: g.rs)])
          (PMNode.node "blockContainer" battrs
            [PMNode.node ct cattrs (cutWalk runs 0 k)]) =
        plug ctxP (.node g.tp g.attrs (g.ls ++
          (PMNode.node "blockContainer" battrs
            [PMNode.node ct cattrs (cutWalk runs 0 k)]) ::
          (PMNode.node "blockContainer" [] [PMNode.node "paragraph" ([] : AttrMap) (cutWalk runs k (fsize runs))]) :: g.rs)) := by
      rw [plug_append]
      simp [plug]
    simp only [Option.some.injEq, CmdOut.mk.injEq]
    refine ⟨by trivial, hd4, ?_⟩
    simp only [mapThroughReplace]
    rw [if_neg (by omega), if_pos (by omega)]
    omega


/-! ## String splitting facts -/

theorem take_append_drop_str (s : String) (n : Nat) :
    s.take n ++ s.drop n = s := by
  apply String.ext
  rw [String.data_append, String.data_take, String.data_drop]
  exact List.take_append_drop n s.data

theorem drop_zero_str (s : String) : s.drop 0 = s := by
  apply String.ext
  rw [String.data_drop]
  simp

theorem take_length_str (s : String) : s.take s.length = s := by
  apply String.ext
  rw [String.data_take, show s.length = s.data.length from rfl]
  exact List.take_length s.data

theorem length_take_str (s : String) (n : Nat) :
    (s.take n).length = min n s.length := by
  rw [show (s.take n).length = (s.take n).data.length from rfl, String.data_take]
  exact List.length_take n s.data

theorem take_isEmpty_false (s : String) (n : Nat) (hn : 0 < n)
    (h : 0 < s.length) : (s.take n).isEmpty = false := by
  rw [Bool.eq_false_iff]
  intro he
  rw [String.isEmpty_iff] at he
  have hd := congrArg String.data he
  rw [String.data_take] at hd
  rcases List.take_eq_nil_iff.mp hd with h0 | h0
  · omega
  · rw [show s.length = s.data.length from rfl] at h
    simp [h0] at h

theorem drop_isEmpty_false (s : String) (n : Nat) (h : n < s.length) :
    (s.drop n).isEmpty = false := by
  rw [Bool.eq_false_iff]
  intro he
  rw [String.isEmpty_iff] at he
  have hd := congrArg String.data he
  rw [String.data_drop] at hd
  have := List.drop_eq_nil_iff.mp hd
  rw [show s.length = s.data.length from rfl] at h
  omega

/-! ## Boundary positions: parent and block info between Blocks -/

theorem framesF_zero (cs : List PMNode) (base : Int) :
    framesF cs 0 base = [] := by
  cases cs with
  | nil => rfl
  | cons c r =>
    simp only [framesF]
    rw [if_pos (by omega)]

theorem ctxFrames_getLast : ∀ (ctx : Ctx) (x : PMNode) (cbase : Int),
    ctx ≠ [] →
    (ctxFrames ctx x cbase).getLast? = some ⟨x, cbase + ctxBase ctx + 1⟩
  | [], _, _, h => absurd rfl h
  | [f], x, cbase, _ => by
    simp only [ctxFrames, List.getLast?_singleton, Option.some.injEq,
      Frame.mk.injEq]
    refine ⟨rfl, ?_⟩
    simp only [ctxBase]
    omega
  | f :: f2 :: ctx2, x, cbase, _ => by
    have ih := ctxFrames_getLast (f2 :: ctx2) x (cbase + fsize f.ls + 1)
      (by simp)
    simp only [ctxFrames] at ih ⊢
    rw [List.getLast?_cons_cons, ih]
    simp only [Option.some.injEq, Frame.mk.injEq]
    refine ⟨trivial, ?_⟩
    simp only [ctxBase]
    omega

theorem resolveParent_plug_bdry (ctx : Ctx) (t : String) (a : AttrMap)
    (cs : List PMNode) (q : Int) (hctx : ctx ≠ [])
    (h0 : 0 ≤ q) (h1 : q ≤ fsize cs)
    (hemp : framesF cs q (ctxBase ctx + 1) = []) :
    resolveParent (plug ctx (.node t a cs)) (ctxBase ctx + 1 + q) =
      some (.node t a cs, ctxBase ctx + 1) := by
  simp only [resolveParent,
    plug_posInRange ctx t a cs q h0 h1, eq_self_iff_true, if_true]
  rw [frames_plug ctx t a cs q h0 h1, hemp, List.append_nil,
    ctxFrames_getLast ctx _ 0 hctx]
  simp only [Option.map_some', Option.getD_some, Option.some.injEq,
    Prod.mk.injEq]
  exact ⟨trivial, by omega⟩

theorem getBlockInfoFromPos_plug_bdry (ctx : Ctx) (battrs : AttrMap)
    (cn : PMNode) (tail : List PMNode) (q : Int)
    (hctx : ctx ≠ []) (h0 : 0 ≤ q) (h1 : q ≤ fsize (cn :: tail))
    (hemp : framesF (cn :: tail) q (ctxBase ctx + 1) = []) :
    getBlockInfoFromPos
        (plug ctx (.node "blockContainer" battrs (cn :: tail)))
        (ctxBase ctx + 1 + q) =
      some
        { node := .node "blockContainer" battrs (cn :: tail)
          contentNode := cn
          contentType := cn.typeName
          startPos := ctxBase ctx + 1
          endPos := ctxBase ctx + 1 + fsize (cn :: tail)
          depth := ctx.length
          numChildBlocks :=
            if (cn :: tail).length == 2 then
              (((cn :: tail).getLast?).map PMNode.childCount).getD 0
            else 0 } := by
  have hfr := frames_plug ctx "blockContainer" battrs (cn :: tail) q h0 h1
  simp only [getBlockInfoFromPos,
    plug_posInRange ctx _ _ _ q h0 h1, eq_self_iff_true, if_true]
  rw [hfr, hemp, List.append_nil,
    ctxFrames_lastContainer ctx _ 0 hctx (by simp [typeName])]
  have e : (0 : Int) + ctxBase ctx + 1 = ctxBase ctx + 1 := by omega
  rw [e]
  simp only [childrenOf, List.head?, csize, childCount]

/-! ## Whole-node deletion and end-of-content insertion -/

theorem delWalk_node_all (t2 : String) (a2 : AttrMap)
    (ccs rest : List PMNode) (htb : isTextblockType t2 = false) :
    delWalk (.node t2 a2 ccs :: rest) 1 (1 + fsize ccs) =
      some (rest, true) := by
  have h := fsize_nonneg ccs
  simp only [delWalk, PMNode.nsize]
  rw [if_neg (by omega)]
  rw [if_pos (show delDescendable (.node t2 a2 ccs) 1 (1 + fsize ccs) = true
    from by
      simp only [delDescendable, PMNode.nsize, Bool.and_eq_true,
        decide_eq_true_eq]
      omega)]
  simp only [delDesc]
  rw [if_pos (⟨trivial, trivial⟩ : True ∧ True)]
  rw [if_neg (by simp [htb])]
  rfl

theorem inlinePlace_end : ∀ (l : List PMNode) (r : PMNode),
    (∀ x ∈ l, 0 < x.nsize) →
    inlinePlace l (fsize l) r = some (l ++ [r])
  | [], r, _ => by simp [inlinePlace, PMNode.fsize]
  | c :: rest, r, hs => by
    have hc : 0 < c.nsize := hs c (by simp)
    have hr := fsize_nonneg rest
    have ih := inlinePlace_end rest r (fun x hx => hs x (by simp [hx]))
    cases c with
    | text t m =>
      simp only [inlinePlace, PMNode.fsize]
      rw [if_neg (by omega), if_neg (by omega)]
      rw [show (PMNode.text t m).nsize + fsize rest - (PMNode.text t m).nsize =
        fsize rest from by omega, ih]
      rfl
    | node t a cs =>
      simp only [inlinePlace, PMNode.fsize]
      rw [if_neg (by omega), if_neg (by omega)]
      rw [show (PMNode.node t a cs).nsize + fsize rest - (PMNode.node t a cs).nsize =
        fsize rest from by omega, ih]
      rfl

theorem marksAt_skip (c : PMNode) (rest : List PMNode) (pos : Int)
    (h : c.nsize < pos) :
    marksAt (c :: rest) pos = marksAt rest (pos - c.nsize) := by
  simp only [marksAt]
  rw [if_neg (by omega)]

theorem mergeRuns_appendEnd : ∀ (l : List PMNode) (s : String),
    allText l = true → (∀ x ∈ l, 0 < x.nsize) → canonicalRuns l = true →
    mergeRuns (l ++ [PMNode.text s (marksAt l (fsize l))]) = appendInline l s
  | [], s, _, _, _ => by
    simp only [List.nil_append, mergeRuns, appendInline, marksAt]
  | [.text t m], s, _, _, _ => by
    have : marksAt [PMNode.text t m] (fsize [PMNode.text t m]) = m := by
      simp only [marksAt, PMNode.fsize, PMNode.nsize]
      rw [if_pos (by omega)]
    rw [this]
    simp only [List.singleton_append, mergeRuns, appendInline]
    simp
  | [.node t a cs], s, ha, _, _ => absurd ha (by simp [allText])
  | .node t a cs :: c2 :: rest, s, ha, _, _ => absurd ha (by simp [allText])
  | .text t m :: .node t2 a2 cs2 :: rest, s, ha, _, _ =>
    absurd ha (by simp [allText])
  | .text t m :: .text t2 m2 :: rest, s, ha, hs, hcn => by
    have ha' : allText (PMNode.text t2 m2 :: rest) = true := by
      simpa [allText] using ha
    have hs' : ∀ x ∈ PMNode.text t2 m2 :: rest, 0 < x.nsize :=
      fun x hx => hs x (by simp [hx])
    have h2 : 0 < (PMNode.text t2 m2).nsize := hs' _ (by simp)
    have hfr := fsize_nonneg rest
    simp only [canonicalRuns, Bool.and_eq_true, Bool.not_eq_true'] at hcn
    obtain ⟨hne, hcn'⟩ := hcn
    have ih := mergeRuns_appendEnd (PMNode.text t2 m2 :: rest) s ha' hs' hcn'
    have h2' : 0 < (t2.length : Int) := by
      simpa [PMNode.nsize] using h2
    have hmk : marksAt (PMNode.text t m :: PMNode.text t2 m2 :: rest)
        (fsize (PMNode.text t m :: PMNode.text t2 m2 :: rest)) =
        marksAt (PMNode.text t2 m2 :: rest)
          (fsize (PMNode.text t2 m2 :: rest)) := by
      rw [marksAt_skip _ _ _
        (by simp only [PMNode.fsize, PMNode.nsize]; omega)]
      congr 1
      simp only [PMNode.fsize]
      omega
    rw [hmk]
    simp only [List.cons_append, mergeRuns, appendInline]
    rw [if_neg (by simpa using hne)]
    rw [show (PMNode.text t2 m2 :: rest) ++
        [PMNode.text s (marksAt (PMNode.text t2 m2 :: rest)
          (fsize (PMNode.text t2 m2 :: rest)))] =
      PMNode.text t2 m2 :: (rest ++
        [PMNode.text s (marksAt (PMNode.text t2 m2 :: rest)
          (fsize (PMNode.text t2 m2 :: rest)))]) from by simp] at ih
    rw [ih]

/-- Inserting text at the end of canonical inline content appends it to
the trailing run, inheriting its marks (or as a fresh unmarked run when
the content is empty or ends in a non-text child). -/
theorem inlineInsert_atEnd (l : List PMNode) (s : String)
    (ha : allText l = true) (hs : ∀ x ∈ l, 0 < x.nsize)
    (hcn : canonicalRuns l = true) :
    inlineInsert l (fsize l) s = some (appendInline l s) := by
  rw [inlineInsert, inlinePlace_end l _ hs]
  simp only [Option.map_some']
  rw [mergeRuns_appendEnd l s ha hs hcn]

theorem fsize_appendInline : ∀ (l : List PMNode) (s : String),
    fsize (appendInline l s) = fsize l + (s.length : Int)
  | [], s => by
    simp only [appendInline, PMNode.fsize, PMNode.nsize]
    omega
  | [.text t m], s => by
    simp only [appendInline, PMNode.fsize, PMNode.nsize, String.length_append]
    push_cast
    ring
  | [.node t a cs], s => by
    simp only [appendInline, PMNode.fsize, PMNode.nsize]
    omega
  | c :: c2 :: rest, s => by
    have ih := fsize_appendInline (c2 :: rest) s
    cases c with
    | text t m =>
      simp only [appendInline, PMNode.fsize] at ih ⊢
      omega
    | node t a cs =>
      simp only [appendInline, PMNode.fsize] at ih ⊢
      omega

theorem textContentL_appendInline : ∀ (l : List PMNode) (s : String),
    textContentL (appendInline l s) = textContentL l ++ s
  | [], s => by
    simp [appendInline, textContentL, PMNode.textContent]
  | [.text t m], s => by
    simp [appendInline, textContentL, PMNode.textContent]
  | [.node t a cs], s => by
    simp [appendInline, textContentL, PMNode.textContent, String.append_assoc]
  | c :: c2 :: rest, s => by
    have ih := textContentL_appendInline (c2 :: rest) s
    simp only [appendInline, textContentL] at ih ⊢
    rw [ih]
    simp [String.append_assoc]

/-- What one successful `BNMergeBlocks` call does at the boundary between
two childless sibling Blocks: both neighbour checks see `blockContainer`,
no lift runs (the next Block has child count 1), the backward walk
immediately accepts the previous Block (zero child Blocks), the next Block
is deleted whole (its Content range expands to the node), and its text is
appended at the end of the previous Block's Content — merged into its
trailing run, whose marks the inserted text inherits — where the caret is
reported. -/
theorem BNMergeBlocks_leaf_char (ctxP : Ctx) (g : CtxFrame)
    (battrs : AttrMap) (ct : String) (cattrs : AttrMap)
    (before : List PMNode) (b2attrs : AttrMap) (ct2 : String)
    (c2attrs : AttrMap) (after : List PMNode)
    (hgrp : g.tp = "blockGroup")
    (hwP : ctxWalkable ctxP = true)
    (hsib : ∀ x ∈ g.ls ++ g.rs, x.typeName = "blockContainer")
    (hct : isTextblockType ct = true)
    (hbef : allText before = true)
    (hbsz : ∀ r ∈ before, 0 < r.nsize)
    (hbcn : canonicalRuns before = true)
    (htxt : (textContentL after).isEmpty = false) :
    BNMergeBlocks
        (plug ctxP (.node g.tp g.attrs (g.ls ++
          (.node "blockContainer" battrs [.node ct cattrs before]) ::
          (.node "blockContainer" b2attrs [.node ct2 c2attrs after]) ::
          g.rs)))
        (ctxBase (ctxP ++ [g]) + 4 + fsize before) =
      some ⟨true,
        plug ctxP (.node g.tp g.attrs (g.ls ++
          [.node "blockContainer" battrs
            [.node ct cattrs (appendInline before (textContentL after))]] ++
          g.rs)),
        some (ctxBase (ctxP ++ [g]) + 2 + fsize before)⟩ := by
  have hFb := fsize_nonneg before
  have hFa := fsize_nonneg after
  have hFL := fsize_nonneg g.ls
  have hFR := fsize_nonneg g.rs
  have hgtb : isTextblockType g.tp = false := by rw [hgrp]; rfl
  have hB := ctxBase_append ctxP g
  have hpre := fsize_nonneg (g.ls ++ [PMNode.node "blockContainer" battrs
    [PMNode.node ct cattrs before]])
  -- base positions of the two Blocks
  have hB2 : ctxBase (ctxP ++ [CtxFrame.mk g.tp g.attrs
      (g.ls ++ [PMNode.node "blockContainer" battrs
        [PMNode.node ct cattrs before]]) g.rs]) =
      ctxBase (ctxP ++ [g]) + 4 + fsize before := by
    rw [ctxBase_append, ctxBase_append, fsize_append]
    simp only [PMNode.fsize, PMNode.nsize]
    omega
  have hB1 : ctxBase (ctxP ++ [CtxFrame.mk g.tp g.attrs g.ls
      ((PMNode.node "blockContainer" b2attrs
        [PMNode.node ct2 c2attrs after]) :: g.rs)]) =
      ctxBase (ctxP ++ [g]) := by
    rw [ctxBase_append, ctxBase_append]
  have hd2 : plug (ctxP ++ [CtxFrame.mk g.tp g.attrs
      (g.ls ++ [PMNode.node "blockContainer" battrs
        [PMNode.node ct cattrs before]]) g.rs])
      (PMNode.node "blockContainer" b2attrs
        [PMNode.node ct2 c2attrs after]) =
      plug ctxP (.node g.tp g.attrs (g.ls ++
        (PMNode.node "blockContainer" battrs [PMNode.node ct cattrs before]) ::
        (PMNode.node "blockContainer" b2attrs
          [PMNode.node ct2 c2attrs after]) :: g.rs)) := by
    rw [plug_append]
    simp [plug]
  have hd1 : plug (ctxP ++ [CtxFrame.mk g.tp g.attrs g.ls
      ((PMNode.node "blockContainer" b2attrs
        [PMNode.node ct2 c2attrs after]) :: g.rs)])
      (PMNode.node "blockContainer" battrs [PMNode.node ct cattrs before]) =
      plug ctxP (.node g.tp g.attrs (g.ls ++
        (PMNode.node "blockContainer" battrs [PMNode.node ct cattrs before]) ::
        (PMNode.node "blockContainer" b2attrs
          [PMNode.node ct2 c2attrs after]) :: g.rs)) := by
    rw [plug_append]
    simp [plug]
  -- parent at pos + 1 is the next Block
  have hrpN := resolveParent_plug_bdry (ctxP ++ [CtxFrame.mk g.tp g.attrs
      (g.ls ++ [PMNode.node "blockContainer" battrs
        [PMNode.node ct cattrs before]]) g.rs]) "blockContainer" b2attrs
      [PMNode.node ct2 c2attrs after] 0 (by simp) (by omega)
      (fsize_nonneg _) (framesF_zero _ _)
  rw [hd2] at hrpN
  rw [show ctxBase (ctxP ++ [CtxFrame.mk g.tp g.attrs
      (g.ls ++ [PMNode.node "blockContainer" battrs
        [PMNode.node ct cattrs before]]) g.rs]) + 1 + 0 =
    ctxBase (ctxP ++ [g]) + 4 + fsize before + 1 from by rw [hB2]; ring]
    at hrpN
  -- parent at pos − 1 is the previous Block
  have hempB : framesF [PMNode.node ct cattrs before] (2 + fsize before)
      (ctxBase (ctxP ++ [CtxFrame.mk g.tp g.attrs g.ls
        ((PMNode.node "blockContainer" b2attrs
          [PMNode.node ct2 c2attrs after]) :: g.rs)]) + 1) = [] := by
    simp only [framesF, PMNode.nsize]
    rw [if_neg (by omega), if_neg (by omega)]
  have hrpP := resolveParent_plug_bdry (ctxP ++ [CtxFrame.mk g.tp g.attrs g.ls
      ((PMNode.node "blockContainer" b2attrs
        [PMNode.node ct2 c2attrs after]) :: g.rs)]) "blockContainer" battrs
      [PMNode.node ct cattrs before] (2 + fsize before) (by simp) (by omega)
      (by simp only [PMNode.fsize, PMNode.nsize]; omega) hempB
  rw [hd1] at hrpP
  rw [show ctxBase (ctxP ++ [CtxFrame.mk g.tp g.attrs g.ls
      ((PMNode.node "blockContainer" b2attrs
        [PMNode.node ct2 c2attrs after]) :: g.rs)]) + 1 + (2 + fsize before) =
    ctxBase (ctxP ++ [g]) + 4 + fsize before - 1 from by rw [hB1]; ring]
    at hrpP
  -- block info of the next Block
  have hbiN := getBlockInfoFromPos_plug_bdry (ctxP ++ [CtxFrame.mk g.tp g.attrs
      (g.ls ++ [PMNode.node "blockContainer" battrs
        [PMNode.node ct cattrs before]]) g.rs]) b2attrs
      (PMNode.node ct2 c2attrs after) [] 0 (by simp) (by omega)
      (fsize_nonneg _) (framesF_zero _ _)
  rw [hd2] at hbiN
  rw [show ctxBase (ctxP ++ [CtxFrame.mk g.tp g.attrs
      (g.ls ++ [PMNode.node "blockContainer" battrs
        [PMNode.node ct cattrs before]]) g.rs]) + 1 + 0 =
    ctxBase (ctxP ++ [g]) + 4 + fsize before + 1 from by rw [hB2]; ring]
    at hbiN
  -- block info of the previous Block (the walk target)
  have hbiP := getBlockInfoFromPos_plug_bdry (ctxP ++ [CtxFrame.mk g.tp g.attrs
      g.ls ((PMNode.node "blockContainer" b2attrs
        [PMNode.node ct2 c2attrs after]) :: g.rs)]) battrs
      (PMNode.node ct cattrs before) [] (2 + fsize before) (by simp)
      (by omega) (by simp only [PMNode.fsize, PMNode.nsize]; omega) hempB
  rw [hd1] at hbiP
  rw [show ctxBase (ctxP ++ [CtxFrame.mk g.tp g.attrs g.ls
      ((PMNode.node "blockContainer" b2attrs
        [PMNode.node ct2 c2attrs after]) :: g.rs)]) + 1 + (2 + fsize before) =
    ctxBase (ctxP ++ [g]) + 4 + fsize before - 1 from by rw [hB1]; ring]
    at hbiP
  -- unfold the command
  simp only [BNMergeBlocks, resolveParentType, hrpN, hrpP, Option.map_some',
    Option.some_bind, typeName]
  rw [if_neg (not_not_intro (⟨trivial, trivial⟩ : True ∧ True))]
  rw [hbiN]
  simp only [Option.some_bind]
  rw [if_neg (show ¬((PMNode.node "blockContainer" b2attrs
    [PMNode.node ct2 c2attrs after]).childCount == 2) = true from by
      simp [childCount, childrenOf])]
  simp only [Option.some_bind]
  -- the backward walk accepts the previous Block at once
  rw [show (ctxBase (ctxP ++ [g]) + 4 + fsize before - 1).toNat + 2 =
    ((ctxBase (ctxP ++ [g]) + 4 + fsize before - 1).toNat + 1) + 1 from rfl]
  simp only [mergeWalk]
  rw [hbiP]
  simp only []
  rw [if_neg (show ¬((if (([PMNode.node ct cattrs before] : List PMNode).length
      == 2) = true then
      ((Option.map PMNode.childCount
        ([PMNode.node ct cattrs before] : List PMNode).getLast?).getD 0)
    else 0) > 0) from by simp)]
  simp only []
  -- delete the next Block whole
  have hdw : delWalk (g.ls ++
      (PMNode.node "blockContainer" battrs [PMNode.node ct cattrs before]) ::
      (PMNode.node "blockContainer" b2attrs
        [PMNode.node ct2 c2attrs after]) :: g.rs)
      (fsize (g.ls ++ [PMNode.node "blockContainer" battrs
        [PMNode.node ct cattrs before]]) + 1)
      (fsize (g.ls ++ [PMNode.node "blockContainer" battrs
        [PMNode.node ct cattrs before]]) + (3 + fsize after)) =
      some ((g.ls ++ [PMNode.node "blockContainer" battrs
        [PMNode.node ct cattrs before]]) ++ g.rs, true) := by
    rw [show (g.ls ++
        (PMNode.node "blockContainer" battrs [PMNode.node ct cattrs before]) ::
        (PMNode.node "blockContainer" b2attrs
          [PMNode.node ct2 c2attrs after]) :: g.rs : List PMNode) =
      (g.ls ++ [PMNode.node "blockContainer" battrs
        [PMNode.node ct cattrs before]]) ++
        (PMNode.node "blockContainer" b2attrs
          [PMNode.node ct2 c2attrs after]) :: g.rs from by simp]
    rw [delWalk_skip _ _ _ _ (by omega)]
    rw [show (3 : Int) + fsize after =
      1 + fsize [PMNode.node ct2 c2attrs after] from by
        simp only [PMNode.fsize, PMNode.nsize]; omega]
    rw [delWalk_node_all "blockContainer" b2attrs
      [PMNode.node ct2 c2attrs after] g.rs rfl]
    rfl
  have hdel := deleteRange_plug ctxP g.tp g.attrs
    (g.ls ++
      (PMNode.node "blockContainer" battrs [PMNode.node ct cattrs before]) ::
      (PMNode.node "blockContainer" b2attrs
        [PMNode.node ct2 c2attrs after]) :: g.rs)
    (fsize (g.ls ++ [PMNode.node "blockContainer" battrs
      [PMNode.node ct cattrs before]]) + 1)
    (fsize (g.ls ++ [PMNode.node "blockContainer" battrs
      [PMNode.node ct cattrs before]]) + (3 + fsize after))
    (by
      intro pr hpr hflag
      rw [hdw] at hpr
      cases hpr
      rw [hgrp]
      refine contentAllowed_group _ (by simp) ?_
      intro x hx
      rcases List.mem_append.mp hx with hx | hx
      · rcases List.mem_append.mp hx with hx | hx
        · exact hsib x (List.mem_append_left _ hx)
        · simp only [List.mem_singleton] at hx
          subst hx
          rfl
      · exact hsib x (List.mem_append_right _ hx))
    (by rintro ⟨h1, h2⟩; omega)
    (by omega) (by omega)
    (by
      simp only [fsize_append, PMNode.fsize, PMNode.nsize]
      omega)
  rw [show ctxBase (ctxP ++ [CtxFrame.mk g.tp g.attrs
      (g.ls ++ [PMNode.node "blockContainer" battrs
        [PMNode.node ct cattrs before]]) g.rs]) + 1 =
    ctxBase ctxP + 1 + (fsize (g.ls ++ [PMNode.node "blockContainer" battrs
      [PMNode.node ct cattrs before]]) + 1) from by
      rw [hB2, hB]
      simp only [fsize_append, PMNode.fsize, PMNode.nsize]
      omega]
  rw [show ctxBase ctxP + 1 + (fsize (g.ls ++
      [PMNode.node "blockContainer" battrs
        [PMNode.node ct cattrs before]]) + 1) +
      (PMNode.node ct2 c2attrs after).nsize =
    ctxBase ctxP + 1 + (fsize (g.ls ++ [PMNode.node "blockContainer" battrs
      [PMNode.node ct cattrs before]]) + (3 + fsize after)) from by
      simp only [PMNode.nsize]
      ring]
  rw [hdel, hdw]
  simp only [Option.map_some', Option.some_bind]
  -- append the next Block's text at the previous Content's end
  have hwG : ctxWalkable (ctxP ++ [g]) = true := by
    rw [ctxWalkable_append, hwP, hgtb]
    rfl
  have hins := trInsertText_plug (ctxP ++ [g]) "blockContainer" battrs
    [PMNode.node ct cattrs before] (1 + fsize before) (textContentL after)
    rfl hwG htxt (by omega)
    (by simp only [PMNode.fsize, PMNode.nsize]; omega)
  have hd2' : plug (ctxP ++ [g])
      (PMNode.node "blockContainer" battrs [PMNode.node ct cattrs before]) =
      plug ctxP (.node g.tp g.attrs ((g.ls ++
        [PMNode.node "blockContainer" battrs
          [PMNode.node ct cattrs before]]) ++ g.rs)) := by
    rw [plug_append]
    rfl
  rw [hd2'] at hins
  rw [show ctxBase (ctxP ++ [g]) + 1 + (1 + fsize before) =
    ctxBase (ctxP ++ [g]) + 4 + fsize before - 1 - 1 from by ring] at hins
  rw [show PMNode.textContent (PMNode.node ct2 c2attrs after) =
    textContentL after from rfl]
  rw [hins]
  have hitF : insertTextF [PMNode.node ct cattrs before] (1 + fsize before)
      (textContentL after) =
      some [PMNode.node ct cattrs
        (appendInline before (textContentL after))] := by
    simp only [insertTextF, insertTextN, PMNode.nsize]
    rw [if_neg (by omega)]
    rw [if_pos (show (1 : Int) ≤ 1 + fsize before ∧
      1 + fsize before ≤ 2 + fsize before - 1 from ⟨by omega, by omega⟩)]
    rw [if_pos hct]
    rw [show (1 : Int) + fsize before - 1 = fsize before from by omega]
    rw [inlineInsert_atEnd before (textContentL after) hbef hbsz hbcn]
    rfl
  rw [hitF]
  simp only [Option.map_some', Option.some_bind]
  -- caret lands inside the merged Content
  rw [show ctxBase (ctxP ++ [g]) + 4 + fsize before - 1 - 1 =
    ctxBase (ctxP ++ [g]) + 1 + (1 + fsize before) from by ring]
  rw [plug_posInRange (ctxP ++ [g]) "blockContainer" battrs
    [PMNode.node ct cattrs (appendInline before (textContentL after))]
    (1 + fsize before) (by omega)
    (by
      simp only [PMNode.fsize, PMNode.nsize]
      rw [fsize_appendInline]
      omega)]
  simp only [eq_self_iff_true, if_true]
  have hd3 : plug (ctxP ++ [g]) (PMNode.node "blockContainer" battrs
      [PMNode.node ct cattrs
        (appendInline before (textContentL after))]) =
      plug ctxP (.node g.tp g.attrs (g.ls ++
        [.node "blockContainer" battrs
          [.node ct cattrs (appendInline before (textContentL after))]] ++
        g.rs)) := by
    rw [plug_append]
    rfl
  simp only [Option.some.injEq, CmdOut.mk.injEq]
  refine ⟨by trivial, hd3, ?_⟩
  omega

/-! ## Cuts of inline content: shapes of the two halves of a split -/

theorem take_ge_length_str (s : String) (n : Nat) (h : s.length ≤ n) :
    s.take n = s := by
  apply String.ext
  rw [String.data_take]
  exact List.take_of_length_le
    (by rw [show s.data.length = s.length from rfl]; exact h)

theorem length_pos_isEmpty_false (s : String) (h : 0 < s.length) :
    s.isEmpty = false := by
  rw [Bool.eq_false_iff]
  intro he
  rw [String.isEmpty_iff] at he
  subst he
  simp at h

theorem textContentL_length : ∀ (l : List PMNode), allText l = true →
    ((textContentL l).length : Int) = fsize l
  | [], _ => rfl
  | c :: rest, ha => by
    cases c with
    | node t a cs => exact absurd ha (by simp [allText])
    | text t m =>
      have ih := textContentL_length rest (by simpa [allText] using ha)
      simp only [textContentL, PMNode.textContent, PMNode.fsize, PMNode.nsize,
        String.length_append]
      push_cast
      omega

/-- The left bound of a cut only matters through its clamp to 0. -/
theorem cutWalk_nonpos_a : ∀ (cs : List PMNode) (a a' b : Int),
    (∀ r ∈ cs, 0 < r.nsize) → a ≤ 0 → a' ≤ 0 →
    cutWalk cs a b = cutWalk cs a' b
  | [], _, _, _, _, _, _ => rfl
  | c :: rest, a, a', b, hs, ha, ha' => by
    have hc : 0 < c.nsize := hs c (by simp)
    have ih := cutWalk_nonpos_a rest (a - c.nsize) (a' - c.nsize) (b - c.nsize)
      (fun r hr => hs r (by simp [hr])) (by omega) (by omega)
    have hcut : cutN c a b = cutN c a' b := by
      cases c with
      | text s m =>
        simp only [cutN]
        rw [show max a 0 = max a' 0 from by omega]
      | node t2 a2 ccs =>
        simp only [cutN]
        rw [show max (a - 1) 0 = max (a' - 1) 0 from by omega]
    have e1 : (a ≥ c.nsize) ↔ (a' ≥ c.nsize) := by
      constructor <;> intro h <;> omega
    have e2 : (a ≤ 0 ∧ b ≥ c.nsize) ↔ (a' ≤ 0 ∧ b ≥ c.nsize) := by
      constructor <;> rintro ⟨h1, h2⟩ <;> exact ⟨by omega, h2⟩
    simp only [cutWalk, e1, e2, ih, hcut]

/-- A cut covering the whole fragment keeps it intact. -/
theorem cutWalk_all : ∀ (cs : List PMNode) (a b : Int),
    (∀ r ∈ cs, 0 < r.nsize) → a ≤ 0 → fsize cs ≤ b →
    cutWalk cs a b = cs
  | [], _, _, _, _, _ => rfl
  | c :: rest, a, b, hs, ha, hb => by
    have hc : 0 < c.nsize := hs c (by simp)
    have hfr := fsize_nonneg rest
    simp only [PMNode.fsize] at hb
    have ih := cutWalk_all rest (a - c.nsize) (b - c.nsize)
      (fun r hr => hs r (by simp [hr])) (by omega) (by omega)
    simp only [cutWalk]
    rw [if_neg (by omega), if_neg (by omega), if_pos ⟨by omega, by omega⟩, ih]

theorem length_drop_str (s : String) (n : Nat) (h : n ≤ s.length) :
    ((s.drop n).length : Int) = (s.length : Int) - n := by
  rw [show (s.drop n).length = (s.drop n).data.length from rfl, String.data_drop]
  rw [List.length_drop]
  rw [show s.length = s.data.length from rfl] at h ⊢
  omega

/-- Content size of a prefix cut: exactly the cut width. -/
theorem fsize_cutWalk_pre : ∀ (cs : List PMNode) (a k : Int),
    allText cs = true → (∀ r ∈ cs, 0 < r.nsize) → a ≤ 0 → 0 ≤ k →
    fsize (cutWalk cs a k) = min k (fsize cs)
  | [], a, k, _, _, _, hk => by
    simp only [cutWalk, PMNode.fsize]
    omega
  | c :: rest, a, k, ha, hs, ha0, hk => by
    cases c with
    | node t a2 cs2 => exact absurd ha (by simp [allText])
    | text t m =>
      have hc : 0 < (PMNode.text t m).nsize := hs _ (by simp)
      have hlen : 0 < (t.length : Int) := by simpa [PMNode.nsize] using hc
      have hfr := fsize_nonneg rest
      simp only [cutWalk]
      by_cases hk0 : k ≤ 0
      · rw [if_pos hk0]
        simp only [PMNode.fsize, PMNode.nsize]
        omega
      · rw [if_neg hk0, if_neg (by simp only [PMNode.nsize]; omega)]
        by_cases hwh : k ≥ (t.length : Int)
        · have ih := fsize_cutWalk_pre rest (a - (t.length : Int))
            (k - (t.length : Int)) (by simpa [allText] using ha)
            (fun r hr => hs r (by simp [hr])) (by omega) (by omega)
          rw [if_pos ⟨by omega, by simp only [PMNode.nsize]; omega⟩]
          simp only [PMNode.fsize, PMNode.nsize] at ih ⊢
          rw [ih]
          omega
        · rw [if_neg (by rintro ⟨h1, h2⟩; simp only [PMNode.nsize] at h2; omega)]
          rw [cutWalk_nil_of_nonpos rest _ _
            (by simp only [PMNode.nsize]; omega)]
          simp only [cutN, PMNode.fsize, PMNode.nsize]
          rw [show max a 0 = 0 from by omega]
          rw [show ((0 : Int)).toNat = 0 from rfl, drop_zero_str,
            length_take_str]
          omega

/-- Content size of a suffix cut: what lies beyond the (clamped) left
bound. -/
theorem fsize_cutWalk_suf : ∀ (cs : List PMNode) (k b : Int),
    allText cs = true → (∀ r ∈ cs, 0 < r.nsize) → fsize cs ≤ b →
    k ≤ fsize cs →
    fsize (cutWalk cs k b) = fsize cs - max k 0
  | [], k, b, _, _, _, hk1 => by
    simp only [cutWalk, PMNode.fsize]
    simp only [PMNode.fsize] at hk1
    omega
  | c :: rest, k, b, ha, hs, hb, hk1 => by
    cases c with
    | node t a2 cs2 => exact absurd ha (by simp [allText])
    | text t m =>
      have hc : 0 < (PMNode.text t m).nsize := hs _ (by simp)
      have hlen : 0 < (t.length : Int) := by simpa [PMNode.nsize] using hc
      have hfr := fsize_nonneg rest
      have hb' : (t.length : Int) + fsize rest ≤ b := by
        simpa [PMNode.fsize, PMNode.nsize] using hb
      have hk1' : k ≤ (t.length : Int) + fsize rest := by
        simpa [PMNode.fsize, PMNode.nsize] using hk1
      have ih := fsize_cutWalk_suf rest (k - (t.length : Int))
        (b - (t.length : Int)) (by simpa [allText] using ha)
        (fun r hr => hs r (by simp [hr])) (by omega) (by omega)
      simp only [cutWalk]
      rw [if_neg (by omega)]
      by_cases hsk : k ≥ (t.length : Int)
      · rw [if_pos (show k ≥ (PMNode.text t m).nsize from by
          simp only [PMNode.nsize]; omega)]
        simp only [PMNode.fsize, PMNode.nsize] at ih ⊢
        rw [ih]
        omega
      · rw [if_neg (show ¬(k ≥ (PMNode.text t m).nsize) from by
          simp only [PMNode.nsize]; omega)]
        by_cases hk0 : k ≤ 0
        · rw [if_pos ⟨hk0, show b ≥ (PMNode.text t m).nsize from by
            simp only [PMNode.nsize]; omega⟩]
          simp only [PMNode.fsize, PMNode.nsize] at ih ⊢
          rw [ih]
          omega
        · rw [if_neg (by rintro ⟨h1, h2⟩; omega)]
          simp only [cutN, PMNode.fsize, PMNode.nsize] at ih ⊢
          rw [ih]
          rw [take_ge_length_str t b.toNat (by omega)]
          rw [length_drop_str t (max k 0).toNat (by omega)]
          omega

theorem length_drop_nat (s : String) (n : Nat) :
    (s.drop n).length = s.length - n := by
  rw [show (s.drop n).length = (s.drop n).data.length from rfl,
    String.data_drop, List.length_drop]
  rfl

/-- A cut of a non-empty range keeps every kept run non-empty. -/
theorem cutWalk_sizes : ∀ (cs : List PMNode) (a b : Int),
    allText cs = true → (∀ r ∈ cs, 0 < r.nsize) → a < b →
    ∀ r ∈ cutWalk cs a b, 0 < r.nsize
  | [], _, _, _, _, _ => by intro r hr; exact absurd hr (List.not_mem_nil r)
  | c :: rest, a, b, ha, hs, hab => by
    cases c with
    | node t a2 cs2 => exact absurd ha (by simp [allText])
    | text t m =>
      have hc : 0 < (PMNode.text t m).nsize := hs _ (by simp)
      have hlen : 0 < (t.length : Int) := by simpa [PMNode.nsize] using hc
      have ih := cutWalk_sizes rest (a - (PMNode.text t m).nsize)
        (b - (PMNode.text t m).nsize) (by simpa [allText] using ha)
        (fun r hr => hs r (by simp [hr])) (by omega)
      intro r hr
      simp only [cutWalk] at hr
      by_cases hb : b ≤ 0
      · rw [if_pos hb] at hr
        exact absurd hr (List.not_mem_nil r)
      rw [if_neg hb] at hr
      by_cases hsk : a ≥ (PMNode.text t m).nsize
      · rw [if_pos hsk] at hr
        exact ih r hr
      rw [if_neg hsk] at hr
      rcases List.mem_cons.mp hr with hr | hr
      · subst hr
        by_cases hwh : a ≤ 0 ∧ b ≥ (PMNode.text t m).nsize
        · rw [if_pos hwh]
          exact hc
        · rw [if_neg hwh]
          simp only [PMNode.nsize] at hsk hwh ⊢
          simp only [cutN, PMNode.nsize]
          have hL : ((t.take b.toNat).drop (max a 0).toNat).length =
              (t.take b.toNat).length - (max a 0).toNat :=
            length_drop_nat _ _
          rw [hL, length_take_str]
          omega
      · exact ih r hr

/-- The text of a split's two halves concatenates to the original text. -/
theorem textContentL_cutWalk_split : ∀ (cs : List PMNode) (k : Int),
    allText cs = true → (∀ r ∈ cs, 0 < r.nsize) → 0 ≤ k → k ≤ fsize cs →
    textContentL (cutWalk cs 0 k) ++ textContentL (cutWalk cs k (fsize cs)) =
      textContentL cs
  | [], k, _, _, hk0, hk1 => by
    simp only [cutWalk, PMNode.fsize, textContentL]
    rfl
  | c :: rest, k, ha, hs, hk0, hk1 => by
    cases c with
    | node t a2 cs2 => exact absurd ha (by simp [allText])
    | text t m =>
      have hc : 0 < (PMNode.text t m).nsize := hs _ (by simp)
      have hlen : 0 < (t.length : Int) := by simpa [PMNode.nsize] using hc
      have hfr := fsize_nonneg rest
      have ha' : allText rest = true := by simpa [allText] using ha
      have hs' : ∀ r ∈ rest, 0 < r.nsize := fun r hr => hs r (by simp [hr])
      simp only [PMNode.fsize, PMNode.nsize] at hk1
      by_cases hz : k = 0
      · subst hz
        rw [cutWalk_nil_of_nonpos _ _ _ (by omega)]
        rw [cutWalk_all _ _ _ hs (by omega)
          (by simp only [PMNode.fsize, PMNode.nsize]; omega)]
        rfl
      by_cases hkl : k < (t.length : Int)
      · -- the split point falls inside the first run
        have hbefore : cutWalk (PMNode.text t m :: rest) 0 k =
            [PMNode.text (t.take k.toNat) m] := by
          simp only [cutWalk, PMNode.nsize]
          rw [if_neg (by omega), if_neg (by omega),
            if_neg (by rintro ⟨h1, h2⟩; omega)]
          rw [cutWalk_nil_of_nonpos rest _ _ (by omega)]
          simp only [cutN]
          rw [show ((max (0 : Int) 0).toNat) = 0 from by simp, drop_zero_str]
        have hafter : cutWalk (PMNode.text t m :: rest)
            k (fsize (PMNode.text t m :: rest)) =
            PMNode.text (t.drop k.toNat) m :: rest := by
          simp only [cutWalk, PMNode.fsize, PMNode.nsize]
          rw [if_neg (by omega), if_neg (by omega),
            if_neg (by rintro ⟨h1, h2⟩; omega)]
          rw [cutWalk_all rest _ _ hs' (by omega) (by omega)]
          simp only [cutN]
          rw [take_ge_length_str t ((t.length : Int) + fsize rest).toNat
            (by omega)]
          rw [show (max k 0).toNat = k.toNat from by omega]
        rw [show fsize (PMNode.text t m :: rest) =
          fsize (PMNode.text t m :: rest) from rfl] at hafter
        rw [hbefore, hafter]
        simp only [textContentL, PMNode.textContent]
        rw [show (t.take k.toNat ++ "" : String) = t.take k.toNat from by simp]
        rw [← String.append_assoc, take_append_drop_str]
      · -- the split point sits at or beyond the first run's end
        have hke : (t.length : Int) ≤ k := by omega
        have hbefore : cutWalk (PMNode.text t m :: rest) 0 k =
            PMNode.text t m :: cutWalk rest 0 (k - (t.length : Int)) := by
          simp only [cutWalk, PMNode.nsize]
          rw [if_neg (by omega), if_neg (by omega),
            if_pos ⟨by omega, by omega⟩]
          rw [cutWalk_nonpos_a rest (0 - (t.length : Int)) 0 _ hs'
            (by omega) (by omega)]
        have hafter : cutWalk (PMNode.text t m :: rest)
            k (fsize (PMNode.text t m :: rest)) =
            cutWalk rest (k - (t.length : Int)) (fsize rest) := by
          simp only [cutWalk, PMNode.fsize, PMNode.nsize]
          rw [if_neg (by omega), if_pos (by omega)]
          rw [show ((t.length : Int) + fsize rest - (t.length : Int)) =
            fsize rest from by omega]
        have ih := textContentL_cutWalk_split rest (k - (t.length : Int))
          ha' hs' (by omega) (by omega)
        rw [hbefore, hafter]
        simp only [textContentL, PMNode.textContent]
        rw [String.append_assoc, ih]

/-- A prefix cut of canonical inline content is canonical: it keeps a
prefix of the runs, truncating only the last one, so the marks of
adjacent runs are unchanged. -/
theorem canonicalRuns_cutWalk_pre : ∀ (cs : List PMNode) (a b : Int),
    a ≤ 0 → allText cs = true → (∀ r ∈ cs, 0 < r.nsize) →
    canonicalRuns cs = true →
    canonicalRuns (cutWalk cs a b) = true
  | [], _, _, _, _, _, _ => rfl
  | c :: rest, a, b, ha0, ha, hs, hcn => by
    cases c with
    | node t a2 cs2 => exact absurd ha (by simp [allText])
    | text t m =>
      have hc : 0 < (PMNode.text t m).nsize := hs _ (by simp)
      have hlen : 0 < (t.length : Int) := by simpa [PMNode.nsize] using hc
      have ha' : allText rest = true := by simpa [allText] using ha
      have hs' : ∀ r ∈ rest, 0 < r.nsize := fun r hr => hs r (by simp [hr])
      have hcn' : canonicalRuns rest = true := by
        cases rest with
        | nil => rfl
        | cons c2 rest2 =>
          cases c2 with
          | node t2 a2 cs2 => exact absurd ha' (by simp [allText])
          | text t2 m2 =>
            simp only [canonicalRuns, Bool.and_eq_true] at hcn
            exact hcn.2
      have ih := canonicalRuns_cutWalk_pre rest (a - (t.length : Int))
        (b - (t.length : Int)) (by omega) ha' hs' hcn'
      simp only [cutWalk, PMNode.nsize]
      by_cases hb : b ≤ 0
      · rw [if_pos hb]
        rfl
      rw [if_neg hb, if_neg (by omega)]
      -- the first child is kept (whole or truncated), with its marks
      have hhead : ∀ s' : String,
          canonicalRuns (PMNode.text s' m ::
            cutWalk rest (a - (t.length : Int)) (b - (t.length : Int))) =
            true := by
        intro s'
        cases rest with
        | nil =>
          simp only [cutWalk]
          rfl
        | cons c2 rest2 =>
          cases c2 with
          | node t2 a2 cs2 => exact absurd ha' (by simp [allText])
          | text t2 m2 =>
            have hc2 : 0 < (PMNode.text t2 m2).nsize := hs' _ (by simp)
            have hlen2 : 0 < (t2.length : Int) := by
              simpa [PMNode.nsize] using hc2
            simp only [canonicalRuns, Bool.and_eq_true] at hcn
            by_cases hb2 : b - (t.length : Int) ≤ 0
            · rw [cutWalk_nil_of_nonpos _ _ _ hb2]
              rfl
            · simp only [cutWalk, PMNode.nsize]
              rw [if_neg hb2, if_neg (by omega)]
              by_cases hwh : (a - (t.length : Int) ≤ 0 ∧
                  b - (t.length : Int) ≥ (t2.length : Int))
              · rw [if_pos hwh]
                simp only [canonicalRuns, Bool.and_eq_true]
                refine ⟨hcn.1, ?_⟩
                have := ih
                simp only [cutWalk, PMNode.nsize] at this
                rw [if_neg hb2, if_neg (by omega), if_pos hwh] at this
                exact this
              · rw [if_neg hwh]
                simp only [cutN, canonicalRuns, Bool.and_eq_true]
                refine ⟨hcn.1, ?_⟩
                have := ih
                simp only [cutWalk, PMNode.nsize] at this
                rw [if_neg hb2, if_neg (by omega), if_neg hwh] at this
                simpa only [cutN] using this
      by_cases hwh : (a ≤ 0 ∧ b ≥ (t.length : Int))
      · rw [if_pos hwh]
        exact hhead t
      · rw [if_neg hwh]
        simp only [cutN]
        exact hhead _

theorem textContent_plug_congr : ∀ (ctx : Ctx) (x y : PMNode),
    PMNode.textContent x = PMNode.textContent y →
    PMNode.textContent (plug ctx x) = PMNode.textContent (plug ctx y)
  | [], _, _, h => h
  | f :: ctx, x, y, h => by
    have ih := textContent_plug_congr ctx x y h
    simp only [plug, PMNode.textContent, textContentL_append, textContentL, ih]

/-- When the focus of a non-trivial context chain is not a Block but its
immediately enclosing frame is, the innermost container frame is that
enclosing Block. -/
theorem ctxFrames_lastContainer_snoc : ∀ (ctx0 : Ctx) (f : CtxFrame)
    (x : PMNode) (cbase : Int), ctx0 ≠ [] →
    (f.tp == "blockContainer") = true →
    (x.typeName == "blockContainer") = false →
    lastContainerFrame (ctxFrames (ctx0 ++ [f]) x cbase) =
      some (⟨plug [f] x, cbase + ctxBase ctx0 + 1⟩, ctx0.length)
  | [], _, _, _, h, _, _ => absurd rfl h
  | [f0], f, x, cbase, _, hf, hx => by
    simp only [List.singleton_append, ctxFrames]
    rw [lastContainerFrame_cons, lastContainerFrame_cons]
    simp only [lastContainerFrame]
    rw [if_neg (show ¬((plug [] x).typeName == "blockContainer") = true from by
      simp only [plug]
      simp [hx])]
    simp only [List.append_eq, List.nil_append]
    rw [if_pos (show ((plug [f] x).typeName == "blockContainer") = true from by
      simp only [plug, typeName]
      exact hf)]
    simp only [Option.some.injEq, Prod.mk.injEq, Frame.mk.injEq,
      List.length_singleton]
    refine ⟨⟨trivial, ?_⟩, trivial⟩
    simp only [ctxBase]
    omega
  | f0 :: f1 :: ctx0, f, x, cbase, _, hf, hx => by
    have ih := ctxFrames_lastContainer_snoc (f1 :: ctx0) f x
      (cbase + fsize f0.ls + 1) (by simp) hf hx
    rw [show ((f0 :: f1 :: ctx0) ++ [f] : Ctx) =
      f0 :: ((f1 :: ctx0) ++ [f]) from rfl]
    rw [show ctxFrames (f0 :: ((f1 :: ctx0) ++ [f])) x cbase =
      ⟨plug ((f1 :: ctx0) ++ [f]) x, cbase + fsize f0.ls + 1⟩ ::
        ctxFrames ((f1 :: ctx0) ++ [f]) x (cbase + fsize f0.ls + 1) from rfl]
    rw [lastContainerFrame_cons, ih]
    simp only [Option.some.injEq, Prod.mk.injEq, Frame.mk.injEq]
    refine ⟨⟨trivial, ?_⟩, ?_⟩
    · simp only [ctxBase]
      omega
    · simp only [List.length_cons]

/-- Block info at the content-end boundary of a Block's Child Group: the
resolver settles on the owning Block. -/
theorem getBlockInfoFromPos_group_end (ctx0 : Ctx) (pattrs : AttrMap)
    (cn : PMNode) (gattrs : AttrMap) (gcs : List PMNode) (q : Int)
    (hctx : ctx0 ≠ []) (h0 : 0 ≤ q) (h1 : q ≤ fsize gcs)
    (hemp : framesF gcs q (ctxBase (ctx0 ++
      [CtxFrame.mk "blockContainer" pattrs [cn] []]) + 1) = []) :
    getBlockInfoFromPos
        (plug (ctx0 ++ [CtxFrame.mk "blockContainer" pattrs [cn] []])
          (.node "blockGroup" gattrs gcs))
        (ctxBase (ctx0 ++ [CtxFrame.mk "blockContainer" pattrs [cn] []]) +
          1 + q) =
      some
        { node := .node "blockContainer" pattrs
            [cn, .node "blockGroup" gattrs gcs]
          contentNode := cn
          contentType := cn.typeName
          startPos := ctxBase ctx0 + 1
          endPos := ctxBase ctx0 + 1 + (cn.nsize + (2 + fsize gcs))
          depth := ctx0.length
          numChildBlocks := gcs.length } := by
  have hfr := frames_plug
    (ctx0 ++ [CtxFrame.mk "blockContainer" pattrs [cn] []])
    "blockGroup" gattrs gcs q h0 h1
  simp only [getBlockInfoFromPos,
    plug_posInRange _ _ _ _ q h0 h1, eq_self_iff_true, if_true]
  rw [hfr, hemp, List.append_nil,
    ctxFrames_lastContainer_snoc ctx0
      (CtxFrame.mk "blockContainer" pattrs [cn] [])
      (.node "blockGroup" gattrs gcs) 0 hctx rfl rfl]
  have e : (0 : Int) + ctxBase ctx0 + 1 = ctxBase ctx0 + 1 := by omega
  rw [e]
  rw [show plug [CtxFrame.mk "blockContainer" pattrs [cn] []]
      (PMNode.node "blockGroup" gattrs gcs) =
    PMNode.node "blockContainer" pattrs
      [cn, PMNode.node "blockGroup" gattrs gcs] from by simp [plug]]
  simp [childrenOf, List.head?, csize, childCount, PMNode.fsize,
    PMNode.nsize]

/-- Merging at a boundary where the next Block has a Child Group and the
previous Block has one too: the next Block's children are lifted one level
into the enclosing group and survive as post-merge siblings; the backward
walk skips the previous Block and its Child Group (both have child
Blocks) and appends the next Block's text to the Content of the nearest
preceding childless Block, where the caret is reported. -/
theorem mergeLift_skipPrev_char (ctxP : Ctx) (g : CtxFrame) (pattrs : AttrMap)
    (ctP : String) (cattrsP : AttrMap) (runsP : List PMNode)
    (gattrs : AttrMap) (cbattrs : AttrMap) (ctC : String)
    (cattrsC : AttrMap) (runsC : List PMNode) (nattrs : AttrMap)
    (ctN : String) (cattrsN : AttrMap) (runsN : List PMNode)
    (g2attrs : AttrMap) (kids : List PMNode)
    (hgrp : g.tp = "blockGroup")
    (hwP : ctxWalkable ctxP = true)
    (hsib : ∀ x ∈ g.ls ++ g.rs, x.typeName = "blockContainer")
    (hkids : ∀ x ∈ kids, x.typeName = "blockContainer")
    (hctN : isTextblockType ctN = true)
    (hctC : isTextblockType ctC = true)
    (hrunsC : allText runsC = true)
    (hszC : ∀ r ∈ runsC, 0 < r.nsize)
    (hcnC : canonicalRuns runsC = true)
    (htxtN : (textContentL runsN).isEmpty = false) :
    BNMergeBlocks
        (plug ctxP (.node g.tp g.attrs (g.ls ++ PMNode.node "blockContainer" pattrs [PMNode.node ctP cattrsP runsP, PMNode.node "blockGroup" gattrs [PMNode.node "blockContainer" cbattrs [PMNode.node ctC cattrsC runsC]]] :: PMNode.node "blockContainer" nattrs [PMNode.node ctN cattrsN runsN, PMNode.node "blockGroup" g2attrs kids] :: g.rs)))
        (ctxBase (ctxP ++ [g]) + 10 + fsize runsP + fsize runsC) =
      some ⟨true,
        plug ctxP (.node g.tp g.attrs (g.ls ++ PMNode.node "blockContainer" pattrs [PMNode.node ctP cattrsP runsP, PMNode.node "blockGroup" gattrs [PMNode.node "blockContainer" cbattrs [PMNode.node ctC cattrsC (appendInline runsC (textContentL runsN))]]] :: (kids ++ g.rs))),
        some (ctxBase (ctxP ++ [g]) + 6 + fsize runsP + fsize runsC)⟩ := by
  have hRP := fsize_nonneg runsP
  have hRC := fsize_nonneg runsC
  have hRN := fsize_nonneg runsN
  have hK := fsize_nonneg kids
  have hFL := fsize_nonneg g.ls
  have hFR := fsize_nonneg g.rs
  have hpre := fsize_nonneg (g.ls ++ [PMNode.node "blockContainer" pattrs [PMNode.node ctP cattrsP runsP, PMNode.node "blockGroup" gattrs [PMNode.node "blockContainer" cbattrs [PMNode.node ctC cattrsC runsC]]]])
  have hgtb : isTextblockType g.tp = false := by rw [hgrp]; rfl
  have hB := ctxBase_append ctxP g
  have hcbP := ctxBase_ge ctxP
  have hBN : ctxBase (ctxP ++ [CtxFrame.mk g.tp g.attrs (g.ls ++ [PMNode.node "blockContainer" pattrs [PMNode.node ctP cattrsP runsP, PMNode.node "blockGroup" gattrs [PMNode.node "blockContainer" cbattrs [PMNode.node ctC cattrsC runsC]]]]) g.rs]) =
      ctxBase (ctxP ++ [g]) + 10 + fsize runsP + fsize runsC := by
    rw [ctxBase_append, ctxBase_append]
    simp only [fsize_append, PMNode.fsize, PMNode.nsize]
    omega
  have hB1 : ctxBase (ctxP ++ [CtxFrame.mk g.tp g.attrs g.ls (PMNode.node "blockContainer" nattrs [PMNode.node ctN cattrsN runsN, PMNode.node "blockGroup" g2attrs kids] :: g.rs)]) = ctxBase (ctxP ++ [g]) := by
    rw [ctxBase_append, ctxBase_append]
  have hBW1 : ctxBase (ctxP ++ [CtxFrame.mk g.tp g.attrs g.ls (PMNode.node "blockContainer" nattrs [PMNode.node ctN cattrsN runsN] :: (kids ++ g.rs))]) = ctxBase (ctxP ++ [g]) := by
    rw [ctxBase_append, ctxBase_append]
  -- parent at pos + 1 is the next Block
  have hdN : plug (ctxP ++ [CtxFrame.mk g.tp g.attrs (g.ls ++ [PMNode.node "blockContainer" pattrs [PMNode.node ctP cattrsP runsP, PMNode.node "blockGroup" gattrs [PMNode.node "blockContainer" cbattrs [PMNode.node ctC cattrsC runsC]]]]) g.rs]) (PMNode.node "blockContainer" nattrs [PMNode.node ctN cattrsN runsN, PMNode.node "blockGroup" g2attrs kids]) =
      plug ctxP (.node g.tp g.attrs (g.ls ++ PMNode.node "blockContainer" pattrs [PMNode.node ctP cattrsP runsP, PMNode.node "blockGroup" gattrs [PMNode.node "blockContainer" cbattrs [PMNode.node ctC cattrsC runsC]]] :: PMNode.node "blockContainer" nattrs [PMNode.node ctN cattrsN runsN, PMNode.node "blockGroup" g2attrs kids] :: g.rs)) := by
    rw [plug_append]
    simp [plug]
  have hrpN := resolveParent_plug_bdry (ctxP ++ [CtxFrame.mk g.tp g.attrs (g.ls ++ [PMNode.node "blockContainer" pattrs [PMNode.node ctP cattrsP runsP, PMNode.node "blockGroup" gattrs [PMNode.node "blockContainer" cbattrs [PMNode.node ctC cattrsC runsC]]]]) g.rs]) "blockContainer" nattrs
      [PMNode.node ctN cattrsN runsN, PMNode.node "blockGroup" g2attrs kids] 0 (by simp) (by omega)
      (fsize_nonneg _) (framesF_zero _ _)
  rw [hdN] at hrpN
  rw [show ctxBase (ctxP ++ [CtxFrame.mk g.tp g.attrs (g.ls ++ [PMNode.node "blockContainer" pattrs [PMNode.node ctP cattrsP runsP, PMNode.node "blockGroup" gattrs [PMNode.node "blockContainer" cbattrs [PMNode.node ctC cattrsC runsC]]]]) g.rs]) + 1 + 0 =
    ctxBase (ctxP ++ [g]) + 10 + fsize runsP + fsize runsC + 1 from by
      rw [hBN]; ring] at hrpN
  -- parent at pos − 1 is the previous Block
  have hdP : plug (ctxP ++ [CtxFrame.mk g.tp g.attrs g.ls (PMNode.node "blockContainer" nattrs [PMNode.node ctN cattrsN runsN, PMNode.node "blockGroup" g2attrs kids] :: g.rs)]) (PMNode.node "blockContainer" pattrs [PMNode.node ctP cattrsP runsP, PMNode.node "blockGroup" gattrs [PMNode.node "blockContainer" cbattrs [PMNode.node ctC cattrsC runsC]]]) =
      plug ctxP (.node g.tp g.attrs (g.ls ++ PMNode.node "blockContainer" pattrs [PMNode.node ctP cattrsP runsP, PMNode.node "blockGroup" gattrs [PMNode.node "blockContainer" cbattrs [PMNode.node ctC cattrsC runsC]]] :: PMNode.node "blockContainer" nattrs [PMNode.node ctN cattrsN runsN, PMNode.node "blockGroup" g2attrs kids] :: g.rs)) := by
    rw [plug_append]
    simp [plug]
  have hrpP := resolveParent_plug_bdry (ctxP ++ [CtxFrame.mk g.tp g.attrs g.ls (PMNode.node "blockContainer" nattrs [PMNode.node ctN cattrsN runsN, PMNode.node "blockGroup" g2attrs kids] :: g.rs)]) "blockContainer" pattrs
      [PMNode.node ctP cattrsP runsP, PMNode.node "blockGroup" gattrs [PMNode.node "blockContainer" cbattrs [PMNode.node ctC cattrsC runsC]]] (8 + fsize runsP + fsize runsC) (by simp) (by omega)
      (by simp only [PMNode.fsize, PMNode.nsize]; omega)
      (by
        simp only [framesF, PMNode.fsize, PMNode.nsize]
        rw [if_neg (by omega), if_neg (by omega), if_neg (by omega),
          if_neg (by omega)])
  rw [hdP] at hrpP
  rw [show ctxBase (ctxP ++ [CtxFrame.mk g.tp g.attrs g.ls (PMNode.node "blockContainer" nattrs [PMNode.node ctN cattrsN runsN, PMNode.node "blockGroup" g2attrs kids] :: g.rs)]) + 1 + (8 + fsize runsP + fsize runsC) =
    ctxBase (ctxP ++ [g]) + 10 + fsize runsP + fsize runsC - 1 from by
      rw [hB1]; ring] at hrpP
  -- block info of the next Block
  have hbiN := getBlockInfoFromPos_plug_bdry (ctxP ++ [CtxFrame.mk g.tp g.attrs (g.ls ++ [PMNode.node "blockContainer" pattrs [PMNode.node ctP cattrsP runsP, PMNode.node "blockGroup" gattrs [PMNode.node "blockContainer" cbattrs [PMNode.node ctC cattrsC runsC]]]]) g.rs]) nattrs
      (PMNode.node ctN cattrsN runsN) [PMNode.node "blockGroup" g2attrs kids] 0 (by simp) (by omega)
      (fsize_nonneg _) (framesF_zero _ _)
  rw [hdN] at hbiN
  rw [show ctxBase (ctxP ++ [CtxFrame.mk g.tp g.attrs (g.ls ++ [PMNode.node "blockContainer" pattrs [PMNode.node ctP cattrsP runsP, PMNode.node "blockGroup" gattrs [PMNode.node "blockContainer" cbattrs [PMNode.node ctC cattrsC runsC]]]]) g.rs]) + 1 + 0 =
    ctxBase (ctxP ++ [g]) + 10 + fsize runsP + fsize runsC + 1 from by
      rw [hBN]; ring] at hbiN
  -- unfold the command
  simp only [BNMergeBlocks, resolveParentType, hrpN, hrpP, Option.map_some',
    Option.some_bind, typeName]
  rw [if_neg (not_not_intro (⟨trivial, trivial⟩ : True ∧ True))]
  rw [hbiN]
  simp only [Option.some_bind]
  -- the next Block has two children: its group is lifted
  rw [if_pos (show (((PMNode.node "blockContainer" nattrs
    [PMNode.node ctN cattrsN runsN, PMNode.node "blockGroup" g2attrs kids]).childCount == 2)) = true from rfl)]
  have hlift := trLift_plug ctxP g.tp g.attrs (g.ls ++ PMNode.node "blockContainer" pattrs [PMNode.node ctP cattrsP runsP, PMNode.node "blockGroup" gattrs [PMNode.node "blockContainer" cbattrs [PMNode.node ctC cattrsC runsC]]] :: PMNode.node "blockContainer" nattrs [PMNode.node ctN cattrsN runsN, PMNode.node "blockGroup" g2attrs kids] :: g.rs)
    (fsize (g.ls ++ [PMNode.node "blockContainer" pattrs [PMNode.node ctP cattrsP runsP, PMNode.node "blockGroup" gattrs [PMNode.node "blockContainer" cbattrs [PMNode.node ctC cattrsC runsC]]]]) + (4 + fsize runsN))
    (fsize (g.ls ++ [PMNode.node "blockContainer" pattrs [PMNode.node ctP cattrsP runsP, PMNode.node "blockGroup" gattrs [PMNode.node "blockContainer" cbattrs [PMNode.node ctC cattrsC runsC]]]]) + (4 + fsize runsN + fsize kids)) 0
    (by omega) (by omega)
    (by simp only [fsize_append, PMNode.fsize, PMNode.nsize]; omega)
  rw [show ctxBase (ctxP ++ [CtxFrame.mk g.tp g.attrs (g.ls ++ [PMNode.node "blockContainer" pattrs [PMNode.node ctP cattrsP runsP, PMNode.node "blockGroup" gattrs [PMNode.node "blockContainer" cbattrs [PMNode.node ctC cattrsC runsC]]]]) g.rs]) + 1 +
      (PMNode.node ctN cattrsN runsN).nsize + 1 =
    ctxBase ctxP + 1 + (fsize (g.ls ++ [PMNode.node "blockContainer" pattrs [PMNode.node ctP cattrsP runsP, PMNode.node "blockGroup" gattrs [PMNode.node "blockContainer" cbattrs [PMNode.node ctC cattrsC runsC]]]]) + (4 + fsize runsN)) from by
      rw [ctxBase_append]
      simp only [PMNode.nsize]
      ring]
  rw [show ctxBase (ctxP ++ [CtxFrame.mk g.tp g.attrs (g.ls ++ [PMNode.node "blockContainer" pattrs [PMNode.node ctP cattrsP runsP, PMNode.node "blockGroup" gattrs [PMNode.node "blockContainer" cbattrs [PMNode.node ctC cattrsC runsC]]]]) g.rs]) + 1 +
      fsize [PMNode.node ctN cattrsN runsN, PMNode.node "blockGroup" g2attrs kids] - 1 =
    ctxBase ctxP + 1 + (fsize (g.ls ++ [PMNode.node "blockContainer" pattrs [PMNode.node ctP cattrsP runsP, PMNode.node "blockGroup" gattrs [PMNode.node "blockContainer" cbattrs [PMNode.node ctC cattrsC runsC]]]]) + (4 + fsize runsN + fsize kids))
    from by
      rw [ctxBase_append]
      simp only [PMNode.fsize, PMNode.nsize]
      ring]
  rw [show List.length (ctxP ++ [CtxFrame.mk g.tp g.attrs (g.ls ++ [PMNode.node "blockContainer" pattrs [PMNode.node ctP cattrsP runsP, PMNode.node "blockGroup" gattrs [PMNode.node "blockContainer" cbattrs [PMNode.node ctC cattrsC runsC]]]]) g.rs]) - 1 = 0 + List.length ctxP from by
    simp only [List.length_append, List.length_cons, List.length_nil]
    omega]
  rw [hlift]
  have hlh : liftWalk g.tp (PMNode.node "blockContainer" nattrs [PMNode.node ctN cattrsN runsN, PMNode.node "blockGroup" g2attrs kids] :: g.rs) (4 + fsize runsN)
      (4 + fsize runsN + fsize kids) 0 =
      some (PMNode.node "blockContainer" nattrs [PMNode.node ctN cattrsN runsN] :: (kids ++ g.rs)) := by
    simp only [liftWalk, liftHere, PMNode.nsize, PMNode.fsize]
    rw [if_neg (by omega)]
    rw [show ([PMNode.node ctN cattrsN runsN, PMNode.node "blockGroup" g2attrs kids] : List PMNode).getLast? =
      some (PMNode.node "blockGroup" g2attrs kids) from rfl]
    simp only [List.dropLast, PMNode.fsize, PMNode.nsize]
    rw [if_pos (show (4 : Int) + fsize runsN =
        2 + (2 + fsize runsN + 0) ∧
        True ∧
        contentAllowed "blockContainer" [PMNode.node ctN cattrsN runsN] = true ∧
        contentAllowed g.tp
          (((PMNode.node "blockContainer" nattrs
            [PMNode.node ctN cattrsN runsN]) :: kids) ++ g.rs) =
          true from
      ⟨by omega, trivial, by simp [contentAllowed, typeName, hctN], by
        rw [hgrp]
        refine contentAllowed_group _ (by simp) ?_
        intro x hx
        rcases List.mem_append.mp hx with hx | hx
        · rcases List.mem_cons.mp hx with hx | hx
          · subst hx; rfl
          · exact hkids x hx
        · exact hsib x (List.mem_append_right _ hx)⟩)]
    rfl
  have hlw : liftWalk g.tp (g.ls ++ PMNode.node "blockContainer" pattrs [PMNode.node ctP cattrsP runsP, PMNode.node "blockGroup" gattrs [PMNode.node "blockContainer" cbattrs [PMNode.node ctC cattrsC runsC]]] :: PMNode.node "blockContainer" nattrs [PMNode.node ctN cattrsN runsN, PMNode.node "blockGroup" g2attrs kids] :: g.rs)
      (fsize (g.ls ++ [PMNode.node "blockContainer" pattrs [PMNode.node ctP cattrsP runsP, PMNode.node "blockGroup" gattrs [PMNode.node "blockContainer" cbattrs [PMNode.node ctC cattrsC runsC]]]]) + (4 + fsize runsN))
      (fsize (g.ls ++ [PMNode.node "blockContainer" pattrs [PMNode.node ctP cattrsP runsP, PMNode.node "blockGroup" gattrs [PMNode.node "blockContainer" cbattrs [PMNode.node ctC cattrsC runsC]]]]) + (4 + fsize runsN + fsize kids)) 0 =
      some ((g.ls ++ [PMNode.node "blockContainer" pattrs [PMNode.node ctP cattrsP runsP, PMNode.node "blockGroup" gattrs [PMNode.node "blockContainer" cbattrs [PMNode.node ctC cattrsC runsC]]]]) ++ (PMNode.node "blockContainer" nattrs [PMNode.node ctN cattrsN runsN] :: (kids ++ g.rs))) := by
    rw [show ((g.ls ++ PMNode.node "blockContainer" pattrs [PMNode.node ctP cattrsP runsP, PMNode.node "blockGroup" gattrs [PMNode.node "blockContainer" cbattrs [PMNode.node ctC cattrsC runsC]]] :: PMNode.node "blockContainer" nattrs [PMNode.node ctN cattrsN runsN, PMNode.node "blockGroup" g2attrs kids] :: g.rs) : List PMNode) =
      (g.ls ++ [PMNode.node "blockContainer" pattrs [PMNode.node ctP cattrsP runsP, PMNode.node "blockGroup" gattrs [PMNode.node "blockContainer" cbattrs [PMNode.node ctC cattrsC runsC]]]]) ++ (PMNode.node "blockContainer" nattrs [PMNode.node ctN cattrsN runsN, PMNode.node "blockGroup" g2attrs kids] :: g.rs) from by simp]
    rw [liftWalk_skip _ _ _ _ _ _ (by omega), hlh]
    rfl
  rw [hlw]
  simp only [Option.map_some', Option.some_bind]
  rw [show ((g.ls ++ [PMNode.node "blockContainer" pattrs [PMNode.node ctP cattrsP runsP, PMNode.node "blockGroup" gattrs [PMNode.node "blockContainer" cbattrs [PMNode.node ctC cattrsC runsC]]]]) ++ (PMNode.node "blockContainer" nattrs [PMNode.node ctN cattrsN runsN] :: (kids ++ g.rs)) : List PMNode) =
    (g.ls ++ PMNode.node "blockContainer" pattrs [PMNode.node ctP cattrsP runsP, PMNode.node "blockGroup" gattrs [PMNode.node "blockContainer" cbattrs [PMNode.node ctC cattrsC runsC]]] :: PMNode.node "blockContainer" nattrs [PMNode.node ctN cattrsN runsN] :: (kids ++ g.rs)) from by simp]
  -- the backward walk skips the two ancestors with child Blocks
  have hT : 1 ≤ (ctxBase (ctxP ++ [g]) + 10 + fsize runsP + fsize runsC -
      1).toNat := by omega
  have hdW1 : plug (ctxP ++ [CtxFrame.mk g.tp g.attrs g.ls (PMNode.node "blockContainer" nattrs [PMNode.node ctN cattrsN runsN] :: (kids ++ g.rs))]) (PMNode.node "blockContainer" pattrs [PMNode.node ctP cattrsP runsP, PMNode.node "blockGroup" gattrs [PMNode.node "blockContainer" cbattrs [PMNode.node ctC cattrsC runsC]]]) =
      plug ctxP (.node g.tp g.attrs (g.ls ++ PMNode.node "blockContainer" pattrs [PMNode.node ctP cattrsP runsP, PMNode.node "blockGroup" gattrs [PMNode.node "blockContainer" cbattrs [PMNode.node ctC cattrsC runsC]]] :: PMNode.node "blockContainer" nattrs [PMNode.node ctN cattrsN runsN] :: (kids ++ g.rs))) := by
    rw [plug_append]
    simp [plug]
  have hbi1 := getBlockInfoFromPos_plug_bdry (ctxP ++ [CtxFrame.mk g.tp g.attrs g.ls (PMNode.node "blockContainer" nattrs [PMNode.node ctN cattrsN runsN] :: (kids ++ g.rs))]) pattrs
      (PMNode.node ctP cattrsP runsP) [PMNode.node "blockGroup" gattrs [PMNode.node "blockContainer" cbattrs [PMNode.node ctC cattrsC runsC]]] (8 + fsize runsP + fsize runsC) (by simp)
      (by omega)
      (by simp only [PMNode.fsize, PMNode.nsize]; omega)
      (by
        simp only [framesF, PMNode.fsize, PMNode.nsize]
        rw [if_neg (by omega), if_neg (by omega), if_neg (by omega),
          if_neg (by omega)])
  rw [hdW1] at hbi1
  rw [show ctxBase (ctxP ++ [CtxFrame.mk g.tp g.attrs g.ls (PMNode.node "blockContainer" nattrs [PMNode.node ctN cattrsN runsN] :: (kids ++ g.rs))]) + 1 + (8 + fsize runsP + fsize runsC) =
    ctxBase (ctxP ++ [g]) + 10 + fsize runsP + fsize runsC - 1 from by
      rw [hBW1]; ring] at hbi1
  have hdW2 : plug ((ctxP ++ [CtxFrame.mk g.tp g.attrs g.ls (PMNode.node "blockContainer" nattrs [PMNode.node ctN cattrsN runsN] :: (kids ++ g.rs))]) ++ [CtxFrame.mk "blockContainer" pattrs [PMNode.node ctP cattrsP runsP] []]) (PMNode.node "blockGroup" gattrs [PMNode.node "blockContainer" cbattrs [PMNode.node ctC cattrsC runsC]]) =
      plug ctxP (.node g.tp g.attrs (g.ls ++ PMNode.node "blockContainer" pattrs [PMNode.node ctP cattrsP runsP, PMNode.node "blockGroup" gattrs [PMNode.node "blockContainer" cbattrs [PMNode.node ctC cattrsC runsC]]] :: PMNode.node "blockContainer" nattrs [PMNode.node ctN cattrsN runsN] :: (kids ++ g.rs))) := by
    rw [plug_append, plug_append]
    simp [plug]
  have hbi2 := getBlockInfoFromPos_group_end (ctxP ++ [CtxFrame.mk g.tp g.attrs g.ls (PMNode.node "blockContainer" nattrs [PMNode.node ctN cattrsN runsN] :: (kids ++ g.rs))]) pattrs
      (PMNode.node ctP cattrsP runsP) gattrs [PMNode.node "blockContainer" cbattrs [PMNode.node ctC cattrsC runsC]] (4 + fsize runsC) (by simp) (by omega)
      (by simp only [PMNode.fsize, PMNode.nsize]; omega)
      (by
        simp only [framesF, PMNode.fsize, PMNode.nsize]
        rw [if_neg (by omega), if_neg (by omega)])
  rw [hdW2] at hbi2
  rw [show ctxBase ((ctxP ++ [CtxFrame.mk g.tp g.attrs g.ls (PMNode.node "blockContainer" nattrs [PMNode.node ctN cattrsN runsN] :: (kids ++ g.rs))]) ++ [CtxFrame.mk "blockContainer" pattrs [PMNode.node ctP cattrsP runsP] []]) + 1 + (4 + fsize runsC) =
    ctxBase (ctxP ++ [g]) + 10 + fsize runsP + fsize runsC - 1 - 1 from by
      rw [ctxBase_append, hBW1]
      simp only [PMNode.fsize, PMNode.nsize]
      ring] at hbi2
  have hdW3 : plug (((ctxP ++ [CtxFrame.mk g.tp g.attrs g.ls (PMNode.node "blockContainer" nattrs [PMNode.node ctN cattrsN runsN] :: (kids ++ g.rs))]) ++ [CtxFrame.mk "blockContainer" pattrs [PMNode.node ctP cattrsP runsP] []]) ++ [CtxFrame.mk "blockGroup" gattrs [] []]) (PMNode.node "blockContainer" cbattrs [PMNode.node ctC cattrsC runsC]) =
      plug ctxP (.node g.tp g.attrs (g.ls ++ PMNode.node "blockContainer" pattrs [PMNode.node ctP cattrsP runsP, PMNode.node "blockGroup" gattrs [PMNode.node "blockContainer" cbattrs [PMNode.node ctC cattrsC runsC]]] :: PMNode.node "blockContainer" nattrs [PMNode.node ctN cattrsN runsN] :: (kids ++ g.rs))) := by
    rw [plug_append, plug_append, plug_append]
    simp [plug]
  have hbi3 := getBlockInfoFromPos_plug_bdry (((ctxP ++ [CtxFrame.mk g.tp g.attrs g.ls (PMNode.node "blockContainer" nattrs [PMNode.node ctN cattrsN runsN] :: (kids ++ g.rs))]) ++ [CtxFrame.mk "blockContainer" pattrs [PMNode.node ctP cattrsP runsP] []]) ++ [CtxFrame.mk "blockGroup" gattrs [] []]) cbattrs
      (PMNode.node ctC cattrsC runsC) [] (2 + fsize runsC) (by simp) (by omega)
      (by simp only [PMNode.fsize, PMNode.nsize]; omega)
      (by
        simp only [framesF, PMNode.fsize, PMNode.nsize]
        rw [if_neg (by omega), if_neg (by omega)])
  rw [hdW3] at hbi3
  rw [show ctxBase (((ctxP ++ [CtxFrame.mk g.tp g.attrs g.ls (PMNode.node "blockContainer" nattrs [PMNode.node ctN cattrsN runsN] :: (kids ++ g.rs))]) ++ [CtxFrame.mk "blockContainer" pattrs [PMNode.node ctP cattrsP runsP] []]) ++ [CtxFrame.mk "blockGroup" gattrs [] []]) + 1 + (2 + fsize runsC) =
    ctxBase (ctxP ++ [g]) + 10 + fsize runsP + fsize runsC - 1 - 1 - 1
    from by
      rw [ctxBase_append, ctxBase_append, hBW1]
      simp only [PMNode.fsize, PMNode.nsize]
      ring] at hbi3
  rw [show (ctxBase (ctxP ++ [g]) + 10 + fsize runsP + fsize runsC -
      1).toNat + 2 =
    ((ctxBase (ctxP ++ [g]) + 10 + fsize runsP + fsize runsC - 1).toNat +
      1) + 1 from rfl]
  simp only [mergeWalk]
  rw [hbi1]
  simp only []
  rw [if_pos (by simp [childCount, childrenOf])]
  rw [hbi2]
  simp only []
  rw [if_pos (by simp)]
  rw [show (ctxBase (ctxP ++ [g]) + 10 + fsize runsP + fsize runsC -
      1).toNat =
    ((ctxBase (ctxP ++ [g]) + 10 + fsize runsP + fsize runsC - 1).toNat -
      1) + 1 from by omega]
  simp only [mergeWalk]
  rw [hbi3]
  simp only []
  rw [if_neg (by simp)]
  simp only []
  -- delete the next Block whole
  have hdw2 : delWalk (g.ls ++ PMNode.node "blockContainer" pattrs [PMNode.node ctP cattrsP runsP, PMNode.node "blockGroup" gattrs [PMNode.node "blockContainer" cbattrs [PMNode.node ctC cattrsC runsC]]] :: PMNode.node "blockContainer" nattrs [PMNode.node ctN cattrsN runsN] :: (kids ++ g.rs))
      (fsize (g.ls ++ [PMNode.node "blockContainer" pattrs [PMNode.node ctP cattrsP runsP, PMNode.node "blockGroup" gattrs [PMNode.node "blockContainer" cbattrs [PMNode.node ctC cattrsC runsC]]]]) + 1) (fsize (g.ls ++ [PMNode.node "blockContainer" pattrs [PMNode.node ctP cattrsP runsP, PMNode.node "blockGroup" gattrs [PMNode.node "blockContainer" cbattrs [PMNode.node ctC cattrsC runsC]]]]) + (3 + fsize runsN)) =
      some ((g.ls ++ [PMNode.node "blockContainer" pattrs [PMNode.node ctP cattrsP runsP, PMNode.node "blockGroup" gattrs [PMNode.node "blockContainer" cbattrs [PMNode.node ctC cattrsC runsC]]]]) ++ (kids ++ g.rs), true) := by
    rw [show ((g.ls ++ PMNode.node "blockContainer" pattrs [PMNode.node ctP cattrsP runsP, PMNode.node "blockGroup" gattrs [PMNode.node "blockContainer" cbattrs [PMNode.node ctC cattrsC runsC]]] :: PMNode.node "blockContainer" nattrs [PMNode.node ctN cattrsN runsN] :: (kids ++ g.rs)) : List PMNode) =
      (g.ls ++ [PMNode.node "blockContainer" pattrs [PMNode.node ctP cattrsP runsP, PMNode.node "blockGroup" gattrs [PMNode.node "blockContainer" cbattrs [PMNode.node ctC cattrsC runsC]]]]) ++ (PMNode.node "blockContainer" nattrs [PMNode.node ctN cattrsN runsN] :: (kids ++ g.rs)) from by simp]
    rw [delWalk_skip _ _ _ _ (by omega)]
    rw [show (3 : Int) + fsize runsN =
      1 + fsize [PMNode.node ctN cattrsN runsN] from by
        simp only [PMNode.fsize, PMNode.nsize]; omega]
    rw [delWalk_node_all "blockContainer" nattrs [PMNode.node ctN cattrsN runsN] (kids ++ g.rs) rfl]
    rfl
  have hdel2 := deleteRange_plug ctxP g.tp g.attrs (g.ls ++ PMNode.node "blockContainer" pattrs [PMNode.node ctP cattrsP runsP, PMNode.node "blockGroup" gattrs [PMNode.node "blockContainer" cbattrs [PMNode.node ctC cattrsC runsC]]] :: PMNode.node "blockContainer" nattrs [PMNode.node ctN cattrsN runsN] :: (kids ++ g.rs))
    (fsize (g.ls ++ [PMNode.node "blockContainer" pattrs [PMNode.node ctP cattrsP runsP, PMNode.node "blockGroup" gattrs [PMNode.node "blockContainer" cbattrs [PMNode.node ctC cattrsC runsC]]]]) + 1) (fsize (g.ls ++ [PMNode.node "blockContainer" pattrs [PMNode.node ctP cattrsP runsP, PMNode.node "blockGroup" gattrs [PMNode.node "blockContainer" cbattrs [PMNode.node ctC cattrsC runsC]]]]) + (3 + fsize runsN))
    (by
      intro pr hpr hflag
      rw [hdw2] at hpr
      cases hpr
      rw [hgrp]
      refine contentAllowed_group _ (by simp) ?_
      intro x hx
      rcases List.mem_append.mp hx with hx | hx
      · rcases List.mem_append.mp hx with hx | hx
        · exact hsib x (List.mem_append_left _ hx)
        · simp only [List.mem_singleton] at hx
          subst hx
          rfl
      · rcases List.mem_append.mp hx with hx | hx
        · exact hkids x hx
        · exact hsib x (List.mem_append_right _ hx))
    (by rintro ⟨ha, hb⟩; omega)
    (by omega) (by omega)
    (by
      simp only [fsize_append, PMNode.fsize, PMNode.nsize]
      omega)
  rw [show ctxBase (ctxP ++ [CtxFrame.mk g.tp g.attrs (g.ls ++ [PMNode.node "blockContainer" pattrs [PMNode.node ctP cattrsP runsP, PMNode.node "blockGroup" gattrs [PMNode.node "blockContainer" cbattrs [PMNode.node ctC cattrsC runsC]]]]) g.rs]) + 1 =
    ctxBase ctxP + 1 + (fsize (g.ls ++ [PMNode.node "blockContainer" pattrs [PMNode.node ctP cattrsP runsP, PMNode.node "blockGroup" gattrs [PMNode.node "blockContainer" cbattrs [PMNode.node ctC cattrsC runsC]]]]) + 1) from by
      rw [ctxBase_append]; ring]
  rw [show ctxBase ctxP + 1 + (fsize (g.ls ++ [PMNode.node "blockContainer" pattrs [PMNode.node ctP cattrsP runsP, PMNode.node "blockGroup" gattrs [PMNode.node "blockContainer" cbattrs [PMNode.node ctC cattrsC runsC]]]]) + 1) +
      (PMNode.node ctN cattrsN runsN).nsize =
    ctxBase ctxP + 1 + (fsize (g.ls ++ [PMNode.node "blockContainer" pattrs [PMNode.node ctP cattrsP runsP, PMNode.node "blockGroup" gattrs [PMNode.node "blockContainer" cbattrs [PMNode.node ctC cattrsC runsC]]]]) + (3 + fsize runsN)) from by
      simp only [PMNode.nsize]; ring]
  rw [hdel2, hdw2]
  simp only [Option.map_some', Option.some_bind]
  -- append the next Block's text to the childless Block's Content
  have hwC2 : ctxWalkable (((ctxP ++ [CtxFrame.mk g.tp g.attrs g.ls (kids ++ g.rs)]) ++ [CtxFrame.mk "blockContainer" pattrs [PMNode.node ctP cattrsP runsP] []]) ++ [CtxFrame.mk "blockGroup" gattrs [] []]) = true := by
    rw [ctxWalkable_append, ctxWalkable_append, ctxWalkable_append, hwP,
      hgtb]
    rfl
  have hBC2 : ctxBase (((ctxP ++ [CtxFrame.mk g.tp g.attrs g.ls (kids ++ g.rs)]) ++ [CtxFrame.mk "blockContainer" pattrs [PMNode.node ctP cattrsP runsP] []]) ++ [CtxFrame.mk "blockGroup" gattrs [] []]) =
      ctxBase (ctxP ++ [g]) + 4 + fsize runsP := by
    rw [ctxBase_append, ctxBase_append, ctxBase_append]
    simp only [PMNode.fsize, PMNode.nsize]
    omega
  have hdC2 : plug (((ctxP ++ [CtxFrame.mk g.tp g.attrs g.ls (kids ++ g.rs)]) ++ [CtxFrame.mk "blockContainer" pattrs [PMNode.node ctP cattrsP runsP] []]) ++ [CtxFrame.mk "blockGroup" gattrs [] []]) (PMNode.node "blockContainer" cbattrs [PMNode.node ctC cattrsC runsC]) =
      plug ctxP (.node g.tp g.attrs ((g.ls ++ [PMNode.node "blockContainer" pattrs [PMNode.node ctP cattrsP runsP, PMNode.node "blockGroup" gattrs [PMNode.node "blockContainer" cbattrs [PMNode.node ctC cattrsC runsC]]]]) ++ (kids ++ g.rs))) := by
    rw [plug_append, plug_append, plug_append]
    simp [plug]
  have hins2 := trInsertText_plug (((ctxP ++ [CtxFrame.mk g.tp g.attrs g.ls (kids ++ g.rs)]) ++ [CtxFrame.mk "blockContainer" pattrs [PMNode.node ctP cattrsP runsP] []]) ++ [CtxFrame.mk "blockGroup" gattrs [] []]) "blockContainer" cbattrs
    [PMNode.node ctC cattrsC runsC] (1 + fsize runsC) (textContentL runsN) rfl hwC2 htxtN
    (by omega) (by simp only [PMNode.fsize, PMNode.nsize]; omega)
  rw [hdC2] at hins2
  rw [show ctxBase (((ctxP ++ [CtxFrame.mk g.tp g.attrs g.ls (kids ++ g.rs)]) ++ [CtxFrame.mk "blockContainer" pattrs [PMNode.node ctP cattrsP runsP] []]) ++ [CtxFrame.mk "blockGroup" gattrs [] []]) + 1 + (1 + fsize runsC) =
    ctxBase (ctxP ++ [g]) + 10 + fsize runsP + fsize runsC - 1 - 1 - 1 - 1
    from by rw [hBC2]; ring] at hins2
  rw [show PMNode.textContent (PMNode.node ctN cattrsN runsN) =
    textContentL runsN from rfl]
  rw [hins2]
  have hitF2 : insertTextF [PMNode.node ctC cattrsC runsC] (1 + fsize runsC) (textContentL runsN) =
      some [PMNode.node ctC cattrsC (appendInline runsC (textContentL runsN))] := by
    simp only [insertTextF, insertTextN, PMNode.nsize]
    rw [if_neg (by omega)]
    rw [if_pos (show (1 : Int) ≤ 1 + fsize runsC ∧
      1 + fsize runsC ≤ 2 + fsize runsC - 1 from ⟨by omega, by omega⟩)]
    rw [if_pos hctC]
    rw [show (1 : Int) + fsize runsC - 1 = fsize runsC from by omega]
    rw [inlineInsert_atEnd runsC (textContentL runsN) hrunsC hszC hcnC]
    rfl
  rw [hitF2]
  simp only [Option.map_some', Option.some_bind]
  -- the caret lands inside the merged Content
  rw [show ctxBase (ctxP ++ [g]) + 10 + fsize runsP + fsize runsC -
      1 - 1 - 1 - 1 =
    ctxBase (((ctxP ++ [CtxFrame.mk g.tp g.attrs g.ls (kids ++ g.rs)]) ++ [CtxFrame.mk "blockContainer" pattrs [PMNode.node ctP cattrsP runsP] []]) ++ [CtxFrame.mk "blockGroup" gattrs [] []]) + 1 + (1 + fsize runsC) from by rw [hBC2]; ring]
  rw [plug_posInRange (((ctxP ++ [CtxFrame.mk g.tp g.attrs g.ls (kids ++ g.rs)]) ++ [CtxFrame.mk "blockContainer" pattrs [PMNode.node ctP cattrsP runsP] []]) ++ [CtxFrame.mk "blockGroup" gattrs [] []]) "blockContainer" cbattrs
    [PMNode.node ctC cattrsC (appendInline runsC (textContentL runsN))] (1 + fsize runsC) (by omega)
    (by
      simp only [PMNode.fsize, PMNode.nsize]
      rw [fsize_appendInline]
      omega)]
  simp only [eq_self_iff_true, if_true]
  have hd4 : plug (((ctxP ++ [CtxFrame.mk g.tp g.attrs g.ls (kids ++ g.rs)]) ++ [CtxFrame.mk "blockContainer" pattrs [PMNode.node ctP cattrsP runsP] []]) ++ [CtxFrame.mk "blockGroup" gattrs [] []]) (PMNode.node "blockContainer" cbattrs [PMNode.node ctC cattrsC (appendInline runsC (textContentL runsN))]) =
      plug ctxP (.node g.tp g.attrs (g.ls ++ PMNode.node "blockContainer" pattrs [PMNode.node ctP cattrsP runsP, PMNode.node "blockGroup" gattrs [PMNode.node "blockContainer" cbattrs [PMNode.node ctC cattrsC (appendInline runsC (textContentL runsN))]]] :: (kids ++ g.rs))) := by
    rw [plug_append, plug_append, plug_append]
    simp [plug]
  simp only [Option.some.injEq, CmdOut.mk.injEq]
  refine ⟨by trivial, hd4, ?_⟩
  rw [hBC2]
  ring

/-- Merging at a boundary where the next Block has a Child Group and the
previous Block is childless (the common Backspace case): the next Block's
children are lifted one level into the enclosing group and survive as
post-merge siblings; the backward walk accepts the childless previous
Block at once and the next Block's text is appended to its Content, where
the caret is reported. -/
theorem mergeLift_leafPrev_char (ctxP : Ctx) (g : CtxFrame) (pattrs : AttrMap)
    (ctP : String) (cattrsP : AttrMap) (runsP : List PMNode)
    (nattrs : AttrMap) (ctN : String) (cattrsN : AttrMap)
    (runsN : List PMNode) (g2attrs : AttrMap) (kids : List PMNode)
    (hgrp : g.tp = "blockGroup")
    (hwP : ctxWalkable ctxP = true)
    (hsib : ∀ x ∈ g.ls ++ g.rs, x.typeName = "blockContainer")
    (hkids : ∀ x ∈ kids, x.typeName = "blockContainer")
    (hctN : isTextblockType ctN = true)
    (hctP : isTextblockType ctP = true)
    (hrunsP : allText runsP = true)
    (hszP : ∀ r ∈ runsP, 0 < r.nsize)
    (hcnP : canonicalRuns runsP = true)
    (htxtN : (textContentL runsN).isEmpty = false) :
    BNMergeBlocks
        (plug ctxP (.node g.tp g.attrs (g.ls ++ PMNode.node "blockContainer" pattrs [PMNode.node ctP cattrsP runsP] :: PMNode.node "blockContainer" nattrs [PMNode.node ctN cattrsN runsN, PMNode.node "blockGroup" g2attrs kids] :: g.rs)))
        (ctxBase (ctxP ++ [g]) + 4 + fsize runsP) =
      some ⟨true,
        plug ctxP (.node g.tp g.attrs (g.ls ++ PMNode.node "blockContainer" pattrs [PMNode.node ctP cattrsP (appendInline runsP (textContentL runsN))] :: (kids ++ g.rs))),
        some (ctxBase (ctxP ++ [g]) + 2 + fsize runsP)⟩ := by
  have hRP := fsize_nonneg runsP
  have hRN := fsize_nonneg runsN
  have hK := fsize_nonneg kids
  have hFL := fsize_nonneg g.ls
  have hFR := fsize_nonneg g.rs
  have hpre := fsize_nonneg (g.ls ++ [PMNode.node "blockContainer" pattrs [PMNode.node ctP cattrsP runsP]])
  have hgtb : isTextblockType g.tp = false := by rw [hgrp]; rfl
  have hB := ctxBase_append ctxP g
  have hcbP := ctxBase_ge ctxP
  have hBN : ctxBase (ctxP ++ [CtxFrame.mk g.tp g.attrs (g.ls ++ [PMNode.node "blockContainer" pattrs [PMNode.node ctP cattrsP runsP]]) g.rs]) =
      ctxBase (ctxP ++ [g]) + 4 + fsize runsP := by
    rw [ctxBase_append, ctxBase_append]
    simp only [fsize_append, PMNode.fsize, PMNode.nsize]
    omega
  have hB1 : ctxBase (ctxP ++ [CtxFrame.mk g.tp g.attrs g.ls (PMNode.node "blockContainer" nattrs [PMNode.node ctN cattrsN runsN, PMNode.node "blockGroup" g2attrs kids] :: g.rs)]) = ctxBase (ctxP ++ [g]) := by
    rw [ctxBase_append, ctxBase_append]
  have hBW1 : ctxBase (ctxP ++ [CtxFrame.mk g.tp g.attrs g.ls (PMNode.node "blockContainer" nattrs [PMNode.node ctN cattrsN runsN] :: (kids ++ g.rs))]) = ctxBase (ctxP ++ [g]) := by
    rw [ctxBase_append, ctxBase_append]
  -- parent at pos + 1 is the next Block
  have hdN : plug (ctxP ++ [CtxFrame.mk g.tp g.attrs (g.ls ++ [PMNode.node "blockContainer" pattrs [PMNode.node ctP cattrsP runsP]]) g.rs]) (PMNode.node "blockContainer" nattrs [PMNode.node ctN cattrsN runsN, PMNode.node "blockGroup" g2attrs kids]) =
      plug ctxP (.node g.tp g.attrs (g.ls ++ PMNode.node "blockContainer" pattrs [PMNode.node ctP cattrsP runsP] :: PMNode.node "blockContainer" nattrs [PMNode.node ctN cattrsN runsN, PMNode.node "blockGroup" g2attrs kids] :: g.rs)) := by
    rw [plug_append]
    simp [plug]
  have hrpN := resolveParent_plug_bdry (ctxP ++ [CtxFrame.mk g.tp g.attrs (g.ls ++ [PMNode.node "blockContainer" pattrs [PMNode.node ctP cattrsP runsP]]) g.rs]) "blockContainer" nattrs
      [PMNode.node ctN cattrsN runsN, PMNode.node "blockGroup" g2attrs kids] 0 (by simp) (by omega)
      (fsize_nonneg _) (framesF_zero _ _)
  rw [hdN] at hrpN
  rw [show ctxBase (ctxP ++ [CtxFrame.mk g.tp g.attrs (g.ls ++ [PMNode.node "blockContainer" pattrs [PMNode.node ctP cattrsP runsP]]) g.rs]) + 1 + 0 =
    ctxBase (ctxP ++ [g]) + 4 + fsize runsP + 1 from by
      rw [hBN]; ring] at hrpN
  -- parent at pos − 1 is the previous Block
  have hdP : plug (ctxP ++ [CtxFrame.mk g.tp g.attrs g.ls (PMNode.node "blockContainer" nattrs [PMNode.node ctN cattrsN runsN, PMNode.node "blockGroup" g2attrs kids] :: g.rs)]) (PMNode.node "blockContainer" pattrs [PMNode.node ctP cattrsP runsP]) =
      plug ctxP (.node g.tp g.attrs (g.ls ++ PMNode.node "blockContainer" pattrs [PMNode.node ctP cattrsP runsP] :: PMNode.node "blockContainer" nattrs [PMNode.node ctN cattrsN runsN, PMNode.node "blockGroup" g2attrs kids] :: g.rs)) := by
    rw [plug_append]
    simp [plug]
  have hrpP := resolveParent_plug_bdry (ctxP ++ [CtxFrame.mk g.tp g.attrs g.ls (PMNode.node "blockContainer" nattrs [PMNode.node ctN cattrsN runsN, PMNode.node "blockGroup" g2attrs kids] :: g.rs)]) "blockContainer" pattrs
      [PMNode.node ctP cattrsP runsP] (2 + fsize runsP) (by simp) (by omega)
      (by simp only [PMNode.fsize, PMNode.nsize]; omega)
      (by
        simp only [framesF, PMNode.nsize]
        rw [if_neg (by omega), if_neg (by omega)])
  rw [hdP] at hrpP
  rw [show ctxBase (ctxP ++ [CtxFrame.mk g.tp g.attrs g.ls (PMNode.node "blockContainer" nattrs [PMNode.node ctN cattrsN runsN, PMNode.node "blockGroup" g2attrs kids] :: g.rs)]) + 1 + (2 + fsize runsP) =
    ctxBase (ctxP ++ [g]) + 4 + fsize runsP - 1 from by
      rw [hB1]; ring] at hrpP
  -- block info of the next Block
  have hbiN := getBlockInfoFromPos_plug_bdry (ctxP ++ [CtxFrame.mk g.tp g.attrs (g.ls ++ [PMNode.node "blockContainer" pattrs [PMNode.node ctP cattrsP runsP]]) g.rs]) nattrs
      (PMNode.node ctN cattrsN runsN) [PMNode.node "blockGroup" g2attrs kids] 0 (by simp) (by omega)
      (fsize_nonneg _) (framesF_zero _ _)
  rw [hdN] at hbiN
  rw [show ctxBase (ctxP ++ [CtxFrame.mk g.tp g.attrs (g.ls ++ [PMNode.node "blockContainer" pattrs [PMNode.node ctP cattrsP runsP]]) g.rs]) + 1 + 0 =
    ctxBase (ctxP ++ [g]) + 4 + fsize runsP + 1 from by
      rw [hBN]; ring] at hbiN
  -- unfold the command
  simp only [BNMergeBlocks, resolveParentType, hrpN, hrpP, Option.map_some',
    Option.some_bind, typeName]
  rw [if_neg (not_not_intro (⟨trivial, trivial⟩ : True ∧ True))]
  rw [hbiN]
  simp only [Option.some_bind]
  -- the next Block has two children: its group is lifted
  rw [if_pos (show (((PMNode.node "blockContainer" nattrs
    [PMNode.node ctN cattrsN runsN, PMNode.node "blockGroup" g2attrs kids]).childCount == 2)) = true from rfl)]
  have hlift := trLift_plug ctxP g.tp g.attrs (g.ls ++ PMNode.node "blockContainer" pattrs [PMNode.node ctP cattrsP runsP] :: PMNode.node "blockContainer" nattrs [PMNode.node ctN cattrsN runsN, PMNode.node "blockGroup" g2attrs kids] :: g.rs)
    (fsize (g.ls ++ [PMNode.node "blockContainer" pattrs [PMNode.node ctP cattrsP runsP]]) + (4 + fsize runsN))
    (fsize (g.ls ++ [PMNode.node "blockContainer" pattrs [PMNode.node ctP cattrsP runsP]]) + (4 + fsize runsN + fsize kids)) 0
    (by omega) (by omega)
    (by simp only [fsize_append, PMNode.fsize, PMNode.nsize]; omega)
  rw [show ctxBase (ctxP ++ [CtxFrame.mk g.tp g.attrs (g.ls ++ [PMNode.node "blockContainer" pattrs [PMNode.node ctP cattrsP runsP]]) g.rs]) + 1 +
      (PMNode.node ctN cattrsN runsN).nsize + 1 =
    ctxBase ctxP + 1 + (fsize (g.ls ++ [PMNode.node "blockContainer" pattrs [PMNode.node ctP cattrsP runsP]]) + (4 + fsize runsN)) from by
      rw [ctxBase_append]
      simp only [PMNode.nsize]
      ring]
  rw [show ctxBase (ctxP ++ [CtxFrame.mk g.tp g.attrs (g.ls ++ [PMNode.node "blockContainer" pattrs [PMNode.node ctP cattrsP runsP]]) g.rs]) + 1 +
      fsize [PMNode.node ctN cattrsN runsN, PMNode.node "blockGroup" g2attrs kids] - 1 =
    ctxBase ctxP + 1 + (fsize (g.ls ++ [PMNode.node "blockContainer" pattrs [PMNode.node ctP cattrsP runsP]]) + (4 + fsize runsN + fsize kids))
    from by
      rw [ctxBase_append]
      simp only [PMNode.fsize, PMNode.nsize]
      ring]
  rw [show List.length (ctxP ++ [CtxFrame.mk g.tp g.attrs (g.ls ++ [PMNode.node "blockContainer" pattrs [PMNode.node ctP cattrsP runsP]]) g.rs]) - 1 = 0 + List.length ctxP from by
    simp only [List.length_append, List.length_cons, List.length_nil]
    omega]
  rw [hlift]
  have hlh : liftWalk g.tp (PMNode.node "blockContainer" nattrs [PMNode.node ctN cattrsN runsN, PMNode.node "blockGroup" g2attrs kids] :: g.rs) (4 + fsize runsN)
      (4 + fsize runsN + fsize kids) 0 =
      some (PMNode.node "blockContainer" nattrs [PMNode.node ctN cattrsN runsN] :: (kids ++ g.rs)) := by
    simp only [liftWalk, liftHere, PMNode.nsize, PMNode.fsize]
    rw [if_neg (by omega)]
    rw [show ([PMNode.node ctN cattrsN runsN, PMNode.node "blockGroup" g2attrs kids] : List PMNode).getLast? =
      some (PMNode.node "blockGroup" g2attrs kids) from rfl]
    simp only [List.dropLast, PMNode.fsize, PMNode.nsize]
    rw [if_pos (show (4 : Int) + fsize runsN =
        2 + (2 + fsize runsN + 0) ∧
        True ∧
        contentAllowed "blockContainer" [PMNode.node ctN cattrsN runsN] = true ∧
        contentAllowed g.tp
          (((PMNode.node "blockContainer" nattrs
            [PMNode.node ctN cattrsN runsN]) :: kids) ++ g.rs) =
          true from
      ⟨by omega, trivial, by simp [contentAllowed, typeName, hctN], by
        rw [hgrp]
        refine contentAllowed_group _ (by simp) ?_
        intro x hx
        rcases List.mem_append.mp hx with hx | hx
        · rcases List.mem_cons.mp hx with hx | hx
          · subst hx; rfl
          · exact hkids x hx
        · exact hsib x (List.mem_append_right _ hx)⟩)]
    rfl
  have hlw : liftWalk g.tp (g.ls ++ PMNode.node "blockContainer" pattrs [PMNode.node ctP cattrsP runsP] :: PMNode.node "blockContainer" nattrs [PMNode.node ctN cattrsN runsN, PMNode.node "blockGroup" g2attrs kids] :: g.rs)
      (fsize (g.ls ++ [PMNode.node "blockContainer" pattrs [PMNode.node ctP cattrsP runsP]]) + (4 + fsize runsN))
      (fsize (g.ls ++ [PMNode.node "blockContainer" pattrs [PMNode.node ctP cattrsP runsP]]) + (4 + fsize runsN + fsize kids)) 0 =
      some ((g.ls ++ [PMNode.node "blockContainer" pattrs [PMNode.node ctP cattrsP runsP]]) ++ (PMNode.node "blockContainer" nattrs [PMNode.node ctN cattrsN runsN] :: (kids ++ g.rs))) := by
    rw [show ((g.ls ++ PMNode.node "blockContainer" pattrs [PMNode.node ctP cattrsP runsP] :: PMNode.node "blockContainer" nattrs [PMNode.node ctN cattrsN runsN, PMNode.node "blockGroup" g2attrs kids] :: g.rs) : List PMNode) =
      (g.ls ++ [PMNode.node "blockContainer" pattrs [PMNode.node ctP cattrsP runsP]]) ++ (PMNode.node "blockContainer" nattrs [PMNode.node ctN cattrsN runsN, PMNode.node "blockGroup" g2attrs kids] :: g.rs) from by simp]
    rw [liftWalk_skip _ _ _ _ _ _ (by omega), hlh]
    rfl
  rw [hlw]
  simp only [Option.map_some', Option.some_bind]
  rw [show ((g.ls ++ [PMNode.node "blockContainer" pattrs [PMNode.node ctP cattrsP runsP]]) ++ (PMNode.node "blockContainer" nattrs [PMNode.node ctN cattrsN runsN] :: (kids ++ g.rs)) : List PMNode) =
    (g.ls ++ PMNode.node "blockContainer" pattrs [PMNode.node ctP cattrsP runsP] :: PMNode.node "blockContainer" nattrs [PMNode.node ctN cattrsN runsN] :: (kids ++ g.rs)) from by simp]
  -- the backward walk accepts the childless previous Block at once
  have hdW1 : plug (ctxP ++ [CtxFrame.mk g.tp g.attrs g.ls (PMNode.node "blockContainer" nattrs [PMNode.node ctN cattrsN runsN] :: (kids ++ g.rs))]) (PMNode.node "blockContainer" pattrs [PMNode.node ctP cattrsP runsP]) =
      plug ctxP (.node g.tp g.attrs (g.ls ++ PMNode.node "blockContainer" pattrs [PMNode.node ctP cattrsP runsP] :: PMNode.node "blockContainer" nattrs [PMNode.node ctN cattrsN runsN] :: (kids ++ g.rs))) := by
    rw [plug_append]
    simp [plug]
  have hbi1 := getBlockInfoFromPos_plug_bdry (ctxP ++ [CtxFrame.mk g.tp g.attrs g.ls (PMNode.node "blockContainer" nattrs [PMNode.node ctN cattrsN runsN] :: (kids ++ g.rs))]) pattrs
      (PMNode.node ctP cattrsP runsP) [] (2 + fsize runsP) (by simp)
      (by omega)
      (by simp only [PMNode.fsize, PMNode.nsize]; omega)
      (by
        simp only [framesF, PMNode.nsize]
        rw [if_neg (by omega), if_neg (by omega)])
  rw [hdW1] at hbi1
  rw [show ctxBase (ctxP ++ [CtxFrame.mk g.tp g.attrs g.ls (PMNode.node "blockContainer" nattrs [PMNode.node ctN cattrsN runsN] :: (kids ++ g.rs))]) + 1 + (2 + fsize runsP) =
    ctxBase (ctxP ++ [g]) + 4 + fsize runsP - 1 from by
      rw [hBW1]; ring] at hbi1
  rw [show (ctxBase (ctxP ++ [g]) + 4 + fsize runsP - 1).toNat + 2 =
    ((ctxBase (ctxP ++ [g]) + 4 + fsize runsP - 1).toNat + 1) + 1 from rfl]
  simp only [mergeWalk]
  rw [hbi1]
  simp only []
  rw [if_neg (show ¬((if (([PMNode.node ctP cattrsP runsP] : List PMNode).length
      == 2) = true then
      ((Option.map PMNode.childCount
        ([PMNode.node ctP cattrsP runsP] : List PMNode).getLast?).getD 0)
    else 0) > 0) from by simp)]
  simp only []
  -- delete the next Block whole
  have hdw2 : delWalk (g.ls ++ PMNode.node "blockContainer" pattrs [PMNode.node ctP cattrsP runsP] :: PMNode.node "blockContainer" nattrs [PMNode.node ctN cattrsN runsN] :: (kids ++ g.rs))
      (fsize (g.ls ++ [PMNode.node "blockContainer" pattrs [PMNode.node ctP cattrsP runsP]]) + 1) (fsize (g.ls ++ [PMNode.node "blockContainer" pattrs [PMNode.node ctP cattrsP runsP]]) + (3 + fsize runsN)) =
      some ((g.ls ++ [PMNode.node "blockContainer" pattrs [PMNode.node ctP cattrsP runsP]]) ++ (kids ++ g.rs), true) := by
    rw [show ((g.ls ++ PMNode.node "blockContainer" pattrs [PMNode.node ctP cattrsP runsP] :: PMNode.node "blockContainer" nattrs [PMNode.node ctN cattrsN runsN] :: (kids ++ g.rs)) : List PMNode) =
      (g.ls ++ [PMNode.node "blockContainer" pattrs [PMNode.node ctP cattrsP runsP]]) ++ (PMNode.node "blockContainer" nattrs [PMNode.node ctN cattrsN runsN] :: (kids ++ g.rs)) from by simp]
    rw [delWalk_skip _ _ _ _ (by omega)]
    rw [show (3 : Int) + fsize runsN =
      1 + fsize [PMNode.node ctN cattrsN runsN] from by
        simp only [PMNode.fsize, PMNode.nsize]; omega]
    rw [delWalk_node_all "blockContainer" nattrs [PMNode.node ctN cattrsN runsN] (kids ++ g.rs) rfl]
    rfl
  have hdel2 := deleteRange_plug ctxP g.tp g.attrs (g.ls ++ PMNode.node "blockContainer" pattrs [PMNode.node ctP cattrsP runsP] :: PMNode.node "blockContainer" nattrs [PMNode.node ctN cattrsN runsN] :: (kids ++ g.rs))
    (fsize (g.ls ++ [PMNode.node "blockContainer" pattrs [PMNode.node ctP cattrsP runsP]]) + 1) (fsize (g.ls ++ [PMNode.node "blockContainer" pattrs [PMNode.node ctP cattrsP runsP]]) + (3 + fsize runsN))
    (by
      intro pr hpr hflag
      rw [hdw2] at hpr
      cases hpr
      rw [hgrp]
      refine contentAllowed_group _ (by simp) ?_
      intro x hx
      rcases List.mem_append.mp hx with hx | hx
      · rcases List.mem_append.mp hx with hx | hx
        · exact hsib x (List.mem_append_left _ hx)
        · simp only [List.mem_singleton] at hx
          subst hx
          rfl
      · rcases List.mem_append.mp hx with hx | hx
        · exact hkids x hx
        · exact hsib x (List.mem_append_right _ hx))
    (by rintro ⟨ha, hb⟩; omega)
    (by omega) (by omega)
    (by
      simp only [fsize_append, PMNode.fsize, PMNode.nsize]
      omega)
  rw [show ctxBase (ctxP ++ [CtxFrame.mk g.tp g.attrs (g.ls ++ [PMNode.node "blockContainer" pattrs [PMNode.node ctP cattrsP runsP]]) g.rs]) + 1 =
    ctxBase ctxP + 1 + (fsize (g.ls ++ [PMNode.node "blockContainer" pattrs [PMNode.node ctP cattrsP runsP]]) + 1) from by
      rw [ctxBase_append]; ring]
  rw [show ctxBase ctxP + 1 + (fsize (g.ls ++ [PMNode.node "blockContainer" pattrs [PMNode.node ctP cattrsP runsP]]) + 1) +
      (PMNode.node ctN cattrsN runsN).nsize =
    ctxBase ctxP + 1 + (fsize (g.ls ++ [PMNode.node "blockContainer" pattrs [PMNode.node ctP cattrsP runsP]]) + (3 + fsize runsN)) from by
      simp only [PMNode.nsize]; ring]
  rw [hdel2, hdw2]
  simp only [Option.map_some', Option.some_bind]
  -- append the next Block's text to the previous Content's end
  have hwC2 : ctxWalkable (ctxP ++ [CtxFrame.mk g.tp g.attrs g.ls (kids ++ g.rs)]) = true := by
    rw [ctxWalkable_append, hwP, hgtb]
    rfl
  have hBC2 : ctxBase (ctxP ++ [CtxFrame.mk g.tp g.attrs g.ls (kids ++ g.rs)]) =
      ctxBase (ctxP ++ [g]) := by
    rw [ctxBase_append, ctxBase_append]
  have hdC2 : plug (ctxP ++ [CtxFrame.mk g.tp g.attrs g.ls (kids ++ g.rs)]) (PMNode.node "blockContainer" pattrs [PMNode.node ctP cattrsP runsP]) =
      plug ctxP (.node g.tp g.attrs ((g.ls ++ [PMNode.node "blockContainer" pattrs [PMNode.node ctP cattrsP runsP]]) ++ (kids ++ g.rs))) := by
    rw [plug_append]
    simp [plug]
  have hins2 := trInsertText_plug (ctxP ++ [CtxFrame.mk g.tp g.attrs g.ls (kids ++ g.rs)]) "blockContainer" pattrs
    [PMNode.node ctP cattrsP runsP] (1 + fsize runsP) (textContentL runsN) rfl hwC2 htxtN
    (by omega) (by simp only [PMNode.fsize, PMNode.nsize]; omega)
  rw [hdC2] at hins2
  rw [show ctxBase (ctxP ++ [CtxFrame.mk g.tp g.attrs g.ls (kids ++ g.rs)]) + 1 + (1 + fsize runsP) =
    ctxBase (ctxP ++ [g]) + 4 + fsize runsP - 1 - 1
    from by rw [hBC2]; ring] at hins2
  rw [show PMNode.textContent (PMNode.node ctN cattrsN runsN) =
    textContentL runsN from rfl]
  rw [hins2]
  have hitF2 : insertTextF [PMNode.node ctP cattrsP runsP] (1 + fsize runsP) (textContentL runsN) =
      some [PMNode.node ctP cattrsP (appendInline runsP (textContentL runsN))] := by
    simp only [insertTextF, insertTextN, PMNode.nsize]
    rw [if_neg (by omega)]
    rw [if_pos (show (1 : Int) ≤ 1 + fsize runsP ∧
      1 + fsize runsP ≤ 2 + fsize runsP - 1 from ⟨by omega, by omega⟩)]
    rw [if_pos hctP]
    rw [show (1 : Int) + fsize runsP - 1 = fsize runsP from by omega]
    rw [inlineInsert_atEnd runsP (textContentL runsN) hrunsP hszP hcnP]
    rfl
  rw [hitF2]
  simp only [Option.map_some', Option.some_bind]
  -- the caret lands inside the merged Content
  rw [show ctxBase (ctxP ++ [g]) + 4 + fsize runsP - 1 - 1 =
    ctxBase (ctxP ++ [CtxFrame.mk g.tp g.attrs g.ls (kids ++ g.rs)]) + 1 + (1 + fsize runsP) from by rw [hBC2]; ring]
  rw [plug_posInRange (ctxP ++ [CtxFrame.mk g.tp g.attrs g.ls (kids ++ g.rs)]) "blockContainer" pattrs
    [PMNode.node ctP cattrsP (appendInline runsP (textContentL runsN))] (1 + fsize runsP) (by omega)
    (by
      simp only [PMNode.fsize, PMNode.nsize]
      rw [fsize_appendInline]
      omega)]
  simp only [eq_self_iff_true, if_true]
  have hd4 : plug (ctxP ++ [CtxFrame.mk g.tp g.attrs g.ls (kids ++ g.rs)]) (PMNode.node "blockContainer" pattrs [PMNode.node ctP cattrsP (appendInline runsP (textContentL runsN))]) =
      plug ctxP (.node g.tp g.attrs (g.ls ++ PMNode.node "blockContainer" pattrs [PMNode.node ctP cattrsP (appendInline runsP (textContentL runsN))] :: (kids ++ g.rs))) := by
    rw [plug_append]
    simp [plug]
  simp only [Option.some.injEq, CmdOut.mk.injEq]
  refine ⟨by trivial, hd4, ?_⟩
  rw [hBC2]
  ring

theorem eq_nil_of_fsize_nonpos : ∀ (cs : List PMNode),
    (∀ r ∈ cs, 0 < r.nsize) → fsize cs ≤ 0 → cs = []
  | [], _, _ => rfl
  | c :: rest, hsz, h => by
    exfalso
    have hc := hsz c (by simp)
    have hr := fsize_nonneg rest
    simp only [PMNode.fsize] at h
    omega

theorem cutWalk_ge_a : ∀ (cs : List PMNode) (a b : Int),
    fsize cs ≤ a → b ≤ fsize cs → cutWalk cs a b = []
  | [], _, _, _, _ => rfl
  | c :: rest, a, b, ha, hb => by
    have hc := nsize_nonneg c
    have hfr := fsize_nonneg rest
    simp only [PMNode.fsize] at ha hb
    have ih := cutWalk_ge_a rest (a - c.nsize) (b - c.nsize) (by omega)
      (by omega)
    simp only [cutWalk]
    by_cases hb0 : b ≤ 0
    · rw [if_pos hb0]
    · rw [if_neg hb0, if_pos (by omega), ih]

/-- `doc.cut(p, p)` keeps only the root node with no content. -/
theorem docCut_plug_self (ctx : Ctx) (t : String) (a : AttrMap)
    (cs : List PMNode) (u : Int) (h0 : 0 ≤ u) (h1 : u ≤ fsize cs) :
    ∃ t0 a0, docCut (plug ctx (.node t a cs)) (ctxBase ctx + 1 + u)
        (ctxBase ctx + 1 + u) = some (.node t0 a0 []) := by
  have hpir := plug_posInRange ctx t a cs u h0 h1
  cases hp : plug ctx (.node t a cs) with
  | text s m => exact absurd hp (plug_node_ne_text ctx t a cs s m)
  | node t0 a0 cs0 =>
    rw [hp] at hpir
    simp only [posInRange, csize, Bool.and_eq_true, decide_eq_true_eq] at hpir
    refine ⟨t0, a0, ?_⟩
    simp only [docCut]
    rw [if_pos ⟨hpir.1, le_refl _, hpir.2⟩, if_pos (le_refl _)]

/-- An absent slice replaces with nothing, like a closed slice of no
content. -/
theorem trReplace_empty_eq (d : PMNode) (a b : Int) :
    trReplace d a b .empty = trReplace d a b (.closed []) := by
  cases d <;> rfl

/-- Replacing a lone Content node's full inner range with nothing empties
it (the closed-slice walk descends into the textblock and splices). -/
theorem replTop_truncate (ct : String) (cattrs : AttrMap)
    (runs : List PMNode) (hct : isTextblockType ct = true)
    (hsz : ∀ r ∈ runs, 0 < r.nsize) :
    replTop "blockContainer" [PMNode.node ct cattrs runs] 1 (1 + fsize runs)
        ([] : List PMNode) = some [PMNode.node ct cattrs []] := by
  have hF := fsize_nonneg runs
  have hCAe : contentAllowed ct ([] : List PMNode) = true := by
    rw [contentAllowed_textblock _ _ hct]
    rfl
  have hrs : rangeSplice [PMNode.node ct cattrs runs] 1 (1 + fsize runs)
      ([] : List PMNode) = none := by
    simp only [rangeSplice, PMNode.nsize]
    rw [if_neg (by omega), if_pos (by omega)]
  simp only [replTop]
  rw [hrs]
  show replW [PMNode.node ct cattrs runs] 1 (1 + fsize runs) [] =
    some [PMNode.node ct cattrs []]
  simp only [replW, PMNode.nsize]
  rw [if_neg (by omega), if_pos (show (1 : Int) ≤ 1 ∧
    1 + fsize runs ≤ 2 + fsize runs - 1 from ⟨le_refl 1, by omega⟩)]
  have hrd : replDesc (PMNode.node ct cattrs runs) 1 (1 + fsize runs)
      ([] : List PMNode) = some (PMNode.node ct cattrs []) := by
    simp only [replDesc]
    rw [show (1 : Int) - 1 = 0 from by omega,
      show (1 : Int) + fsize runs - 1 = fsize runs from by omega]
    rw [rangeSplice_full runs [] hsz]
    simp only [hCAe, if_true]
  rw [hrd]
  simp only [Option.map_some']

/-- Splitting a leaf Block at the very start of its text: the original
Block is emptied and the new Block receives the whole text; the caret is
reported at the start of the new Block's Content. -/
theorem splitBlock_start_char (ctxP : Ctx) (g : CtxFrame) (battrs : AttrMap)
    (ct : String) (cattrs : AttrMap) (runs : List PMNode) (keepType : Bool)
    (hgrp : g.tp = "blockGroup")
    (hwP : ctxWalkable ctxP = true)
    (hsib : ∀ x ∈ g.ls ++ g.rs, x.typeName = "blockContainer")
    (hct : isTextblockType ct = true)
    (hruns : allText runs = true)
    (hsz : ∀ r ∈ runs, 0 < r.nsize)
    (hF : 0 < fsize runs) :
    BNSplitBlock
        (plug ctxP (.node g.tp g.attrs (g.ls ++
          [.node "blockContainer" battrs [.node ct cattrs runs]] ++ g.rs)))
        (ctxBase (ctxP ++ [g]) + 2) keepType =
      some ⟨true,
        plug ctxP (.node g.tp g.attrs (g.ls ++
          (.node "blockContainer" battrs [.node ct cattrs []]) ::
          (.node "blockContainer" []
            [.node (if keepType then ct else "paragraph")
              (if keepType then cattrs else [])
              runs]) :: g.rs)),
        some (ctxBase (ctxP ++ [g]) + 6)⟩ := by
  have hgtb : isTextblockType g.tp = false := by rw [hgrp]; rfl
  have hls : ∀ x ∈ g.ls, 0 < x.nsize := fun x hx =>
    typeName_container_pos x (hsib x (List.mem_append_left _ hx))
  have hFR := fsize_nonneg runs
  have hB := ctxBase_append ctxP g
  have hCAt : contentAllowed ct runs = true := by
    rw [contentAllowed_textblock _ _ hct]; exact hruns
  have hCAp : contentAllowed "paragraph" runs = true := by
    rw [contentAllowed_textblock _ _ (by rfl)]; exact hruns
  have hCAe : contentAllowed ct ([] : List PMNode) = true := by
    rw [contentAllowed_textblock _ _ hct]
    rfl
  have hd : plug (ctxP ++ [g])
      (.node "blockContainer" battrs [.node ct cattrs runs]) =
      plug ctxP (.node g.tp g.attrs (g.ls ++
        [.node "blockContainer" battrs [.node ct cattrs runs]] ++ g.rs)) := by
    rw [plug_append]
    rfl
  have hbi := getBlockInfoFromPos_plug (ctxP ++ [g]) battrs ct cattrs runs [] 0
    (by simp) hct hruns (by omega) (by omega)
  rw [hd] at hbi
  simp only [PMNode.fsize, add_zero] at hbi
  simp only [BNSplitBlock, hbi]
  -- the before-cut at the content start keeps no content
  rw [show ctxBase (ctxP ++ [g]) + 2 = ctxBase (ctxP ++ [g]) + 1 + 1 from by
    omega]
  obtain ⟨t0, a0, hcutS⟩ := docCut_plug_self (ctxP ++ [g]) "blockContainer"
    battrs [.node ct cattrs runs] 1 (by omega)
    (by simp only [PMNode.fsize, PMNode.nsize]; omega)
  rw [hd] at hcutS
  rw [hcutS]
  simp only [Option.some_bind]
  -- the after-cut takes the whole text
  have hcut2 := docCut_plug (ctxP ++ [g]) "blockContainer" battrs
    [.node ct cattrs runs] 1 (1 + fsize runs) (by omega) (by omega)
    (by simp only [PMNode.fsize, PMNode.nsize]; omega)
  rw [hd] at hcut2
  have hcw2 : cutWalk [PMNode.node ct cattrs runs] 1 (1 + fsize runs) =
      [PMNode.node ct cattrs runs] := by
    simp only [cutWalk, cutN, PMNode.nsize]
    rw [if_neg (by omega), if_neg (by omega),
      if_neg (by rintro ⟨e1, e2⟩; omega)]
    rw [show (1 : Int) + fsize runs - 1 = fsize runs from by omega,
      show (1 : Int) - 1 = (0 : Int) from by omega]
    rw [max_self, min_self, if_neg (by omega)]
    rw [cutWalk_all runs 0 (fsize runs) hsz (le_refl 0) (le_refl _)]
  rw [show ctxBase (ctxP ++ [g]) + 1 + (2 + fsize runs) - 1 =
    ctxBase (ctxP ++ [g]) + 1 + (1 + fsize runs) from by omega]
  rw [hcut2, hcw2]
  simp only [Option.some_bind]
  -- the fresh block insertion
  have hFL := fsize_nonneg g.ls
  have hFRS := fsize_nonneg g.rs
  have hcs2 : (wrapCut (ctxP ++ [g]) (.node "blockContainer" battrs
      [.node ct cattrs runs])).csize > 0 :=
    wrapCut_csize_pos _ _ _ _ (by simp)
  have hcs0 : ¬((PMNode.node t0 a0 []).csize > 0) := by
    simp [csize, PMNode.fsize]
  rw [if_pos hcs2, if_neg hcs0]
  rw [show (g.ls ++ [PMNode.node "blockContainer" battrs
      [PMNode.node ct cattrs runs]] ++ g.rs : List PMNode) =
    g.ls ++ (PMNode.node "blockContainer" battrs
      [PMNode.node ct cattrs runs]) :: g.rs from by simp]
  have hflat : fsize (g.ls ++ (PMNode.node "blockContainer" battrs
      [PMNode.node ct cattrs runs]) :: g.rs) =
      fsize g.ls + (4 + fsize runs) + fsize g.rs := by
    rw [show (g.ls ++ (PMNode.node "blockContainer" battrs
        [PMNode.node ct cattrs runs]) :: g.rs : List PMNode) =
      g.ls ++ [PMNode.node "blockContainer" battrs
        [PMNode.node ct cattrs runs]] ++ g.rs from by simp]
    rw [fsize_append, fsize_append]
    simp only [PMNode.fsize, PMNode.nsize]
    omega
  have hins := insertNode_plug ctxP g.tp g.attrs
    (g.ls ++ (PMNode.node "blockContainer" battrs
      [PMNode.node ct cattrs runs]) :: g.rs)
    (fsize g.ls + (4 + fsize runs)) createAndFillBlockContainer
    (by omega) (by rw [hflat]; omega)
  rw [show ctxBase (ctxP ++ [g]) + 1 + (2 + fsize runs) + 1 =
    ctxBase ctxP + 1 + (fsize g.ls + (4 + fsize runs)) from by omega]
  rw [hins]
  have hinsN : insertN (.node g.tp g.attrs
      (g.ls ++ (PMNode.node "blockContainer" battrs
        [PMNode.node ct cattrs runs]) :: g.rs))
      (fsize g.ls + (4 + fsize runs)) createAndFillBlockContainer =
      some (.node g.tp g.attrs
        (g.ls ++ (PMNode.node "blockContainer" battrs
          [PMNode.node ct cattrs runs]) ::
          createAndFillBlockContainer :: g.rs)) := by
    simp only [insertN]
    have hpre : ∀ c ∈ g.ls ++ [PMNode.node "blockContainer" battrs
        [PMNode.node ct cattrs runs]], 0 < c.nsize := by
      intro c hc
      rcases List.mem_append.mp hc with hc | hc
      · exact hls c hc
      · simp only [List.mem_singleton] at hc
        subst hc
        simp only [PMNode.nsize, PMNode.fsize]
        omega
    rw [show (g.ls ++ (PMNode.node "blockContainer" battrs
        [PMNode.node ct cattrs runs]) :: g.rs : List PMNode) =
      (g.ls ++ [PMNode.node "blockContainer" battrs
        [PMNode.node ct cattrs runs]]) ++ g.rs from by simp]
    rw [show fsize g.ls + (4 + fsize runs) =
      fsize (g.ls ++ [PMNode.node "blockContainer" battrs
        [PMNode.node ct cattrs runs]]) from by
        rw [fsize_append]; simp only [PMNode.fsize, PMNode.nsize]; omega]
    rw [rangeSplice_at_boundary _ g.rs [createAndFillBlockContainer] hpre]
    have hCAg : contentAllowed g.tp
        ((g.ls ++ [PMNode.node "blockContainer" battrs
          [PMNode.node ct cattrs runs]]) ++ [createAndFillBlockContainer] ++ g.rs) =
        true := by
      rw [hgrp]
      refine contentAllowed_group _ (by simp) ?_
      intro x hx
      rcases List.mem_append.mp hx with hx | hx
      · rcases List.mem_append.mp hx with hx | hx
        · rcases List.mem_append.mp hx with hx | hx
          · exact hsib x (List.mem_append_left _ hx)
          · simp only [List.mem_singleton] at hx; subst hx; rfl
        · simp only [List.mem_singleton] at hx; subst hx; rfl
      · exact hsib x (List.mem_append_right _ hx)
    simp only [hCAg, eq_self_iff_true, if_true]
    simp
  rw [hinsN]
  simp only [Option.map_some', Option.getD_some, Option.some_bind]
  -- filling the fresh block with the whole text
  have hwC : ctxWalkable (ctxP ++ [CtxFrame.mk g.tp g.attrs
      (g.ls ++ [PMNode.node "blockContainer" battrs
        [PMNode.node ct cattrs runs]]) g.rs]) = true := by
    rw [ctxWalkable_append, hwP, hgtb]
    rfl
  have hBC : ctxBase (ctxP ++ [CtxFrame.mk g.tp g.attrs
      (g.ls ++ [PMNode.node "blockContainer" battrs
        [PMNode.node ct cattrs runs]]) g.rs]) =
      ctxBase (ctxP ++ [g]) + 4 + fsize runs := by
    rw [ctxBase_append]
    simp only [fsize_append, PMNode.fsize, PMNode.nsize]
    omega
  have hd1 : plug (ctxP ++ [CtxFrame.mk g.tp g.attrs
      (g.ls ++ [PMNode.node "blockContainer" battrs
        [PMNode.node ct cattrs runs]]) g.rs]) createAndFillBlockContainer =
      plug ctxP (.node g.tp g.attrs
        (g.ls ++ (PMNode.node "blockContainer" battrs
          [PMNode.node ct cattrs runs]) ::
          createAndFillBlockContainer :: g.rs)) := by
    rw [plug_append]
    simp [plug]
  have hrep1 := trReplace_opened_plug
    (ctxP ++ [CtxFrame.mk g.tp g.attrs
      (g.ls ++ [PMNode.node "blockContainer" battrs
        [PMNode.node ct cattrs runs]]) g.rs])
    "blockContainer" [] [PMNode.node "paragraph" [] []] 1 2
    [wrapCut (ctxP ++ [g]) (.node "blockContainer" battrs
      [.node ct cattrs runs])]
    (List.length (ctxP ++ [g]) + 2) rfl hwC (by omega) (by omega)
    (by simp only [PMNode.fsize, PMNode.nsize]; omega)
  rw [show createAndFillBlockContainer =
    PMNode.node "blockContainer" [] [PMNode.node "paragraph" [] []] from rfl]
    at hd1 ⊢
  rw [hd1] at hrep1
  rw [show ctxBase (ctxP ++ [g]) + 1 + (2 + fsize runs) + 3 =
      ctxBase (ctxP ++ [CtxFrame.mk g.tp g.attrs
        (g.ls ++ [PMNode.node "blockContainer" battrs
          [PMNode.node ct cattrs runs]]) g.rs]) + 1 + 1 from by
        rw [hBC]; omega,
    show ctxBase (ctxP ++ [g]) + 1 + (2 + fsize runs) + 4 =
      ctxBase (ctxP ++ [CtxFrame.mk g.tp g.attrs
        (g.ls ++ [PMNode.node "blockContainer" battrs
          [PMNode.node ct cattrs runs]]) g.rs]) + 1 + 2 from by
        rw [hBC]; omega]
  rw [hrep1]
  rw [peelOpen_wrapCut (ctxP ++ [g]) 2]
  rw [show peelOpen 2 [PMNode.node "blockContainer" battrs
      [PMNode.node ct cattrs runs]] = some runs from rfl]
  simp only []
  rw [replOW_para runs hCAp]
  simp only [Option.map_some', Option.getD_some, Option.some_bind]
  cases keepType with
  | true =>
    simp only [eq_self_iff_true, if_true]
    rw [if_pos hCAe]
    rw [show attrsOf (PMNode.node ct cattrs runs) = cattrs from rfl]
    have hst := trSetBlockType_plug (ctxP ++ [CtxFrame.mk g.tp g.attrs
        (g.ls ++ [PMNode.node "blockContainer" battrs
          [PMNode.node ct cattrs runs]]) g.rs]) "blockContainer" []
      [PMNode.node "paragraph" [] runs] 1 ct cattrs
      rfl hwC (by omega) (by simp only [PMNode.fsize, PMNode.nsize]; omega)
    rw [hst]
    have hstF : setBlockTypeF [PMNode.node "paragraph" [] runs] 1 ct cattrs =
        some [PMNode.node ct cattrs runs] := by
      simp only [setBlockTypeF, setBlockTypeN, PMNode.nsize, PMNode.fsize]
      rw [if_neg (by omega)]
      rw [if_pos (show (1 : Int) ≤ 1 ∧ (1 : Int) ≤
        2 + fsize runs - 1 from ⟨by omega, by omega⟩)]
      rw [if_pos (show isTextblockType "paragraph" = true from rfl),
        if_pos hCAt]
      simp
    rw [hstF]
    simp only [Option.map_some', Option.some_bind]
    rw [plug_posInRange (ctxP ++ [CtxFrame.mk g.tp g.attrs
        (g.ls ++ [PMNode.node "blockContainer" battrs
          [PMNode.node ct cattrs runs]]) g.rs]) "blockContainer" []
      [PMNode.node ct cattrs runs] 1 (by omega)
      (by simp only [PMNode.fsize, PMNode.nsize]; omega)]
    simp only [eq_self_iff_true, if_true]
    have hswap : plug (ctxP ++ [CtxFrame.mk g.tp g.attrs
        (g.ls ++ [PMNode.node "blockContainer" battrs
          [PMNode.node ct cattrs runs]]) g.rs])
        (PMNode.node "blockContainer" []
          [PMNode.node ct cattrs runs]) =
        plug (ctxP ++ [CtxFrame.mk g.tp g.attrs g.ls
        ((PMNode.node "blockContainer" [] [PMNode.node ct cattrs runs]) :: g.rs)])
        (PMNode.node "blockContainer" battrs [PMNode.node ct cattrs runs]) := by
      rw [plug_append, plug_append]
      simp [plug]
    rw [hswap]
    have hBO : ctxBase (ctxP ++ [CtxFrame.mk g.tp g.attrs g.ls
        ((PMNode.node "blockContainer" [] [PMNode.node ct cattrs runs]) :: g.rs)]) = ctxBase (ctxP ++ [g]) := by
      rw [ctxBase_append, ctxBase_append]
    rw [show ctxBase (ctxP ++ [g]) + 1 + 1 =
        ctxBase (ctxP ++ [CtxFrame.mk g.tp g.attrs g.ls
        ((PMNode.node "blockContainer" [] [PMNode.node ct cattrs runs]) :: g.rs)]) + 1 + 1 from by rw [hBO],
      show ctxBase (ctxP ++ [g]) + 1 + (1 + fsize runs) =
        ctxBase (ctxP ++ [CtxFrame.mk g.tp g.attrs g.ls
        ((PMNode.node "blockContainer" [] [PMNode.node ct cattrs runs]) :: g.rs)]) + 1 + (1 + fsize runs) from by rw [hBO]]
    rw [trReplace_empty_eq]
    have hrep2 := trReplace_closed_plug (ctxP ++ [CtxFrame.mk g.tp g.attrs g.ls
        ((PMNode.node "blockContainer" [] [PMNode.node ct cattrs runs]) :: g.rs)])
      "blockContainer" battrs [PMNode.node ct cattrs runs] 1 (1 + fsize runs)
      [] (by omega) (by omega)
      (by simp only [PMNode.fsize, PMNode.nsize]; omega)
    rw [hrep2]
    rw [replTop_truncate ct cattrs runs hct hsz]
    simp only [Option.map_some']
    have hsub : csize (plug (ctxP ++ [CtxFrame.mk g.tp g.attrs g.ls
        ((PMNode.node "blockContainer" [] [PMNode.node ct cattrs runs]) :: g.rs)])
          (PMNode.node "blockContainer" battrs
            [PMNode.node ct cattrs []])) -
        csize (plug (ctxP ++ [CtxFrame.mk g.tp g.attrs g.ls
        ((PMNode.node "blockContainer" [] [PMNode.node ct cattrs runs]) :: g.rs)])
          (PMNode.node "blockContainer" battrs
            [PMNode.node ct cattrs runs])) =
        0 - fsize runs := by
      rw [csize_plug_sub]
      simp only [PMNode.fsize, PMNode.nsize]
      omega
    have hd4 : plug (ctxP ++ [CtxFrame.mk g.tp g.attrs g.ls
        ((PMNode.node "blockContainer" [] [PMNode.node ct cattrs runs]) :: g.rs)])
          (PMNode.node "blockContainer" battrs
            [PMNode.node ct cattrs []]) =
        plug ctxP (.node g.tp g.attrs (g.ls ++
          (PMNode.node "blockContainer" battrs
            [PMNode.node ct cattrs []]) ::
          (PMNode.node "blockContainer" [] [PMNode.node ct cattrs runs]) :: g.rs)) := by
      rw [plug_append]
      simp [plug]
    simp only [Option.some.injEq, CmdOut.mk.injEq]
    refine ⟨by trivial, hd4, ?_⟩
    simp only [mapThroughReplace]
    rw [if_neg (by omega), if_pos (by omega)]
    omega
  | false =>
    simp only [Bool.false_eq_true, if_false, Option.some_bind]
    rw [plug_posInRange (ctxP ++ [CtxFrame.mk g.tp g.attrs
        (g.ls ++ [PMNode.node "blockContainer" battrs
          [PMNode.node ct cattrs runs]]) g.rs]) "blockContainer" []
      [PMNode.node "paragraph" ([] : AttrMap) runs] 1 (by omega)
      (by simp only [PMNode.fsize, PMNode.nsize]; omega)]
    simp only [eq_self_iff_true, if_true]
    have hswap : plug (ctxP ++ [CtxFrame.mk g.tp g.attrs
        (g.ls ++ [PMNode.node "blockContainer" battrs
          [PMNode.node ct cattrs runs]]) g.rs])
        (PMNode.node "blockContainer" []
          [PMNode.node "paragraph" ([] : AttrMap) runs]) =
        plug (ctxP ++ [CtxFrame.mk g.tp g.attrs g.ls
        ((PMNode.node "blockContainer" [] [PMNode.node "paragraph" ([] : AttrMap) runs]) :: g.rs)])
        (PMNode.node "blockContainer" battrs [PMNode.node ct cattrs runs]) := by
      rw [plug_append, plug_append]
      simp [plug]
    rw [hswap]
    have hBO : ctxBase (ctxP ++ [CtxFrame.mk g.tp g.attrs g.ls
        ((PMNode.node "blockContainer" [] [PMNode.node "paragraph" ([] : AttrMap) runs]) :: g.rs)]) = ctxBase (ctxP ++ [g]) := by
      rw [ctxBase_append, ctxBase_append]
    rw [show ctxBase (ctxP ++ [g]) + 1 + 1 =
        ctxBase (ctxP ++ [CtxFrame.mk g.tp g.attrs g.ls
        ((PMNode.node "blockContainer" [] [PMNode.node "paragraph" ([] : AttrMap) runs]) :: g.rs)]) + 1 + 1 from by rw [hBO],
      show ctxBase (ctxP ++ [g]) + 1 + (1 + fsize runs) =
        ctxBase (ctxP ++ [CtxFrame.mk g.tp g.attrs g.ls
        ((PMNode.node "blockContainer" [] [PMNode.node "paragraph" ([] : AttrMap) runs]) :: g.rs)]) + 1 + (1 + fsize runs) from by rw [hBO]]
    rw [trReplace_empty_eq]
    have hrep2 := trReplace_closed_plug (ctxP ++ [CtxFrame.mk g.tp g.attrs g.ls
        ((PMNode.node "blockContainer" [] [PMNode.node "paragraph" ([] : AttrMap) runs]) :: g.rs)])
      "blockContainer" battrs [PMNode.node ct cattrs runs] 1 (1 + fsize runs)
      [] (by omega) (by omega)
      (by simp only [PMNode.fsize, PMNode.nsize]; omega)
    rw [hrep2]
    rw [replTop_truncate ct cattrs runs hct hsz]
    simp only [Option.map_some']
    have hsub : csize (plug (ctxP ++ [CtxFrame.mk g.tp g.attrs g.ls
        ((PMNode.node "blockContainer" [] [PMNode.node "paragraph" ([] : AttrMap) runs]) :: g.rs)])
          (PMNode.node "blockContainer" battrs
            [PMNode.node ct cattrs []])) -
        csize (plug (ctxP ++ [CtxFrame.mk g.tp g.attrs g.ls
        ((PMNode.node "blockContainer" [] [PMNode.node "paragraph" ([] : AttrMap) runs]) :: g.rs)])
          (PMNode.node "blockContainer" battrs
            [PMNode.node ct cattrs runs])) =
        0 - fsize runs := by
      rw [csize_plug_sub]
      simp only [PMNode.fsize, PMNode.nsize]
      omega
    have hd4 : plug (ctxP ++ [CtxFrame.mk g.tp g.attrs g.ls
        ((PMNode.node "blockContainer" [] [PMNode.node "paragraph" ([] : AttrMap) runs]) :: g.rs)])
          (PMNode.node "blockContainer" battrs
            [PMNode.node ct cattrs []]) =
        plug ctxP (.node g.tp g.attrs (g.ls ++
          (PMNode.node "blockContainer" battrs
            [PMNode.node ct cattrs []]) ::
          (PMNode.node "blockContainer" [] [PMNode.node "paragraph" ([] : AttrMap) runs]) :: g.rs)) := by
      rw [plug_append]
      simp [plug]
    simp only [Option.some.injEq, CmdOut.mk.injEq]
    refine ⟨by trivial, hd4, ?_⟩
    simp only [mapThroughReplace]
    rw [if_neg (by omega), if_pos (by omega)]
    omega

/-- Splitting a leaf Block at the very end of its text: the original Block
keeps the whole text and the new Block is created empty; the caret is
reported at the start of the new Block's Content. -/
theorem splitBlock_end_char (ctxP : Ctx) (g : CtxFrame) (battrs : AttrMap)
    (ct : String) (cattrs : AttrMap) (runs : List PMNode) (keepType : Bool)
    (hgrp : g.tp = "blockGroup")
    (hwP : ctxWalkable ctxP = true)
    (hsib : ∀ x ∈ g.ls ++ g.rs, x.typeName = "blockContainer")
    (hct : isTextblockType ct = true)
    (hruns : allText runs = true)
    (hsz : ∀ r ∈ runs, 0 < r.nsize)
    (hF : 0 < fsize runs) :
    BNSplitBlock
        (plug ctxP (.node g.tp g.attrs (g.ls ++
          [.node "blockContainer" battrs [.node ct cattrs runs]] ++ g.rs)))
        (ctxBase (ctxP ++ [g]) + 2 + fsize runs) keepType =
      some ⟨true,
        plug ctxP (.node g.tp g.attrs (g.ls ++
          (.node "blockContainer" battrs [.node ct cattrs runs]) ::
          (.node "blockContainer" []
            [.node (if keepType then ct else "paragraph")
              (if keepType then cattrs else [])
              []]) :: g.rs)),
        some (ctxBase (ctxP ++ [g]) + 6 + fsize runs)⟩ := by
  have hgtb : isTextblockType g.tp = false := by rw [hgrp]; rfl
  have hls : ∀ x ∈ g.ls, 0 < x.nsize := fun x hx =>
    typeName_container_pos x (hsib x (List.mem_append_left _ hx))
  have hFR := fsize_nonneg runs
  have hB := ctxBase_append ctxP g
  have hCAt : contentAllowed ct runs = true := by
    rw [contentAllowed_textblock _ _ hct]; exact hruns
  have hCAe : contentAllowed ct ([] : List PMNode) = true := by
    rw [contentAllowed_textblock _ _ hct]
    rfl
  have hd : plug (ctxP ++ [g])
      (.node "blockContainer" battrs [.node ct cattrs runs]) =
      plug ctxP (.node g.tp g.attrs (g.ls ++
        [.node "blockContainer" battrs [.node ct cattrs runs]] ++ g.rs)) := by
    rw [plug_append]
    rfl
  have hbi := getBlockInfoFromPos_plug (ctxP ++ [g]) battrs ct cattrs runs []
    (fsize runs) (by simp) hct hruns (by omega) (by omega)
  rw [hd] at hbi
  simp only [PMNode.fsize, add_zero] at hbi
  simp only [BNSplitBlock, hbi]
  -- the before-cut takes the whole text
  rw [show ctxBase (ctxP ++ [g]) + 2 + fsize runs =
    ctxBase (ctxP ++ [g]) + 1 + (1 + fsize runs) from by omega]
  have hcut1 := docCut_plug (ctxP ++ [g]) "blockContainer" battrs
    [.node ct cattrs runs] 1 (1 + fsize runs) (by omega) (by omega)
    (by simp only [PMNode.fsize, PMNode.nsize]; omega)
  rw [hd] at hcut1
  have hcw1 : cutWalk [PMNode.node ct cattrs runs] 1 (1 + fsize runs) =
      [PMNode.node ct cattrs runs] := by
    simp only [cutWalk, cutN, PMNode.nsize]
    rw [if_neg (by omega), if_neg (by omega),
      if_neg (by rintro ⟨e1, e2⟩; omega)]
    rw [show (1 : Int) + fsize runs - 1 = fsize runs from by omega,
      show (1 : Int) - 1 = (0 : Int) from by omega]
    rw [max_self, min_self, if_neg (by omega)]
    rw [cutWalk_all runs 0 (fsize runs) hsz (le_refl 0) (le_refl _)]
  rw [show ctxBase (ctxP ++ [g]) + 1 + 1 =
    ctxBase (ctxP ++ [g]) + 1 + 1 from rfl]
  rw [hcut1, hcw1]
  simp only [Option.some_bind]
  -- the after-cut at the content end keeps no content
  rw [show ctxBase (ctxP ++ [g]) + 1 + (2 + fsize runs) - 1 =
    ctxBase (ctxP ++ [g]) + 1 + (1 + fsize runs) from by omega]
  obtain ⟨t0, a0, hcutS⟩ := docCut_plug_self (ctxP ++ [g]) "blockContainer"
    battrs [.node ct cattrs runs] (1 + fsize runs) (by omega)
    (by simp only [PMNode.fsize, PMNode.nsize]; omega)
  rw [hd] at hcutS
  rw [hcutS]
  simp only [Option.some_bind]
  -- the fresh block insertion
  have hFL := fsize_nonneg g.ls
  have hFRS := fsize_nonneg g.rs
  have hcs1 : (wrapCut (ctxP ++ [g]) (.node "blockContainer" battrs
      [.node ct cattrs runs])).csize > 0 :=
    wrapCut_csize_pos _ _ _ _ (by simp)
  have hcs0 : ¬((PMNode.node t0 a0 []).csize > 0) := by
    simp [csize, PMNode.fsize]
  rw [if_neg hcs0, if_pos hcs1]
  rw [show (g.ls ++ [PMNode.node "blockContainer" battrs
      [PMNode.node ct cattrs runs]] ++ g.rs : List PMNode) =
    g.ls ++ (PMNode.node "blockContainer" battrs
      [PMNode.node ct cattrs runs]) :: g.rs from by simp]
  have hflat : fsize (g.ls ++ (PMNode.node "blockContainer" battrs
      [PMNode.node ct cattrs runs]) :: g.rs) =
      fsize g.ls + (4 + fsize runs) + fsize g.rs := by
    rw [show (g.ls ++ (PMNode.node "blockContainer" battrs
        [PMNode.node ct cattrs runs]) :: g.rs : List PMNode) =
      g.ls ++ [PMNode.node "blockContainer" battrs
        [PMNode.node ct cattrs runs]] ++ g.rs from by simp]
    rw [fsize_append, fsize_append]
    simp only [PMNode.fsize, PMNode.nsize]
    omega
  have hins := insertNode_plug ctxP g.tp g.attrs
    (g.ls ++ (PMNode.node "blockContainer" battrs
      [PMNode.node ct cattrs runs]) :: g.rs)
    (fsize g.ls + (4 + fsize runs)) createAndFillBlockContainer
    (by omega) (by rw [hflat]; omega)
  rw [show ctxBase (ctxP ++ [g]) + 1 + (2 + fsize runs) + 1 =
    ctxBase ctxP + 1 + (fsize g.ls + (4 + fsize runs)) from by omega]
  rw [hins]
  have hinsN : insertN (.node g.tp g.attrs
      (g.ls ++ (PMNode.node "blockContainer" battrs
        [PMNode.node ct cattrs runs]) :: g.rs))
      (fsize g.ls + (4 + fsize runs)) createAndFillBlockContainer =
      some (.node g.tp g.attrs
        (g.ls ++ (PMNode.node "blockContainer" battrs
          [PMNode.node ct cattrs runs]) ::
          createAndFillBlockContainer :: g.rs)) := by
    simp only [insertN]
    have hpre : ∀ c ∈ g.ls ++ [PMNode.node "blockContainer" battrs
        [PMNode.node ct cattrs runs]], 0 < c.nsize := by
      intro c hc
      rcases List.mem_append.mp hc with hc | hc
      · exact hls c hc
      · simp only [List.mem_singleton] at hc
        subst hc
        simp only [PMNode.nsize, PMNode.fsize]
        omega
    rw [show (g.ls ++ (PMNode.node "blockContainer" battrs
        [PMNode.node ct cattrs runs]) :: g.rs : List PMNode) =
      (g.ls ++ [PMNode.node "blockContainer" battrs
        [PMNode.node ct cattrs runs]]) ++ g.rs from by simp]
    rw [show fsize g.ls + (4 + fsize runs) =
      fsize (g.ls ++ [PMNode.node "blockContainer" battrs
        [PMNode.node ct cattrs runs]]) from by
        rw [fsize_append]; simp only [PMNode.fsize, PMNode.nsize]; omega]
    rw [rangeSplice_at_boundary _ g.rs [createAndFillBlockContainer] hpre]
    have hCAg : contentAllowed g.tp
        ((g.ls ++ [PMNode.node "blockContainer" battrs
          [PMNode.node ct cattrs runs]]) ++ [createAndFillBlockContainer] ++ g.rs) =
        true := by
      rw [hgrp]
      refine contentAllowed_group _ (by simp) ?_
      intro x hx
      rcases List.mem_append.mp hx with hx | hx
      · rcases List.mem_append.mp hx with hx | hx
        · rcases List.mem_append.mp hx with hx | hx
          · exact hsib x (List.mem_append_left _ hx)
          · simp only [List.mem_singleton] at hx; subst hx; rfl
        · simp only [List.mem_singleton] at hx; subst hx; rfl
      · exact hsib x (List.mem_append_right _ hx)
    simp only [hCAg, eq_self_iff_true, if_true]
    simp
  rw [hinsN]
  simp only [Option.map_some', Option.getD_some, Option.some_bind]
  -- the empty after-slice leaves the fresh block as created
  have hwC : ctxWalkable (ctxP ++ [CtxFrame.mk g.tp g.attrs
      (g.ls ++ [PMNode.node "blockContainer" battrs
        [PMNode.node ct cattrs runs]]) g.rs]) = true := by
    rw [ctxWalkable_append, hwP, hgtb]
    rfl
  have hBC : ctxBase (ctxP ++ [CtxFrame.mk g.tp g.attrs
      (g.ls ++ [PMNode.node "blockContainer" battrs
        [PMNode.node ct cattrs runs]]) g.rs]) =
      ctxBase (ctxP ++ [g]) + 4 + fsize runs := by
    rw [ctxBase_append]
    simp only [fsize_append, PMNode.fsize, PMNode.nsize]
    omega
  have hd1 : plug (ctxP ++ [CtxFrame.mk g.tp g.attrs
      (g.ls ++ [PMNode.node "blockContainer" battrs
        [PMNode.node ct cattrs runs]]) g.rs]) createAndFillBlockContainer =
      plug ctxP (.node g.tp g.attrs
        (g.ls ++ (PMNode.node "blockContainer" battrs
          [PMNode.node ct cattrs runs]) ::
          createAndFillBlockContainer :: g.rs)) := by
    rw [plug_append]
    simp [plug]
  have hrep1 := trReplace_closed_plug
    (ctxP ++ [CtxFrame.mk g.tp g.attrs
      (g.ls ++ [PMNode.node "blockContainer" battrs
        [PMNode.node ct cattrs runs]]) g.rs])
    "blockContainer" [] [PMNode.node "paragraph" [] []] 1 2 []
    (by omega) (by omega)
    (by simp only [PMNode.fsize, PMNode.nsize]; omega)
  rw [show createAndFillBlockContainer =
    PMNode.node "blockContainer" [] [PMNode.node "paragraph" [] []] from rfl]
    at hd1 ⊢
  rw [hd1] at hrep1
  rw [show ctxBase (ctxP ++ [g]) + 1 + (2 + fsize runs) + 3 =
      ctxBase (ctxP ++ [CtxFrame.mk g.tp g.attrs
        (g.ls ++ [PMNode.node "blockContainer" battrs
          [PMNode.node ct cattrs runs]]) g.rs]) + 1 + 1 from by
        rw [hBC]; omega,
    show ctxBase (ctxP ++ [g]) + 1 + (2 + fsize runs) + 4 =
      ctxBase (ctxP ++ [CtxFrame.mk g.tp g.attrs
        (g.ls ++ [PMNode.node "blockContainer" battrs
          [PMNode.node ct cattrs runs]]) g.rs]) + 1 + 2 from by
        rw [hBC]; omega]
  rw [trReplace_empty_eq]
  rw [hrep1]
  rw [show replTop "blockContainer" [PMNode.node "paragraph" [] []] 1 2
    ([] : List PMNode) = some [PMNode.node "paragraph" [] []] from rfl]
  simp only [Option.map_some', Option.some_bind]
  cases keepType with
  | true =>
    simp only [eq_self_iff_true, if_true]
    rw [if_pos hCAe]
    rw [show attrsOf (PMNode.node ct cattrs runs) = cattrs from rfl]
    have hst := trSetBlockType_plug (ctxP ++ [CtxFrame.mk g.tp g.attrs
        (g.ls ++ [PMNode.node "blockContainer" battrs
          [PMNode.node ct cattrs runs]]) g.rs]) "blockContainer" []
      [PMNode.node "paragraph" [] []] 1 ct cattrs
      rfl hwC (by omega) (by simp only [PMNode.fsize, PMNode.nsize]; omega)
    rw [hst]
    have hstF : setBlockTypeF [PMNode.node "paragraph" [] []] 1 ct cattrs =
        some [PMNode.node ct cattrs []] := by
      simp only [setBlockTypeF, setBlockTypeN, PMNode.nsize, PMNode.fsize]
      rw [if_neg (by omega)]
      rw [if_pos (show (1 : Int) ≤ 1 ∧ (1 : Int) ≤
        2 + 0 - 1 from ⟨by omega, by omega⟩)]
      rw [if_pos (show isTextblockType "paragraph" = true from rfl),
        if_pos hCAe]
      simp
    rw [hstF]
    simp only [Option.map_some', Option.some_bind]
    rw [plug_posInRange (ctxP ++ [CtxFrame.mk g.tp g.attrs
        (g.ls ++ [PMNode.node "blockContainer" battrs
          [PMNode.node ct cattrs runs]]) g.rs]) "blockContainer" []
      [PMNode.node ct cattrs []] 1 (by omega)
      (by simp only [PMNode.fsize, PMNode.nsize]; omega)]
    simp only [eq_self_iff_true, if_true]
    have hswap : plug (ctxP ++ [CtxFrame.mk g.tp g.attrs
        (g.ls ++ [PMNode.node "blockContainer" battrs
          [PMNode.node ct cattrs runs]]) g.rs])
        (PMNode.node "blockContainer" []
          [PMNode.node ct cattrs []]) =
        plug (ctxP ++ [CtxFrame.mk g.tp g.attrs g.ls
        ((PMNode.node "blockContainer" [] [PMNode.node ct cattrs []]) :: g.rs)])
        (PMNode.node "blockContainer" battrs [PMNode.node ct cattrs runs]) := by
      rw [plug_append, plug_append]
      simp [plug]
    rw [hswap]
    have hBO : ctxBase (ctxP ++ [CtxFrame.mk g.tp g.attrs g.ls
        ((PMNode.node "blockContainer" [] [PMNode.node ct cattrs []]) :: g.rs)]) = ctxBase (ctxP ++ [g]) := by
      rw [ctxBase_append, ctxBase_append]
    have hwO : ctxWalkable (ctxP ++ [CtxFrame.mk g.tp g.attrs g.ls
        ((PMNode.node "blockContainer" [] [PMNode.node ct cattrs []]) :: g.rs)]) = true := by
      rw [ctxWalkable_append, hwP, hgtb]
      rfl
    rw [show ctxBase (ctxP ++ [g]) + 1 + 1 =
        ctxBase (ctxP ++ [CtxFrame.mk g.tp g.attrs g.ls
        ((PMNode.node "blockContainer" [] [PMNode.node ct cattrs []]) :: g.rs)]) + 1 + 1 from by rw [hBO],
      show ctxBase (ctxP ++ [g]) + 1 + (1 + fsize runs) =
        ctxBase (ctxP ++ [CtxFrame.mk g.tp g.attrs g.ls
        ((PMNode.node "blockContainer" [] [PMNode.node ct cattrs []]) :: g.rs)]) + 1 + (1 + fsize runs) from by rw [hBO]]
    have hrep2 := trReplace_opened_plug (ctxP ++ [CtxFrame.mk g.tp g.attrs g.ls
        ((PMNode.node "blockContainer" [] [PMNode.node ct cattrs []]) :: g.rs)])
      "blockContainer" battrs [PMNode.node ct cattrs runs] 1 (1 + fsize runs)
      [wrapCut (ctxP ++ [g]) (.node "blockContainer" battrs
        [.node ct cattrs runs])]
      (List.length (ctxP ++ [g]) + 2) rfl hwO (by omega) (by omega)
      (by simp only [PMNode.fsize, PMNode.nsize]; omega)
    rw [hrep2]
    rw [peelOpen_wrapCut (ctxP ++ [g]) 2]
    rw [show peelOpen 2 [PMNode.node "blockContainer" battrs
        [PMNode.node ct cattrs runs]] = some runs from rfl]
    simp only []
    rw [replOW_atContent ct cattrs runs runs hct hCAt]
    simp only [Option.map_some', Option.getD_some]
    have hd4 : plug (ctxP ++ [CtxFrame.mk g.tp g.attrs g.ls
        ((PMNode.node "blockContainer" [] [PMNode.node ct cattrs []]) :: g.rs)])
          (PMNode.node "blockContainer" battrs
            [PMNode.node ct cattrs runs]) =
        plug ctxP (.node g.tp g.attrs (g.ls ++
          (PMNode.node "blockContainer" battrs
            [PMNode.node ct cattrs runs]) ::
          (PMNode.node "blockContainer" [] [PMNode.node ct cattrs []]) :: g.rs)) := by
      rw [plug_append]
      simp [plug]
    simp only [Option.some.injEq, CmdOut.mk.injEq]
    refine ⟨by trivial, hd4, ?_⟩
    simp only [mapThroughReplace]
    rw [if_neg (by omega), if_pos (by omega)]
    omega
  | false =>
    simp only [Bool.false_eq_true, if_false, Option.some_bind]
    rw [plug_posInRange (ctxP ++ [CtxFrame.mk g.tp g.attrs
        (g.ls ++ [PMNode.node "blockContainer" battrs
          [PMNode.node ct cattrs runs]]) g.rs]) "blockContainer" []
      [PMNode.node "paragraph" ([] : AttrMap) []] 1 (by omega)
      (by simp only [PMNode.fsize, PMNode.nsize]; omega)]
    simp only [eq_self_iff_true, if_true]
    have hswap : plug (ctxP ++ [CtxFrame.mk g.tp g.attrs
        (g.ls ++ [PMNode.node "blockContainer" battrs
          [PMNode.node ct cattrs runs]]) g.rs])
        (PMNode.node "blockContainer" []
          [PMNode.node "paragraph" ([] : AttrMap) []]) =
        plug (ctxP ++ [CtxFrame.mk g.tp g.attrs g.ls
        ((PMNode.node "blockContainer" [] [PMNode.node "paragraph" ([] : AttrMap) []]) :: g.rs)])
        (PMNode.node "blockContainer" battrs [PMNode.node ct cattrs runs]) := by
      rw [plug_append, plug_append]
      simp [plug]
    rw [hswap]
    have hBO : ctxBase (ctxP ++ [CtxFrame.mk g.tp g.attrs g.ls
        ((PMNode.node "blockContainer" [] [PMNode.node "paragraph" ([] : AttrMap) []]) :: g.rs)]) = ctxBase (ctxP ++ [g]) := by
      rw [ctxBase_append, ctxBase_append]
    have hwO : ctxWalkable (ctxP ++ [CtxFrame.mk g.tp g.attrs g.ls
        ((PMNode.node "blockContainer" [] [PMNode.node "paragraph" ([] : AttrMap) []]) :: g.rs)]) = true := by
      rw [ctxWalkable_append, hwP, hgtb]
      rfl
    rw [show ctxBase (ctxP ++ [g]) + 1 + 1 =
        ctxBase (ctxP ++ [CtxFrame.mk g.tp g.attrs g.ls
        ((PMNode.node "blockContainer" [] [PMNode.node "paragraph" ([] : AttrMap) []]) :: g.rs)]) + 1 + 1 from by rw [hBO],
      show ctxBase (ctxP ++ [g]) + 1 + (1 + fsize runs) =
        ctxBase (ctxP ++ [CtxFrame.mk g.tp g.attrs g.ls
        ((PMNode.node "blockContainer" [] [PMNode.node "paragraph" ([] : AttrMap) []]) :: g.rs)]) + 1 + (1 + fsize runs) from by rw [hBO]]
    have hrep2 := trReplace_opened_plug (ctxP ++ [CtxFrame.mk g.tp g.attrs g.ls
        ((PMNode.node "blockContainer" [] [PMNode.node "paragraph" ([] : AttrMap) []]) :: g.rs)])
      "blockContainer" battrs [PMNode.node ct cattrs runs] 1 (1 + fsize runs)
      [wrapCut (ctxP ++ [g]) (.node "blockContainer" battrs
        [.node ct cattrs runs])]
      (List.length (ctxP ++ [g]) + 2) rfl hwO (by omega) (by omega)
      (by simp only [PMNode.fsize, PMNode.nsize]; omega)
    rw [hrep2]
    rw [peelOpen_wrapCut (ctxP ++ [g]) 2]
    rw [show peelOpen 2 [PMNode.node "blockContainer" battrs
        [PMNode.node ct cattrs runs]] = some runs from rfl]
    simp only []
    rw [replOW_atContent ct cattrs runs runs hct hCAt]
    simp only [Option.map_some', Option.getD_some]
    have hd4 : plug (ctxP ++ [CtxFrame.mk g.tp g.attrs g.ls
        ((PMNode.node "blockContainer" [] [PMNode.node "paragraph" ([] : AttrMap) []]) :: g.rs)])
          (PMNode.node "blockContainer" battrs
            [PMNode.node ct cattrs runs]) =
        plug ctxP (.node g.tp g.attrs (g.ls ++
          (PMNode.node "blockContainer" battrs
            [PMNode.node ct cattrs runs]) ::
          (PMNode.node "blockContainer" [] [PMNode.node "paragraph" ([] : AttrMap) []]) :: g.rs)) := by
      rw [plug_append]
      simp [plug]
    simp only [Option.some.injEq, CmdOut.mk.injEq]
    refine ⟨by trivial, hd4, ?_⟩
    simp only [mapThroughReplace]
    rw [if_neg (by omega), if_pos (by omega)]
    omega

/-- Splitting a leaf Block with empty Content (Enter on an empty Block):
both slices are empty, so the original Block stays empty and a fresh empty
Block follows it; the caret is reported at the start of the new Block's
Content. -/
theorem splitBlock_empty_char (ctxP : Ctx) (g : CtxFrame) (battrs : AttrMap)
    (ct : String) (cattrs : AttrMap) (keepType : Bool)
    (hgrp : g.tp = "blockGroup")
    (hwP : ctxWalkable ctxP = true)
    (hsib : ∀ x ∈ g.ls ++ g.rs, x.typeName = "blockContainer")
    (hct : isTextblockType ct = true) :
    BNSplitBlock
        (plug ctxP (.node g.tp g.attrs (g.ls ++
          [.node "blockContainer" battrs [.node ct cattrs []]] ++ g.rs)))
        (ctxBase (ctxP ++ [g]) + 2) keepType =
      some ⟨true,
        plug ctxP (.node g.tp g.attrs (g.ls ++
          (.node "blockContainer" battrs [.node ct cattrs []]) ::
          (.node "blockContainer" []
            [.node (if keepType then ct else "paragraph")
              (if keepType then cattrs else [])
              []]) :: g.rs)),
        some (ctxBase (ctxP ++ [g]) + 6)⟩ := by
  have hgtb : isTextblockType g.tp = false := by rw [hgrp]; rfl
  have hls : ∀ x ∈ g.ls, 0 < x.nsize := fun x hx =>
    typeName_container_pos x (hsib x (List.mem_append_left _ hx))
  have hB := ctxBase_append ctxP g
  have hCAe : contentAllowed ct ([] : List PMNode) = true := by
    rw [contentAllowed_textblock _ _ hct]
    rfl
  have hd : plug (ctxP ++ [g])
      (.node "blockContainer" battrs [.node ct cattrs []]) =
      plug ctxP (.node g.tp g.attrs (g.ls ++
        [.node "blockContainer" battrs [.node ct cattrs []]] ++ g.rs)) := by
    rw [plug_append]
    rfl
  have hbi := getBlockInfoFromPos_plug (ctxP ++ [g]) battrs ct cattrs [] [] 0
    (by simp) hct rfl (by omega) (by simp [PMNode.fsize])
  rw [hd] at hbi
  simp only [PMNode.fsize, add_zero] at hbi
  simp only [BNSplitBlock, hbi]
  -- both cuts keep no content
  rw [show ctxBase (ctxP ++ [g]) + 2 = ctxBase (ctxP ++ [g]) + 1 + 1 from by
    omega]
  rw [show ctxBase (ctxP ++ [g]) + 1 + 2 - 1 =
    ctxBase (ctxP ++ [g]) + 1 + 1 from by omega]
  obtain ⟨t0, a0, hcutS⟩ := docCut_plug_self (ctxP ++ [g]) "blockContainer"
    battrs [.node ct cattrs []] 1 (by omega)
    (by simp only [PMNode.fsize, PMNode.nsize]; omega)
  rw [hd] at hcutS
  rw [hcutS]
  simp only [Option.some_bind]
  -- the fresh block insertion
  have hFL := fsize_nonneg g.ls
  have hFRS := fsize_nonneg g.rs
  have hcs0 : ¬((PMNode.node t0 a0 []).csize > 0) := by
    simp [csize, PMNode.fsize]
  rw [if_neg hcs0]
  rw [show (g.ls ++ [PMNode.node "blockContainer" battrs
      [PMNode.node ct cattrs []]] ++ g.rs : List PMNode) =
    g.ls ++ (PMNode.node "blockContainer" battrs
      [PMNode.node ct cattrs []]) :: g.rs from by simp]
  have hflat : fsize (g.ls ++ (PMNode.node "blockContainer" battrs
      [PMNode.node ct cattrs []]) :: g.rs) =
      fsize g.ls + 4 + fsize g.rs := by
    rw [show (g.ls ++ (PMNode.node "blockContainer" battrs
        [PMNode.node ct cattrs []]) :: g.rs : List PMNode) =
      g.ls ++ [PMNode.node "blockContainer" battrs
        [PMNode.node ct cattrs []]] ++ g.rs from by simp]
    rw [fsize_append, fsize_append]
    simp only [PMNode.fsize, PMNode.nsize]
    omega
  have hins := insertNode_plug ctxP g.tp g.attrs
    (g.ls ++ (PMNode.node "blockContainer" battrs
      [PMNode.node ct cattrs []]) :: g.rs)
    (fsize g.ls + 4) createAndFillBlockContainer
    (by omega) (by rw [hflat]; omega)
  rw [show ctxBase (ctxP ++ [g]) + 1 + 2 + 1 =
    ctxBase ctxP + 1 + (fsize g.ls + 4) from by omega]
  rw [hins]
  have hinsN : insertN (.node g.tp g.attrs
      (g.ls ++ (PMNode.node "blockContainer" battrs
        [PMNode.node ct cattrs []]) :: g.rs))
      (fsize g.ls + 4) createAndFillBlockContainer =
      some (.node g.tp g.attrs
        (g.ls ++ (PMNode.node "blockContainer" battrs
          [PMNode.node ct cattrs []]) ::
          createAndFillBlockContainer :: g.rs)) := by
    simp only [insertN]
    have hpre : ∀ c ∈ g.ls ++ [PMNode.node "blockContainer" battrs
        [PMNode.node ct cattrs []]], 0 < c.nsize := by
      intro c hc
      rcases List.mem_append.mp hc with hc | hc
      · exact hls c hc
      · simp only [List.mem_singleton] at hc
        subst hc
        simp only [PMNode.nsize, PMNode.fsize]
        omega
    rw [show (g.ls ++ (PMNode.node "blockContainer" battrs
        [PMNode.node ct cattrs []]) :: g.rs : List PMNode) =
      (g.ls ++ [PMNode.node "blockContainer" battrs
        [PMNode.node ct cattrs []]]) ++ g.rs from by simp]
    rw [show fsize g.ls + 4 =
      fsize (g.ls ++ [PMNode.node "blockContainer" battrs
        [PMNode.node ct cattrs []]]) from by
        rw [fsize_append]; simp only [PMNode.fsize, PMNode.nsize]; omega]
    rw [rangeSplice_at_boundary _ g.rs [createAndFillBlockContainer] hpre]
    have hCAg : contentAllowed g.tp
        ((g.ls ++ [PMNode.node "blockContainer" battrs
          [PMNode.node ct cattrs []]]) ++ [createAndFillBlockContainer] ++ g.rs) =
        true := by
      rw [hgrp]
      refine contentAllowed_group _ (by simp) ?_
      intro x hx
      rcases List.mem_append.mp hx with hx | hx
      · rcases List.mem_append.mp hx with hx | hx
        · rcases List.mem_append.mp hx with hx | hx
          · exact hsib x (List.mem_append_left _ hx)
          · simp only [List.mem_singleton] at hx; subst hx; rfl
        · simp only [List.mem_singleton] at hx; subst hx; rfl
      · exact hsib x (List.mem_append_right _ hx)
    simp only [hCAg, eq_self_iff_true, if_true]
    simp
  rw [hinsN]
  simp only [Option.map_some', Option.getD_some, Option.some_bind]
  -- the empty after-slice leaves the fresh block as created
  have hwC : ctxWalkable (ctxP ++ [CtxFrame.mk g.tp g.attrs
      (g.ls ++ [PMNode.node "blockContainer" battrs
        [PMNode.node ct cattrs []]]) g.rs]) = true := by
    rw [ctxWalkable_append, hwP, hgtb]
    rfl
  have hBC : ctxBase (ctxP ++ [CtxFrame.mk g.tp g.attrs
      (g.ls ++ [PMNode.node "blockContainer" battrs
        [PMNode.node ct cattrs []]]) g.rs]) =
      ctxBase (ctxP ++ [g]) + 4 := by
    rw [ctxBase_append]
    simp only [fsize_append, PMNode.fsize, PMNode.nsize]
    omega
  have hd1 : plug (ctxP ++ [CtxFrame.mk g.tp g.attrs
      (g.ls ++ [PMNode.node "blockContainer" battrs
        [PMNode.node ct cattrs []]]) g.rs]) createAndFillBlockContainer =
      plug ctxP (.node g.tp g.attrs
        (g.ls ++ (PMNode.node "blockContainer" battrs
          [PMNode.node ct cattrs []]) ::
          createAndFillBlockContainer :: g.rs)) := by
    rw [plug_append]
    simp [plug]
  have hrep1 := trReplace_closed_plug
    (ctxP ++ [CtxFrame.mk g.tp g.attrs
      (g.ls ++ [PMNode.node "blockContainer" battrs
        [PMNode.node ct cattrs []]]) g.rs])
    "blockContainer" [] [PMNode.node "paragraph" [] []] 1 2 []
    (by omega) (by omega)
    (by simp only [PMNode.fsize, PMNode.nsize]; omega)
  rw [show createAndFillBlockContainer =
    PMNode.node "blockContainer" [] [PMNode.node "paragraph" [] []] from rfl]
    at hd1 ⊢
  rw [hd1] at hrep1
  rw [show ctxBase (ctxP ++ [g]) + 1 + 2 + 3 =
      ctxBase (ctxP ++ [CtxFrame.mk g.tp g.attrs
        (g.ls ++ [PMNode.node "blockContainer" battrs
          [PMNode.node ct cattrs []]]) g.rs]) + 1 + 1 from by
        rw [hBC]; omega,
    show ctxBase (ctxP ++ [g]) + 1 + 2 + 4 =
      ctxBase (ctxP ++ [CtxFrame.mk g.tp g.attrs
        (g.ls ++ [PMNode.node "blockContainer" battrs
          [PMNode.node ct cattrs []]]) g.rs]) + 1 + 2 from by
        rw [hBC]; omega]
  rw [trReplace_empty_eq]
  rw [hrep1]
  rw [show replTop "blockContainer" [PMNode.node "paragraph" [] []] 1 2
    ([] : List PMNode) = some [PMNode.node "paragraph" [] []] from rfl]
  simp only [Option.map_some', Option.some_bind]
  cases keepType with
  | true =>
    simp only [eq_self_iff_true, if_true]
    rw [if_pos hCAe]
    rw [show attrsOf (PMNode.node ct cattrs []) = cattrs from rfl]
    have hst := trSetBlockType_plug (ctxP ++ [CtxFrame.mk g.tp g.attrs
        (g.ls ++ [PMNode.node "blockContainer" battrs
          [PMNode.node ct cattrs []]]) g.rs]) "blockContainer" []
      [PMNode.node "paragraph" [] []] 1 ct cattrs
      rfl hwC (by omega) (by simp only [PMNode.fsize, PMNode.nsize]; omega)
    rw [hst]
    have hstF : setBlockTypeF [PMNode.node "paragraph" [] []] 1 ct cattrs =
        some [PMNode.node ct cattrs []] := by
      simp only [setBlockTypeF, setBlockTypeN, PMNode.nsize, PMNode.fsize]
      rw [if_neg (by omega)]
      rw [if_pos (show (1 : Int) ≤ 1 ∧ (1 : Int) ≤
        2 + 0 - 1 from ⟨by omega, by omega⟩)]
      rw [if_pos (show isTextblockType "paragraph" = true from rfl),
        if_pos hCAe]
      simp
    rw [hstF]
    simp only [Option.map_some', Option.some_bind]
    rw [plug_posInRange (ctxP ++ [CtxFrame.mk g.tp g.attrs
        (g.ls ++ [PMNode.node "blockContainer" battrs
          [PMNode.node ct cattrs []]]) g.rs]) "blockContainer" []
      [PMNode.node ct cattrs []] 1 (by omega)
      (by simp only [PMNode.fsize, PMNode.nsize]; omega)]
    simp only [eq_self_iff_true, if_true]
    have hswap : plug (ctxP ++ [CtxFrame.mk g.tp g.attrs
        (g.ls ++ [PMNode.node "blockContainer" battrs
          [PMNode.node ct cattrs []]]) g.rs])
        (PMNode.node "blockContainer" []
          [PMNode.node ct cattrs []]) =
        plug (ctxP ++ [CtxFrame.mk g.tp g.attrs g.ls
        ((PMNode.node "blockContainer" [] [PMNode.node ct cattrs []]) :: g.rs)])
        (PMNode.node "blockContainer" battrs [PMNode.node ct cattrs []]) := by
      rw [plug_append, plug_append]
      simp [plug]
    rw [hswap]
    have hBO : ctxBase (ctxP ++ [CtxFrame.mk g.tp g.attrs g.ls
        ((PMNode.node "blockContainer" [] [PMNode.node ct cattrs []]) :: g.rs)]) = ctxBase (ctxP ++ [g]) := by
      rw [ctxBase_append, ctxBase_append]
    rw [show ctxBase (ctxP ++ [g]) + 1 + 1 =
        ctxBase (ctxP ++ [CtxFrame.mk g.tp g.attrs g.ls
        ((PMNode.node "blockContainer" [] [PMNode.node ct cattrs []]) :: g.rs)]) + 1 + 1 from by rw [hBO]]
    rw [trReplace_empty_eq]
    have hrep2 := trReplace_closed_plug (ctxP ++ [CtxFrame.mk g.tp g.attrs g.ls
        ((PMNode.node "blockContainer" [] [PMNode.node ct cattrs []]) :: g.rs)])
      "blockContainer" battrs [PMNode.node ct cattrs []] 1 1
      [] (by omega) (by omega)
      (by simp only [PMNode.fsize, PMNode.nsize]; omega)
    rw [hrep2]
    rw [show replTop "blockContainer" [PMNode.node ct cattrs []] 1 1
        ([] : List PMNode) = some [PMNode.node ct cattrs []] from by
      have h := replTop_truncate ct cattrs [] hct
        (fun r hr => absurd hr (List.not_mem_nil r))
      simpa [PMNode.fsize] using h]
    simp only [Option.map_some']
    have hd4 : plug (ctxP ++ [CtxFrame.mk g.tp g.attrs g.ls
        ((PMNode.node "blockContainer" [] [PMNode.node ct cattrs []]) :: g.rs)])
          (PMNode.node "blockContainer" battrs
            [PMNode.node ct cattrs []]) =
        plug ctxP (.node g.tp g.attrs (g.ls ++
          (PMNode.node "blockContainer" battrs
            [PMNode.node ct cattrs []]) ::
          (PMNode.node "blockContainer" [] [PMNode.node ct cattrs []]) :: g.rs)) := by
      rw [plug_append]
      simp [plug]
    simp only [Option.some.injEq, CmdOut.mk.injEq]
    refine ⟨by trivial, hd4, ?_⟩
    simp only [mapThroughReplace]
    rw [if_neg (by omega), if_pos (by omega)]
    omega
  | false =>
    simp only [Bool.false_eq_true, if_false, Option.some_bind]
    rw [plug_posInRange (ctxP ++ [CtxFrame.mk g.tp g.attrs
        (g.ls ++ [PMNode.node "blockContainer" battrs
          [PMNode.node ct cattrs []]]) g.rs]) "blockContainer" []
      [PMNode.node "paragraph" ([] : AttrMap) []] 1 (by omega)
      (by simp only [PMNode.fsize, PMNode.nsize]; omega)]
    simp only [eq_self_iff_true, if_true]
    have hswap : plug (ctxP ++ [CtxFrame.mk g.tp g.attrs
        (g.ls ++ [PMNode.node "blockContainer" battrs
          [PMNode.node ct cattrs []]]) g.rs])
        (PMNode.node "blockContainer" []
          [PMNode.node "paragraph" ([] : AttrMap) []]) =
        plug (ctxP ++ [CtxFrame.mk g.tp g.attrs g.ls
        ((PMNode.node "blockContainer" [] [PMNode.node "paragraph" ([] : AttrMap) []]) :: g.rs)])
        (PMNode.node "blockContainer" battrs [PMNode.node ct cattrs []]) := by
      rw [plug_append, plug_append]
      simp [plug]
    rw [hswap]
    have hBO : ctxBase (ctxP ++ [CtxFrame.mk g.tp g.attrs g.ls
        ((PMNode.node "blockContainer" [] [PMNode.node "paragraph" ([] : AttrMap) []]) :: g.rs)]) = ctxBase (ctxP ++ [g]) := by
      rw [ctxBase_append, ctxBase_append]
    rw [show ctxBase (ctxP ++ [g]) + 1 + 1 =
        ctxBase (ctxP ++ [CtxFrame.mk g.tp g.attrs g.ls
        ((PMNode.node "blockContainer" [] [PMNode.node "paragraph" ([] : AttrMap) []]) :: g.rs)]) + 1 + 1 from by rw [hBO]]
    rw [trReplace_empty_eq]
    have hrep2 := trReplace_closed_plug (ctxP ++ [CtxFrame.mk g.tp g.attrs g.ls
        ((PMNode.node "blockContainer" [] [PMNode.node "paragraph" ([] : AttrMap) []]) :: g.rs)])
      "blockContainer" battrs [PMNode.node ct cattrs []] 1 1
      [] (by omega) (by omega)
      (by simp only [PMNode.fsize, PMNode.nsize]; omega)
    rw [hrep2]
    rw [show replTop "blockContainer" [PMNode.node ct cattrs []] 1 1
        ([] : List PMNode) = some [PMNode.node ct cattrs []] from by
      have h := replTop_truncate ct cattrs [] hct
        (fun r hr => absurd hr (List.not_mem_nil r))
      simpa [PMNode.fsize] using h]
    simp only [Option.map_some']
    have hd4 : plug (ctxP ++ [CtxFrame.mk g.tp g.attrs g.ls
        ((PMNode.node "blockContainer" [] [PMNode.node "paragraph" ([] : AttrMap) []]) :: g.rs)])
          (PMNode.node "blockContainer" battrs
            [PMNode.node ct cattrs []]) =
        plug ctxP (.node g.tp g.attrs (g.ls ++
          (PMNode.node "blockContainer" battrs
            [PMNode.node ct cattrs []]) ::
          (PMNode.node "blockContainer" [] [PMNode.node "paragraph" ([] : AttrMap) []]) :: g.rs)) := by
      rw [plug_append]
      simp [plug]
    simp only [Option.some.injEq, CmdOut.mk.injEq]
    refine ⟨by trivial, hd4, ?_⟩
    simp only [mapThroughReplace]
    rw [if_neg (by omega), if_pos (by omega)]
    omega

theorem blockToNode_container (sp : BlockSpec) (n : PMNode)
    (h : blockToNode sp = some n) : n.typeName = "blockContainer" := by
  cases sp with
  | mk tp props content children =>
    cases children with
    | none =>
      simp only [blockToNode] at h
      obtain ⟨inner, hi, rfl⟩ := Option.map_eq_some'.mp h
      rfl
    | some specs =>
      simp only [blockToNode] at h
      obtain ⟨inner, hi, h2⟩ := Option.bind_eq_some.mp h
      obtain ⟨cb, hcb, rfl⟩ := Option.map_eq_some'.mp h2
      rfl

theorem blockToNodeL_containers : ∀ (specs : List BlockSpec)
    (ns : List PMNode), blockToNodeL specs = some ns →
    ∀ x ∈ ns, x.typeName = "blockContainer"
  | [], ns, h => by
    simp only [blockToNodeL, Option.some.injEq] at h
    subst h
    intro x hx
    exact absurd hx (List.not_mem_nil x)
  | sp :: rest, ns, h => by
    simp only [blockToNodeL] at h
    obtain ⟨n, hn, h2⟩ := Option.bind_eq_some.mp h
    obtain ⟨ns2, hns2, rfl⟩ := Option.map_eq_some'.mp h2
    intro x hx
    rcases List.mem_cons.mp hx with hx | hx
    · subst hx
      exact blockToNode_container sp x hn
    · exact blockToNodeL_containers rest ns2 hns2 x hx

theorem blockToNodeL_ne_nil (specs : List BlockSpec) (ns : List PMNode)
    (hne : specs ≠ []) (h : blockToNodeL specs = some ns) : ns ≠ [] := by
  cases specs with
  | nil => exact absurd rfl hne
  | cons sp rest =>
    simp only [blockToNodeL] at h
    obtain ⟨n, hn, h2⟩ := Option.bind_eq_some.mp h
    obtain ⟨ns2, hns2, rfl⟩ := Option.map_eq_some'.mp h2
    simp

/-- The runs an optional content patch settles on: the existing runs for
an absent patch, the converted patch runs otherwise. -/
def updRuns (oc : Option InlineContent) (runs : List PMNode) :
    Option (List PMNode) :=
  match oc with
  | none => some runs
  | some c => contentToRuns c

/-- What one `BNUpdateBlock` call with an optional content patch and no
children patch does: replaces the Content node's inline runs when content
is given (leaving them for a content-`none` patch), retypes the Content
node to the effective patch type, and spreads the props over the Content
node's and the Block's attributes. -/
theorem BNUpdateBlock_gen_char (ctxP : Ctx) (g : CtxFrame) (battrs : AttrMap)
    (ct : String) (cattrs : AttrMap) (runs tail : List PMNode) (k : Int)
    (ntp : Option String) (props : AttrMap) (oc : Option InlineContent)
    (newruns : List PMNode)
    (hct : isTextblockType ct = true)
    (hruns : allText runs = true)
    (hrsz : ∀ r ∈ runs, 0 < r.nsize)
    (hk0 : 0 ≤ k) (hk1 : k ≤ fsize runs)
    (hcr : updRuns oc runs = some newruns)
    (heff : isTextblockType (effType ntp ct) = true)
    (hls : ∀ x ∈ g.ls, 0 < x.nsize)
    (htail : tail = [] ∨ ∃ ga2 kids, tail = [.node "blockGroup" ga2 kids]) :
    BNUpdateBlock
        (plug ctxP (.node g.tp g.attrs (g.ls ++
          [.node "blockContainer" battrs (.node ct cattrs runs :: tail)] ++ g.rs)))
        (ctxBase (ctxP ++ [g]) + 2 + k)
        ⟨ntp, props, oc, none⟩ =
      some ⟨true,
        plug ctxP (.node g.tp g.attrs (g.ls ++
          [.node "blockContainer" (mergeAttrs battrs props)
            (.node (effType ntp ct) (mergeAttrs cattrs props) newruns :: tail)] ++ g.rs)),
        none⟩ := by
  cases oc with
  | some c =>
    exact BNUpdateBlock_char ctxP g battrs ct cattrs runs tail k ntp props c
      newruns hct hruns hrsz hk0 hk1 hcr heff hls htail
  | none =>
    have hrn : runs = newruns := by simpa [updRuns] using hcr
    subst hrn
    have hrnn := fsize_nonneg runs
    have htnn := fsize_nonneg tail
    have hCA2 : contentAllowed (effType ntp ct) runs = true := by
      rw [contentAllowed_textblock _ _ heff]
      exact hruns
    have hCAb : contentAllowed "blockContainer"
        (.node (effType ntp ct) (mergeAttrs cattrs props) runs :: tail) = true := by
      rcases htail with h | ⟨ga2, kids, h⟩ <;> subst h <;>
        simp [contentAllowed, typeName, heff]
    have hd : plug (ctxP ++ [g])
        (.node "blockContainer" battrs (.node ct cattrs runs :: tail)) =
        plug ctxP (.node g.tp g.attrs (g.ls ++
          [.node "blockContainer" battrs (.node ct cattrs runs :: tail)] ++ g.rs)) := by
      rw [plug_append]
      rfl
    have hbi := getBlockInfoFromPos_plug (ctxP ++ [g]) battrs ct cattrs runs tail k
      (by simp) hct hruns hk0 hk1
    rw [hd] at hbi
    simp only [BNUpdateBlock, hbi, updChildrenStep, Option.some_bind,
      updContentStep, attrsOf]
    -- the content-node markup
    have hmk1 := trSetNodeMarkup_plug (ctxP ++ [g]) "blockContainer" battrs
      (.node ct cattrs runs :: tail) 0
      (ntp.bind (fun t => if schemaHasNode t then some t else none))
      (mergeAttrs cattrs props) (by omega)
      (by simp only [PMNode.fsize, PMNode.nsize]; omega)
    rw [hd] at hmk1
    rw [show ctxBase (ctxP ++ [g]) + 1 =
      ctxBase (ctxP ++ [g]) + 1 + 0 from by omega]
    rw [hmk1]
    simp only [setNodeMarkupF, eq_self_iff_true, if_true, setMarkupHere]
    have hCA2d : contentAllowed
        ((ntp.bind (fun t => if schemaHasNode t then some t else none)).getD ct)
        runs = true := hCA2
    simp only [hCA2d, eq_self_iff_true, if_true, Option.map_some',
      Option.some_bind]
    -- the block markup
    have hfold : ((ntp.bind fun t =>
        if schemaHasNode t = true then some t else none).getD ct) =
        effType ntp ct := rfl
    rw [hfold]
    have hd4 : plug (ctxP ++ [g]) (.node "blockContainer" battrs
        (.node (effType ntp ct) (mergeAttrs cattrs props) runs :: tail)) =
        plug ctxP (.node g.tp g.attrs (g.ls ++
          [.node "blockContainer" battrs
            (.node (effType ntp ct) (mergeAttrs cattrs props) runs :: tail)] ++ g.rs)) := by
      rw [plug_append ctxP [g]]
      rfl
    rw [hd4]
    have hcbg := ctxBase_append ctxP g
    have hfls := fsize_nonneg g.ls
    have hmk2 := trSetNodeMarkup_plug ctxP g.tp g.attrs
      (g.ls ++ (.node "blockContainer" battrs
        (.node (effType ntp ct) (mergeAttrs cattrs props) runs :: tail)) :: g.rs)
      (fsize g.ls) none (mergeAttrs battrs props) (by omega)
      (by
        rw [show (g.ls ++ (.node "blockContainer" battrs
          (.node (effType ntp ct) (mergeAttrs cattrs props) runs :: tail)) :: g.rs
            : List PMNode) =
          g.ls ++ [.node "blockContainer" battrs
            (.node (effType ntp ct) (mergeAttrs cattrs props) runs :: tail)] ++ g.rs
          from by simp]
        rw [fsize_append, fsize_append]
        have := fsize_nonneg g.rs
        simp only [PMNode.fsize, PMNode.nsize]
        omega)
    rw [show ctxBase (ctxP ++ [g]) + 1 + 0 - 1 =
      ctxBase ctxP + 1 + fsize g.ls from by omega]
    rw [show (g.ls ++
        [PMNode.node "blockContainer" battrs
          (.node (effType ntp ct) (mergeAttrs cattrs props) runs :: tail)] ++ g.rs
        : List PMNode) =
      g.ls ++ (PMNode.node "blockContainer" battrs
        (.node (effType ntp ct) (mergeAttrs cattrs props) runs :: tail)) :: g.rs
      from by simp]
    rw [hmk2]
    rw [setNodeMarkupF_boundary g.ls _ g.rs none (mergeAttrs battrs props) hls]
    simp only [setMarkupHere, Option.getD_none, hCAb, eq_self_iff_true, if_true,
      Option.map_some']
    rw [List.append_assoc, List.singleton_append]

/-- A children patch on a childless Block first inserts the rebuilt group
at the Content node's end; the rest of the update then coincides with the
same patch minus its children on the already-extended document. -/
theorem updChildren_insert_reduce (ctxP : Ctx) (g : CtxFrame)
    (battrs : AttrMap) (ct : String) (cattrs : AttrMap) (runs : List PMNode)
    (k : Int) (ntp : Option String) (props : AttrMap)
    (oc : Option InlineContent) (specs : List BlockSpec)
    (childNodes : List PMNode)
    (hct : isTextblockType ct = true)
    (hruns : allText runs = true)
    (hk0 : 0 ≤ k) (hk1 : k ≤ fsize runs)
    (hbl : blockToNodeL specs = some childNodes) :
    BNUpdateBlock
        (plug ctxP (.node g.tp g.attrs (g.ls ++
          [.node "blockContainer" battrs [.node ct cattrs runs]] ++ g.rs)))
        (ctxBase (ctxP ++ [g]) + 2 + k)
        ⟨ntp, props, oc, some specs⟩ =
      BNUpdateBlock
        (plug ctxP (.node g.tp g.attrs (g.ls ++
          [.node "blockContainer" battrs
            [.node ct cattrs runs, .node "blockGroup" [] childNodes]] ++ g.rs)))
        (ctxBase (ctxP ++ [g]) + 2 + k)
        ⟨ntp, props, oc, none⟩ := by
  have hrnn := fsize_nonneg runs
  have hCAc : contentAllowed "blockContainer"
      [PMNode.node ct cattrs runs, PMNode.node "blockGroup" [] childNodes] =
      true := by
    simp [contentAllowed, typeName, hct]
  have hd : plug (ctxP ++ [g])
      (.node "blockContainer" battrs [.node ct cattrs runs]) =
      plug ctxP (.node g.tp g.attrs (g.ls ++
        [.node "blockContainer" battrs [.node ct cattrs runs]] ++ g.rs)) := by
    rw [plug_append]
    rfl
  have hd2 : plug (ctxP ++ [g])
      (.node "blockContainer" battrs
        [.node ct cattrs runs, .node "blockGroup" [] childNodes]) =
      plug ctxP (.node g.tp g.attrs (g.ls ++
        [.node "blockContainer" battrs
          [.node ct cattrs runs, .node "blockGroup" [] childNodes]] ++ g.rs)) := by
    rw [plug_append]
    rfl
  have hbi := getBlockInfoFromPos_plug (ctxP ++ [g]) battrs ct cattrs runs [] k
    (by simp) hct hruns hk0 hk1
  rw [hd] at hbi
  have hbi2 := getBlockInfoFromPos_plug (ctxP ++ [g]) battrs ct cattrs runs
    [.node "blockGroup" [] childNodes] k (by simp) hct hruns hk0 hk1
  rw [hd2] at hbi2
  simp only [BNUpdateBlock, hbi, hbi2, updChildrenStep, hbl, Option.some_bind]
  rw [if_neg (show ¬(((PMNode.node "blockContainer" battrs
      [PMNode.node ct cattrs runs]).childCount == 2) = true) from by
    simp [childCount, childrenOf])]
  have hins := insertNode_plug (ctxP ++ [g]) "blockContainer" battrs
    [.node ct cattrs runs] (2 + fsize runs)
    (.node "blockGroup" [] childNodes) (by omega)
    (by simp only [PMNode.fsize, PMNode.nsize]; omega)
  rw [hd] at hins
  rw [show ctxBase (ctxP ++ [g]) + 1 + (PMNode.node ct cattrs runs).nsize =
    ctxBase (ctxP ++ [g]) + 1 + (2 + fsize runs) from by
      simp only [PMNode.nsize]]
  rw [hins]
  have hrs2 : rangeSplice [PMNode.node ct cattrs runs] (2 + fsize runs)
      (2 + fsize runs) [PMNode.node "blockGroup" [] childNodes] =
      some [PMNode.node ct cattrs runs,
        PMNode.node "blockGroup" [] childNodes] := by
    simp only [rangeSplice, spliceDrop, PMNode.nsize]
    rw [if_neg (by omega), if_neg (by omega), if_pos (by omega),
      if_pos (by omega)]
    simp
  have hinsN : insertN (.node "blockContainer" battrs [.node ct cattrs runs])
      (2 + fsize runs) (.node "blockGroup" [] childNodes) =
      some (.node "blockContainer" battrs
        [.node ct cattrs runs, .node "blockGroup" [] childNodes]) := by
    simp only [insertN]
    rw [hrs2]
    simp only [hCAc, eq_self_iff_true, if_true]
  rw [hinsN]
  simp only [Option.map_some', Option.getD_some, Option.some_bind]
  rw [hd2]
  cases oc with
  | none => rfl
  | some c => rfl

/-- A children patch on a Block that already has a Child Group replaces
that group's Blocks with the rebuilt ones; the rest of the update then
coincides with the same patch minus its children on the replaced
document. -/
theorem updChildren_replace_reduce (ctxP : Ctx) (g : CtxFrame)
    (battrs : AttrMap) (ct : String) (cattrs : AttrMap) (runs : List PMNode)
    (ga2 : AttrMap) (kids : List PMNode) (k : Int) (ntp : Option String)
    (props : AttrMap) (oc : Option InlineContent) (specs : List BlockSpec)
    (childNodes : List PMNode)
    (hct : isTextblockType ct = true)
    (hruns : allText runs = true)
    (hk0 : 0 ≤ k) (hk1 : k ≤ fsize runs)
    (hbl : blockToNodeL specs = some childNodes)
    (hkids : ∀ x ∈ kids, 0 < x.nsize)
    (hcc : ∀ x ∈ childNodes, x.typeName = "blockContainer")
    (hnecn : childNodes ≠ []) :
    BNUpdateBlock
        (plug ctxP (.node g.tp g.attrs (g.ls ++
          [.node "blockContainer" battrs
            (.node ct cattrs runs :: [.node "blockGroup" ga2 kids])] ++ g.rs)))
        (ctxBase (ctxP ++ [g]) + 2 + k)
        ⟨ntp, props, oc, some specs⟩ =
      BNUpdateBlock
        (plug ctxP (.node g.tp g.attrs (g.ls ++
          [.node "blockContainer" battrs
            (.node ct cattrs runs :: [.node "blockGroup" ga2 childNodes])] ++ g.rs)))
        (ctxBase (ctxP ++ [g]) + 2 + k)
        ⟨ntp, props, oc, none⟩ := by
  have hrnn := fsize_nonneg runs
  have hknn := fsize_nonneg kids
  have hCAg : contentAllowed "blockGroup" childNodes = true :=
    contentAllowed_group childNodes hnecn hcc
  have hd : plug (ctxP ++ [g])
      (.node "blockContainer" battrs
        (.node ct cattrs runs :: [.node "blockGroup" ga2 kids])) =
      plug ctxP (.node g.tp g.attrs (g.ls ++
        [.node "blockContainer" battrs
          (.node ct cattrs runs :: [.node "blockGroup" ga2 kids])] ++ g.rs)) := by
    rw [plug_append]
    rfl
  have hd2 : plug (ctxP ++ [g])
      (.node "blockContainer" battrs
        (.node ct cattrs runs :: [.node "blockGroup" ga2 childNodes])) =
      plug ctxP (.node g.tp g.attrs (g.ls ++
        [.node "blockContainer" battrs
          (.node ct cattrs runs :: [.node "blockGroup" ga2 childNodes])] ++ g.rs)) := by
    rw [plug_append]
    rfl
  have hbi := getBlockInfoFromPos_plug (ctxP ++ [g]) battrs ct cattrs runs
    [.node "blockGroup" ga2 kids] k (by simp) hct hruns hk0 hk1
  rw [hd] at hbi
  have hbi2 := getBlockInfoFromPos_plug (ctxP ++ [g]) battrs ct cattrs runs
    [.node "blockGroup" ga2 childNodes] k (by simp) hct hruns hk0 hk1
  rw [hd2] at hbi2
  simp only [BNUpdateBlock, hbi, hbi2, updChildrenStep, hbl, Option.some_bind]
  rw [if_pos (show (((PMNode.node "blockContainer" battrs
      (.node ct cattrs runs :: [.node "blockGroup" ga2 kids])).childCount ==
        2)) = true from rfl)]
  have hcb3 := ctxBase_append (ctxP ++ [g])
    ⟨"blockContainer", battrs, [.node ct cattrs runs], []⟩
  have hd3 : plug ((ctxP ++ [g]) ++
      [⟨"blockContainer", battrs, [.node ct cattrs runs], []⟩])
      (.node "blockGroup" ga2 kids) =
      plug ctxP (.node g.tp g.attrs (g.ls ++
        [.node "blockContainer" battrs
          (.node ct cattrs runs :: [.node "blockGroup" ga2 kids])] ++ g.rs)) := by
    rw [plug_append ((ctxP ++ [g]))
      [⟨"blockContainer", battrs, [.node ct cattrs runs], []⟩],
      plug_append ctxP [g]]
    rfl
  have hrepl := trReplace_closed_plug ((ctxP ++ [g]) ++
      [⟨"blockContainer", battrs, [.node ct cattrs runs], []⟩]) "blockGroup"
    ga2 kids 0 (fsize kids) childNodes (by omega) (by omega) (le_refl _)
  rw [hd3] at hrepl
  rw [show ctxBase (ctxP ++ [g]) + 1 + (PMNode.node ct cattrs runs).nsize + 1 =
    ctxBase ((ctxP ++ [g]) ++
      [⟨"blockContainer", battrs, [.node ct cattrs runs], []⟩]) + 1 + 0
    from by
      rw [hcb3]
      simp only [PMNode.fsize, PMNode.nsize]
      ring]
  rw [show ctxBase (ctxP ++ [g]) + 1 +
      (2 + fsize runs + fsize ([PMNode.node "blockGroup" ga2 kids] : List PMNode)) - 1 =
    ctxBase ((ctxP ++ [g]) ++
      [⟨"blockContainer", battrs, [.node ct cattrs runs], []⟩]) + 1 + fsize kids
    from by
      rw [hcb3]
      simp only [PMNode.fsize, PMNode.nsize]
      ring]
  rw [hrepl]
  simp only [replTop, rangeSplice_full kids childNodes hkids, hCAg,
    eq_self_iff_true, if_true, Option.map_some', Option.some_bind]
  have hd5 : plug ((ctxP ++ [g]) ++
      [⟨"blockContainer", battrs, [.node ct cattrs runs], []⟩])
      (.node "blockGroup" ga2 childNodes) =
      plug ctxP (.node g.tp g.attrs (g.ls ++
        [.node "blockContainer" battrs
          (.node ct cattrs runs :: [.node "blockGroup" ga2 childNodes])] ++ g.rs)) := by
    rw [plug_append ((ctxP ++ [g]))
      [⟨"blockContainer", battrs, [.node ct cattrs runs], []⟩],
      plug_append ctxP [g]]
    rfl
  rw [hd5]
  cases oc with
  | none => rfl
  | some c => rfl

end BlockNote
